import Mathlib

/-!
# Auto-growth best-fit allocator

A shallow embedding of `paddle/fluid/memory/allocation/auto_growth_best_fit_allocator.cc`.

* `size_t` and `uint64_t` values are natural numbers; every arithmetic step that can
  wrap is reduced modulo `SIZE = 2 ^ 64`.
* Addresses are natural numbers.  Pointer arithmetic is only ever performed inside a
  region handed out by the underlying allocator, so it is plain addition.
* A `std::list` node has an identity (`Block.node`, a number); a list iterator
  (`BlockIt`) is that identity.  New nodes take their identity from the counter `State.fresh`.
* The back pointer `Block::chunk_` of a block is represented by the position of the
  block: a block always lies in the Block List of the chunk it points to.
* `free_blocks_` (a `std::map`) is a list of entries kept sorted by key, keys unique.
* The underlying allocator is a parameter: a function that answers each call.
* A handle (`BlockAllocation`) is a value; its lifetime (`new` in `AllocateImpl`, `delete`
  in `FreeImpl`) is the list of live handles carried next to the state.
* Logging (`VLOG`, `Trace`) and event recording do not change the state and are left out;
  the lock is held across each operation, so the operations are state transformers.
* `DeleteUnusedTensors` of `paddle/fluid/framework/executor_gc_helper.cc` is embedded in
  the namespace `ExecutorGcHelper`, with the scope as explicit state.
-/

namespace AutoGrowthBestFitAllocator

/-- The number of values of `size_t` (and of `uint64_t`). -/
def SIZE : Nat := 2 ^ 64

/-- Modelled from the spec: `AlignedSize` (declared in `aligned_allocator.h`, which is not
among the sources) rounds `size` up to a multiple of `alignment`, in `size_t` arithmetic. -/
def AlignedSize (size alignment : Nat) : Nat :=
  let remaining := size % alignment
  if remaining = 0 then size else (size + alignment - remaining) % SIZE

/-- Conversion of an `int` to `size_t`. -/
def toSizeT (x : Int) : Nat := (x % (SIZE : Int)).toNat

/-- A region obtained from the underlying allocator (`chunk->allocation_`),
with its `ptr()` and `size()`. -/
structure Allocation where
  ptr : Nat
  size : Nat
deriving DecidableEq, Repr

/-- Modelled from the spec: `Block` (declared in the header, which is not among the
sources) has a starting address, a size in bytes and a free/in-use flag; `node` is the
identity of the list node that holds it. -/
structure Block where
  node : Nat
  ptr_ : Nat
  size_ : Nat
  is_free_ : Bool
deriving DecidableEq, Repr

/-- Modelled from the spec: `Chunk` (declared in the header, which is not among the
sources) owns one reservation and its ordered Block List. -/
structure Chunk where
  allocation_ : Allocation
  blocks_ : List Block
deriving DecidableEq, Repr

/-- The key of a Free Index entry, `std::pair<size_t, void *>`. -/
abbrev Key := Nat × Nat

/-- Modelled from the spec: `free_blocks_` (declared in the header, which is not among the
sources) is an ordered index keyed by (size, address) mapping to the free block. -/
abbrev FreeBlocks := List (Key × Nat)

/-- Modelled from the spec: `BlockAllocation` (declared in the header, which is not among
the sources) is the handle given to the caller; it has `ptr` and `size` accessors and
keeps the iterator of its block. -/
structure BlockAllocation where
  ptr : Nat
  size : Nat
  block_it_ : Nat
deriving DecidableEq, Repr

/-- The configuration of an allocator: its constant members, the three global flags it
reads, and the underlying allocator.  `underlying_allocator_ k held n` is the answer of the underlying
allocator to its `k`-th call, made while the regions `held` are reserved and asking for
`n` bytes; `none` stands for `BadAlloc`. -/
structure Config where
  underlying_allocator_ : Nat → List Allocation → Nat → Option Allocation
  alignment_ : Nat
  chunk_size_ : Nat
  allow_free_idle_chunk_ : Bool
  extra_padding_size_ : Int
  FLAGS_free_idle_chunk : Bool
  FLAGS_free_when_no_cache_hit : Bool
  FLAGS_print_allocator_trace_info : Bool

/-- The mutable members of the allocator.  `fresh` is the next unused node identity and
`requests` the sizes the underlying allocator has been asked for so far. -/
structure State where
  chunks_ : List Chunk
  free_blocks_ : FreeBlocks
  total_alloc_times_ : Nat
  total_alloc_size_ : Nat
  total_free_times_ : Nat
  total_free_size_ : Nat
  fresh : Nat
  requests : List Nat
deriving DecidableEq, Repr

/-- The constructor: the effective chunk size is
`std::max(AlignedSize(chunk_size, alignment), alignment)`. -/
def Config.create (underlying : Nat → List Allocation → Nat → Option Allocation)
    (alignment chunk_size : Nat) (allow_free_idle_chunk : Bool) (extra_padding_size : Int)
    (free_idle_chunk free_when_no_cache_hit print_allocator_trace_info : Bool) : Config :=
  { underlying_allocator_ := underlying
    alignment_ := alignment
    chunk_size_ := max (AlignedSize chunk_size alignment) alignment
    allow_free_idle_chunk_ := allow_free_idle_chunk
    extra_padding_size_ := extra_padding_size
    FLAGS_free_idle_chunk := free_idle_chunk
    FLAGS_free_when_no_cache_hit := free_when_no_cache_hit
    FLAGS_print_allocator_trace_info := print_allocator_trace_info }

/-- The state of a freshly constructed allocator. -/
def State.init : State :=
  { chunks_ := []
    free_blocks_ := []
    total_alloc_times_ := 0
    total_alloc_size_ := 0
    total_free_times_ := 0
    total_free_size_ := 0
    fresh := 0
    requests := [] }

/-! ## The Free Index -/

/-- The order of `std::pair<size_t, void *>`: by size, then by address. -/
def keyLt (x y : Key) : Prop := x.1 < y.1 ∨ (x.1 = y.1 ∧ x.2 < y.2)

instance (x y : Key) : Decidable (keyLt x y) := by
  unfold keyLt
  exact inferInstance

/-- The entry `free_blocks_.lower_bound(key)` points to: the first one whose key is not
less than `key`; `none` stands for `end()`. -/
def lower_bound (key : Key) (m : FreeBlocks) : Option (Key × Nat) :=
  m.find? (fun e => decide (¬ keyLt e.1 key))

/-- The map after `erase(key)`; `erase(iter)` is `erase` of the key of `iter`, the keys
of a map being unique. -/
def erase (key : Key) (m : FreeBlocks) : FreeBlocks :=
  m.filter (fun e => decide (e.1 ≠ key))

/-- Insertion of an entry at its place in the key order. -/
def insertEntry (e : Key × Nat) : FreeBlocks → FreeBlocks
  | [] => [e]
  | x :: xs => if keyLt e.1 x.1 then e :: x :: xs else x :: insertEntry e xs

/-- The map after `emplace(key, it)`: nothing is inserted when the key is present. -/
def emplace (key : Key) (it : Nat) (m : FreeBlocks) : FreeBlocks :=
  if m.any (fun e => decide (e.1 = key)) then m else insertEntry (key, it) m

/-! ## Dereferencing an iterator -/

/-- The Block List around the node `it`: the blocks before it, the block, the blocks
after it. -/
def splitNode (it : Nat) : List Block → Option (List Block × Block × List Block)
  | [] => none
  | b :: bs =>
    if b.node = it then some ([], b, bs)
    else
      match splitNode it bs with
      | some (pre, x, post) => some (b :: pre, x, post)
      | none => none

/-- A dereferenced iterator: the chunk that owns the node (with the chunks before and
after it in the Chunk Pool) and the Block List of that chunk around the node. -/
structure Cursor where
  before : List Chunk
  chunk : Chunk
  after : List Chunk
  prevs : List Block
  block : Block
  nexts : List Block
deriving DecidableEq, Repr

/-- Dereference `it`; `none` when no node of any Block List has that identity (a dangling
iterator, undefined behaviour in the source). -/
def deref (it : Nat) : List Chunk → Option Cursor
  | [] => none
  | c :: cs =>
    match splitNode it c.blocks_ with
    | some (pre, x, post) => some ⟨[], c, cs, pre, x, post⟩
    | none =>
      match deref it cs with
      | some cur => some { cur with before := c :: cur.before }
      | none => none

/-- The Chunk Pool with the Block List of the cursor's chunk replaced. -/
def Cursor.store (cur : Cursor) (blocks : List Block) : List Chunk :=
  cur.before ++ { cur.chunk with blocks_ := blocks } :: cur.after

/-! ## FreeIdleChunks -/

/-- The loop of `FreeIdleChunks` over the Chunk Pool: the chunks kept, the Free Index and
the byte count. -/
def freeIdleLoop : List Chunk → FreeBlocks → Nat → List Chunk × FreeBlocks × Nat
  | [], m, bytes => ([], m, bytes)
  | c :: cs, m, bytes =>
    match c.blocks_ with
    | [block] =>
      if block.is_free_ then
        freeIdleLoop cs (erase (block.size_, block.ptr_) m) ((bytes + block.size_) % SIZE)
      else
        let r := freeIdleLoop cs m bytes
        (c :: r.1, r.2.1, r.2.2)
    | _ =>
      let r := freeIdleLoop cs m bytes
      (c :: r.1, r.2.1, r.2.2)

/-- `AutoGrowthBestFitAllocator::FreeIdleChunks`: the new state and the bytes released. -/
def FreeIdleChunks (a : Config) (s : State) : State × Nat :=
  if a.allow_free_idle_chunk_ = false then (s, 0)
  else
    let r := freeIdleLoop s.chunks_ s.free_blocks_ 0
    ({ s with chunks_ := r.1, free_blocks_ := r.2.1 }, r.2.2)

/-- `AutoGrowthBestFitAllocator::Trace`: the idle byte count it reports,
the sum of `it->second->size_` over the Free Index. -/
def Trace (s : State) : Nat :=
  s.free_blocks_.foldl
    (fun cur_idle_bytes e =>
      match deref e.2 s.chunks_ with
      | some cur => (cur_idle_bytes + cur.block.size_) % SIZE
      | none => cur_idle_bytes)
    0

/-! ## AllocateImpl -/

/-- The realized size of a request, line 73:
`AlignedSize(unaligned_size + extra_padding_size_, alignment_)`. -/
def realizedSize (a : Config) (unaligned_size : Nat) : Nat :=
  AlignedSize ((unaligned_size + toSizeT a.extra_padding_size_) % SIZE) a.alignment_

/-- One call `underlying_allocator_->Allocate(n)`: the request is recorded and the answer
is that of the underlying allocator, given the regions currently reserved. -/
def underlyingAllocate (a : Config) (s : State) (n : Nat) : State × Option Allocation :=
  ({ s with requests := s.requests ++ [n] },
    a.underlying_allocator_ s.requests.length (s.chunks_.map Chunk.allocation_) n)

/-- Lines 116 to 127 and 131 to 134: the new chunk is put last in the Chunk Pool and
carved into a free remainder (if any) and the in-use block; the counters are updated. -/
def carve (s : State) (r : Allocation) (size : Nat) : State × BlockAllocation :=
  let p := r.ptr
  let remaining_size := (r.size + SIZE - size) % SIZE
  if 0 < remaining_size then
    let block : Block := ⟨s.fresh + 1, p + remaining_size, size, false⟩
    ({ s with
        chunks_ := s.chunks_ ++ [⟨r, [⟨s.fresh, p, remaining_size, true⟩, block]⟩]
        free_blocks_ := emplace (remaining_size, p) s.fresh s.free_blocks_
        fresh := s.fresh + 2
        total_alloc_times_ := (s.total_alloc_times_ + 1) % SIZE
        total_alloc_size_ := (s.total_alloc_size_ + size) % SIZE },
      ⟨block.ptr_, block.size_, block.node⟩)
  else
    let block : Block := ⟨s.fresh, p + remaining_size, size, false⟩
    ({ s with
        chunks_ := s.chunks_ ++ [⟨r, [block]⟩]
        fresh := s.fresh + 1
        total_alloc_times_ := (s.total_alloc_times_ + 1) % SIZE
        total_alloc_size_ := (s.total_alloc_size_ + size) % SIZE },
      ⟨block.ptr_, block.size_, block.node⟩)

/-- Lines 81 to 99 and 131 to 134: the matched entry is erased and the block is either
taken whole or split into a leading free remainder and the trailing in-use block. -/
def allocateHit (s : State) (size : Nat) (iter : Key × Nat) :
    Option (State × BlockAllocation) :=
  match deref iter.2 s.chunks_ with
  | none => none
  | some cur =>
    let free_blocks := erase iter.1 s.free_blocks_
    let remaining_size := (cur.block.size_ + SIZE - size) % SIZE
    if remaining_size = 0 then
      let block : Block := { cur.block with is_free_ := false }
      some ({ s with
          chunks_ := cur.store (cur.prevs ++ block :: cur.nexts)
          free_blocks_ := free_blocks
          total_alloc_times_ := (s.total_alloc_times_ + 1) % SIZE
          total_alloc_size_ := (s.total_alloc_size_ + size) % SIZE },
        ⟨block.ptr_, block.size_, block.node⟩)
    else
      let remaining_free_block : Block := ⟨s.fresh, cur.block.ptr_, remaining_size, true⟩
      let block : Block :=
        ⟨cur.block.node, cur.block.ptr_ + remaining_size, size, false⟩
      some ({ s with
          chunks_ := cur.store (cur.prevs ++ remaining_free_block :: block :: cur.nexts)
          free_blocks_ :=
            emplace (remaining_size, cur.block.ptr_) remaining_free_block.node free_blocks
          fresh := s.fresh + 1
          total_alloc_times_ := (s.total_alloc_times_ + 1) % SIZE
          total_alloc_size_ := (s.total_alloc_size_ + size) % SIZE },
        ⟨block.ptr_, block.size_, block.node⟩)

/-- Lines 100 to 130: the growth miss.  The second component is `none` when `BadAlloc`
leaves the function. -/
def allocateMiss (a : Config) (s : State) (size : Nat) : State × Option BlockAllocation :=
  let s1 := if a.FLAGS_free_when_no_cache_hit then (FreeIdleChunks a s).1 else s
  let realloc_size := max size a.chunk_size_
  match underlyingAllocate a s1 realloc_size with
  | (s2, some r) => ((carve s2 r size).1, some (carve s2 r size).2)
  | (s2, none) =>
    if a.FLAGS_free_when_no_cache_hit then (s2, none)
    else
      let s3 := (FreeIdleChunks a s2).1
      match underlyingAllocate a s3 realloc_size with
      | (s4, some r) => ((carve s4 r size).1, some (carve s4 r size).2)
      | (s4, none) => (s4, none)

/-- `AutoGrowthBestFitAllocator::AllocateImpl`.  The result is `none` when the source
would dereference a dangling iterator; otherwise it is the new state and the handle, or
the new state and `none` when `BadAlloc` is thrown. -/
def AllocateImpl (a : Config) (s : State) (unaligned_size : Nat) :
    Option (State × Option BlockAllocation) :=
  let size := realizedSize a unaligned_size
  match lower_bound (size, 0) s.free_blocks_ with
  | some iter =>
    match allocateHit s size iter with
    | some r => some (r.1, some r.2)
    | none => none
  | none => some (allocateMiss a s size)

/-! ## FreeImpl -/

/-- Lines 152 to 162: the merge with the left neighbour.  Returns the blocks before the
(possibly merged) block, that block, and the Free Index. -/
def mergePrev (prevs : List Block) (block : Block) (m : FreeBlocks) :
    List Block × Block × FreeBlocks :=
  match prevs.getLast? with
  | some prev_it =>
    if prev_it.is_free_ then
      (prevs.dropLast,
        { prev_it with size_ := (prev_it.size_ + block.size_) % SIZE },
        erase (prev_it.size_, prev_it.ptr_) m)
    else (prevs, block, m)
  | none => (prevs, block, m)

/-- Lines 164 to 171: the merge with the right neighbour.  Returns the (possibly merged)
block, the blocks after it, and the Free Index. -/
def mergeNext (block : Block) (nexts : List Block) (m : FreeBlocks) :
    Block × List Block × FreeBlocks :=
  match nexts with
  | next_it :: rest =>
    if next_it.is_free_ then
      ({ block with size_ := (block.size_ + next_it.size_) % SIZE }, rest,
        erase (next_it.size_, next_it.ptr_) m)
    else (block, nexts, m)
  | [] => (block, nexts, m)

/-- Lines 144 to 176 of `FreeImpl`: everything before the reclaim-on-free policy. -/
def freeBlock (s : State) (cur : Cursor) : State :=
  let l := mergePrev cur.prevs { cur.block with is_free_ := true } s.free_blocks_
  let r := mergeNext l.2.1 cur.nexts l.2.2
  { s with
    chunks_ := cur.store (l.1 ++ r.1 :: r.2.1)
    free_blocks_ := emplace (r.1.size_, r.1.ptr_) r.1.node r.2.2
    total_free_times_ := (s.total_free_times_ + 1) % SIZE
    total_free_size_ := (s.total_free_size_ + cur.block.size_) % SIZE }

/-- `AutoGrowthBestFitAllocator::FreeImpl`, for a live handle.  The handle is passed by
value: the `delete allocation` of line 176, which ends the life of the handle object, is
represented by the list of live handles that `Reachable` and `step` keep, not here, so
this function says nothing about a handle that has been freed already (in the source a
second `Free` reads a deleted object).  The result is `none` when the iterator of the
handle denotes no node. -/
def FreeImpl (a : Config) (s : State) (allocation : BlockAllocation) : Option State :=
  match deref allocation.block_it_ s.chunks_ with
  | none => none
  | some cur =>
    let s1 := freeBlock s cur
    some (if a.FLAGS_free_idle_chunk then (FreeIdleChunks a s1).1 else s1)

/-! ## Predicates of the specification -/

/-- The sum of the sizes of a Block List. -/
def sizes (bs : List Block) : Nat := (bs.map Block.size_).sum

/-- The blocks, in list order, start at `p` and each starts where its predecessor
ends. -/
def contiguous : Nat → List Block → Prop
  | _, [] => True
  | p, b :: bs => b.ptr_ = p ∧ contiguous (p + b.size_) bs

/-- The partition property of one chunk: a non-empty Block List, contiguous from the base
address of the chunk, whose sizes sum to the reserved size. -/
structure Partition (c : Chunk) : Prop where
  nonempty : c.blocks_ ≠ []
  contig : contiguous c.allocation_.ptr c.blocks_
  total : sizes c.blocks_ = c.allocation_.size

/-- No two consecutive blocks of the list are both free. -/
def noAdjFree (bs : List Block) : Prop :=
  bs.Chain' (fun x y => ¬ (x.is_free_ = true ∧ y.is_free_ = true))

/-- All blocks of all chunks, in pool order. -/
def allBlocks (cs : List Chunk) : List Block := cs.flatMap Chunk.blocks_

/-- Two address ranges lie apart: one ends before the other starts. -/
def apart (p n q k : Nat) : Prop := p + n ≤ q ∨ q + k ≤ p

/-- Two regions lie apart. -/
def separated (x y : Allocation) : Prop := apart x.ptr x.size y.ptr y.size

/-- The underlying allocator returns regions at least as large as requested (whose size
is a `size_t`). -/
def Sized (u : Nat → List Allocation → Nat → Option Allocation) : Prop :=
  ∀ k held n r, u k held n = some r → n ≤ r.size ∧ r.size < SIZE

/-- The underlying allocator is well behaved: its regions are at least as large as
requested (their size being a `size_t`) and lie apart from every region currently
reserved. -/
def WellBehaved (u : Nat → List Allocation → Nat → Option Allocation) : Prop :=
  ∀ k held n r, u k held n = some r →
    n ≤ r.size ∧ r.size < SIZE ∧ ∀ h ∈ held, separated h r

/-- The regions of the underlying allocator are address ranges: they lie inside the
address space, above the null address. -/
def Addressable (u : Nat → List Allocation → Nat → Option Allocation) : Prop :=
  ∀ k held n r, u k held n = some r → 0 < r.ptr ∧ r.ptr + r.size ≤ SIZE

/-- The states reachable from a freshly constructed allocator by `Allocate` (of a
positive `size_t`), `Free` of a live handle and `Reclaim`, together with the list of live
handles: those returned by `Allocate` and not yet freed. -/
inductive Reachable (a : Config) : State → List BlockAllocation → Prop
  | init : Reachable a State.init []
  | allocate {s s1 : State} {L : List BlockAllocation} {n : Nat} {h : BlockAllocation} :
      Reachable a s L → 0 < n → n < SIZE → AllocateImpl a s n = some (s1, some h) →
      Reachable a s1 (h :: L)
  | bad_alloc {s s1 : State} {L : List BlockAllocation} {n : Nat} :
      Reachable a s L → 0 < n → n < SIZE → AllocateImpl a s n = some (s1, none) →
      Reachable a s1 L
  | free {s s1 : State} {L : List BlockAllocation} {h : BlockAllocation} :
      Reachable a s L → h ∈ L → FreeImpl a s h = some s1 → Reachable a s1 (L.erase h)
  | reclaim {s : State} {L : List BlockAllocation} :
      Reachable a s L → Reachable a (FreeIdleChunks a s).1 L

/-- The block `b` is the block of the handle `h`: same node, in use, same address and
size. -/
def Holds (h : BlockAllocation) (b : Block) : Prop :=
  b.node = h.block_it_ ∧ b.is_free_ = false ∧ b.ptr_ = h.ptr ∧ b.size_ = h.size

/-- The entry `e` of the Free Index describes the block `b`: it refers to its node, the
block is free and the key is its current (size, address). -/
def Describes (e : Key × Nat) (b : Block) : Prop :=
  b.node = e.2 ∧ b.is_free_ = true ∧ e.1 = (b.size_, b.ptr_)

/-- The invariant that needs only regions at least as large as requested. -/
structure Inv (s : State) (L : List BlockAllocation) : Prop where
  partition : ∀ c ∈ s.chunks_, Partition c
  maximal : ∀ c ∈ s.chunks_, noAdjFree c.blocks_
  small : ∀ c ∈ s.chunks_, c.allocation_.size < SIZE
  nodes_nodup : ((allBlocks s.chunks_).map Block.node).Nodup
  nodes_lt : ∀ b ∈ allBlocks s.chunks_, b.node < s.fresh
  index_sorted : s.free_blocks_.Pairwise (fun e f => keyLt e.1 f.1)
  index_valid : ∀ e ∈ s.free_blocks_, ∃ b ∈ allBlocks s.chunks_, Describes e b
  live : ∀ h ∈ L, ∃ b ∈ allBlocks s.chunks_, Holds h b
  live_nodup : (L.map BlockAllocation.block_it_).Nodup
  owned : ∀ b ∈ allBlocks s.chunks_, b.is_free_ = false →
    ∃ h ∈ L, h.block_it_ = b.node

/-- The invariant that needs a well-behaved underlying allocator. -/
structure Inv2 (a : Config) (s : State) : Prop where
  bounded : Addressable a.underlying_allocator_ → ∀ c ∈ s.chunks_,
    0 < c.allocation_.ptr ∧ c.allocation_.ptr + c.allocation_.size ≤ SIZE
  disjoint : s.chunks_.Pairwise (fun c d => separated c.allocation_ d.allocation_)
  chunk_min : ∀ c ∈ s.chunks_, a.chunk_size_ ≤ c.allocation_.size
  covers : ∀ b ∈ allBlocks s.chunks_, b.is_free_ = true → 0 < b.size_ →
    ((b.size_, b.ptr_), b.node) ∈ s.free_blocks_

/-- The cursor `cur` is the node `it` of the Chunk Pool `cs`: what a successful
dereference returns. -/
structure Cursor.At (cur : Cursor) (it : Nat) (cs : List Chunk) : Prop where
  chunks : cs = cur.before ++ cur.chunk :: cur.after
  blocks : cur.chunk.blocks_ = cur.prevs ++ cur.block :: cur.nexts
  node : cur.block.node = it

/-- An idle chunk: its Block List is a single block and that block is free
(`blocks.size() == 1 && blocks.begin()->is_free_`). -/
def Chunk.idle (c : Chunk) : Bool :=
  match c.blocks_ with
  | [block] => block.is_free_
  | _ => false

/-- The keys `FreeIdleChunks` erases for a Chunk Pool: those of the sole blocks of the idle
chunks. -/
def idleKeys (cs : List Chunk) : List Key :=
  (allBlocks (cs.filter Chunk.idle)).map (fun b => (b.size_, b.ptr_))

/-! ## Scripts of calls -/

/-- One call of the public interface.  `free i` frees the live handle at position `i` of
the list of live handles (the most recent first). -/
inductive Op where
  | allocate (n : Nat)
  | free (i : Nat)
  | reclaim
deriving DecidableEq, Repr

/-- The effect of one call on the state and on the list of live handles; `none` when the
call is not allowed (a request that is not a positive `size_t`, no such live handle) or
meets a dangling iterator. -/
def step (a : Config) (p : State × List BlockAllocation) :
    Op → Option (State × List BlockAllocation)
  | Op.allocate n =>
    if 0 < n ∧ n < SIZE then
      match AllocateImpl a p.1 n with
      | some (t, some h) => some (t, h :: p.2)
      | some (t, none) => some (t, p.2)
      | none => none
    else none
  | Op.free i =>
    match p.2[i]? with
    | some h =>
      match FreeImpl a p.1 h with
      | some t => some (t, p.2.erase h)
      | none => none
    | none => none
  | Op.reclaim => some ((FreeIdleChunks a p.1).1, p.2)

/-- The effect of a script of calls. -/
def run (a : Config) : List Op → State × List BlockAllocation →
    Option (State × List BlockAllocation)
  | [], p => some p
  | op :: ops, p =>
    match step a p op with
    | some q => run a ops q
    | none => none

/-- An underlying allocator that places each new region above all regions reserved, and
fails when the address space is exhausted. -/
def bump (_k : Nat) (held : List Allocation) (n : Nat) : Option Allocation :=
  let base := held.foldr (fun h acc => max (h.ptr + h.size) acc) 4096
  if base + n ≤ SIZE ∧ n < SIZE then some ⟨base, n⟩ else none

/-- The configuration of the example scenario of the specification: alignment 8, chunk
size 4096, no padding, idle chunks may be released, all flags off. -/
def demo : Config := Config.create bump 8 4096 true 0 false false false

/-- A configuration with 8 bytes of padding, in which the request `2 ^ 64 - 8` wraps to
the realized size 0. -/
def padded : Config := Config.create bump 8 4096 true 8 false false false

/-! ## Concrete states -/

/-- The state of `demo` after `Allocate(100)` and `Allocate(50)`. -/
def demoState : State :=
  { chunks_ :=
      [⟨⟨4096, 4096⟩, [⟨2, 4096, 3936, true⟩, ⟨0, 8032, 56, false⟩, ⟨1, 8088, 104, false⟩]⟩]
    free_blocks_ := [((3936, 4096), 2)]
    total_alloc_times_ := 2
    total_alloc_size_ := 160
    total_free_times_ := 0
    total_free_size_ := 0
    fresh := 3
    requests := [4096] }

/-- The live handles in `demoState`: that of `Allocate(50)`, then that of
`Allocate(100)`. -/
def demoLive : List BlockAllocation := [⟨8032, 56, 0⟩, ⟨8088, 104, 1⟩]

/-- The only chunk of `demoState`. -/
def demoChunk : Chunk :=
  ⟨⟨4096, 4096⟩, [⟨2, 4096, 3936, true⟩, ⟨0, 8032, 56, false⟩, ⟨1, 8088, 104, false⟩]⟩

/-- The state of `demo` after `Allocate(100)`, `Allocate(50)` and the `Free` of both
handles. -/
def demoFreed : State :=
  { chunks_ := [⟨⟨4096, 4096⟩, [⟨2, 4096, 4096, true⟩]⟩]
    free_blocks_ := [((4096, 4096), 2)]
    total_alloc_times_ := 2
    total_alloc_size_ := 160
    total_free_times_ := 2
    total_free_size_ := 160
    fresh := 3
    requests := [4096] }

/-! ## The claims on the Free Index, as stated -/

/-- Every entry of the Free Index describes a free block of some chunk: it is keyed by the
current (size, address) of that block and refers to it. -/
def IndexSound (s : State) : Prop :=
  ∀ e ∈ s.free_blocks_, ∃ b ∈ allBlocks s.chunks_, Describes e b

/-- The Free Index has exactly one entry for the block `b`: an entry that describes `b`,
and every entry that refers to `b` is that entry. -/
def Indexed (s : State) (b : Block) : Prop :=
  ∃ e ∈ s.free_blocks_, Describes e b ∧ ∀ f ∈ s.free_blocks_, f.2 = b.node → f = e

/-- Free-index consistency as the specification states it: exactly one entry for each free
block, every entry describes an existing free block, and no entry refers to a block in
use. -/
def FreeIndexConsistent (s : State) : Prop :=
  (∀ b ∈ allBlocks s.chunks_, b.is_free_ = true → Indexed s b) ∧ IndexSound s ∧
    ∀ e ∈ s.free_blocks_, ∀ b ∈ allBlocks s.chunks_, b.node = e.2 → b.is_free_ = true

/-- Best fit with tie-break as the specification states it, for the request `n` in the
state `s`: if some free block is large enough, then `Allocate` succeeds and carves its
result out of the tail of a free block `b` whose key (size, address) is least among the
free blocks that are large enough, and every other free block stays in its Block List,
with its entries in the Free Index. -/
def BestFit (a : Config) (s : State) (n : Nat) : Prop :=
  (∃ x ∈ allBlocks s.chunks_, x.is_free_ = true ∧ realizedSize a n ≤ x.size_) →
    ∃ b ∈ allBlocks s.chunks_, b.is_free_ = true ∧ realizedSize a n ≤ b.size_ ∧
      (∀ x ∈ allBlocks s.chunks_, x.is_free_ = true → realizedSize a n ≤ x.size_ →
        ¬ keyLt (x.size_, x.ptr_) (b.size_, b.ptr_)) ∧
      ∃ t g, AllocateImpl a s n = some (t, some g) ∧ g.block_it_ = b.node ∧
        g.ptr = b.ptr_ + (b.size_ - realizedSize a n) ∧ g.size = realizedSize a n ∧
        t.chunks_.map Chunk.allocation_ = s.chunks_.map Chunk.allocation_ ∧
        t.requests = s.requests ∧
        ∀ x ∈ allBlocks s.chunks_, x.is_free_ = true → x.node ≠ b.node →
          x ∈ allBlocks t.chunks_ ∧ ∀ e ∈ s.free_blocks_, e.2 = x.node → e ∈ t.free_blocks_

/-- The request that wraps to the realized size 0 under `padded`. -/
def wrapRequest : Nat := 2 ^ 64 - 8

/-- The script that leaves a free block of size 0 without an entry: a block of 16 bytes,
three blocks of size 0, the rest of the chunk, then `Free` of the first and of the last
block of size 0. -/
def orphanScript : List Op :=
  [Op.allocate 8, Op.allocate wrapRequest, Op.allocate wrapRequest, Op.allocate wrapRequest,
    Op.allocate 4072, Op.free 1, Op.free 2]

/-- The state of `padded` after `orphanScript`: the blocks of nodes 3 and 0 are free, of
size 0, at the same address; the Free Index has the entry of node 3 only. -/
def orphanState : State :=
  { chunks_ :=
      [⟨⟨4096, 4096⟩, [⟨4, 4096, 4080, false⟩, ⟨3, 8176, 0, true⟩, ⟨2, 8176, 0, false⟩,
        ⟨0, 8176, 0, true⟩, ⟨1, 8176, 16, false⟩]⟩]
    free_blocks_ := [((0, 8176), 3)]
    total_alloc_times_ := 5
    total_alloc_size_ := 4096
    total_free_times_ := 2
    total_free_size_ := 0
    fresh := 5
    requests := [4096] }

/-- The live handles in `orphanState`. -/
def orphanLive : List BlockAllocation := [⟨4096, 4080, 4⟩, ⟨8176, 0, 2⟩, ⟨8176, 16, 1⟩]

/-- The state of `padded` after `orphanScript` and one more `Allocate(wrapRequest)`, which
takes the block of node 3: the block of node 0 is free and the Free Index is empty. -/
def orphanOnly : State :=
  { chunks_ :=
      [⟨⟨4096, 4096⟩, [⟨4, 4096, 4080, false⟩, ⟨3, 8176, 0, false⟩, ⟨2, 8176, 0, false⟩,
        ⟨0, 8176, 0, true⟩, ⟨1, 8176, 16, false⟩]⟩]
    free_blocks_ := []
    total_alloc_times_ := 6
    total_alloc_size_ := 4096
    total_free_times_ := 2
    total_free_size_ := 0
    fresh := 5
    requests := [4096] }

/-- The live handles in `orphanOnly`. -/
def orphanOnlyLive : List BlockAllocation :=
  [⟨8176, 0, 3⟩, ⟨4096, 4080, 4⟩, ⟨8176, 0, 2⟩, ⟨8176, 16, 1⟩]

/-- The state of `demo` after `Allocate(100)`, `Allocate(50)` and `Free` of the handle of
`Allocate(100)`: two free blocks, of sizes 3936 and 104, around the block in use. -/
def demoTwoFree : State :=
  { chunks_ :=
      [⟨⟨4096, 4096⟩, [⟨2, 4096, 3936, true⟩, ⟨0, 8032, 56, false⟩, ⟨1, 8088, 104, true⟩]⟩]
    free_blocks_ := [((104, 8088), 1), ((3936, 4096), 2)]
    total_alloc_times_ := 2
    total_alloc_size_ := 160
    total_free_times_ := 1
    total_free_size_ := 104
    fresh := 3
    requests := [4096] }

/-- Size rounding as the specification states it, for the request `n`: the realized size
is a multiple of the alignment and is not smaller than the requested size. -/
def RoundsUp (a : Config) (n : Nat) : Prop :=
  a.alignment_ ∣ realizedSize a n ∧ n ≤ realizedSize a n

/-- An underlying allocator whose first call fails and whose later calls answer as
`bump`. -/
def failFirst (k : Nat) (held : List Allocation) (n : Nat) : Option Allocation :=
  if k = 0 then none else bump k held n

/-- The configuration of `demo` over `failFirst`. -/
def retrying : Config := Config.create failFirst 8 4096 true 0 false false false

/-- The addresses covered by a list of regions. -/
def cover : List Allocation → Finset Nat
  | [] => ∅
  | r :: rs => Finset.Ico r.ptr (r.ptr + r.size) ∪ cover rs

/-- The entry `e` refers to a block of an idle chunk of the Chunk Pool `cs`. -/
def refersToIdle (cs : List Chunk) (e : Key × Nat) : Bool :=
  (allBlocks (cs.filter Chunk.idle)).any (fun b => decide (b.node = e.2))

/-- The state of `demo` after `Allocate(100)`, `Allocate(5000)` and the `Free` of the
first handle: an idle chunk of 4096 bytes and a chunk of 5000 bytes in use. -/
def demoIdle : State :=
  { chunks_ :=
      [⟨⟨4096, 4096⟩, [⟨0, 4096, 4096, true⟩]⟩, ⟨⟨8192, 5000⟩, [⟨2, 8192, 5000, false⟩]⟩]
    free_blocks_ := [((4096, 4096), 0)]
    total_alloc_times_ := 2
    total_alloc_size_ := 5104
    total_free_times_ := 1
    total_free_size_ := 104
    fresh := 3
    requests := [4096, 5000] }

/-! ## Equality up to the identity of list nodes -/

/-- The block with its node renamed. -/
def Block.rename (f : Nat → Nat) (b : Block) : Block := { b with node := f b.node }

/-- The Chunk Pool with the nodes of all blocks renamed. -/
def renameChunks (f : Nat → Nat) (cs : List Chunk) : List Chunk :=
  cs.map (fun c => { c with blocks_ := c.blocks_.map (Block.rename f) })

/-- The Free Index with the nodes it refers to renamed. -/
def renameIndex (f : Nat → Nat) (m : FreeBlocks) : FreeBlocks :=
  m.map (fun e => (e.1, f e.2))

/-- The Chunk Pool, every Block List and the Free Index of `t` are those of `s`, up to
the identity of the list nodes: the same chunks in the same order, in each the same
sequence of blocks (address, size, flag), the same keys in the Free Index, each entry
referring to the block at the same place. -/
def SameUpToNodes (s t : State) : Prop :=
  ∃ f : Nat → Nat,
    (∀ x ∈ allBlocks s.chunks_, ∀ y ∈ allBlocks s.chunks_, f x.node = f y.node →
      x.node = y.node) ∧
    t.chunks_ = renameChunks f s.chunks_ ∧ t.free_blocks_ = renameIndex f s.free_blocks_

/-- The round trip as the specification states it, for the request `n` in the state `s`:
if `Allocate(n)` returns a handle, `Free` of that handle restores the Chunk Pool, every
Block List and the Free Index. -/
def RoundTrip (a : Config) (s : State) (n : Nat) : Prop :=
  ∀ s1 h, AllocateImpl a s n = some (s1, some h) →
    ∃ s2, FreeImpl a s1 h = some s2 ∧ SameUpToNodes s s2

/-- A call made by `AllocateImpl` on a growth miss: `FreeIdleChunks()` or
`underlying_allocator_->Allocate(n)`. -/
inductive Call where
  | reclaim
  | reserve (n : Nat)
deriving DecidableEq, Repr

/-- Lines 101 to 114: the calls `AllocateImpl` makes on a growth miss, in the order it
makes them. -/
def missCalls (a : Config) (s : State) (size : Nat) : List Call :=
  let pre := if a.FLAGS_free_when_no_cache_hit then [Call.reclaim] else []
  let s1 := if a.FLAGS_free_when_no_cache_hit then (FreeIdleChunks a s).1 else s
  let realloc_size := max size a.chunk_size_
  match underlyingAllocate a s1 realloc_size with
  | (_, some _) => pre ++ [Call.reserve realloc_size]
  | (_, none) =>
    if a.FLAGS_free_when_no_cache_hit then pre ++ [Call.reserve realloc_size]
    else pre ++ [Call.reserve realloc_size, Call.reclaim, Call.reserve realloc_size]

/-- The sizes of the reservations among a list of calls, in order. -/
def reservations : List Call → List Nat
  | [] => []
  | Call.reclaim :: cs => reservations cs
  | Call.reserve n :: cs => n :: reservations cs

/-- The effect of one call on the state; the answer of a reservation is left aside. -/
def perform (a : Config) (s : State) : Call → State
  | Call.reclaim => (FreeIdleChunks a s).1
  | Call.reserve n => (underlyingAllocate a s n).1

/-- An underlying allocator that is exhausted: every reservation fails. -/
def exhausted (_k : Nat) (_held : List Allocation) (_n : Nat) : Option Allocation := none

/-- The configuration of `demo` over `exhausted`, with `FLAGS_free_when_no_cache_hit`
on. -/
def eager : Config := Config.create exhausted 8 4096 true 0 false true false

/-- The claim on the free-on-miss policy as the specification states it, for the request
`n` in the state `s`: on a growth miss whose reservation fails, `Reclaim` is run before
the reservation and again after it. -/
def ReclaimsAgain (a : Config) (s : State) (n : Nat) : Prop :=
  a.FLAGS_free_when_no_cache_hit = true →
    lower_bound (realizedSize a n, 0) s.free_blocks_ = none →
    (AllocateImpl a s n).bind (fun r => r.2) = none →
    ∃ q rest, missCalls a s (realizedSize a n) =
      Call.reclaim :: Call.reserve q :: Call.reclaim :: rest

/-- The configuration of `demo` in fixed-pool mode: idle chunks are never released. -/
def fixedPool : Config := Config.create bump 8 4096 false 0 false false false

/-- The number `n` rounded up to a multiple of `alignment`, in unbounded arithmetic. -/
def roundUp (n alignment : Nat) : Nat := (n + alignment - 1) / alignment * alignment

/-- The effective chunk size as the specification states it, for an allocator `a`
constructed with `alignment` and `chunk_size`. -/
def EffectiveChunkSize (a : Config) (alignment chunk_size : Nat) : Prop :=
  a.chunk_size_ = max (roundUp chunk_size alignment) alignment ∧ 0 < a.chunk_size_ ∧
    alignment ∣ a.chunk_size_ ∧ alignment ≤ a.chunk_size_ ∧ chunk_size ≤ a.chunk_size_ ∧
    (chunk_size = 0 → a.chunk_size_ = alignment)

/-- A configuration whose requested chunk size is the largest `size_t`. -/
def hugeChunk : Config := Config.create bump 8 (2 ^ 64 - 1) true 0 false false false

/-- The configuration of the example scenario over an arbitrary underlying allocator:
alignment 8, chunk size 4096, no padding, idle chunks may be released, all flags off. -/
def scenario (u : Nat → List Allocation → Nat → Option Allocation) : Config :=
  Config.create u 8 4096 true 0 false false false

/-- The handle A of the scenario, `p` being the base address of the chunk. -/
def handleA (p : Nat) : BlockAllocation := ⟨p + 3992, 104, 1⟩

/-- The handle B of the scenario. -/
def handleB (p : Nat) : BlockAllocation := ⟨p + 3936, 56, 0⟩

/-- The state of the scenario after `Allocate(100)`. -/
def afterA (p : Nat) : State :=
  { chunks_ := [⟨⟨p, 4096⟩, [⟨0, p, 3992, true⟩, ⟨1, p + 3992, 104, false⟩]⟩]
    free_blocks_ := [((3992, p), 0)]
    total_alloc_times_ := 1
    total_alloc_size_ := 104
    total_free_times_ := 0
    total_free_size_ := 0
    fresh := 2
    requests := [4096] }

/-- The state of the scenario after `Allocate(100)` and `Allocate(50)`. -/
def afterB (p : Nat) : State :=
  { chunks_ :=
      [⟨⟨p, 4096⟩,
        [⟨2, p, 3936, true⟩, ⟨0, p + 3936, 56, false⟩, ⟨1, p + 3992, 104, false⟩]⟩]
    free_blocks_ := [((3936, p), 2)]
    total_alloc_times_ := 2
    total_alloc_size_ := 160
    total_free_times_ := 0
    total_free_size_ := 0
    fresh := 3
    requests := [4096] }

/-- The state of the scenario after the two calls of `Allocate` and `Free(A)`. -/
def afterFreeA (p : Nat) : State :=
  { chunks_ :=
      [⟨⟨p, 4096⟩,
        [⟨2, p, 3936, true⟩, ⟨0, p + 3936, 56, false⟩, ⟨1, p + 3992, 104, true⟩]⟩]
    free_blocks_ := [((104, p + 3992), 1), ((3936, p), 2)]
    total_alloc_times_ := 2
    total_alloc_size_ := 160
    total_free_times_ := 1
    total_free_size_ := 104
    fresh := 3
    requests := [4096] }

/-- The state of the scenario after the two calls of `Allocate`, `Free(A)` and
`Free(B)`. -/
def afterFreeB (p : Nat) : State :=
  { chunks_ := [⟨⟨p, 4096⟩, [⟨2, p, 4096, true⟩]⟩]
    free_blocks_ := [((4096, p), 2)]
    total_alloc_times_ := 2
    total_alloc_size_ := 160
    total_free_times_ := 2
    total_free_size_ := 160
    fresh := 3
    requests := [4096] }

/-- The state of the scenario after the final `Reclaim`. -/
def afterReclaim : State :=
  { chunks_ := []
    free_blocks_ := []
    total_alloc_times_ := 2
    total_alloc_size_ := 160
    total_free_times_ := 2
    total_free_size_ := 160
    fresh := 3
    requests := [4096] }

/-- The neighbour layout of the example scenario as the specification states it, `s2`
being the state after the two calls of `Allocate`, `s3` the state after `Free(A)`, and `A`
and `B` the two handles: at `Free(A)` the block of A has no left neighbour and its right
neighbour is the in-use block of B; at `Free(B)` the left neighbour of the block of B is
the free block of A, the first merge yields a free block of size 160 at the address of A,
the right neighbour is the free remainder of size 3936 and the second merge yields a free
block of size 4096. -/
def ScenarioLayout (s2 s3 : State) (A B : BlockAllocation) : Prop :=
  ∃ curA curB, deref A.block_it_ s2.chunks_ = some curA ∧
    deref B.block_it_ s3.chunks_ = some curB ∧
    curA.prevs.getLast? = none ∧
    (∃ b, curA.nexts.head? = some b ∧ b.node = B.block_it_ ∧ b.is_free_ = false) ∧
    (∃ b, curB.prevs.getLast? = some b ∧ b.node = A.block_it_ ∧ b.is_free_ = true) ∧
    (mergePrev curB.prevs { curB.block with is_free_ := true } s3.free_blocks_).2.1.ptr_ =
      A.ptr ∧
    (mergePrev curB.prevs { curB.block with is_free_ := true } s3.free_blocks_).2.1.size_ =
      160 ∧
    (∃ b, curB.nexts.head? = some b ∧ b.is_free_ = true ∧ b.size_ = 3936) ∧
    (mergeNext
      (mergePrev curB.prevs { curB.block with is_free_ := true } s3.free_blocks_).2.1
      curB.nexts
      (mergePrev curB.prevs { curB.block with is_free_ := true } s3.free_blocks_).2.2).1.size_ =
      4096

/-- The left neighbour of the block of the cursor when it is free: the neighbour that
`Free` absorbs on the left. -/
def absorbedLeft (cur : Cursor) : List Block :=
  match cur.prevs.getLast? with
  | some prev_it => if prev_it.is_free_ then [prev_it] else []
  | none => []

/-- The right neighbour of the block of the cursor when it is free: the neighbour that
`Free` absorbs on the right. -/
def absorbedRight (cur : Cursor) : List Block :=
  match cur.nexts with
  | next_it :: _ => if next_it.is_free_ then [next_it] else []
  | [] => []

/-- The blocks that `Free` merges into one, in address order. -/
def mergedBlocks (cur : Cursor) : List Block :=
  absorbedLeft cur ++ cur.block :: absorbedRight cur

/-- The address of the leftmost of the merged blocks. -/
def mergedPtr (cur : Cursor) : Nat :=
  match absorbedLeft cur with
  | x :: _ => x.ptr_
  | [] => cur.block.ptr_

/-- The node that holds the merged block: that of the leftmost of the merged blocks. -/
def mergedNode (cur : Cursor) : Nat :=
  match absorbedLeft cur with
  | x :: _ => x.node
  | [] => cur.block.node

/-- The blocks before the merged block: those before the block of the cursor, without the
absorbed left neighbour. -/
def keptLeft (cur : Cursor) : List Block :=
  match absorbedLeft cur with
  | _ :: _ => cur.prevs.dropLast
  | [] => cur.prevs

/-- The blocks after the merged block: those after the block of the cursor, without the
absorbed right neighbour. -/
def keptRight (cur : Cursor) : List Block :=
  cur.nexts.drop (absorbedRight cur).length

/-- The merge of `Free` as the specification states it, `t` being the state after `Free`
of the handle `h` in the state `s`: in the Block List of the chunk the block of `h` and
its free neighbours are replaced by one free block, which starts at the address of the
leftmost of them and whose size is the sum of their sizes, all other blocks and chunks
being unchanged; and the Free Index is the index before without the entries of the
absorbed neighbours and with one entry for the merged block, each entry once. -/
def MergesBoth (s : State) (h : BlockAllocation) (t : State) : Prop :=
  ∃ cur node, deref h.block_it_ s.chunks_ = some cur ∧
    t.chunks_ = cur.store
      (keptLeft cur ++ ⟨node, mergedPtr cur, sizes (mergedBlocks cur), true⟩ ::
        keptRight cur) ∧
    (∀ e, e ∈ t.free_blocks_ ↔
      (e ∈ s.free_blocks_ ∧ ∀ x ∈ absorbedLeft cur ++ absorbedRight cur, e.2 ≠ x.node) ∨
        e = ((sizes (mergedBlocks cur), mergedPtr cur), node)) ∧
    t.free_blocks_.Nodup

/-- The state of `padded` after the first six calls of `orphanScript`: the block of node 3
is free, of size 0, and the blocks of nodes 2 and 0, of size 0 at the same address, are
in use. -/
def orphanBefore : State :=
  { chunks_ :=
      [⟨⟨4096, 4096⟩, [⟨4, 4096, 4080, false⟩, ⟨3, 8176, 0, true⟩, ⟨2, 8176, 0, false⟩,
        ⟨0, 8176, 0, false⟩, ⟨1, 8176, 16, false⟩]⟩]
    free_blocks_ := [((0, 8176), 3)]
    total_alloc_times_ := 5
    total_alloc_size_ := 4096
    total_free_times_ := 1
    total_free_size_ := 0
    fresh := 5
    requests := [4096] }

/-- The live handles in `orphanBefore`. -/
def orphanBeforeLive : List BlockAllocation :=
  [⟨4096, 4080, 4⟩, ⟨8176, 0, 2⟩, ⟨8176, 0, 0⟩, ⟨8176, 16, 1⟩]

/-- The block of the handle of `Allocate(50)` in `demoTwoFree`, as a cursor: both its
neighbours are free. -/
def demoTwoFreeCursor : Cursor :=
  ⟨[], ⟨⟨4096, 4096⟩,
      [⟨2, 4096, 3936, true⟩, ⟨0, 8032, 56, false⟩, ⟨1, 8088, 104, true⟩]⟩, [],
    [⟨2, 4096, 3936, true⟩], ⟨0, 8032, 56, false⟩, [⟨1, 8088, 104, true⟩]⟩

/-! ## Two allocators side by side -/

/-- The block `b'` of a chunk based at `q` is the block `b` of a chunk based at `p`, up to
the base address: same node, same size, same flag, same offset from the base. -/
def BlockSim (p q : Nat) (b b' : Block) : Prop :=
  b'.node = b.node ∧ b'.size_ = b.size_ ∧ b'.is_free_ = b.is_free_ ∧
    b.ptr_ + q = b'.ptr_ + p

/-- An underlying allocator with a budget of `cap` bytes that places each new region above
`base` and above all regions reserved; it fails when the budget is exceeded. -/
def pool (base cap : Nat) (_k : Nat) (held : List Allocation) (n : Nat) :
    Option Allocation :=
  if (held.map Allocation.size).sum + n ≤ cap then
    some ⟨held.foldr (fun h acc => max (h.ptr + h.size) acc) base, n⟩
  else none

/-- The configuration of `demo` over a pool of 8192 bytes based at 4096. -/
def lowPool : Config := Config.create (pool 4096 8192) 8 4096 true 0 false false false

/-- The allocation counters as the specification states them, for the request `n` in the
state `s`: a successful `Allocate` increases the request counter by 1 and the byte counter
by the realized size, and leaves the free counters unchanged. -/
def CountsAllocation (a : Config) (s : State) (n : Nat) : Prop :=
  ∀ t h, AllocateImpl a s n = some (t, some h) →
    t.total_alloc_times_ = s.total_alloc_times_ + 1 ∧
      t.total_alloc_size_ = s.total_alloc_size_ + realizedSize a n ∧
      t.total_free_times_ = s.total_free_times_ ∧ t.total_free_size_ = s.total_free_size_

/-- Monotonicity of the counters as the specification states it, for one call: none of the
four counters is smaller after the call than before. -/
def CountersMonotone (a : Config) (p : State × List BlockAllocation) (op : Op) : Prop :=
  ∀ q, step a p op = some q →
    p.1.total_alloc_times_ ≤ q.1.total_alloc_times_ ∧
      p.1.total_alloc_size_ ≤ q.1.total_alloc_size_ ∧
      p.1.total_free_times_ ≤ q.1.total_free_times_ ∧
      p.1.total_free_size_ ≤ q.1.total_free_size_

/-- A block of `2 ^ 63` bytes is allocated and freed. -/
def halfScript : List Op := [Op.allocate (2 ^ 63), Op.free 0]

/-- The state of `demo` after `halfScript`: one chunk of `2 ^ 63` bytes, free; `2 ^ 63`
bytes have been allocated and freed. -/
def halfState : State :=
  { chunks_ := [⟨⟨4096, 9223372036854775808⟩, [⟨0, 4096, 9223372036854775808, true⟩]⟩]
    free_blocks_ := [((9223372036854775808, 4096), 0)]
    total_alloc_times_ := 1
    total_alloc_size_ := 9223372036854775808
    total_free_times_ := 1
    total_free_size_ := 9223372036854775808
    fresh := 1
    requests := [9223372036854775808] }

/-- The state of `demo` after `halfScript` and one more `Allocate(2 ^ 63)`, whose handle is
`⟨4096, 2 ^ 63, 0⟩`: the byte counter of the allocations has wrapped to 0. -/
def halfAgain : State :=
  { chunks_ := [⟨⟨4096, 9223372036854775808⟩, [⟨0, 4096, 9223372036854775808, false⟩]⟩]
    free_blocks_ := []
    total_alloc_times_ := 2
    total_alloc_size_ := 0
    total_free_times_ := 1
    total_free_size_ := 9223372036854775808
    fresh := 1
    requests := [9223372036854775808] }

/-- The state of `demo` after `Allocate(100)`, `Allocate(50)` and `Allocate(2999)`, whose
realized size is 3000. -/
def demoThree : State :=
  { chunks_ :=
      [⟨⟨4096, 4096⟩, [⟨3, 4096, 936, true⟩, ⟨2, 5032, 3000, false⟩,
        ⟨0, 8032, 56, false⟩, ⟨1, 8088, 104, false⟩]⟩]
    free_blocks_ := [((936, 4096), 3)]
    total_alloc_times_ := 3
    total_alloc_size_ := 3160
    total_free_times_ := 0
    total_free_size_ := 0
    fresh := 4
    requests := [4096] }

/-- The configuration `a` with the flag `FLAGS_free_idle_chunk` set to `b`. -/
def Config.withFreeIdleChunk (a : Config) (b : Bool) : Config :=
  { a with FLAGS_free_idle_chunk := b }

/-- The configuration of `demo` with the reclaim-on-free policy on. -/
def reclaiming : Config := Config.create bump 8 4096 true 0 true false false

/-- The state of `reclaiming` (and of `demo`) after `Allocate(100)` on a fresh allocator;
the handle is `⟨8088, 104, 1⟩`. -/
def demoFirst : State :=
  { chunks_ := [⟨⟨4096, 4096⟩, [⟨0, 4096, 3992, true⟩, ⟨1, 8088, 104, false⟩]⟩]
    free_blocks_ := [((3992, 4096), 0)]
    total_alloc_times_ := 1
    total_alloc_size_ := 104
    total_free_times_ := 0
    total_free_size_ := 0
    fresh := 2
    requests := [4096] }

/-- The padding as the specification states it, for the request `n`: the realized size is
the request rounded up to a multiple of the alignment, plus the padding (the padding is
added after the alignment). -/
def PaddingAppended (a : Config) (n : Nat) : Prop :=
  (realizedSize a n : Int) = (roundUp n a.alignment_ : Int) + a.extra_padding_size_

/-- A configuration with alignment 8 and 4 bytes of padding. -/
def guarded : Config := Config.create bump 8 4096 true 4 false false false

end AutoGrowthBestFitAllocator

namespace ExecutorGcHelper

/-! # The cleanup wrapper `DeleteUnusedTensors` (`executor_gc_helper.cc`) -/

/-- A memory holder, `std::shared_ptr<memory::Allocation>`: null (`none`) or the identity
of an allocation. -/
abbrev Holder := Option Nat

/-- Modelled from the spec: the value held by a `Variable` (declared in `variable.h`, which
is not among the sources), as far as `IsType` tells the types apart in
`DeleteUnusedTensors`: a `phi::DenseTensor` with its memory holder, a `phi::SelectedRows`
with the memory holder of its value tensor, a `LoDTensorArray` with the memory holders of
its tensors, a `Strings`, or a value of another type, given by its type index.  Every
variable is taken to hold a value. -/
inductive Value where
  | DenseTensor (holder : Holder)
  | SelectedRows (holder : Holder)
  | LoDTensorArray (tensors : List Holder)
  | Strings
  | Other (type : Nat)
deriving DecidableEq, Repr

/-- Modelled from the spec: a `Scope` (declared in `scope.h`, which is not among the
sources), as the variables `FindVar` can find, by name. -/
abbrev Scope := List (String × Value)

/-- The variable `scope.FindVar(name)` returns; `none` stands for `nullptr`. -/
def FindVar (scope : Scope) (name : String) : Option Value :=
  (scope.find? (fun e => decide (e.1 = name))).map Prod.snd

/-- The scope after the variable found under `name` has been given the value `v`. -/
def assign (name : String) (v : Value) : Scope → Scope
  | [] => []
  | e :: es => if e.1 = name then (e.1, v) :: es else e :: assign name v es

/-- The error `platform::errors::Unimplemented` of `DeleteUnusedTensors`, with the type and
the name of the variable it reports. -/
structure Unimplemented where
  type : Nat
  var_name : String
deriving DecidableEq, Repr

/-- The loop of `DeleteUnusedTensors` over `delete_vars`: the scope, the deque `garbages`
and the error thrown, if any.  `MoveMemoryHolder` leaves a null holder behind, and a
`LoDTensorArray` is cleared. -/
def deleteLoop : List String → Scope → List Holder → Scope × List Holder × Option Unimplemented
  | [], scope, garbages => (scope, garbages, none)
  | var_name :: rest, scope, garbages =>
    match FindVar scope var_name with
    | none => deleteLoop rest scope garbages
    | some (Value.DenseTensor holder) =>
      deleteLoop rest (assign var_name (Value.DenseTensor none) scope) (garbages ++ [holder])
    | some (Value.SelectedRows holder) =>
      deleteLoop rest (assign var_name (Value.SelectedRows none) scope) (garbages ++ [holder])
    | some (Value.LoDTensorArray tensors) =>
      deleteLoop rest (assign var_name (Value.LoDTensorArray []) scope) (garbages ++ tensors)
    | some Value.Strings => deleteLoop rest scope garbages
    | some (Value.Other type) => (scope, garbages, some ⟨type, var_name⟩)

/-- The outcome of `DeleteUnusedTensors`: the scope, the deques handed to the garbage
collector by `gc->Add`, in call order, and the error thrown, if any. -/
structure Outcome where
  scope : Scope
  gc : List (List Holder)
  thrown : Option Unimplemented
deriving DecidableEq, Repr

/-- `DeleteUnusedTensors(scope, delete_vars, gc)`, lines 177 to 216: `gc` is the list of
deques the garbage collector has been handed so far. -/
def DeleteUnusedTensors (scope : Scope) (delete_vars : List String)
    (gc : List (List Holder)) : Outcome :=
  match deleteLoop delete_vars scope [] with
  | (scope1, garbages, none) =>
    ⟨scope1, if garbages.isEmpty then gc else gc ++ [garbages], none⟩
  | (scope1, _, some e) => ⟨scope1, gc, some e⟩

/-- The variable found under `name` holds a value that is none of `DenseTensor`,
`SelectedRows`, `LoDTensorArray` and `Strings`. -/
def unsupported (scope : Scope) (name : String) : Prop :=
  ∃ type, FindVar scope name = some (Value.Other type)

/-- A scope with a dense tensor, a tensor array, a variable of another type (index 7) and
a selected-rows value. -/
def demoScope : Scope :=
  [("x", Value.DenseTensor (some 1)), ("arr", Value.LoDTensorArray [some 2, none]),
    ("reader", Value.Other 7), ("rows", Value.SelectedRows (some 3))]

/-! ## `VarCanBeDeleted` -/

/-- The variable types `VarCanBeDeleted` tells apart (`proto::VarType::Type`); every other
type is given by its number. -/
inductive VarType where
  | LOD_TENSOR
  | SELECTED_ROWS
  | LOD_TENSOR_ARRAY
  | OTHER (type : Nat)
deriving DecidableEq, Repr

/-- Modelled from the spec: a variable descriptor `VarDesc` (declared in `var_desc.h`,
which is not among the sources): what `Persistable()` and `Proto()->type().type()`
return. -/
structure VarDesc where
  persistable : Bool
  type : VarType
deriving DecidableEq, Repr

/-- Modelled from the spec: a `BlockDesc` (declared in `block_desc.h`, which is not among
the sources), as the descriptors `FindVar` can find, by name. -/
abbrev BlockDesc := List (String × VarDesc)

/-- The descriptor `block.FindVar(name)` returns; `none` stands for `nullptr`. -/
def BlockDesc.FindVar (block : BlockDesc) (name : String) : Option VarDesc :=
  (block.find? (fun e => decide (e.1 = name))).map Prod.snd

/-- `VarCanBeDeleted`, lines 64 to 89.  `unpersist_vars` is `none` for the null pointer.
The result is `none` when the function dereferences a null `var_desc` (line 83, undefined
behaviour). -/
def VarCanBeDeleted (name : String) (block : BlockDesc) (skip_vars : List String)
    (unpersist_vars : Option (List String)) : Option Bool :=
  if skip_vars.count name ≠ 0 then some false
  else
    let var_desc := BlockDesc.FindVar block name
    let null_or_persistable : Bool :=
      match var_desc with
      | none => true
      | some d => d.persistable
    let returns_early : Bool :=
      if null_or_persistable then
        match unpersist_vars with
        | some vars => decide (name ∉ vars)
        | none => true
      else false
    if returns_early then some false
    else
      match var_desc with
      | none => none
      | some d =>
        some (decide (d.type = VarType.LOD_TENSOR ∨ d.type = VarType.SELECTED_ROWS ∨
          d.type = VarType.LOD_TENSOR_ARRAY))

/-- The claim on a missing descriptor as the specification states it: if `FindVar` finds no
descriptor, `VarCanBeDeleted` returns false and does not read the descriptor. -/
def MissingIsKept (name : String) (block : BlockDesc) (skip_vars : List String)
    (unpersist_vars : Option (List String)) : Prop :=
  BlockDesc.FindVar block name = none →
    VarCanBeDeleted name block skip_vars unpersist_vars = some false

end ExecutorGcHelper

namespace AutoGrowthBestFitAllocator

/-- The round trip on a cache hit as the specification states it, for the request `n` in
the state `s`: with the reclaim-on-free policy off, if the realized size is at most the
size of some free block, `Allocate(n)` followed by `Free` of the returned handle restores
the Chunk Pool, every Block List and the Free Index. -/
def HitRoundTrip (a : Config) (s : State) (n : Nat) : Prop :=
  a.FLAGS_free_idle_chunk = false →
    (∃ b ∈ allBlocks s.chunks_, b.is_free_ = true ∧ realizedSize a n ≤ b.size_) →
      ∃ s1 h s2, AllocateImpl a s n = some (s1, some h) ∧ FreeImpl a s1 h = some s2 ∧
        SameUpToNodes s s2

/-- The state of `padded` after `Allocate(wrapRequest)` in `orphanOnly`, a growth miss
whose handle is `⟨12288, 0, 6⟩`. -/
def orphanGrown : State :=
  { chunks_ :=
      [⟨⟨4096, 4096⟩, [⟨4, 4096, 4080, false⟩, ⟨3, 8176, 0, false⟩, ⟨2, 8176, 0, false⟩,
        ⟨0, 8176, 0, true⟩, ⟨1, 8176, 16, false⟩]⟩,
        ⟨⟨8192, 4096⟩, [⟨5, 8192, 4096, true⟩, ⟨6, 12288, 0, false⟩]⟩]
    free_blocks_ := [((4096, 8192), 5)]
    total_alloc_times_ := 7
    total_alloc_size_ := 4096
    total_free_times_ := 2
    total_free_size_ := 0
    fresh := 7
    requests := [4096, 4096] }

/-- The state of `padded` after the `Free` of the handle `⟨12288, 0, 6⟩` in
`orphanGrown`: the second chunk stays in the Chunk Pool. -/
def orphanGrownFreed : State :=
  { chunks_ :=
      [⟨⟨4096, 4096⟩, [⟨4, 4096, 4080, false⟩, ⟨3, 8176, 0, false⟩, ⟨2, 8176, 0, false⟩,
        ⟨0, 8176, 0, true⟩, ⟨1, 8176, 16, false⟩]⟩,
        ⟨⟨8192, 4096⟩, [⟨5, 8192, 4096, true⟩]⟩]
    free_blocks_ := [((4096, 8192), 5)]
    total_alloc_times_ := 7
    total_alloc_size_ := 4096
    total_free_times_ := 3
    total_free_size_ := 0
    fresh := 7
    requests := [4096, 4096] }

/-- The state of `lowPool` after `Allocate(100)` and the `Free` of its handle: one idle
chunk of 4096 bytes. -/
def lowIdle : State :=
  { chunks_ := [⟨⟨4096, 4096⟩, [⟨0, 4096, 4096, true⟩]⟩]
    free_blocks_ := [((4096, 4096), 0)]
    total_alloc_times_ := 1
    total_alloc_size_ := 104
    total_free_times_ := 1
    total_free_size_ := 104
    fresh := 2
    requests := [4096] }

/-- The state of `lowPool` after the failed `Allocate(9000)` in `lowIdle`: the idle chunk
has been released and both requests of 9000 bytes have been refused. -/
def lowSwept : State :=
  { chunks_ := []
    free_blocks_ := []
    total_alloc_times_ := 1
    total_alloc_size_ := 104
    total_free_times_ := 1
    total_free_size_ := 104
    fresh := 2
    requests := [4096, 9000, 9000] }

/-- Growth only on a miss as the specification states it, for the request `n` in the state
`s`: `Allocate` calls the underlying allocator if and only if no free block has a size at
least the realized size. -/
def GrowsOnlyOnMiss (a : Config) (s : State) (n : Nat) : Prop :=
  ∀ t r, AllocateImpl a s n = some (t, r) →
    (t.requests ≠ s.requests ↔
      ¬ ∃ b ∈ allBlocks s.chunks_, b.is_free_ = true ∧ realizedSize a n ≤ b.size_)

/-- The underlying allocator returns regions of exactly the requested size. -/
def Exact (u : Nat → List Allocation → Nat → Option Allocation) : Prop :=
  ∀ k held n r, u k held n = some r → r.size = n

/-- An underlying allocator that answers as `bump` does, with one byte more than asked
for. -/
def slack (k : Nat) (held : List Allocation) (n : Nat) : Option Allocation :=
  bump k held (n + 1)

/-- The configuration of `demo` over `slack`. -/
def roomy : Config := Config.create slack 8 4096 true 0 false false false

/-- The state of `roomy` after `Allocate(100)` on a fresh allocator: the region has 4097
bytes and the block in use starts 3993 bytes above its base. -/
def roomyFirst : State :=
  { chunks_ := [⟨⟨4096, 4097⟩, [⟨0, 4096, 3993, true⟩, ⟨1, 8089, 104, false⟩]⟩]
    free_blocks_ := [((3993, 4096), 0)]
    total_alloc_times_ := 1
    total_alloc_size_ := 104
    total_free_times_ := 0
    total_free_size_ := 0
    fresh := 2
    requests := [4096] }

/-! ## Byte accounting -/

/-- The blocks in use of a list of blocks. -/
def busyBlocks (bs : List Block) : List Block := bs.filter (fun b => !b.is_free_)

/-- The free blocks of a list of blocks. -/
def idleBlocks (bs : List Block) : List Block := bs.filter (fun b => b.is_free_)

/-- The sum of the sizes of all blocks in use, over all chunks. -/
def busyBytes (s : State) : Nat := sizes (busyBlocks (allBlocks s.chunks_))

/-- The number of blocks in use, over all chunks. -/
def busyCount (s : State) : Nat := (busyBlocks (allBlocks s.chunks_)).length

/-- The sum of the sizes of all free blocks, over all chunks. -/
def idleBytes (s : State) : Nat := sizes (idleBlocks (allBlocks s.chunks_))

/-- The total reserved size of the chunks of the pool. -/
def reservedBytes (s : State) : Nat := (s.chunks_.map (fun c => c.allocation_.size)).sum

/-- The busy figure `Trace` reports, line 219: `total_alloc_size_ - total_free_size_`, in
64-bit unsigned arithmetic. -/
def busyFigure (s : State) : Nat :=
  (s.total_alloc_size_ + SIZE - s.total_free_size_) % SIZE

/-- The allocation requests minus the free requests, `total_alloc_times_ -
total_free_times_`, in 64-bit unsigned arithmetic. -/
def busyTimes (s : State) : Nat :=
  (s.total_alloc_times_ + SIZE - s.total_free_times_) % SIZE

/-- Byte accounting as the specification states it, for the state `s`, the counters being
read as plain integers: allocated bytes minus freed bytes is the sum of the sizes of the
in-use blocks, allocation requests minus free requests is their number, and the idle
figure of `Trace` plus that busy figure is the total reserved size. -/
def ByteAccounting (s : State) : Prop :=
  (s.total_alloc_size_ : Int) - (s.total_free_size_ : Int) = (busyBytes s : Int) ∧
    (s.total_alloc_times_ : Int) - (s.total_free_times_ : Int) = (busyCount s : Int) ∧
    (Trace s : Int) + ((s.total_alloc_size_ : Int) - (s.total_free_size_ : Int)) =
      (reservedBytes s : Int)

/-- The counters account for the blocks in use, in 64-bit unsigned arithmetic: the bytes
(requests) allocated are the bytes (requests) freed plus the bytes (number) of the blocks
in use, modulo `2 ^ 64`, and each counter is a 64-bit value. -/
def Accounted (s : State) : Prop :=
  (s.total_free_size_ + busyBytes s) % SIZE = s.total_alloc_size_ ∧
    (s.total_free_times_ + busyCount s) % SIZE = s.total_alloc_times_ ∧
    s.total_free_size_ < SIZE ∧ s.total_free_times_ < SIZE

end AutoGrowthBestFitAllocator

/-! # Proofs -/

namespace AutoGrowthBestFitAllocator

/-! ## Lists of blocks -/

@[simp] theorem sizes_nil : sizes [] = 0 := rfl

@[simp] theorem sizes_cons (b : Block) (bs : List Block) :
    sizes (b :: bs) = b.size_ + sizes bs := by
  simp [sizes]

@[simp] theorem sizes_append (xs ys : List Block) :
    sizes (xs ++ ys) = sizes xs + sizes ys := by
  simp [sizes]

theorem contiguous_append (p : Nat) (xs ys : List Block) :
    contiguous p (xs ++ ys) ↔ contiguous p xs ∧ contiguous (p + sizes xs) ys := by
  induction xs generalizing p with
  | nil => simp [contiguous]
  | cons b bs ih => simp [contiguous, ih, and_assoc, Nat.add_assoc]

theorem contiguous_bounds {p : Nat} {bs : List Block} (h : contiguous p bs) :
    ∀ b ∈ bs, p ≤ b.ptr_ ∧ b.ptr_ + b.size_ ≤ p + sizes bs := by
  induction bs generalizing p with
  | nil => simp
  | cons x xs ih =>
    obtain ⟨hx, hxs⟩ := h
    intro b hb
    rcases List.mem_cons.1 hb with rfl | hb
    · simp [hx]
    · have := ih hxs b hb
      simp only [sizes_cons]
      omega

theorem contiguous_pairwise {p : Nat} {bs : List Block} (h : contiguous p bs) :
    bs.Pairwise (fun x y => x.ptr_ + x.size_ ≤ y.ptr_) := by
  induction bs generalizing p with
  | nil => simp
  | cons x xs ih =>
    obtain ⟨hx, hxs⟩ := h
    refine List.pairwise_cons.2 ⟨?_, ih hxs⟩
    intro y hy
    have := contiguous_bounds hxs y hy
    omega

theorem size_le_sizes {bs : List Block} {b : Block} (hb : b ∈ bs) : b.size_ ≤ sizes bs := by
  induction bs with
  | nil => simp at hb
  | cons x xs ih =>
    rcases List.mem_cons.1 hb with rfl | hb
    · simp
    · have := ih hb
      simp only [sizes_cons]
      omega

/-! ## Dereferencing -/

theorem splitNode_eq_some {it : Nat} {bs pre post : List Block} {x : Block}
    (h : splitNode it bs = some (pre, x, post)) : bs = pre ++ x :: post ∧ x.node = it := by
  induction bs generalizing pre with
  | nil => simp [splitNode] at h
  | cons b bs ih =>
    simp only [splitNode] at h
    split_ifs at h with hb
    · simp only [Option.some.injEq, Prod.mk.injEq] at h
      obtain ⟨rfl, rfl, rfl⟩ := h
      simp [hb]
    · cases hs : splitNode it bs with
      | none => simp [hs] at h
      | some t =>
        obtain ⟨pre1, x1, post1⟩ := t
        simp only [hs, Option.some.injEq, Prod.mk.injEq] at h
        obtain ⟨rfl, rfl, rfl⟩ := h
        have := ih hs
        exact ⟨by rw [this.1]; rfl, this.2⟩

theorem splitNode_eq_none {it : Nat} {bs : List Block} (h : splitNode it bs = none) :
    ∀ b ∈ bs, b.node ≠ it := by
  induction bs with
  | nil => simp
  | cons b bs ih =>
    simp only [splitNode] at h
    split_ifs at h with hb
    cases hs : splitNode it bs with
    | none =>
      intro y hy
      rcases List.mem_cons.1 hy with rfl | hy
      · exact hb
      · exact ih hs y hy
    | some t =>
      obtain ⟨pre1, x1, post1⟩ := t
      simp [hs] at h

@[simp] theorem allBlocks_nil : allBlocks [] = [] := rfl

@[simp] theorem allBlocks_cons (c : Chunk) (cs : List Chunk) :
    allBlocks (c :: cs) = c.blocks_ ++ allBlocks cs := by
  simp [allBlocks]

@[simp] theorem allBlocks_append (xs ys : List Chunk) :
    allBlocks (xs ++ ys) = allBlocks xs ++ allBlocks ys := by
  simp [allBlocks]

theorem mem_allBlocks {b : Block} {cs : List Chunk} :
    b ∈ allBlocks cs ↔ ∃ c ∈ cs, b ∈ c.blocks_ := by
  simp [allBlocks, List.mem_flatMap]

theorem deref_eq_some {it : Nat} {cs : List Chunk} {cur : Cursor}
    (h : deref it cs = some cur) : cur.At it cs := by
  induction cs generalizing cur with
  | nil => simp [deref] at h
  | cons c cs ih =>
    simp only [deref] at h
    cases hs : splitNode it c.blocks_ with
    | some t =>
      obtain ⟨pre, x, post⟩ := t
      simp only [hs, Option.some.injEq] at h
      subst h
      have := splitNode_eq_some hs
      exact ⟨rfl, this.1, this.2⟩
    | none =>
      simp only [hs] at h
      cases hd : deref it cs with
      | none => simp [hd] at h
      | some cur1 =>
        simp only [hd, Option.some.injEq] at h
        subst h
        have := ih hd
        exact ⟨by simp [this.chunks], this.blocks, this.node⟩

theorem deref_eq_none {it : Nat} {cs : List Chunk} (h : deref it cs = none) :
    ∀ b ∈ allBlocks cs, b.node ≠ it := by
  induction cs with
  | nil => simp
  | cons c cs ih =>
    simp only [deref] at h
    cases hs : splitNode it c.blocks_ with
    | some t =>
      obtain ⟨pre, x, post⟩ := t
      simp [hs] at h
    | none =>
      simp only [hs] at h
      cases hd : deref it cs with
      | some cur1 => simp [hd] at h
      | none =>
        intro b hb
        simp only [allBlocks_cons, List.mem_append] at hb
        rcases hb with hb | hb
        · exact splitNode_eq_none hs b hb
        · exact ih hd b hb

theorem Cursor.At.allBlocks_eq {cur : Cursor} {it : Nat} {cs : List Chunk}
    (h : cur.At it cs) :
    AutoGrowthBestFitAllocator.allBlocks cs = AutoGrowthBestFitAllocator.allBlocks cur.before ++
      (cur.prevs ++ cur.block :: cur.nexts) ++ AutoGrowthBestFitAllocator.allBlocks cur.after := by
  rw [h.chunks]
  simp [h.blocks]

theorem allBlocks_store (cur : Cursor) (bs : List Block) :
    allBlocks (cur.store bs) = allBlocks cur.before ++ bs ++ allBlocks cur.after := by
  simp [Cursor.store]

theorem Cursor.At.mem_chunk {cur : Cursor} {it : Nat} {cs : List Chunk}
    (h : cur.At it cs) : cur.chunk ∈ cs := by
  rw [h.chunks]; simp

theorem Cursor.At.mem_block {cur : Cursor} {it : Nat} {cs : List Chunk}
    (h : cur.At it cs) : cur.block ∈ AutoGrowthBestFitAllocator.allBlocks cs := by
  rw [h.allBlocks_eq]; simp

/-- With distinct nodes, a block is determined by its node. -/
theorem eq_of_node_eq {bs : List Block} (hn : (bs.map Block.node).Nodup) {x y : Block}
    (hx : x ∈ bs) (hy : y ∈ bs) (h : x.node = y.node) : x = y :=
  List.inj_on_of_nodup_map hn hx hy h

/-! ## The Free Index -/

theorem keyLt_irrefl (x : Key) : ¬ keyLt x x := by
  unfold keyLt; omega

theorem keyLt_trans {x y z : Key} (h1 : keyLt x y) (h2 : keyLt y z) : keyLt x z := by
  unfold keyLt at *; omega

theorem keyLt_asymm {x y : Key} (h1 : keyLt x y) : ¬ keyLt y x := by
  unfold keyLt at *; omega

theorem keyLt_total {x y : Key} (h1 : ¬ keyLt x y) (h2 : ¬ keyLt y x) : x = y := by
  unfold keyLt at *
  apply Prod.ext <;> omega

/-- The keys not less than `(n, 0)` are those whose size is at least `n`. -/
theorem not_keyLt_zero (k : Key) (n : Nat) : ¬ keyLt k (n, 0) ↔ n ≤ k.1 := by
  unfold keyLt; simp

theorem mem_erase {e : Key × Nat} {k : Key} {m : FreeBlocks} :
    e ∈ erase k m ↔ e ∈ m ∧ e.1 ≠ k := by
  simp [erase, List.mem_filter]

theorem erase_sublist (k : Key) (m : FreeBlocks) : (erase k m).Sublist m :=
  List.filter_sublist m

theorem sorted_erase {k : Key} {m : FreeBlocks}
    (h : m.Pairwise (fun e f => keyLt e.1 f.1)) :
    (erase k m).Pairwise (fun e f => keyLt e.1 f.1) :=
  h.sublist (erase_sublist k m)

theorem mem_insertEntry {x e : Key × Nat} {m : FreeBlocks} :
    x ∈ insertEntry e m ↔ x = e ∨ x ∈ m := by
  induction m with
  | nil => simp [insertEntry]
  | cons y ys ih =>
    simp only [insertEntry]
    split_ifs
    · simp
    · simp only [List.mem_cons, ih]
      tauto

theorem sorted_insertEntry {e : Key × Nat} {m : FreeBlocks}
    (h : m.Pairwise (fun e f => keyLt e.1 f.1)) (hk : ∀ x ∈ m, x.1 ≠ e.1) :
    (insertEntry e m).Pairwise (fun e f => keyLt e.1 f.1) := by
  induction m with
  | nil => simp [insertEntry]
  | cons y ys ih =>
    simp only [insertEntry]
    have hy := List.pairwise_cons.1 h
    split_ifs with hlt
    · refine List.pairwise_cons.2 ⟨?_, h⟩
      intro z hz
      rcases List.mem_cons.1 hz with rfl | hz
      · exact hlt
      · exact keyLt_trans hlt (hy.1 z hz)
    · refine List.pairwise_cons.2 ⟨?_, ih hy.2 (fun x hx => hk x (List.mem_cons_of_mem _ hx))⟩
      intro z hz
      rcases mem_insertEntry.1 hz with rfl | hz
      · by_contra hc
        exact hk y (List.mem_cons_self _ _) (keyLt_total hc hlt)
      · exact hy.1 z hz

theorem mem_emplace {x : Key × Nat} {k : Key} {it : Nat} {m : FreeBlocks} :
    x ∈ emplace k it m ↔ x ∈ m ∨ (x = (k, it) ∧ ∀ e ∈ m, e.1 ≠ k) := by
  unfold emplace
  split_ifs with h
  · simp only [List.any_eq_true, decide_eq_true_eq] at h
    obtain ⟨e, he, hek⟩ := h
    constructor
    · exact Or.inl
    · rintro (h | ⟨_, h⟩)
      · exact h
      · exact absurd hek (h e he)
  · simp only [List.any_eq_true, decide_eq_true_eq, not_exists, not_and] at h
    rw [mem_insertEntry]
    constructor
    · rintro (h1 | h1)
      · exact Or.inr ⟨h1, h⟩
      · exact Or.inl h1
    · rintro (h1 | ⟨h1, _⟩)
      · exact Or.inr h1
      · exact Or.inl h1

theorem mem_emplace_of_mem {x : Key × Nat} {k : Key} {it : Nat} {m : FreeBlocks}
    (h : x ∈ m) : x ∈ emplace k it m :=
  mem_emplace.2 (Or.inl h)

theorem sorted_emplace {k : Key} {it : Nat} {m : FreeBlocks}
    (h : m.Pairwise (fun e f => keyLt e.1 f.1)) :
    (emplace k it m).Pairwise (fun e f => keyLt e.1 f.1) := by
  unfold emplace
  split_ifs with hk
  · exact h
  · simp only [List.any_eq_true, decide_eq_true_eq, not_exists, not_and] at hk
    exact sorted_insertEntry h hk

/-- In a sorted index an entry is determined by its key. -/
theorem eq_of_key_eq {m : FreeBlocks} (h : m.Pairwise (fun e f => keyLt e.1 f.1))
    {x y : Key × Nat} (hx : x ∈ m) (hy : y ∈ m) (hxy : x.1 = y.1) : x = y := by
  by_contra hne
  have hs : Symmetric (fun e f : Key × Nat => e.1 ≠ f.1) := fun _ _ h => h.symm
  have h2 : m.Pairwise (fun e f => e.1 ≠ f.1) :=
    h.imp (fun {a b} hab (heq : a.1 = b.1) => keyLt_irrefl b.1 (heq ▸ hab))
  exact h2.forall hs hx hy hne hxy

theorem lower_bound_eq_some {k : Key} {m : FreeBlocks} {e : Key × Nat}
    (h : lower_bound k m = some e) : e ∈ m ∧ ¬ keyLt e.1 k := by
  unfold lower_bound at h
  have h1 := List.mem_of_find?_eq_some h
  have h2 := List.find?_some h
  simp only [decide_eq_true_eq] at h2
  exact ⟨h1, h2⟩

/-- The entry found by `lower_bound` has the least key among those not less than `k`. -/
theorem lower_bound_least {k : Key} {m : FreeBlocks} {e : Key × Nat}
    (hs : m.Pairwise (fun e f => keyLt e.1 f.1))
    (h : lower_bound k m = some e) :
    ∀ x ∈ m, ¬ keyLt x.1 k → x = e ∨ keyLt e.1 x.1 := by
  unfold lower_bound at h
  rw [List.find?_eq_some] at h
  obtain ⟨_, as, bs, rfl, has⟩ := h
  intro x hx hxk
  simp only [List.mem_append, List.mem_cons] at hx
  rcases hx with hx | rfl | hx
  · have := has x hx
    simp only [Bool.not_eq_true', decide_eq_false_iff_not, not_not] at this
    exact absurd this hxk
  · exact Or.inl rfl
  · right
    have := (List.pairwise_append.1 hs).2.1
    exact (List.pairwise_cons.1 this).1 x hx

theorem lower_bound_eq_none {k : Key} {m : FreeBlocks} (h : lower_bound k m = none) :
    ∀ x ∈ m, keyLt x.1 k := by
  unfold lower_bound at h
  rw [List.find?_eq_none] at h
  intro x hx
  have := h x hx
  simpa using this

/-! ## The loop of FreeIdleChunks -/

theorem idle_iff {c : Chunk} :
    c.idle = true ↔ ∃ b, c.blocks_ = [b] ∧ b.is_free_ = true := by
  unfold Chunk.idle
  split
  · next b hb => simp [hb]
  · next h =>
    simp only [Bool.false_eq_true, false_iff, not_exists, not_and]
    intro b hb
    exact absurd hb (h b)

theorem freeIdleLoop_cons (c : Chunk) (cs : List Chunk) (m : FreeBlocks) (bytes : Nat) :
    freeIdleLoop (c :: cs) m bytes =
      if c.idle = true then
        freeIdleLoop cs (erase (sizes c.blocks_, (c.blocks_.map Block.ptr_).sum) m)
          ((bytes + sizes c.blocks_) % SIZE)
      else
        (c :: (freeIdleLoop cs m bytes).1, (freeIdleLoop cs m bytes).2.1,
          (freeIdleLoop cs m bytes).2.2) := by
  rw [freeIdleLoop]
  split
  · next b hb =>
    by_cases hf : b.is_free_ = true
    · have : c.idle = true := idle_iff.2 ⟨b, hb, hf⟩
      simp [hf, this, hb]
    · have : ¬ c.idle = true := by
        rw [idle_iff]; rintro ⟨b1, h1, h2⟩
        rw [hb] at h1
        simp only [List.cons.injEq, and_true] at h1
        exact hf (h1 ▸ h2)
      simp [hf, this]
  · next h =>
    have : ¬ c.idle = true := by
      rw [idle_iff]; rintro ⟨b1, h1, _⟩
      exact h b1 h1
    simp [this]

theorem freeIdleLoop_chunks (cs : List Chunk) (m : FreeBlocks) (bytes : Nat) :
    (freeIdleLoop cs m bytes).1 = cs.filter (fun c => !c.idle) := by
  induction cs generalizing m bytes with
  | nil => simp [freeIdleLoop]
  | cons c cs ih =>
    rw [freeIdleLoop_cons]
    split_ifs with h
    · rw [ih]; simp [h]
    · simp [h, ih]

theorem mem_freeIdleLoop_index (cs : List Chunk) (m : FreeBlocks) (bytes : Nat)
    (e : Key × Nat) :
    e ∈ (freeIdleLoop cs m bytes).2.1 ↔ e ∈ m ∧ e.1 ∉ idleKeys cs := by
  induction cs generalizing m bytes with
  | nil => simp [freeIdleLoop, idleKeys]
  | cons c cs ih =>
    rw [freeIdleLoop_cons]
    split_ifs with h
    · rw [ih, mem_erase]
      obtain ⟨b, hb, _⟩ := idle_iff.1 h
      simp only [idleKeys, List.filter_cons, h, if_true, allBlocks_cons, hb, List.map_append,
        List.map_cons, List.map_nil, List.mem_append, List.mem_singleton, sizes_cons, sizes_nil,
        List.sum_cons, List.sum_nil, Nat.add_zero, not_or, ne_eq, List.singleton_append,
        List.mem_cons]
      tauto
    · simp only [ih]
      simp [idleKeys, List.filter_cons, h]

theorem freeIdleLoop_index_sublist (cs : List Chunk) (m : FreeBlocks) (bytes : Nat) :
    (freeIdleLoop cs m bytes).2.1.Sublist m := by
  induction cs generalizing m bytes with
  | nil => simp [freeIdleLoop]
  | cons c cs ih =>
    rw [freeIdleLoop_cons]
    split_ifs with h
    · exact (ih _ _).trans (erase_sublist _ _)
    · exact ih _ _

theorem freeIdleLoop_bytes (cs : List Chunk) (m : FreeBlocks) (bytes : Nat) :
    (freeIdleLoop cs m bytes).2.2 % SIZE =
      (bytes + ((cs.filter Chunk.idle).map (fun c => sizes c.blocks_)).sum) % SIZE := by
  induction cs generalizing m bytes with
  | nil => simp [freeIdleLoop]
  | cons c cs ih =>
    rw [freeIdleLoop_cons]
    split_ifs with h
    · rw [ih]
      simp only [List.filter_cons, h, if_true, List.map_cons, List.sum_cons]
      rw [Nat.add_mod, Nat.mod_mod, ← Nat.add_mod, Nat.add_assoc]
    · simp only [ih]
      simp [List.filter_cons, h]

theorem freeIdleLoop_bytes_lt (cs : List Chunk) (m : FreeBlocks) (bytes : Nat)
    (hb : bytes < SIZE) : (freeIdleLoop cs m bytes).2.2 < SIZE := by
  induction cs generalizing m bytes with
  | nil => simpa [freeIdleLoop] using hb
  | cons c cs ih =>
    rw [freeIdleLoop_cons]
    split_ifs with h
    · exact ih _ _ (Nat.mod_lt _ (by unfold SIZE; positivity))
    · exact ih _ _ hb

theorem allBlocks_sublist {xs ys : List Chunk} (h : xs.Sublist ys) :
    (allBlocks xs).Sublist (allBlocks ys) := by
  induction h with
  | slnil => simp
  | cons c _ ih =>
    simp only [allBlocks_cons]
    exact ih.trans (List.sublist_append_right _ _)
  | cons₂ c _ ih =>
    simp only [allBlocks_cons]
    exact List.Sublist.append (List.Sublist.refl _) ih

theorem mem_allBlocks_filter_not_idle {cs : List Chunk} {b : Block} :
    b ∈ allBlocks (cs.filter (fun c => !c.idle)) ↔
      ∃ c ∈ cs, b ∈ c.blocks_ ∧ c.idle = false := by
  simp only [mem_allBlocks, List.mem_filter, Bool.not_eq_true', and_assoc]
  constructor
  · rintro ⟨c, hc, hi, hb⟩
    exact ⟨c, hc, hb, hi⟩
  · rintro ⟨c, hc, hb, hi⟩
    exact ⟨c, hc, hi, hb⟩

theorem mem_idleKeys {cs : List Chunk} {k : Key} :
    k ∈ idleKeys cs ↔ ∃ c ∈ cs, ∃ b, c.blocks_ = [b] ∧ b.is_free_ = true ∧
      k = (b.size_, b.ptr_) := by
  simp only [idleKeys, List.mem_map, mem_allBlocks, List.mem_filter]
  constructor
  · rintro ⟨b, ⟨c, ⟨hc, hi⟩, hb⟩, rfl⟩
    obtain ⟨b1, h1, h2⟩ := idle_iff.1 hi
    rw [h1] at hb
    simp only [List.mem_singleton] at hb
    subst hb
    exact ⟨c, hc, b, h1, h2, rfl⟩
  · rintro ⟨c, hc, b, h1, h2, rfl⟩
    exact ⟨b, ⟨c, ⟨hc, idle_iff.2 ⟨b, h1, h2⟩⟩, by simp [h1]⟩, rfl⟩

/-! ## Geometry of the blocks -/

theorem apart_symm {p n q k : Nat} (h : apart p n q k) : apart q k p n := by
  unfold apart at *; omega

theorem block_in_chunk {c : Chunk} (hp : Partition c) {b : Block} (hb : b ∈ c.blocks_) :
    c.allocation_.ptr ≤ b.ptr_ ∧
      b.ptr_ + b.size_ ≤ c.allocation_.ptr + c.allocation_.size := by
  have := contiguous_bounds hp.contig b hb
  rw [hp.total] at this
  exact this

theorem blocks_apart_list {p : Nat} {bs : List Block} (h : contiguous p bs) {x y : Block}
    (hx : x ∈ bs) (hy : y ∈ bs) (hne : x ≠ y) : apart x.ptr_ x.size_ y.ptr_ y.size_ := by
  have h1 : bs.Pairwise (fun x y => apart x.ptr_ x.size_ y.ptr_ y.size_) :=
    (contiguous_pairwise h).imp (fun hab => Or.inl hab)
  exact h1.forall (fun _ _ hab => apart_symm hab) hx hy hne

/-- Two different blocks of the pool lie apart. -/
theorem blocks_apart {cs : List Chunk} (hpart : ∀ c ∈ cs, Partition c)
    (hdis : cs.Pairwise (fun c d => separated c.allocation_ d.allocation_))
    {x y : Block} (hx : x ∈ allBlocks cs) (hy : y ∈ allBlocks cs) (hne : x ≠ y) :
    apart x.ptr_ x.size_ y.ptr_ y.size_ := by
  obtain ⟨c, hc, hxc⟩ := mem_allBlocks.1 hx
  obtain ⟨d, hd, hyd⟩ := mem_allBlocks.1 hy
  by_cases hcd : c = d
  · subst hcd
    exact blocks_apart_list (hpart c hc).contig hxc hyd hne
  · have hs : separated c.allocation_ d.allocation_ :=
      hdis.forall (fun _ _ hab => apart_symm hab) hc hd hcd
    have h1 := block_in_chunk (hpart c hc) hxc
    have h2 := block_in_chunk (hpart d hd) hyd
    unfold separated apart at hs
    unfold apart
    omega

/-- Among the blocks of non-zero size, a block is determined by its address. -/
theorem block_unique {cs : List Chunk} (hpart : ∀ c ∈ cs, Partition c)
    (hdis : cs.Pairwise (fun c d => separated c.allocation_ d.allocation_))
    {x y : Block} (hx : x ∈ allBlocks cs) (hy : y ∈ allBlocks cs)
    (hp : x.ptr_ = y.ptr_) (hx0 : 0 < x.size_) (hy0 : 0 < y.size_) : x = y := by
  by_contra hne
  have := blocks_apart hpart hdis hx hy hne
  unfold apart at this
  omega

/-- With distinct nodes, a block lies in one chunk only. -/
theorem chunk_unique {cs : List Chunk} (hn : ((allBlocks cs).map Block.node).Nodup)
    {c d : Chunk} (hc : c ∈ cs) (hd : d ∈ cs) {b : Block}
    (hbc : b ∈ c.blocks_) (hbd : b ∈ d.blocks_) : c = d := by
  induction cs with
  | nil => simp at hc
  | cons x xs ih =>
    simp only [allBlocks_cons, List.map_append] at hn
    obtain ⟨_, h2, h3⟩ := List.nodup_append.1 hn
    have key : ∀ e ∈ xs, b ∈ x.blocks_ → b ∈ e.blocks_ → False := by
      intro e he h4 h5
      exact h3 (List.mem_map_of_mem _ h4)
        (List.mem_map_of_mem _ (mem_allBlocks.2 ⟨e, he, h5⟩))
    rcases List.mem_cons.1 hc with rfl | hc1 <;> rcases List.mem_cons.1 hd with rfl | hd1
    · rfl
    · exact (key d hd1 hbc hbd).elim
    · exact (key c hc1 hbd hbc).elim
    · exact ih h2 hc1 hd1

/-! ## The invariant -/

theorem Inv.congr_state {s t : State} {L : List BlockAllocation} (h : Inv s L)
    (h1 : t.chunks_ = s.chunks_) (h2 : t.free_blocks_ = s.free_blocks_)
    (h3 : t.fresh = s.fresh) : Inv t L := by
  obtain ⟨a1, a2, a3, a4, a5, a6, a7, a8, a9, a10⟩ := h
  constructor <;> (try simp only [h1, h2, h3]) <;> assumption

theorem Inv2.congr_state2 {a : Config} {s t : State} (h : Inv2 a s)
    (h1 : t.chunks_ = s.chunks_) (h2 : t.free_blocks_ = s.free_blocks_) : Inv2 a t := by
  obtain ⟨a1, a2, a3, a4⟩ := h
  constructor <;> (try simp only [h1, h2]) <;> assumption

theorem Inv.of_init : Inv State.init [] := by
  constructor <;> simp [State.init]

theorem Inv2.of_init2 (a : Config) : Inv2 a State.init := by
  constructor <;> simp [State.init]

/-- The block of a free-index entry or of a live handle lies in a chunk that is not
idle, unless it is the sole free block of its chunk. -/
theorem mem_kept_of_not_key {cs : List Chunk} {b : Block} (hb : b ∈ allBlocks cs)
    (h : b.is_free_ = true → (b.size_, b.ptr_) ∉ idleKeys cs) :
    b ∈ allBlocks (cs.filter (fun c => !c.idle)) := by
  obtain ⟨c, hc, hbc⟩ := mem_allBlocks.1 hb
  refine mem_allBlocks_filter_not_idle.2 ⟨c, hc, hbc, ?_⟩
  by_contra hi
  simp only [Bool.not_eq_false] at hi
  obtain ⟨b1, h1, h2⟩ := idle_iff.1 hi
  rw [h1] at hbc
  simp only [List.mem_singleton] at hbc
  subst hbc
  exact h h2 (mem_idleKeys.2 ⟨c, hc, b, h1, h2, rfl⟩)

theorem freeIdle_inv {s : State} {L : List BlockAllocation} (h : Inv s L) (bytes : Nat) :
    Inv { s with chunks_ := (freeIdleLoop s.chunks_ s.free_blocks_ bytes).1
                 free_blocks_ := (freeIdleLoop s.chunks_ s.free_blocks_ bytes).2.1 } L := by
  have hsub : (s.chunks_.filter (fun c => !c.idle)).Sublist s.chunks_ := List.filter_sublist _
  have hmem : ∀ c ∈ s.chunks_.filter (fun c => !c.idle), c ∈ s.chunks_ :=
    fun c hc => hsub.subset hc
  have hall := allBlocks_sublist hsub
  constructor <;> (try simp only [freeIdleLoop_chunks])
  · exact fun c hc => h.partition c (hmem c hc)
  · exact fun c hc => h.maximal c (hmem c hc)
  · exact fun c hc => h.small c (hmem c hc)
  · exact (hall.map _).nodup h.nodes_nodup
  · exact fun b hb => h.nodes_lt b (hall.subset hb)
  · exact h.index_sorted.sublist (freeIdleLoop_index_sublist _ _ _)
  · intro e he
    rw [mem_freeIdleLoop_index] at he
    obtain ⟨b, hb, hd⟩ := h.index_valid e he.1
    refine ⟨b, mem_kept_of_not_key hb (fun _ => ?_), hd⟩
    rw [← hd.2.2]
    exact he.2
  · intro g hg
    obtain ⟨b, hb, hd⟩ := h.live g hg
    refine ⟨b, mem_kept_of_not_key hb (fun hf => ?_), hd⟩
    rw [hd.2.1] at hf
    exact absurd hf (by simp)
  · exact h.live_nodup
  · exact fun b hb hf => h.owned b (hall.subset hb) hf

theorem FreeIdleChunks_inv (a : Config) {s : State} {L : List BlockAllocation}
    (h : Inv s L) : Inv (FreeIdleChunks a s).1 L := by
  unfold FreeIdleChunks
  split_ifs
  · exact h
  · exact freeIdle_inv h 0

theorem freeIdle_inv2 {a : Config} {s : State} {L : List BlockAllocation} (h : Inv s L)
    (h2 : Inv2 a s) (bytes : Nat) :
    Inv2 a { s with chunks_ := (freeIdleLoop s.chunks_ s.free_blocks_ bytes).1
                    free_blocks_ := (freeIdleLoop s.chunks_ s.free_blocks_ bytes).2.1 } := by
  have hsub : (s.chunks_.filter (fun c => !c.idle)).Sublist s.chunks_ := List.filter_sublist _
  have hmem : ∀ c ∈ s.chunks_.filter (fun c => !c.idle), c ∈ s.chunks_ :=
    fun c hc => hsub.subset hc
  have hall := allBlocks_sublist hsub
  constructor <;> (try simp only [freeIdleLoop_chunks])
  · exact fun hA c hc => h2.bounded hA c (hmem c hc)
  · exact h2.disjoint.sublist hsub
  · exact fun c hc => h2.chunk_min c (hmem c hc)
  · intro b hb hf h0
    rw [mem_freeIdleLoop_index]
    refine ⟨h2.covers b (hall.subset hb) hf h0, ?_⟩
    intro hk
    obtain ⟨c0, hc0, b0, hb0, hf0, hk0⟩ := mem_idleKeys.1 hk
    simp only [Prod.mk.injEq] at hk0
    have hb0m : b0 ∈ allBlocks s.chunks_ := mem_allBlocks.2 ⟨c0, hc0, by simp [hb0]⟩
    have heq : b = b0 :=
      block_unique h.partition h2.disjoint (hall.subset hb) hb0m hk0.2 h0 (hk0.1 ▸ h0)
    subst heq
    obtain ⟨c, hc, hbc, hi⟩ := mem_allBlocks_filter_not_idle.1 hb
    have : c = c0 := chunk_unique h.nodes_nodup hc hc0 hbc (by simp [hb0])
    subst this
    rw [idle_iff.2 ⟨b, hb0, hf0⟩] at hi
    exact absurd hi (by simp)

theorem FreeIdleChunks_inv2 (a : Config) {s : State} {L : List BlockAllocation}
    (h : Inv s L) (h2 : Inv2 a s) : Inv2 a (FreeIdleChunks a s).1 := by
  unfold FreeIdleChunks
  split_ifs
  · exact h2
  · exact freeIdle_inv2 h h2 0

/-! ## Carving a new chunk -/

theorem SIZE_pos : 0 < SIZE := by unfold SIZE; positivity

theorem wrap_sub {n size : Nat} (h1 : size ≤ n) (h2 : n < SIZE) :
    (n + SIZE - size) % SIZE = n - size := by
  have : n + SIZE - size = (n - size) + SIZE := by omega
  rw [this, Nat.add_mod_right]
  exact Nat.mod_eq_of_lt (by omega)

theorem wrap_add {x y : Nat} (h : x + y < SIZE) : (x + y) % SIZE = x + y :=
  Nat.mod_eq_of_lt h

theorem live_node_lt {s : State} {L : List BlockAllocation} (h : Inv s L)
    {g : BlockAllocation} (hg : g ∈ L) : g.block_it_ < s.fresh := by
  obtain ⟨b, hb, hd⟩ := h.live g hg
  rw [← hd.1]
  exact h.nodes_lt b hb

theorem carve_inv {s : State} {L : List BlockAllocation} (h : Inv s L) {r : Allocation}
    {size : Nat} (h1 : size ≤ r.size) (h2 : r.size < SIZE) :
    Inv (carve s r size).1 ((carve s r size).2 :: L) := by
  have hw := wrap_sub h1 h2
  have hlt : ∀ g ∈ L, g.block_it_ < s.fresh := fun g hg => live_node_lt h hg
  have hnl : ∀ n ∈ (allBlocks s.chunks_).map Block.node, n < s.fresh := by
    intro n hn
    obtain ⟨b, hb, rfl⟩ := List.mem_map.1 hn
    exact h.nodes_lt b hb
  unfold carve
  simp only [hw]
  split_ifs with hr
  · constructor
    · intro c hc
      simp only [List.mem_append, List.mem_singleton] at hc
      rcases hc with hc | rfl
      · exact h.partition c hc
      · refine ⟨by simp, by simp [contiguous], ?_⟩
        simp only [sizes_cons, sizes_nil]
        omega
    · intro c hc
      simp only [List.mem_append, List.mem_singleton] at hc
      rcases hc with hc | rfl
      · exact h.maximal c hc
      · simp [noAdjFree]
    · intro c hc
      simp only [List.mem_append, List.mem_singleton] at hc
      rcases hc with hc | rfl
      · exact h.small c hc
      · exact h2
    · simp only [allBlocks_append, allBlocks_cons, allBlocks_nil, List.append_nil,
        List.map_append, List.map_cons, List.map_nil]
      refine List.nodup_append.2 ⟨h.nodes_nodup, by simp, ?_⟩
      intro n hn hn2
      have := hnl n hn
      simp only [List.mem_cons, List.mem_singleton, List.not_mem_nil, or_false] at hn2
      omega
    · intro b hb
      simp only [allBlocks_append, allBlocks_cons, allBlocks_nil, List.append_nil,
        List.mem_append, List.mem_cons, List.not_mem_nil, or_false] at hb
      rcases hb with hb | rfl | rfl
      · have := h.nodes_lt b hb
        show b.node < s.fresh + 2
        omega
      · show s.fresh < s.fresh + 2
        omega
      · show s.fresh + 1 < s.fresh + 2
        omega
    · exact sorted_emplace h.index_sorted
    · intro e he
      simp only [allBlocks_append, allBlocks_cons, allBlocks_nil, List.append_nil,
        List.mem_append, List.mem_cons, List.not_mem_nil, or_false]
      rcases mem_emplace.1 he with he | ⟨rfl, _⟩
      · obtain ⟨b, hb, hd⟩ := h.index_valid e he
        exact ⟨b, Or.inl hb, hd⟩
      · exact ⟨_, Or.inr (Or.inl rfl), rfl, rfl, rfl⟩
    · intro g hg
      simp only [allBlocks_append, allBlocks_cons, allBlocks_nil, List.append_nil,
        List.mem_append, List.mem_cons, List.not_mem_nil, or_false]
      rcases List.mem_cons.1 hg with rfl | hg
      · exact ⟨_, Or.inr (Or.inr rfl), rfl, rfl, rfl, rfl⟩
      · obtain ⟨b, hb, hd⟩ := h.live g hg
        exact ⟨b, Or.inl hb, hd⟩
    · simp only [List.map_cons]
      refine List.nodup_cons.2 ⟨?_, h.live_nodup⟩
      intro hm
      obtain ⟨g, hg, hge⟩ := List.mem_map.1 hm
      have := hlt g hg
      have hge2 : g.block_it_ = _ := hge
      omega
    · intro b hb hf
      simp only [allBlocks_append, allBlocks_cons, allBlocks_nil, List.append_nil,
        List.mem_append, List.mem_cons, List.not_mem_nil, or_false] at hb
      rcases hb with hb | rfl | rfl
      · obtain ⟨g, hg, hge⟩ := h.owned b hb hf
        exact ⟨g, List.mem_cons_of_mem _ hg, hge⟩
      · simp at hf
      · exact ⟨_, List.mem_cons_self _ _, rfl⟩
  · have hr0 : r.size - size = 0 := by omega
    constructor
    · intro c hc
      simp only [List.mem_append, List.mem_singleton] at hc
      rcases hc with hc | rfl
      · exact h.partition c hc
      · refine ⟨by simp, by simp [contiguous, hr0], ?_⟩
        simp only [sizes_cons, sizes_nil]
        omega
    · intro c hc
      simp only [List.mem_append, List.mem_singleton] at hc
      rcases hc with hc | rfl
      · exact h.maximal c hc
      · simp [noAdjFree]
    · intro c hc
      simp only [List.mem_append, List.mem_singleton] at hc
      rcases hc with hc | rfl
      · exact h.small c hc
      · exact h2
    · simp only [allBlocks_append, allBlocks_cons, allBlocks_nil, List.append_nil,
        List.map_append, List.map_cons, List.map_nil]
      refine List.nodup_append.2 ⟨h.nodes_nodup, by simp, ?_⟩
      intro n hn hn2
      have := hnl n hn
      simp only [List.mem_cons, List.mem_singleton, List.not_mem_nil, or_false] at hn2
      omega
    · intro b hb
      simp only [allBlocks_append, allBlocks_cons, allBlocks_nil, List.append_nil,
        List.mem_append, List.mem_cons, List.not_mem_nil, or_false] at hb
      rcases hb with hb | rfl
      · have := h.nodes_lt b hb
        show b.node < s.fresh + 1
        omega
      · show s.fresh < s.fresh + 1
        omega
    · exact h.index_sorted
    · intro e he
      simp only [allBlocks_append, allBlocks_cons, allBlocks_nil, List.append_nil,
        List.mem_append, List.mem_cons, List.not_mem_nil, or_false]
      obtain ⟨b, hb, hd⟩ := h.index_valid e he
      exact ⟨b, Or.inl hb, hd⟩
    · intro g hg
      simp only [allBlocks_append, allBlocks_cons, allBlocks_nil, List.append_nil,
        List.mem_append, List.mem_cons, List.not_mem_nil, or_false]
      rcases List.mem_cons.1 hg with rfl | hg
      · exact ⟨_, Or.inr rfl, rfl, rfl, rfl, rfl⟩
      · obtain ⟨b, hb, hd⟩ := h.live g hg
        exact ⟨b, Or.inl hb, hd⟩
    · simp only [List.map_cons]
      refine List.nodup_cons.2 ⟨?_, h.live_nodup⟩
      intro hm
      obtain ⟨g, hg, hge⟩ := List.mem_map.1 hm
      have := hlt g hg
      have hge2 : g.block_it_ = _ := hge
      omega
    · intro b hb hf
      simp only [allBlocks_append, allBlocks_cons, allBlocks_nil, List.append_nil,
        List.mem_append, List.mem_cons, List.not_mem_nil, or_false] at hb
      rcases hb with hb | rfl
      · obtain ⟨g, hg, hge⟩ := h.owned b hb hf
        exact ⟨g, List.mem_cons_of_mem _ hg, hge⟩
      · exact ⟨_, List.mem_cons_self _ _, rfl⟩

theorem carve_inv2 {a : Config} {s : State} {L : List BlockAllocation} (h : Inv s L)
    (k : Inv2 a s) {r : Allocation} {size : Nat} (h1 : size ≤ r.size) (h2 : r.size < SIZE)
    (h3 : Addressable a.underlying_allocator_ → 0 < r.ptr ∧ r.ptr + r.size ≤ SIZE)
    (h5 : ∀ c ∈ s.chunks_, separated c.allocation_ r) (h6 : a.chunk_size_ ≤ r.size) :
    Inv2 a (carve s r size).1 := by
  have hw := wrap_sub h1 h2
  unfold carve
  simp only [hw]
  split_ifs with hr
  · constructor
    · intro hA c hc
      simp only [List.mem_append, List.mem_singleton] at hc
      rcases hc with hc | rfl
      · exact k.bounded hA c hc
      · exact h3 hA
    · refine List.pairwise_append.2 ⟨k.disjoint, by simp, ?_⟩
      intro c hc d hd
      simp only [List.mem_singleton] at hd
      subst hd
      exact h5 c hc
    · intro c hc
      simp only [List.mem_append, List.mem_singleton] at hc
      rcases hc with hc | rfl
      · exact k.chunk_min c hc
      · exact h6
    · intro b hb hf h0
      simp only [allBlocks_append, allBlocks_cons, allBlocks_nil, List.append_nil,
        List.mem_append, List.mem_cons, List.not_mem_nil, or_false] at hb
      rcases hb with hb | rfl | rfl
      · exact mem_emplace_of_mem (k.covers b hb hf h0)
      · refine mem_emplace.2 (Or.inr ⟨rfl, ?_⟩)
        intro e he hk
        obtain ⟨y, hy, hd⟩ := h.index_valid e he
        obtain ⟨c, hc, hyc⟩ := mem_allBlocks.1 hy
        have hb1 := block_in_chunk (h.partition c hc) hyc
        have hs := h5 c hc
        have hk2 := hd.2.2
        rw [hk] at hk2
        simp only [Prod.mk.injEq] at hk2
        unfold separated apart at hs
        omega
      · simp at hf
  · constructor
    · intro hA c hc
      simp only [List.mem_append, List.mem_singleton] at hc
      rcases hc with hc | rfl
      · exact k.bounded hA c hc
      · exact h3 hA
    · refine List.pairwise_append.2 ⟨k.disjoint, by simp, ?_⟩
      intro c hc d hd
      simp only [List.mem_singleton] at hd
      subst hd
      exact h5 c hc
    · intro c hc
      simp only [List.mem_append, List.mem_singleton] at hc
      rcases hc with hc | rfl
      · exact k.chunk_min c hc
      · exact h6
    · intro b hb hf h0
      simp only [allBlocks_append, allBlocks_cons, allBlocks_nil, List.append_nil,
        List.mem_append, List.mem_cons, List.not_mem_nil, or_false] at hb
      rcases hb with hb | rfl
      · exact k.covers b hb hf h0
      · simp at hf

/-! ## The growth miss -/

theorem underlyingAllocate_inv (a : Config) {s : State} {L : List BlockAllocation}
    (h : Inv s L) (n : Nat) : Inv (underlyingAllocate a s n).1 L :=
  h.congr_state rfl rfl rfl

theorem underlyingAllocate_inv2 (a : Config) {s : State} (h : Inv2 a s) (n : Nat) :
    Inv2 a (underlyingAllocate a s n).1 :=
  h.congr_state2 rfl rfl

/-- The handle list after an `Allocate` that returned `r`. -/
theorem allocateMiss_inv {a : Config} (hu : Sized a.underlying_allocator_) {s : State}
    {L : List BlockAllocation} (h : Inv s L) (size : Nat) :
    Inv (allocateMiss a s size).1
      (match (allocateMiss a s size).2 with
        | some g => g :: L
        | none => L) := by
  have hs1 : Inv (if a.FLAGS_free_when_no_cache_hit = true then (FreeIdleChunks a s).1 else s)
      L := by
    split_ifs
    · exact FreeIdleChunks_inv a h
    · exact h
  unfold allocateMiss
  simp only
  generalize (if a.FLAGS_free_when_no_cache_hit = true then (FreeIdleChunks a s).1 else s) = s1
    at hs1
  cases hr : (underlyingAllocate a s1 (max size a.chunk_size_)).2 with
  | some r =>
    have hr2 : underlyingAllocate a s1 (max size a.chunk_size_) =
        ((underlyingAllocate a s1 (max size a.chunk_size_)).1, some r) := by
      rw [← hr]
    rw [hr2]
    simp only
    have := hu _ _ _ _ hr
    exact carve_inv (underlyingAllocate_inv a hs1 _) (by omega) this.2
  | none =>
    have hr2 : underlyingAllocate a s1 (max size a.chunk_size_) =
        ((underlyingAllocate a s1 (max size a.chunk_size_)).1, none) := by
      rw [← hr]
    rw [hr2]
    simp only
    split_ifs with hf
    · exact underlyingAllocate_inv a hs1 _
    · have hs3 := FreeIdleChunks_inv a (underlyingAllocate_inv a hs1 (max size a.chunk_size_))
      generalize (FreeIdleChunks a (underlyingAllocate a s1 (max size a.chunk_size_)).1).1 = s3
        at hs3
      cases hq : (underlyingAllocate a s3 (max size a.chunk_size_)).2 with
      | some r =>
        have hq2 : underlyingAllocate a s3 (max size a.chunk_size_) =
            ((underlyingAllocate a s3 (max size a.chunk_size_)).1, some r) := by
          rw [← hq]
        rw [hq2]
        simp only
        have := hu _ _ _ _ hq
        exact carve_inv (underlyingAllocate_inv a hs3 _) (by omega) this.2
      | none =>
        have hq2 : underlyingAllocate a s3 (max size a.chunk_size_) =
            ((underlyingAllocate a s3 (max size a.chunk_size_)).1, none) := by
          rw [← hq]
        rw [hq2]
        simp only
        exact underlyingAllocate_inv a hs3 _

theorem WellBehaved.sized {u : Nat → List Allocation → Nat → Option Allocation}
    (hu : WellBehaved u) : Sized u := by
  intro k held n r hr
  have := hu k held n r hr
  exact ⟨this.1, this.2.1⟩

theorem allocateMiss_inv2 {a : Config} (hu : WellBehaved a.underlying_allocator_)
    {s : State} {L : List BlockAllocation} (h : Inv s L) (k : Inv2 a s) (size : Nat) :
    Inv2 a (allocateMiss a s size).1 := by
  have hs1 : Inv (if a.FLAGS_free_when_no_cache_hit = true then (FreeIdleChunks a s).1 else s)
      L := by
    split_ifs
    · exact FreeIdleChunks_inv a h
    · exact h
  have ks1 : Inv2 a
      (if a.FLAGS_free_when_no_cache_hit = true then (FreeIdleChunks a s).1 else s) := by
    split_ifs
    · exact FreeIdleChunks_inv2 a h k
    · exact k
  unfold allocateMiss
  simp only
  generalize (if a.FLAGS_free_when_no_cache_hit = true then (FreeIdleChunks a s).1 else s) = s1
    at hs1 ks1
  cases hr : (underlyingAllocate a s1 (max size a.chunk_size_)).2 with
  | some r =>
    have hr2 : underlyingAllocate a s1 (max size a.chunk_size_) =
        ((underlyingAllocate a s1 (max size a.chunk_size_)).1, some r) := by
      rw [← hr]
    rw [hr2]
    simp only
    have := hu _ _ _ _ hr
    refine carve_inv2 (underlyingAllocate_inv a hs1 _) (underlyingAllocate_inv2 a ks1 _)
      (by omega) this.2.1 (fun hA => hA _ _ _ _ hr) ?_ (by omega)
    intro c hc
    exact this.2.2 _ (List.mem_map_of_mem _ hc)
  | none =>
    have hr2 : underlyingAllocate a s1 (max size a.chunk_size_) =
        ((underlyingAllocate a s1 (max size a.chunk_size_)).1, none) := by
      rw [← hr]
    rw [hr2]
    simp only
    split_ifs with hf
    · exact underlyingAllocate_inv2 a ks1 _
    · have hs3 := FreeIdleChunks_inv a (underlyingAllocate_inv a hs1 (max size a.chunk_size_))
      have ks3 := FreeIdleChunks_inv2 a (underlyingAllocate_inv a hs1 (max size a.chunk_size_))
        (underlyingAllocate_inv2 a ks1 (max size a.chunk_size_))
      generalize (FreeIdleChunks a (underlyingAllocate a s1 (max size a.chunk_size_)).1).1 = s3
        at hs3 ks3
      cases hq : (underlyingAllocate a s3 (max size a.chunk_size_)).2 with
      | some r =>
        have hq2 : underlyingAllocate a s3 (max size a.chunk_size_) =
            ((underlyingAllocate a s3 (max size a.chunk_size_)).1, some r) := by
          rw [← hq]
        rw [hq2]
        simp only
        have := hu _ _ _ _ hq
        refine carve_inv2 (underlyingAllocate_inv a hs3 _) (underlyingAllocate_inv2 a ks3 _)
          (by omega) this.2.1 (fun hA => hA _ _ _ _ hq) ?_ (by omega)
        intro c hc
        exact this.2.2 _ (List.mem_map_of_mem _ hc)
      | none =>
        have hq2 : underlyingAllocate a s3 (max size a.chunk_size_) =
            ((underlyingAllocate a s3 (max size a.chunk_size_)).1, none) := by
          rw [← hq]
        rw [hq2]
        simp only
        exact underlyingAllocate_inv2 a ks3 _

/-! ## Replacing a segment of a Block List -/

theorem nodup_replace {X M Q Y : List Nat} (h : (X ++ M ++ Y).Nodup) (hnd : Q.Nodup)
    (hn : ∀ n ∈ Q, n ∈ M ∨ (n ∉ X ∧ n ∉ Y)) : (X ++ Q ++ Y).Nodup := by
  simp only [List.nodup_append, List.Disjoint, List.mem_append] at h ⊢
  obtain ⟨⟨hX, hM, hXM⟩, hY, hXMY⟩ := h
  refine ⟨⟨hX, hnd, ?_⟩, hY, ?_⟩
  · intro n hnX hnM1
    rcases hn n hnM1 with h1 | h1
    · exact hXM hnX h1
    · exact h1.1 hnX
  · intro n hn1 hnY
    rcases hn1 with h1 | h1
    · exact hXMY (Or.inl h1) hnY
    · rcases hn n h1 with h2 | h2
      · exact hXMY (Or.inr h2) hnY
      · exact h2.2 hnY

theorem Inv.replace_segment {s t : State} {L L1 : List BlockAllocation} (h : Inv s L)
    {A B : List Chunk} {c : Chunk} {P M N Q : List Block}
    (hcs : s.chunks_ = A ++ c :: B) (hc : c.blocks_ = P ++ M ++ N)
    (htc : t.chunks_ = A ++ { c with blocks_ := P ++ Q ++ N } :: B)
    (hne : Q ≠ [])
    (hcont : contiguous (c.allocation_.ptr + sizes P) Q)
    (hsz : sizes Q = sizes M)
    (hmax : noAdjFree (P ++ Q ++ N))
    (hnd : (Q.map Block.node).Nodup)
    (hnodes : ∀ x ∈ Q, (∃ y ∈ M, y.node = x.node) ∨ s.fresh ≤ x.node)
    (hfresh : ∀ x ∈ Q, x.node < t.fresh) (hmono : s.fresh ≤ t.fresh)
    (hsorted : t.free_blocks_.Pairwise (fun e f => keyLt e.1 f.1))
    (hvalid : ∀ e ∈ t.free_blocks_,
      (e ∈ s.free_blocks_ ∧ ∀ y ∈ M, ¬ Describes e y) ∨ ∃ x ∈ Q, Describes e x)
    (hlive : ∀ g ∈ L1, (g ∈ L ∧ ∀ y ∈ M, ¬ Holds g y) ∨ ∃ x ∈ Q, Holds g x)
    (hlnd : (L1.map BlockAllocation.block_it_).Nodup)
    (hown1 : ∀ x ∈ Q, x.is_free_ = false → ∃ g ∈ L1, g.block_it_ = x.node)
    (hown2 : ∀ g ∈ L, (∀ y ∈ M, y.node ≠ g.block_it_) → g ∈ L1) :
    Inv t L1 := by
  have hcm : c ∈ s.chunks_ := by rw [hcs]; simp
  have hold : allBlocks s.chunks_ =
      (allBlocks A ++ P) ++ M ++ (N ++ allBlocks B) := by
    rw [hcs]; simp [hc]
  have hnew : allBlocks t.chunks_ =
      (allBlocks A ++ P) ++ Q ++ (N ++ allBlocks B) := by
    rw [htc]; simp
  have hmemold : ∀ x, x ∈ allBlocks s.chunks_ ↔
      (x ∈ allBlocks A ∨ x ∈ P) ∨ x ∈ M ∨ (x ∈ N ∨ x ∈ allBlocks B) := by
    intro x; rw [hold]; simp only [List.mem_append]; tauto
  have hmemnew : ∀ x, x ∈ allBlocks t.chunks_ ↔
      (x ∈ allBlocks A ∨ x ∈ P) ∨ x ∈ Q ∨ (x ∈ N ∨ x ∈ allBlocks B) := by
    intro x; rw [hnew]; simp only [List.mem_append]; tauto
  have hnn := h.nodes_nodup
  rw [hold] at hnn
  simp only [List.map_append] at hnn
  -- a block outside the segment has a node that no block of the segment has
  have hout : ∀ x, (x ∈ allBlocks A ∨ x ∈ P) ∨ (x ∈ N ∨ x ∈ allBlocks B) →
      ∀ y ∈ M, y.node ≠ x.node := by
    intro x hx y hy hxy
    have h1 := hnn
    simp only [List.nodup_append, List.Disjoint, List.mem_append, List.mem_map] at h1
    obtain ⟨⟨_, _, hXM⟩, _, hXMY⟩ := h1
    rcases hx with hx | hx
    · refine hXM (a := x.node) ?_ ⟨y, hy, hxy⟩
      rcases hx with hx | hx
      · exact Or.inl ⟨x, hx, rfl⟩
      · exact Or.inr ⟨x, hx, rfl⟩
    · refine hXMY (a := x.node) (Or.inr ⟨y, hy, hxy⟩) ?_
      rcases hx with hx | hx
      · exact Or.inl ⟨x, hx, rfl⟩
      · exact Or.inr ⟨x, hx, rfl⟩
  have hpc := h.partition c hcm
  have hcontold := hpc.contig
  rw [hc, contiguous_append, contiguous_append] at hcontold
  have htot := hpc.total
  rw [hc] at htot
  simp only [sizes_append] at htot hcontold
  have hmemc : ∀ x ∈ t.chunks_, x ∈ s.chunks_ ∨ x = { c with blocks_ := P ++ Q ++ N } := by
    intro x hx
    rw [htc] at hx
    rw [hcs]
    simp only [List.mem_append, List.mem_cons] at hx ⊢
    tauto
  constructor
  · intro x hx
    rcases hmemc x hx with hx | rfl
    · exact h.partition x hx
    · refine ⟨by simp [hne], ?_, ?_⟩
      · simp only [contiguous_append, sizes_append, hsz]
        exact ⟨⟨hcontold.1.1, hcont⟩, hcontold.2⟩
      · simp only [sizes_append, hsz]
        exact htot
  · intro x hx
    rcases hmemc x hx with hx | rfl
    · exact h.maximal x hx
    · exact hmax
  · intro x hx
    rcases hmemc x hx with hx | rfl
    · exact h.small x hx
    · exact h.small c hcm
  · rw [hnew]
    simp only [List.map_append]
    refine nodup_replace hnn hnd ?_
    intro n hn
    obtain ⟨x, hx, rfl⟩ := List.mem_map.1 hn
    rcases hnodes x hx with ⟨y, hy, hyx⟩ | hfr
    · exact Or.inl (List.mem_map.2 ⟨y, hy, hyx⟩)
    · right
      constructor
      · intro hm
        simp only [List.mem_append, List.mem_map] at hm
        have : ∃ z, z ∈ allBlocks s.chunks_ ∧ z.node = x.node := by
          rcases hm with ⟨z, hz, hzx⟩ | ⟨z, hz, hzx⟩
          · exact ⟨z, (hmemold z).2 (Or.inl (Or.inl hz)), hzx⟩
          · exact ⟨z, (hmemold z).2 (Or.inl (Or.inr hz)), hzx⟩
        obtain ⟨z, hz, hzx⟩ := this
        have := h.nodes_lt z hz
        omega
      · intro hm
        simp only [List.mem_append, List.mem_map] at hm
        have : ∃ z, z ∈ allBlocks s.chunks_ ∧ z.node = x.node := by
          rcases hm with ⟨z, hz, hzx⟩ | ⟨z, hz, hzx⟩
          · exact ⟨z, (hmemold z).2 (Or.inr (Or.inr (Or.inl hz))), hzx⟩
          · exact ⟨z, (hmemold z).2 (Or.inr (Or.inr (Or.inr hz))), hzx⟩
        obtain ⟨z, hz, hzx⟩ := this
        have := h.nodes_lt z hz
        omega
  · intro x hx
    rcases (hmemnew x).1 hx with hx | hx | hx
    · have := h.nodes_lt x ((hmemold x).2 (Or.inl hx))
      omega
    · exact hfresh x hx
    · have := h.nodes_lt x ((hmemold x).2 (Or.inr (Or.inr hx)))
      omega
  · exact hsorted
  · intro e he
    rcases hvalid e he with ⟨hem, hnot⟩ | ⟨x, hx, hd⟩
    · obtain ⟨z, hz, hd⟩ := h.index_valid e hem
      refine ⟨z, ?_, hd⟩
      rcases (hmemold z).1 hz with hz | hz | hz
      · exact (hmemnew z).2 (Or.inl hz)
      · exact absurd hd (hnot z hz)
      · exact (hmemnew z).2 (Or.inr (Or.inr hz))
    · exact ⟨x, (hmemnew x).2 (Or.inr (Or.inl hx)), hd⟩
  · intro g hg
    rcases hlive g hg with ⟨hgm, hnot⟩ | ⟨x, hx, hd⟩
    · obtain ⟨z, hz, hd⟩ := h.live g hgm
      refine ⟨z, ?_, hd⟩
      rcases (hmemold z).1 hz with hz | hz | hz
      · exact (hmemnew z).2 (Or.inl hz)
      · exact absurd hd (hnot z hz)
      · exact (hmemnew z).2 (Or.inr (Or.inr hz))
    · exact ⟨x, (hmemnew x).2 (Or.inr (Or.inl hx)), hd⟩
  · exact hlnd
  · intro x hx hf
    have key : (x ∈ allBlocks A ∨ x ∈ P) ∨ (x ∈ N ∨ x ∈ allBlocks B) →
        ∃ g ∈ L1, g.block_it_ = x.node := by
      intro hx2
      have hxo : x ∈ allBlocks s.chunks_ := by
        rcases hx2 with hx2 | hx2
        · exact (hmemold x).2 (Or.inl hx2)
        · exact (hmemold x).2 (Or.inr (Or.inr hx2))
      obtain ⟨g, hg, hgx⟩ := h.owned x hxo hf
      refine ⟨g, hown2 g hg ?_, hgx⟩
      intro y hy
      rw [hgx]
      exact hout x hx2 y hy
    rcases (hmemnew x).1 hx with hx | hx | hx
    · exact key (Or.inl hx)
    · exact hown1 x hx hf
    · exact key (Or.inr hx)

theorem Inv2.replace_segment2 {a : Config} {s t : State} {L : List BlockAllocation} (h : Inv s L)
    (k : Inv2 a s) {A B : List Chunk} {c : Chunk} {P M N Q : List Block}
    (hcs : s.chunks_ = A ++ c :: B) (hc : c.blocks_ = P ++ M ++ N)
    (htc : t.chunks_ = A ++ { c with blocks_ := P ++ Q ++ N } :: B)
    (hkeep : ∀ x ∈ allBlocks s.chunks_, (∀ y ∈ M, y.node ≠ x.node) → x.is_free_ = true →
      0 < x.size_ → ((x.size_, x.ptr_), x.node) ∈ s.free_blocks_ →
      ((x.size_, x.ptr_), x.node) ∈ t.free_blocks_)
    (hnew : ∀ x ∈ Q, x.is_free_ = true → 0 < x.size_ →
      ((x.size_, x.ptr_), x.node) ∈ t.free_blocks_) :
    Inv2 a t := by
  have hcm : c ∈ s.chunks_ := by rw [hcs]; simp
  have hold : allBlocks s.chunks_ =
      (allBlocks A ++ P) ++ M ++ (N ++ allBlocks B) := by
    rw [hcs]; simp [hc]
  have hnewb : allBlocks t.chunks_ =
      (allBlocks A ++ P) ++ Q ++ (N ++ allBlocks B) := by
    rw [htc]; simp
  have hmemold : ∀ x, x ∈ allBlocks s.chunks_ ↔
      (x ∈ allBlocks A ∨ x ∈ P) ∨ x ∈ M ∨ (x ∈ N ∨ x ∈ allBlocks B) := by
    intro x; rw [hold]; simp only [List.mem_append]; tauto
  have hmemnew : ∀ x, x ∈ allBlocks t.chunks_ ↔
      (x ∈ allBlocks A ∨ x ∈ P) ∨ x ∈ Q ∨ (x ∈ N ∨ x ∈ allBlocks B) := by
    intro x; rw [hnewb]; simp only [List.mem_append]; tauto
  have hnn := h.nodes_nodup
  rw [hold] at hnn
  simp only [List.map_append] at hnn
  have hout : ∀ x, (x ∈ allBlocks A ∨ x ∈ P) ∨ (x ∈ N ∨ x ∈ allBlocks B) →
      ∀ y ∈ M, y.node ≠ x.node := by
    intro x hx y hy hxy
    have h1 := hnn
    simp only [List.nodup_append, List.Disjoint, List.mem_append, List.mem_map] at h1
    obtain ⟨⟨_, _, hXM⟩, _, hXMY⟩ := h1
    rcases hx with hx | hx
    · refine hXM (a := x.node) ?_ ⟨y, hy, hxy⟩
      rcases hx with hx | hx
      · exact Or.inl ⟨x, hx, rfl⟩
      · exact Or.inr ⟨x, hx, rfl⟩
    · refine hXMY (a := x.node) (Or.inr ⟨y, hy, hxy⟩) ?_
      rcases hx with hx | hx
      · exact Or.inl ⟨x, hx, rfl⟩
      · exact Or.inr ⟨x, hx, rfl⟩
  have hmap : t.chunks_.map Chunk.allocation_ = s.chunks_.map Chunk.allocation_ := by
    rw [htc, hcs]; simp
  have hmemc : ∀ x ∈ t.chunks_, ∃ y ∈ s.chunks_, x.allocation_ = y.allocation_ := by
    intro x hx
    have : x.allocation_ ∈ t.chunks_.map Chunk.allocation_ := List.mem_map_of_mem _ hx
    rw [hmap] at this
    obtain ⟨y, hy, hyx⟩ := List.mem_map.1 this
    exact ⟨y, hy, hyx.symm⟩
  constructor
  · intro hA x hx
    obtain ⟨y, hy, hxy⟩ := hmemc x hx
    rw [hxy]
    exact k.bounded hA y hy
  · have h1 : (s.chunks_.map Chunk.allocation_).Pairwise separated :=
      List.pairwise_map.2 k.disjoint
    rw [← hmap] at h1
    exact List.pairwise_map.1 h1
  · intro x hx
    obtain ⟨y, hy, hxy⟩ := hmemc x hx
    rw [hxy]
    exact k.chunk_min y hy
  · intro x hx hf h0
    have key : (x ∈ allBlocks A ∨ x ∈ P) ∨ (x ∈ N ∨ x ∈ allBlocks B) →
        ((x.size_, x.ptr_), x.node) ∈ t.free_blocks_ := by
      intro hx2
      have hxo : x ∈ allBlocks s.chunks_ := by
        rcases hx2 with hx2 | hx2
        · exact (hmemold x).2 (Or.inl hx2)
        · exact (hmemold x).2 (Or.inr (Or.inr hx2))
      exact hkeep x hxo (hout x hx2) hf h0 (k.covers x hxo hf h0)
    rcases (hmemnew x).1 hx with hx | hx | hx
    · exact key (Or.inl hx)
    · exact hnew x hx hf h0
    · exact key (Or.inr hx)

/-! ## No two adjacent free blocks -/

theorem noAdjFree_middle {P N : List Block} {b : Block} :
    noAdjFree (P ++ b :: N) ↔
      noAdjFree P ∧ noAdjFree N ∧ (∀ x ∈ P.getLast?, ¬ (x.is_free_ = true ∧ b.is_free_ = true)) ∧
        (∀ y ∈ N.head?, ¬ (b.is_free_ = true ∧ y.is_free_ = true)) := by
  unfold noAdjFree
  rw [List.chain'_append, List.chain'_cons']
  simp only [List.head?_cons, Option.mem_def, Option.some.injEq, forall_eq']
  tauto

theorem noAdjFree_cons {N : List Block} {b : Block} :
    noAdjFree (b :: N) ↔
      noAdjFree N ∧ (∀ y ∈ N.head?, ¬ (b.is_free_ = true ∧ y.is_free_ = true)) := by
  unfold noAdjFree
  rw [List.chain'_cons']
  tauto

theorem noAdjFree_concat {P : List Block} {b : Block} :
    noAdjFree (P ++ [b]) ↔
      noAdjFree P ∧ (∀ x ∈ P.getLast?, ¬ (x.is_free_ = true ∧ b.is_free_ = true)) := by
  rw [noAdjFree_middle]
  simp [noAdjFree]

/-! ## Finding the block of a node -/

theorem deref_of_mem {s : State} {L : List BlockAllocation} (h : Inv s L) {b : Block}
    (hb : b ∈ allBlocks s.chunks_) :
    ∃ cur, deref b.node s.chunks_ = some cur ∧ cur.At b.node s.chunks_ ∧ cur.block = b := by
  cases hd : deref b.node s.chunks_ with
  | none => exact absurd rfl (deref_eq_none hd b hb)
  | some cur =>
    have hat := deref_eq_some hd
    exact ⟨cur, rfl, hat, eq_of_node_eq h.nodes_nodup hat.mem_block hb hat.node⟩

theorem block_size_lt {s : State} {L : List BlockAllocation} (h : Inv s L) {b : Block}
    (hb : b ∈ allBlocks s.chunks_) : b.size_ < SIZE := by
  obtain ⟨c, hc, hbc⟩ := mem_allBlocks.1 hb
  have h1 := size_le_sizes hbc
  have h2 := (h.partition c hc).total
  have h3 := h.small c hc
  omega

/-! ## The cache hit -/

/-- The cursor that `allocateHit` works on: the block the matched entry describes. -/
theorem hit_cursor {s : State} {L : List BlockAllocation} (h : Inv s L)
    {iter : Key × Nat} (hi : iter ∈ s.free_blocks_) {size : Nat} (hsz : size ≤ iter.1.1) :
    ∃ cur, deref iter.2 s.chunks_ = some cur ∧ cur.At iter.2 s.chunks_ ∧
      Describes iter cur.block ∧ size ≤ cur.block.size_ ∧
      (cur.block.size_ + SIZE - size) % SIZE = cur.block.size_ - size := by
  obtain ⟨b, hb, hd⟩ := h.index_valid iter hi
  obtain ⟨cur, hcur, hat, hcb⟩ := deref_of_mem h hb
  rw [hd.1] at hcur hat
  subst hcb
  have h1 : size ≤ cur.block.size_ := by
    have := hd.2.2
    rw [this] at hsz
    exact hsz
  exact ⟨cur, hcur, hat, hd, h1, wrap_sub h1 (block_size_lt h hb)⟩

theorem live_not_free {s : State} {L : List BlockAllocation} (h : Inv s L)
    {b : Block} (hb : b ∈ allBlocks s.chunks_) (hf : b.is_free_ = true) :
    ∀ g ∈ L, g.block_it_ ≠ b.node := by
  intro g hg hgb
  obtain ⟨y, hy, hd⟩ := h.live g hg
  have : y = b := eq_of_node_eq h.nodes_nodup hy hb (by rw [hd.1, hgb])
  subst this
  rw [hd.2.1] at hf
  exact absurd hf (by simp)

theorem allocateHit_inv {s : State} {L : List BlockAllocation} (h : Inv s L)
    {iter : Key × Nat} (hi : iter ∈ s.free_blocks_) {size : Nat} (hsz : size ≤ iter.1.1)
    {t : State} {g : BlockAllocation} (hr : allocateHit s size iter = some (t, g)) :
    Inv t (g :: L) := by
  obtain ⟨cur, hcur, hat, hd, hle, hw⟩ := hit_cursor h hi hsz
  have hbm := hat.mem_block
  have hfresh := h.nodes_lt _ hbm
  have hnot := live_not_free h hbm hd.2.1
  have hmaxold := h.maximal _ hat.mem_chunk
  rw [hat.blocks, noAdjFree_middle] at hmaxold
  have hcontold := (h.partition _ hat.mem_chunk).contig
  rw [hat.blocks, contiguous_append] at hcontold
  have hlnd : ((g :: L).map BlockAllocation.block_it_).Nodup →
      ((g :: L).map BlockAllocation.block_it_).Nodup := id
  unfold allocateHit at hr
  simp only [hcur, hw] at hr
  split_ifs at hr with h0
  · simp only [Option.some.injEq, Prod.mk.injEq] at hr
    obtain ⟨rfl, rfl⟩ := hr
    refine h.replace_segment (P := cur.prevs) (M := [cur.block]) (N := cur.nexts)
      (Q := [{ cur.block with is_free_ := false }]) hat.chunks (by simp [hat.blocks])
      (by simp [Cursor.store]) (by simp) ?_ (by simp) ?_ (by simp) ?_ ?_ (le_refl _)
      (sorted_erase h.index_sorted) ?_ ?_ ?_ ?_ ?_
    · simp only [contiguous, and_true]
      exact hcontold.2.1
    · simp only [List.append_assoc, List.singleton_append]
      rw [noAdjFree_middle]
      exact ⟨hmaxold.1, hmaxold.2.1, by simp, by simp⟩
    · intro x hx
      simp only [List.mem_singleton] at hx
      subst hx
      exact Or.inl ⟨cur.block, by simp, rfl⟩
    · intro x hx
      simp only [List.mem_singleton] at hx
      subst hx
      exact hfresh
    · intro e he
      left
      rw [mem_erase] at he
      refine ⟨he.1, ?_⟩
      intro y hy hdy
      simp only [List.mem_singleton] at hy
      subst hy
      apply he.2
      rw [hdy.2.2, hd.2.2]
    · intro k hk
      rcases List.mem_cons.1 hk with rfl | hk
      · exact Or.inr ⟨{ cur.block with is_free_ := false }, by simp, rfl, rfl, rfl, rfl⟩
      · refine Or.inl ⟨hk, ?_⟩
        intro y hy hdy
        simp only [List.mem_singleton] at hy
        subst hy
        exact hnot k hk hdy.1.symm
    · simp only [List.map_cons]
      refine List.nodup_cons.2 ⟨?_, h.live_nodup⟩
      intro hm
      obtain ⟨k, hk, hke⟩ := List.mem_map.1 hm
      exact hnot k hk hke
    · intro x hx _
      simp only [List.mem_singleton] at hx
      subst hx
      exact ⟨_, List.mem_cons_self _ _, rfl⟩
    · intro k hk _
      exact List.mem_cons_of_mem _ hk
  · simp only [Option.some.injEq, Prod.mk.injEq] at hr
    obtain ⟨rfl, rfl⟩ := hr
    refine h.replace_segment (P := cur.prevs) (M := [cur.block]) (N := cur.nexts)
      (Q := [⟨s.fresh, cur.block.ptr_, cur.block.size_ - size, true⟩,
        ⟨cur.block.node, cur.block.ptr_ + (cur.block.size_ - size), size, false⟩])
      hat.chunks (by simp [hat.blocks])
      (by simp [Cursor.store]) (by simp) ?_ ?_ ?_ ?_ ?_ ?_ (Nat.le_succ _)
      (sorted_emplace (sorted_erase h.index_sorted)) ?_ ?_ ?_ ?_ ?_
    · simp only [contiguous, and_true, true_and]
      exact ⟨hcontold.2.1, by rw [hcontold.2.1]⟩
    · simp only [sizes_cons, sizes_nil]
      omega
    · simp only [List.append_assoc, List.cons_append, List.nil_append]
      rw [noAdjFree_middle, noAdjFree_cons]
      refine ⟨hmaxold.1, ⟨hmaxold.2.1, by simp⟩, ?_, by simp⟩
      intro x hx
      have := hmaxold.2.2.1 x hx
      simpa [hd.2.1] using this
    · simp only [List.map_cons, List.map_nil, List.nodup_cons, List.mem_singleton,
        List.not_mem_nil, not_false_eq_true, List.nodup_nil, and_true]
      omega
    · intro x hx
      simp only [List.mem_cons, List.mem_singleton, List.not_mem_nil, or_false] at hx
      rcases hx with rfl | rfl
      · exact Or.inr (le_refl _)
      · exact Or.inl ⟨cur.block, by simp, rfl⟩
    · intro x hx
      simp only [List.mem_cons, List.mem_singleton, List.not_mem_nil, or_false] at hx
      rcases hx with rfl | rfl
      · exact Nat.lt_succ_self _
      · exact Nat.lt_succ_of_lt hfresh
    · intro e he
      rcases mem_emplace.1 he with he | ⟨rfl, _⟩
      · left
        rw [mem_erase] at he
        refine ⟨he.1, ?_⟩
        intro y hy hdy
        simp only [List.mem_singleton] at hy
        subst hy
        apply he.2
        rw [hdy.2.2, hd.2.2]
      · exact Or.inr ⟨_, List.mem_cons_self _ _, rfl, rfl, rfl⟩
    · intro k hk
      rcases List.mem_cons.1 hk with rfl | hk
      · exact Or.inr ⟨⟨cur.block.node, cur.block.ptr_ + (cur.block.size_ - size), size, false⟩,
          by simp, rfl, rfl, rfl, rfl⟩
      · refine Or.inl ⟨hk, ?_⟩
        intro y hy hdy
        simp only [List.mem_singleton] at hy
        subst hy
        exact hnot k hk hdy.1.symm
    · simp only [List.map_cons]
      refine List.nodup_cons.2 ⟨?_, h.live_nodup⟩
      intro hm
      obtain ⟨k, hk, hke⟩ := List.mem_map.1 hm
      exact hnot k hk hke
    · intro x hx hf
      simp only [List.mem_cons, List.mem_singleton, List.not_mem_nil, or_false] at hx
      rcases hx with rfl | rfl
      · simp at hf
      · exact ⟨_, List.mem_cons_self _ _, rfl⟩
    · intro k hk _
      exact List.mem_cons_of_mem _ hk

theorem allocateHit_isSome {s : State} {L : List BlockAllocation} (h : Inv s L)
    {iter : Key × Nat} (hi : iter ∈ s.free_blocks_) {size : Nat} (hsz : size ≤ iter.1.1) :
    ∃ t g, allocateHit s size iter = some (t, g) := by
  obtain ⟨cur, hcur, _⟩ := hit_cursor h hi hsz
  unfold allocateHit
  simp only [hcur]
  split_ifs
  · exact ⟨_, _, rfl⟩
  · exact ⟨_, _, rfl⟩

theorem allocateHit_inv2 {a : Config} {s : State} {L : List BlockAllocation} (h : Inv s L)
    (k : Inv2 a s) {iter : Key × Nat} (hi : iter ∈ s.free_blocks_) {size : Nat}
    (hsz : size ≤ iter.1.1) {t : State} {g : BlockAllocation}
    (hr : allocateHit s size iter = some (t, g)) : Inv2 a t := by
  obtain ⟨cur, hcur, hat, hd, hle, hw⟩ := hit_cursor h hi hsz
  have hbm := hat.mem_block
  have hkeep : ∀ x ∈ allBlocks s.chunks_, (∀ y ∈ [cur.block], y.node ≠ x.node) →
      x.is_free_ = true → 0 < x.size_ → ((x.size_, x.ptr_), x.node) ∈ s.free_blocks_ →
      ((x.size_, x.ptr_), x.node) ∈ erase iter.1 s.free_blocks_ := by
    intro x _ hn _ _ hm
    rw [mem_erase]
    refine ⟨hm, ?_⟩
    intro hk
    have := eq_of_key_eq h.index_sorted hm hi hk
    apply hn cur.block (by simp)
    rw [hd.1, ← this]
  unfold allocateHit at hr
  simp only [hcur, hw] at hr
  split_ifs at hr with h0
  · simp only [Option.some.injEq, Prod.mk.injEq] at hr
    obtain ⟨rfl, rfl⟩ := hr
    refine k.replace_segment2 h (P := cur.prevs) (M := [cur.block]) (N := cur.nexts)
      (Q := [{ cur.block with is_free_ := false }]) hat.chunks (by simp [hat.blocks])
      (by simp [Cursor.store]) hkeep ?_
    intro x hx hf
    simp only [List.mem_singleton] at hx
    subst hx
    simp at hf
  · simp only [Option.some.injEq, Prod.mk.injEq] at hr
    obtain ⟨rfl, rfl⟩ := hr
    refine k.replace_segment2 h (P := cur.prevs) (M := [cur.block]) (N := cur.nexts)
      (Q := [⟨s.fresh, cur.block.ptr_, cur.block.size_ - size, true⟩,
        ⟨cur.block.node, cur.block.ptr_ + (cur.block.size_ - size), size, false⟩])
      hat.chunks (by simp [hat.blocks])
      (by simp [Cursor.store]) (fun x hx hn hf hp hm => mem_emplace_of_mem (hkeep x hx hn hf hp hm))
      ?_
    intro x hx hf hp
    simp only [List.mem_cons, List.mem_singleton, List.not_mem_nil, or_false] at hx
    rcases hx with rfl | rfl
    · refine mem_emplace.2 (Or.inr ⟨rfl, ?_⟩)
      intro e he hk
      rw [mem_erase] at he
      obtain ⟨y, hy, hdy⟩ := h.index_valid e he.1
      have hk2 := hdy.2.2
      rw [hk] at hk2
      simp only [Prod.mk.injEq] at hk2
      have : y = cur.block :=
        block_unique h.partition k.disjoint hy hbm hk2.2.symm (by omega) (by omega)
      subst this
      exact he.2 (by rw [hdy.2.2, hd.2.2])
    · simp at hf

/-! ## Free -/

theorem mergePrev_cases (prevs : List Block) (block : Block) (m : FreeBlocks) :
    (∃ P prev, prevs = P ++ [prev] ∧ prev.is_free_ = true ∧
        mergePrev prevs block m =
          (P, { prev with size_ := (prev.size_ + block.size_) % SIZE },
            erase (prev.size_, prev.ptr_) m)) ∨
      ((∀ x ∈ prevs.getLast?, x.is_free_ = false) ∧ mergePrev prevs block m = (prevs, block, m)) := by
  rcases List.eq_nil_or_concat prevs with rfl | ⟨P, prev, rfl⟩
  · right
    simp [mergePrev]
  · rw [List.concat_eq_append]
    by_cases hf : prev.is_free_ = true
    · left
      exact ⟨P, prev, rfl, hf, by simp [mergePrev, hf]⟩
    · right
      simp only [Bool.not_eq_true] at hf
      simp [mergePrev, hf]

theorem mergeNext_cases (block : Block) (nexts : List Block) (m : FreeBlocks) :
    (∃ next N, nexts = next :: N ∧ next.is_free_ = true ∧
        mergeNext block nexts m =
          ({ block with size_ := (block.size_ + next.size_) % SIZE }, N,
            erase (next.size_, next.ptr_) m)) ∨
      ((∀ x ∈ nexts.head?, x.is_free_ = false) ∧ mergeNext block nexts m = (block, nexts, m)) := by
  cases nexts with
  | nil =>
    right
    simp [mergeNext]
  | cons next N =>
    by_cases hf : next.is_free_ = true
    · left
      exact ⟨next, N, rfl, hf, by simp [mergeNext, hf]⟩
    · right
      simp only [Bool.not_eq_true] at hf
      simp [mergeNext, hf]

/-- The block of a live handle, as a cursor. -/
theorem free_cursor {s : State} {L : List BlockAllocation} (h : Inv s L)
    {g : BlockAllocation} (hg : g ∈ L) :
    ∃ cur, deref g.block_it_ s.chunks_ = some cur ∧ cur.At g.block_it_ s.chunks_ ∧
      Holds g cur.block := by
  obtain ⟨b, hb, hd⟩ := h.live g hg
  obtain ⟨cur, hcur, hat, hcb⟩ := deref_of_mem h hb
  rw [hd.1] at hcur hat
  subst hcb
  exact ⟨cur, hcur, hat, hd⟩

theorem erase_live {s : State} {L : List BlockAllocation} (h : Inv s L)
    {g : BlockAllocation} (hg : g ∈ L) {b : Block} (hd : Holds g b) :
    ∀ k ∈ L.erase g, k ∈ L ∧ ∀ y, (y.is_free_ = true ∨ y = b) → ¬ Holds k y := by
  intro k hk
  have hnd : L.Nodup := List.Nodup.of_map _ h.live_nodup
  rw [hnd.mem_erase_iff] at hk
  refine ⟨hk.2, ?_⟩
  rintro y (hy | rfl) hky
  · rw [hky.2.1] at hy
    exact absurd hy (by simp)
  · exact hk.1 (List.inj_on_of_nodup_map h.live_nodup hk.2 hg (by rw [← hky.1, ← hd.1]))

theorem erase_keeps {s : State} {L : List BlockAllocation} (h : Inv s L)
    {g : BlockAllocation} {b : Block} (hd : Holds g b) {M : List Block} (hb : b ∈ M) :
    ∀ k ∈ L, (∀ y ∈ M, y.node ≠ k.block_it_) → k ∈ L.erase g := by
  intro k hk hn
  have hnd : L.Nodup := List.Nodup.of_map _ h.live_nodup
  rw [hnd.mem_erase_iff]
  refine ⟨?_, hk⟩
  rintro rfl
  exact hn b hb hd.1

theorem erase_nodup {s : State} {L : List BlockAllocation} (h : Inv s L)
    (g : BlockAllocation) : ((L.erase g).map BlockAllocation.block_it_).Nodup :=
  ((List.erase_sublist g L).map _).nodup h.live_nodup

theorem freeBlock_inv {s : State} {L : List BlockAllocation} (h : Inv s L)
    {g : BlockAllocation} (hg : g ∈ L) {cur : Cursor} (hat : cur.At g.block_it_ s.chunks_)
    (hd : Holds g cur.block) : Inv (freeBlock s cur) (L.erase g) := by
  have hbm := hat.mem_block
  have hmaxold := h.maximal _ hat.mem_chunk
  have hpart := h.partition _ hat.mem_chunk
  have hcontold := hpart.contig
  have htot := hpart.total
  have hsmall := h.small _ hat.mem_chunk
  have hel := erase_live h hg hd
  have hnd := erase_nodup h g
  have hbf := hd.2.1
  have hlt : ∀ x ∈ cur.chunk.blocks_, x.node < s.fresh :=
    fun x hx => h.nodes_lt x (mem_allBlocks.2 ⟨_, hat.mem_chunk, hx⟩)
  rcases mergePrev_cases cur.prevs { cur.block with is_free_ := true } s.free_blocks_ with
    ⟨P, prev, hP, hpf, hl⟩ | ⟨hpl, hl⟩
  · rcases mergeNext_cases
      { prev with size_ := (prev.size_ + cur.block.size_) % SIZE } cur.nexts
      (erase (prev.size_, prev.ptr_) s.free_blocks_) with ⟨next, N, hN, hnf, hr⟩ | ⟨hnl, hr⟩
    · -- both neighbours are merged
      have hblocks : cur.chunk.blocks_ = P ++ [prev, cur.block, next] ++ N := by
        rw [hat.blocks, hP, hN]; simp
      rw [hblocks] at hcontold htot hmaxold hlt
      simp only [List.append_assoc, List.cons_append, List.nil_append, contiguous_append,
        contiguous, sizes_append, sizes_cons, sizes_nil, noAdjFree_middle, noAdjFree_cons,
        List.head?_cons, Option.mem_def, Option.some.injEq, forall_eq'] at hcontold htot hmaxold
      have hw1 : (prev.size_ + cur.block.size_) % SIZE = prev.size_ + cur.block.size_ :=
        Nat.mod_eq_of_lt (by omega)
      have hw2 : (prev.size_ + cur.block.size_ + next.size_) % SIZE =
          prev.size_ + cur.block.size_ + next.size_ := Nat.mod_eq_of_lt (by omega)
      simp only [freeBlock, hl, hr]
      simp only [hw1, hw2, hpf]
      refine h.replace_segment (P := P) (M := [prev, cur.block, next]) (N := N)
        (Q := [⟨prev.node, prev.ptr_, prev.size_ + cur.block.size_ + next.size_, true⟩])
        hat.chunks hblocks (by simp [Cursor.store]) (by simp) ?_ ?_ ?_ (by simp) ?_ ?_
        (le_refl _) (sorted_emplace (sorted_erase (sorted_erase h.index_sorted))) ?_ ?_ hnd ?_
        (erase_keeps h hd (by simp))
      · simp only [contiguous, and_true]
        exact hcontold.2.1
      · simp only [sizes_cons, sizes_nil]; omega
      · simp only [List.append_assoc, List.cons_append, List.nil_append, noAdjFree_middle]
        refine ⟨hmaxold.1, hmaxold.2.1.1.1, ?_, ?_⟩
        · intro x hx hc
          exact hmaxold.2.2.1 x hx ⟨hc.1, hpf⟩
        · intro y hy hc
          exact hmaxold.2.1.1.2 y hy ⟨hnf, hc.2⟩
      · intro x hx
        simp only [List.mem_singleton] at hx
        subst hx
        exact Or.inl ⟨prev, by simp, rfl⟩
      · intro x hx
        simp only [List.mem_singleton] at hx
        subst hx
        exact hlt prev (by simp)
      · intro e he
        rcases mem_emplace.1 he with he | ⟨rfl, _⟩
        · left
          rw [mem_erase, mem_erase] at he
          refine ⟨he.1.1, ?_⟩
          intro y hy hdy
          simp only [List.mem_cons, List.mem_singleton, List.not_mem_nil, or_false] at hy
          rcases hy with rfl | rfl | rfl
          · exact he.1.2 hdy.2.2
          · rw [hdy.2.1] at hbf; exact absurd hbf (by simp)
          · exact he.2 hdy.2.2
        · exact Or.inr ⟨_, List.mem_cons_self _ _, rfl, rfl, rfl⟩
      · intro k hk
        refine Or.inl ⟨(hel k hk).1, ?_⟩
        intro y hy
        simp only [List.mem_cons, List.mem_singleton, List.not_mem_nil, or_false] at hy
        rcases hy with rfl | rfl | rfl
        · exact (hel k hk).2 _ (Or.inl hpf)
        · exact (hel k hk).2 _ (Or.inr rfl)
        · exact (hel k hk).2 _ (Or.inl hnf)
      · intro x hx hf
        simp only [List.mem_singleton] at hx
        subst hx
        simp at hf
    · -- only the left neighbour is merged
      have hblocks : cur.chunk.blocks_ = P ++ [prev, cur.block] ++ cur.nexts := by
        rw [hat.blocks, hP]; simp
      rw [hblocks] at hcontold htot hmaxold hlt
      simp only [List.append_assoc, List.cons_append, List.nil_append, contiguous_append,
        contiguous, sizes_append, sizes_cons, sizes_nil, noAdjFree_middle, noAdjFree_cons,
        List.head?_cons, Option.mem_def, Option.some.injEq, forall_eq'] at hcontold htot hmaxold
      have hw1 : (prev.size_ + cur.block.size_) % SIZE = prev.size_ + cur.block.size_ :=
        Nat.mod_eq_of_lt (by omega)
      simp only [freeBlock, hl, hr]
      simp only [hw1, hpf]
      refine h.replace_segment (P := P) (M := [prev, cur.block]) (N := cur.nexts)
        (Q := [⟨prev.node, prev.ptr_, prev.size_ + cur.block.size_, true⟩])
        hat.chunks hblocks (by simp [Cursor.store]) (by simp) ?_ ?_ ?_ (by simp) ?_ ?_
        (le_refl _) (sorted_emplace (sorted_erase h.index_sorted)) ?_ ?_ hnd ?_
        (erase_keeps h hd (by simp))
      · simp only [contiguous, and_true]
        exact hcontold.2.1
      · simp only [sizes_cons, sizes_nil]; omega
      · simp only [List.append_assoc, List.cons_append, List.nil_append, noAdjFree_middle]
        refine ⟨hmaxold.1, hmaxold.2.1.1, ?_, ?_⟩
        · intro x hx hc
          exact hmaxold.2.2.1 x hx ⟨hc.1, hpf⟩
        · intro y hy hc
          have := hnl y hy
          rw [this] at hc
          exact absurd hc.2 (by simp)
      · intro x hx
        simp only [List.mem_singleton] at hx
        subst hx
        exact Or.inl ⟨prev, by simp, rfl⟩
      · intro x hx
        simp only [List.mem_singleton] at hx
        subst hx
        exact hlt prev (by simp)
      · intro e he
        rcases mem_emplace.1 he with he | ⟨rfl, _⟩
        · left
          rw [mem_erase] at he
          refine ⟨he.1, ?_⟩
          intro y hy hdy
          simp only [List.mem_cons, List.mem_singleton, List.not_mem_nil, or_false] at hy
          rcases hy with rfl | rfl
          · exact he.2 hdy.2.2
          · rw [hdy.2.1] at hbf; exact absurd hbf (by simp)
        · exact Or.inr ⟨_, List.mem_cons_self _ _, rfl, rfl, rfl⟩
      · intro k hk
        refine Or.inl ⟨(hel k hk).1, ?_⟩
        intro y hy
        simp only [List.mem_cons, List.mem_singleton, List.not_mem_nil, or_false] at hy
        rcases hy with rfl | rfl
        · exact (hel k hk).2 _ (Or.inl hpf)
        · exact (hel k hk).2 _ (Or.inr rfl)
      · intro x hx hf
        simp only [List.mem_singleton] at hx
        subst hx
        simp at hf
  · rcases mergeNext_cases { cur.block with is_free_ := true } cur.nexts s.free_blocks_ with
      ⟨next, N, hN, hnf, hr⟩ | ⟨hnl, hr⟩
    · -- only the right neighbour is merged
      have hblocks : cur.chunk.blocks_ = cur.prevs ++ [cur.block, next] ++ N := by
        rw [hat.blocks, hN]; simp
      rw [hblocks] at hcontold htot hmaxold hlt
      simp only [List.append_assoc, List.cons_append, List.nil_append, contiguous_append,
        contiguous, sizes_append, sizes_cons, sizes_nil, noAdjFree_middle, noAdjFree_cons,
        List.head?_cons, Option.mem_def, Option.some.injEq, forall_eq'] at hcontold htot hmaxold
      have hw1 : (cur.block.size_ + next.size_) % SIZE = cur.block.size_ + next.size_ :=
        Nat.mod_eq_of_lt (by omega)
      simp only [freeBlock, hl, hr]
      simp only [hw1]
      refine h.replace_segment (P := cur.prevs) (M := [cur.block, next]) (N := N)
        (Q := [⟨cur.block.node, cur.block.ptr_, cur.block.size_ + next.size_, true⟩])
        hat.chunks hblocks (by simp [Cursor.store]) (by simp) ?_ ?_ ?_ (by simp) ?_ ?_
        (le_refl _) (sorted_emplace (sorted_erase h.index_sorted)) ?_ ?_ hnd ?_
        (erase_keeps h hd (by simp))
      · simp only [contiguous, and_true]
        exact hcontold.2.1
      · simp only [sizes_cons, sizes_nil]; omega
      · simp only [List.append_assoc, List.cons_append, List.nil_append, noAdjFree_middle]
        refine ⟨hmaxold.1, hmaxold.2.1.1, ?_, ?_⟩
        · intro x hx hc
          have := hpl x hx
          rw [this] at hc
          exact absurd hc.1 (by simp)
        · intro y hy hc
          exact hmaxold.2.1.2 y hy ⟨hnf, hc.2⟩
      · intro x hx
        simp only [List.mem_singleton] at hx
        subst hx
        exact Or.inl ⟨cur.block, by simp, rfl⟩
      · intro x hx
        simp only [List.mem_singleton] at hx
        subst hx
        exact hlt cur.block (by simp)
      · intro e he
        rcases mem_emplace.1 he with he | ⟨rfl, _⟩
        · left
          rw [mem_erase] at he
          refine ⟨he.1, ?_⟩
          intro y hy hdy
          simp only [List.mem_cons, List.mem_singleton, List.not_mem_nil, or_false] at hy
          rcases hy with rfl | rfl
          · rw [hdy.2.1] at hbf; exact absurd hbf (by simp)
          · exact he.2 hdy.2.2
        · exact Or.inr ⟨_, List.mem_cons_self _ _, rfl, rfl, rfl⟩
      · intro k hk
        refine Or.inl ⟨(hel k hk).1, ?_⟩
        intro y hy
        simp only [List.mem_cons, List.mem_singleton, List.not_mem_nil, or_false] at hy
        rcases hy with rfl | rfl
        · exact (hel k hk).2 _ (Or.inr rfl)
        · exact (hel k hk).2 _ (Or.inl hnf)
      · intro x hx hf
        simp only [List.mem_singleton] at hx
        subst hx
        simp at hf
    · -- no neighbour is merged
      have hblocks : cur.chunk.blocks_ = cur.prevs ++ [cur.block] ++ cur.nexts := by
        rw [hat.blocks]; simp
      rw [hblocks] at hcontold htot hmaxold hlt
      simp only [List.append_assoc, List.cons_append, List.nil_append, contiguous_append,
        contiguous, sizes_append, sizes_cons, sizes_nil, noAdjFree_middle, noAdjFree_cons,
        List.head?_cons, Option.mem_def, Option.some.injEq, forall_eq'] at hcontold htot hmaxold
      simp only [freeBlock, hl, hr]
      refine h.replace_segment (P := cur.prevs) (M := [cur.block]) (N := cur.nexts)
        (Q := [⟨cur.block.node, cur.block.ptr_, cur.block.size_, true⟩])
        hat.chunks hblocks (by simp [Cursor.store]) (by simp) ?_ ?_ ?_ (by simp) ?_ ?_
        (le_refl _) (sorted_emplace h.index_sorted) ?_ ?_ hnd ?_
        (erase_keeps h hd (by simp))
      · simp only [contiguous, and_true]
        exact hcontold.2.1
      · simp only [sizes_cons, sizes_nil]
      · simp only [List.append_assoc, List.cons_append, List.nil_append, noAdjFree_middle]
        refine ⟨hmaxold.1, hmaxold.2.1, ?_, ?_⟩
        · intro x hx hc
          have := hpl x hx
          rw [this] at hc
          exact absurd hc.1 (by simp)
        · intro y hy hc
          have := hnl y hy
          rw [this] at hc
          exact absurd hc.2 (by simp)
      · intro x hx
        simp only [List.mem_singleton] at hx
        subst hx
        exact Or.inl ⟨cur.block, by simp, rfl⟩
      · intro x hx
        simp only [List.mem_singleton] at hx
        subst hx
        exact hlt cur.block (by simp)
      · intro e he
        rcases mem_emplace.1 he with he | ⟨rfl, _⟩
        · left
          refine ⟨he, ?_⟩
          intro y hy hdy
          simp only [List.mem_cons, List.mem_singleton, List.not_mem_nil, or_false] at hy
          subst hy
          rw [hdy.2.1] at hbf; exact absurd hbf (by simp)
        · exact Or.inr ⟨_, List.mem_cons_self _ _, rfl, rfl, rfl⟩
      · intro k hk
        refine Or.inl ⟨(hel k hk).1, ?_⟩
        intro y hy
        simp only [List.mem_cons, List.mem_singleton, List.not_mem_nil, or_false] at hy
        subst hy
        exact (hel k hk).2 _ (Or.inr rfl)
      · intro x hx hf
        simp only [List.mem_singleton] at hx
        subst hx
        simp at hf

/-- An entry for a block of non-zero size survives the erasure of the key of another
block. -/
theorem covers_erase {a : Config} {s : State} {L : List BlockAllocation} (h : Inv s L)
    (k : Inv2 a s) {x y : Block} (hx : x ∈ allBlocks s.chunks_) (hy : y ∈ allBlocks s.chunks_)
    (hn : y.node ≠ x.node) (h0 : 0 < x.size_) {m : FreeBlocks}
    (hm : ((x.size_, x.ptr_), x.node) ∈ m) :
    ((x.size_, x.ptr_), x.node) ∈ erase (y.size_, y.ptr_) m := by
  rw [mem_erase]
  refine ⟨hm, ?_⟩
  intro hk
  simp only [Prod.mk.injEq] at hk
  have : x = y := block_unique h.partition k.disjoint hx hy hk.2 h0 (by omega)
  exact hn (by rw [this])

theorem freeBlock_inv2 {a : Config} {s : State} {L : List BlockAllocation} (h : Inv s L)
    (k : Inv2 a s) {g : BlockAllocation} {cur : Cursor}
    (hat : cur.At g.block_it_ s.chunks_) (hd : Holds g cur.block) :
    Inv2 a (freeBlock s cur) := by
  have hbm := hat.mem_block
  have hpart := h.partition _ hat.mem_chunk
  have hcontold := hpart.contig
  have htot := hpart.total
  have hsmall := h.small _ hat.mem_chunk
  have hbf := hd.2.1
  have hin : ∀ x ∈ cur.chunk.blocks_, x ∈ allBlocks s.chunks_ :=
    fun x hx => mem_allBlocks.2 ⟨_, hat.mem_chunk, hx⟩
  have hap : ∀ x ∈ allBlocks s.chunks_, ∀ y ∈ allBlocks s.chunks_, x ≠ y →
      apart x.ptr_ x.size_ y.ptr_ y.size_ :=
    fun x hx y hy hxy => blocks_apart h.partition k.disjoint hx hy hxy
  rcases mergePrev_cases cur.prevs { cur.block with is_free_ := true } s.free_blocks_ with
    ⟨P, prev, hP, hpf, hl⟩ | ⟨hpl, hl⟩
  · rcases mergeNext_cases
      { prev with size_ := (prev.size_ + cur.block.size_) % SIZE } cur.nexts
      (erase (prev.size_, prev.ptr_) s.free_blocks_) with ⟨next, N, hN, hnf, hr⟩ | ⟨hnl, hr⟩
    · -- both neighbours are merged
      have hblocks : cur.chunk.blocks_ = P ++ [prev, cur.block, next] ++ N := by
        rw [hat.blocks, hP, hN]; simp
      rw [hblocks] at hcontold htot hin
      simp only [List.append_assoc, List.cons_append, List.nil_append, contiguous_append,
        contiguous, sizes_append, sizes_cons, sizes_nil] at hcontold htot
      have hw1 : (prev.size_ + cur.block.size_) % SIZE = prev.size_ + cur.block.size_ :=
        Nat.mod_eq_of_lt (by omega)
      have hw2 : (prev.size_ + cur.block.size_ + next.size_) % SIZE =
          prev.size_ + cur.block.size_ + next.size_ := Nat.mod_eq_of_lt (by omega)
      have hpm := hin prev (by simp)
      have hnm := hin next (by simp)
      simp only [freeBlock, hl, hr]
      simp only [hw1, hw2, hpf]
      refine k.replace_segment2 h (P := P) (M := [prev, cur.block, next]) (N := N)
        (Q := [⟨prev.node, prev.ptr_, prev.size_ + cur.block.size_ + next.size_, true⟩])
        hat.chunks hblocks (by simp [Cursor.store]) ?_ ?_
      · intro x hx hn _ h0 hm
        exact mem_emplace_of_mem (covers_erase h k hx hnm (hn next (by simp)) h0
          (covers_erase h k hx hpm (hn prev (by simp)) h0 hm))
      · intro x hx _ h0
        simp only [List.mem_singleton] at hx
        subst hx
        refine mem_emplace.2 (Or.inr ⟨rfl, ?_⟩)
        intro e he hk
        rw [mem_erase, mem_erase] at he
        obtain ⟨y, hy, hdy⟩ := h.index_valid e he.1.1
        have hk2 := hdy.2.2
        rw [hk] at hk2
        simp only [Prod.mk.injEq] at hk2 h0
        have h1 : y ≠ prev := by
          rintro rfl
          exact he.1.2 hdy.2.2
        have h2 : y ≠ cur.block := by
          rintro rfl
          rw [hdy.2.1] at hbf
          exact absurd hbf (by simp)
        have h3 : y ≠ next := by
          rintro rfl
          exact he.2 hdy.2.2
        have a1 := hap y hy prev hpm h1
        have a2 := hap y hy cur.block hbm h2
        have a3 := hap y hy next hnm h3
        unfold apart at a1 a2 a3
        omega
    · -- only the left neighbour is merged
      have hblocks : cur.chunk.blocks_ = P ++ [prev, cur.block] ++ cur.nexts := by
        rw [hat.blocks, hP]; simp
      rw [hblocks] at hcontold htot hin
      simp only [List.append_assoc, List.cons_append, List.nil_append, contiguous_append,
        contiguous, sizes_append, sizes_cons, sizes_nil] at hcontold htot
      have hw1 : (prev.size_ + cur.block.size_) % SIZE = prev.size_ + cur.block.size_ :=
        Nat.mod_eq_of_lt (by omega)
      have hpm := hin prev (by simp)
      simp only [freeBlock, hl, hr]
      simp only [hw1, hpf]
      refine k.replace_segment2 h (P := P) (M := [prev, cur.block]) (N := cur.nexts)
        (Q := [⟨prev.node, prev.ptr_, prev.size_ + cur.block.size_, true⟩])
        hat.chunks hblocks (by simp [Cursor.store]) ?_ ?_
      · intro x hx hn _ h0 hm
        exact mem_emplace_of_mem (covers_erase h k hx hpm (hn prev (by simp)) h0 hm)
      · intro x hx _ h0
        simp only [List.mem_singleton] at hx
        subst hx
        refine mem_emplace.2 (Or.inr ⟨rfl, ?_⟩)
        intro e he hk
        rw [mem_erase] at he
        obtain ⟨y, hy, hdy⟩ := h.index_valid e he.1
        have hk2 := hdy.2.2
        rw [hk] at hk2
        simp only [Prod.mk.injEq] at hk2 h0
        have h1 : y ≠ prev := by
          rintro rfl
          exact he.2 hdy.2.2
        have h2 : y ≠ cur.block := by
          rintro rfl
          rw [hdy.2.1] at hbf
          exact absurd hbf (by simp)
        have a1 := hap y hy prev hpm h1
        have a2 := hap y hy cur.block hbm h2
        unfold apart at a1 a2
        omega
  · rcases mergeNext_cases { cur.block with is_free_ := true } cur.nexts s.free_blocks_ with
      ⟨next, N, hN, hnf, hr⟩ | ⟨hnl, hr⟩
    · -- only the right neighbour is merged
      have hblocks : cur.chunk.blocks_ = cur.prevs ++ [cur.block, next] ++ N := by
        rw [hat.blocks, hN]; simp
      rw [hblocks] at hcontold htot hin
      simp only [List.append_assoc, List.cons_append, List.nil_append, contiguous_append,
        contiguous, sizes_append, sizes_cons, sizes_nil] at hcontold htot
      have hw1 : (cur.block.size_ + next.size_) % SIZE = cur.block.size_ + next.size_ :=
        Nat.mod_eq_of_lt (by omega)
      have hnm := hin next (by simp)
      simp only [freeBlock, hl, hr]
      simp only [hw1]
      refine k.replace_segment2 h (P := cur.prevs) (M := [cur.block, next]) (N := N)
        (Q := [⟨cur.block.node, cur.block.ptr_, cur.block.size_ + next.size_, true⟩])
        hat.chunks hblocks (by simp [Cursor.store]) ?_ ?_
      · intro x hx hn _ h0 hm
        exact mem_emplace_of_mem (covers_erase h k hx hnm (hn next (by simp)) h0 hm)
      · intro x hx _ h0
        simp only [List.mem_singleton] at hx
        subst hx
        refine mem_emplace.2 (Or.inr ⟨rfl, ?_⟩)
        intro e he hk
        rw [mem_erase] at he
        obtain ⟨y, hy, hdy⟩ := h.index_valid e he.1
        have hk2 := hdy.2.2
        rw [hk] at hk2
        simp only [Prod.mk.injEq] at hk2 h0
        have h2 : y ≠ cur.block := by
          rintro rfl
          rw [hdy.2.1] at hbf
          exact absurd hbf (by simp)
        have h3 : y ≠ next := by
          rintro rfl
          exact he.2 hdy.2.2
        have a2 := hap y hy cur.block hbm h2
        have a3 := hap y hy next hnm h3
        unfold apart at a2 a3
        omega
    · -- no neighbour is merged
      have hblocks : cur.chunk.blocks_ = cur.prevs ++ [cur.block] ++ cur.nexts := by
        rw [hat.blocks]; simp
      simp only [freeBlock, hl, hr]
      refine k.replace_segment2 h (P := cur.prevs) (M := [cur.block]) (N := cur.nexts)
        (Q := [⟨cur.block.node, cur.block.ptr_, cur.block.size_, true⟩])
        hat.chunks hblocks (by simp [Cursor.store]) ?_ ?_
      · intro x _ _ _ _ hm
        exact mem_emplace_of_mem hm
      · intro x hx _ h0
        simp only [List.mem_singleton] at hx
        subst hx
        refine mem_emplace.2 (Or.inr ⟨rfl, ?_⟩)
        intro e he hk
        obtain ⟨y, hy, hdy⟩ := h.index_valid e he
        have hk2 := hdy.2.2
        rw [hk] at hk2
        simp only [Prod.mk.injEq] at hk2 h0
        have h2 : y ≠ cur.block := by
          rintro rfl
          rw [hdy.2.1] at hbf
          exact absurd hbf (by simp)
        have a2 := hap y hy cur.block hbm h2
        unfold apart at a2
        omega

/-! ## The three operations keep the invariants -/

theorem FreeImpl_inv {a : Config} {s t : State} {L : List BlockAllocation} (h : Inv s L)
    {g : BlockAllocation} (hg : g ∈ L) (hr : FreeImpl a s g = some t) :
    Inv t (L.erase g) := by
  obtain ⟨cur, hcur, hat, hd⟩ := free_cursor h hg
  unfold FreeImpl at hr
  simp only [hcur, Option.some.injEq] at hr
  subst hr
  have := freeBlock_inv h hg hat hd
  split_ifs
  · exact FreeIdleChunks_inv a this
  · exact this

theorem FreeImpl_inv2 {a : Config} {s t : State} {L : List BlockAllocation} (h : Inv s L)
    (k : Inv2 a s) {g : BlockAllocation} (hg : g ∈ L) (hr : FreeImpl a s g = some t) :
    Inv2 a t := by
  obtain ⟨cur, hcur, hat, hd⟩ := free_cursor h hg
  unfold FreeImpl at hr
  simp only [hcur, Option.some.injEq] at hr
  subst hr
  have h1 := freeBlock_inv h hg hat hd
  have h2 := freeBlock_inv2 h k hat hd
  split_ifs
  · exact FreeIdleChunks_inv2 a h1 h2
  · exact h2

/-- What `lower_bound` finds for a request: an entry of the index whose size suffices. -/
theorem lower_bound_hit {s : State} {size : Nat} {iter : Key × Nat}
    (hlb : lower_bound (size, 0) s.free_blocks_ = some iter) :
    iter ∈ s.free_blocks_ ∧ size ≤ iter.1.1 := by
  have := lower_bound_eq_some hlb
  exact ⟨this.1, (not_keyLt_zero _ _).1 this.2⟩

theorem AllocateImpl_inv {a : Config} (hu : Sized a.underlying_allocator_) {s t : State}
    {L : List BlockAllocation} (h : Inv s L) {n : Nat} {r : Option BlockAllocation}
    (hr : AllocateImpl a s n = some (t, r)) :
    Inv t (r.toList ++ L) := by
  unfold AllocateImpl at hr
  simp only at hr
  cases hlb : lower_bound (realizedSize a n, 0) s.free_blocks_ with
  | some iter =>
    simp only [hlb] at hr
    obtain ⟨hi, hsz⟩ := lower_bound_hit hlb
    cases hh : allocateHit s (realizedSize a n) iter with
    | none => simp [hh] at hr
    | some p =>
      obtain ⟨t1, g⟩ := p
      simp only [hh, Option.some.injEq, Prod.mk.injEq] at hr
      obtain ⟨rfl, rfl⟩ := hr
      exact allocateHit_inv h hi hsz hh
  | none =>
    simp only [hlb, Option.some.injEq] at hr
    have := allocateMiss_inv hu h (realizedSize a n)
    rw [hr] at this
    cases r <;> exact this

theorem AllocateImpl_inv2 {a : Config} (hu : WellBehaved a.underlying_allocator_)
    {s t : State} {L : List BlockAllocation} (h : Inv s L) (k : Inv2 a s) {n : Nat}
    {r : Option BlockAllocation} (hr : AllocateImpl a s n = some (t, r)) : Inv2 a t := by
  unfold AllocateImpl at hr
  simp only at hr
  cases hlb : lower_bound (realizedSize a n, 0) s.free_blocks_ with
  | some iter =>
    simp only [hlb] at hr
    obtain ⟨hi, hsz⟩ := lower_bound_hit hlb
    cases hh : allocateHit s (realizedSize a n) iter with
    | none => simp [hh] at hr
    | some p =>
      obtain ⟨t1, g⟩ := p
      simp only [hh, Option.some.injEq, Prod.mk.injEq] at hr
      obtain ⟨rfl, rfl⟩ := hr
      exact allocateHit_inv2 h k hi hsz hh
  | none =>
    simp only [hlb, Option.some.injEq] at hr
    have := allocateMiss_inv2 hu h k (realizedSize a n)
    rw [hr] at this
    exact this

theorem Reachable.inv {a : Config} (hu : Sized a.underlying_allocator_) {s : State}
    {L : List BlockAllocation} (hr : Reachable a s L) : Inv s L := by
  induction hr with
  | init => exact Inv.of_init
  | allocate _ _ _ hal ih => exact AllocateImpl_inv hu ih hal
  | bad_alloc _ _ _ hal ih => exact AllocateImpl_inv hu ih hal
  | free _ hg hf ih => exact FreeImpl_inv ih hg hf
  | reclaim _ ih => exact FreeIdleChunks_inv a ih

theorem Reachable.inv2 {a : Config} (hu : WellBehaved a.underlying_allocator_) {s : State}
    {L : List BlockAllocation} (hr : Reachable a s L) : Inv2 a s := by
  induction hr with
  | init => exact Inv2.of_init2 a
  | allocate hp _ _ hal ih => exact AllocateImpl_inv2 hu (hp.inv hu.sized) ih hal
  | bad_alloc hp _ _ hal ih => exact AllocateImpl_inv2 hu (hp.inv hu.sized) ih hal
  | free hp hg hf ih => exact FreeImpl_inv2 (hp.inv hu.sized) ih hg hf
  | reclaim hp ih => exact FreeIdleChunks_inv2 a (hp.inv hu.sized) ih

/-! ## Scripts reach reachable states -/

theorem step_reachable {a : Config} {p q : State × List BlockAllocation} {op : Op}
    (hp : Reachable a p.1 p.2) (hs : step a p op = some q) : Reachable a q.1 q.2 := by
  cases op with
  | allocate n =>
    simp only [step] at hs
    split_ifs at hs with hn
    cases hal : AllocateImpl a p.1 n with
    | none => simp [hal] at hs
    | some tr =>
      obtain ⟨t, r⟩ := tr
      cases r with
      | none =>
        simp only [hal, Option.some.injEq] at hs
        subst hs
        exact Reachable.bad_alloc hp hn.1 hn.2 hal
      | some h =>
        simp only [hal, Option.some.injEq] at hs
        subst hs
        exact Reachable.allocate hp hn.1 hn.2 hal
  | free i =>
    simp only [step] at hs
    cases hi : p.2[i]? with
    | none => simp [hi] at hs
    | some h =>
      simp only [hi] at hs
      cases hf : FreeImpl a p.1 h with
      | none => simp [hf] at hs
      | some t =>
        simp only [hf, Option.some.injEq] at hs
        subst hs
        exact Reachable.free hp (List.mem_iff_getElem?.2 ⟨i, hi⟩) hf
  | reclaim =>
    simp only [step, Option.some.injEq] at hs
    subst hs
    exact Reachable.reclaim hp

theorem run_reachable {a : Config} {ops : List Op} {p q : State × List BlockAllocation}
    (hp : Reachable a p.1 p.2) (hs : run a ops p = some q) : Reachable a q.1 q.2 := by
  induction ops generalizing p with
  | nil =>
    simp only [run, Option.some.injEq] at hs
    subst hs
    exact hp
  | cons op ops ih =>
    simp only [run] at hs
    cases h1 : step a p op with
    | none => simp [h1] at hs
    | some p1 =>
      simp only [h1] at hs
      exact ih (step_reachable hp h1) hs

theorem script_reachable {a : Config} (ops : List Op) {s : State}
    {L : List BlockAllocation} (hs : run a ops (State.init, []) = some (s, L)) :
    Reachable a s L :=
  run_reachable (p := (State.init, [])) Reachable.init hs

/-! ## The example underlying allocator -/

theorem bump_base_le (held : List Allocation) :
    ∀ h ∈ held, h.ptr + h.size ≤ held.foldr (fun h acc => max (h.ptr + h.size) acc) 4096 := by
  induction held with
  | nil => simp
  | cons x xs ih =>
    intro h hh
    simp only [List.foldr_cons]
    rcases List.mem_cons.1 hh with rfl | hh
    · exact le_max_left _ _
    · exact le_trans (ih h hh) (le_max_right _ _)

theorem bump_base_pos (held : List Allocation) :
    0 < held.foldr (fun h acc => max (h.ptr + h.size) acc) 4096 := by
  induction held with
  | nil => simp
  | cons x xs ih =>
    simp only [List.foldr_cons]
    exact lt_of_lt_of_le ih (le_max_right _ _)

theorem bump_wellBehaved : WellBehaved bump := by
  intro k held n r hr
  simp only [bump] at hr
  split_ifs at hr with hc
  simp only [Option.some.injEq] at hr
  subst hr
  refine ⟨le_refl _, hc.2, ?_⟩
  intro h hh
  exact Or.inl (bump_base_le held h hh)

theorem bump_addressable : Addressable bump := by
  intro k held n r hr
  simp only [bump] at hr
  split_ifs at hr with hc
  simp only [Option.some.injEq] at hr
  subst hr
  exact ⟨bump_base_pos held, hc.1⟩

theorem bump_sized : Sized bump := bump_wellBehaved.sized

/-! ## Frame lemmas -/

theorem FreeIdleChunks_chunks (a : Config) (s : State) :
    (FreeIdleChunks a s).1.chunks_ =
      if a.allow_free_idle_chunk_ = false then s.chunks_
      else s.chunks_.filter (fun c => !c.idle) := by
  unfold FreeIdleChunks
  split_ifs
  · rfl
  · simp only [freeIdleLoop_chunks]

theorem FreeIdleChunks_requests (a : Config) (s : State) :
    (FreeIdleChunks a s).1.requests = s.requests := by
  unfold FreeIdleChunks
  split_ifs <;> rfl

theorem mem_FreeIdleChunks {a : Config} {s : State} {c : Chunk} (hc : c ∈ s.chunks_)
    (hi : c.idle = false) : c ∈ (FreeIdleChunks a s).1.chunks_ := by
  rw [FreeIdleChunks_chunks]
  split_ifs
  · exact hc
  · simp [List.mem_filter, hc, hi]

theorem mem_carve {s : State} {r : Allocation} {size : Nat} {c : Chunk}
    (hc : c ∈ s.chunks_) : c ∈ (carve s r size).1.chunks_ := by
  unfold carve
  simp only
  split_ifs <;> simp [hc]

/-- A chunk that is not idle survives a growth miss. -/
theorem mem_allocateMiss (a : Config) {s : State} (size : Nat) {c : Chunk}
    (hc : c ∈ s.chunks_) (hi : c.idle = false) : c ∈ (allocateMiss a s size).1.chunks_ := by
  have h1 : c ∈ (if a.FLAGS_free_when_no_cache_hit = true then (FreeIdleChunks a s).1
      else s).chunks_ := by
    split_ifs
    · exact mem_FreeIdleChunks hc hi
    · exact hc
  unfold allocateMiss
  simp only
  generalize (if a.FLAGS_free_when_no_cache_hit = true then (FreeIdleChunks a s).1 else s) = s1
    at h1
  have h2 : c ∈ (underlyingAllocate a s1 (max size a.chunk_size_)).1.chunks_ := h1
  cases hr : (underlyingAllocate a s1 (max size a.chunk_size_)).2 with
  | some r =>
    have hr2 : underlyingAllocate a s1 (max size a.chunk_size_) =
        ((underlyingAllocate a s1 (max size a.chunk_size_)).1, some r) := by
      rw [← hr]
    rw [hr2]
    exact mem_carve h2
  | none =>
    have hr2 : underlyingAllocate a s1 (max size a.chunk_size_) =
        ((underlyingAllocate a s1 (max size a.chunk_size_)).1, none) := by
      rw [← hr]
    rw [hr2]
    simp only
    split_ifs with hf
    · exact h2
    · have h3 := mem_FreeIdleChunks (a := a) h2 hi
      generalize (FreeIdleChunks a (underlyingAllocate a s1 (max size a.chunk_size_)).1).1 = s3
        at h3
      have h4 : c ∈ (underlyingAllocate a s3 (max size a.chunk_size_)).1.chunks_ := h3
      cases hq : (underlyingAllocate a s3 (max size a.chunk_size_)).2 with
      | some r =>
        have hq2 : underlyingAllocate a s3 (max size a.chunk_size_) =
            ((underlyingAllocate a s3 (max size a.chunk_size_)).1, some r) := by
          rw [← hq]
        rw [hq2]
        exact mem_carve h4
      | none =>
        have hq2 : underlyingAllocate a s3 (max size a.chunk_size_) =
            ((underlyingAllocate a s3 (max size a.chunk_size_)).1, none) := by
          rw [← hq]
        rw [hq2]
        exact h4

theorem not_idle_of_in_use {c : Chunk} {b : Block} (hb : b ∈ c.blocks_)
    (hf : b.is_free_ = false) : c.idle = false := by
  by_contra hi
  simp only [Bool.not_eq_false] at hi
  obtain ⟨x, hx, hxf⟩ := idle_iff.1 hi
  rw [hx] at hb
  simp only [List.mem_singleton] at hb
  subst hb
  rw [hf] at hxf
  exact absurd hxf (by simp)

/-- A block other than the matched one stays in its chunk on a cache hit. -/
theorem mem_allocateHit {s : State} {L : List BlockAllocation} (h : Inv s L)
    {iter : Key × Nat} (hi : iter ∈ s.free_blocks_) {size : Nat} (hsz : size ≤ iter.1.1)
    {t : State} {g : BlockAllocation} (hr : allocateHit s size iter = some (t, g))
    {c : Chunk} (hc : c ∈ s.chunks_) {b : Block} (hb : b ∈ c.blocks_)
    (hne : b.node ≠ iter.2) :
    ∃ d ∈ t.chunks_, d.allocation_ = c.allocation_ ∧ b ∈ d.blocks_ := by
  obtain ⟨cur, hcur, hat, hd, hle, hw⟩ := hit_cursor h hi hsz
  have hcases : c ∈ cur.before ∨ c = cur.chunk ∨ c ∈ cur.after := by
    have := hc
    rw [hat.chunks] at this
    simpa using this
  have hbn : b ≠ cur.block := by
    rintro rfl
    exact hne hd.1
  have key : ∀ Q : List Block,
      ∃ d ∈ cur.store (cur.prevs ++ Q ++ cur.nexts), d.allocation_ = c.allocation_ ∧
        b ∈ d.blocks_ := by
    intro Q
    rcases hcases with h1 | rfl | h1
    · exact ⟨c, by simp [Cursor.store, h1], rfl, hb⟩
    · refine ⟨{ cur.chunk with blocks_ := cur.prevs ++ Q ++ cur.nexts },
        by simp [Cursor.store], rfl, ?_⟩
      rw [hat.blocks] at hb
      simp only [List.mem_append, List.mem_cons] at hb ⊢
      rcases hb with hb | hb | hb
      · exact Or.inl (Or.inl hb)
      · exact absurd hb hbn
      · exact Or.inr hb
    · exact ⟨c, by simp [Cursor.store, h1], rfl, hb⟩
  unfold allocateHit at hr
  simp only [hcur, hw] at hr
  split_ifs at hr with h0
  · simp only [Option.some.injEq, Prod.mk.injEq] at hr
    obtain ⟨rfl, rfl⟩ := hr
    simpa using key [{ cur.block with is_free_ := false }]
  · simp only [Option.some.injEq, Prod.mk.injEq] at hr
    obtain ⟨rfl, rfl⟩ := hr
    simpa using key [⟨s.fresh, cur.block.ptr_, cur.block.size_ - size, true⟩,
      ⟨cur.block.node, cur.block.ptr_ + (cur.block.size_ - size), size, false⟩]

theorem demo_reachable : Reachable demo demoState demoLive :=
  script_reachable ([Op.allocate 100, Op.allocate 50]) (by rfl)

/-! ## The claims -/

/-- C1. Partition invariant: in every state reachable from a freshly constructed allocator
by `Allocate`, `Free` of a live handle and `Reclaim`, when the underlying allocator returns
regions at least as large as requested, every chunk of the Chunk Pool has a non-empty
Block List that is contiguous from the base address of the chunk, whose blocks do not
overlap, and whose sizes sum to the reserved size of the chunk. -/
theorem partition_invariant (a : Config) (hu : Sized a.underlying_allocator_)
    (s : State) (L : List BlockAllocation) (hr : Reachable a s L)
    (c : Chunk) (hc : c ∈ s.chunks_) :
    Partition c ∧ c.blocks_.Pairwise (fun x y => x.ptr_ + x.size_ ≤ y.ptr_) :=
  ⟨(hr.inv hu).partition c hc, contiguous_pairwise ((hr.inv hu).partition c hc).contig⟩

/-- The partition invariant on the example scenario: the chunk of `demoState`. -/
theorem partition_invariant_witness :
    Sized demo.underlying_allocator_ ∧ Reachable demo demoState demoLive ∧
      demoChunk ∈ demoState.chunks_ ∧
      (Partition demoChunk ∧
        demoChunk.blocks_.Pairwise (fun x y => x.ptr_ + x.size_ ≤ y.ptr_)) :=
  ⟨bump_sized, demo_reachable, by decide,
    partition_invariant demo bump_sized demoState demoLive demo_reachable demoChunk
      (by decide)⟩

/-- C3. No-aliasing: in every reachable state, when the underlying allocator is well
behaved (regions at least as large as requested and apart from the regions reserved), the
address ranges of two distinct live handles lie apart. -/
theorem no_aliasing (a : Config) (hu : WellBehaved a.underlying_allocator_)
    (s : State) (L : List BlockAllocation) (hr : Reachable a s L)
    (h g : BlockAllocation) (hh : h ∈ L) (hg : g ∈ L) (hne : h ≠ g) :
    apart h.ptr h.size g.ptr g.size := by
  have hi := hr.inv hu.sized
  have hk := hr.inv2 hu
  obtain ⟨x, hx, hdx⟩ := hi.live h hh
  obtain ⟨y, hy, hdy⟩ := hi.live g hg
  have hxy : x ≠ y := by
    rintro rfl
    apply hne
    cases h
    cases g
    simp only [Holds] at hdx hdy
    simp only [BlockAllocation.mk.injEq]
    exact ⟨hdx.2.2.1.symm.trans hdy.2.2.1, hdx.2.2.2.symm.trans hdy.2.2.2,
      hdx.1.symm.trans hdy.1⟩
  have := blocks_apart hi.partition hk.disjoint hx hy hxy
  rw [hdx.2.2.1, hdx.2.2.2, hdy.2.2.1, hdy.2.2.2] at this
  exact this

/-- No-aliasing on the example scenario: the two live handles of `demoState`. -/
theorem no_aliasing_witness :
    WellBehaved demo.underlying_allocator_ ∧ Reachable demo demoState demoLive ∧
      (⟨8032, 56, 0⟩ : BlockAllocation) ∈ demoLive ∧
      (⟨8088, 104, 1⟩ : BlockAllocation) ∈ demoLive ∧
      (⟨8032, 56, 0⟩ : BlockAllocation) ≠ ⟨8088, 104, 1⟩ ∧
      apart 8032 56 8088 104 :=
  ⟨bump_wellBehaved, demo_reachable, by decide, by decide, by decide,
    no_aliasing demo bump_wellBehaved demoState demoLive demo_reachable
      ⟨8032, 56, 0⟩ ⟨8088, 104, 1⟩ (by decide) (by decide) (by decide)⟩

theorem demoFreed_reachable : Reachable demo demoFreed [] :=
  script_reachable ([Op.allocate 100, Op.allocate 50, Op.free 1, Op.free 0]) (by rfl)

/-- A Block List of free blocks only, no two of them adjacent, has at most one block. -/
theorem all_free_length {bs : List Block} (hm : noAdjFree bs)
    (hf : ∀ b ∈ bs, b.is_free_ = true) : bs.length ≤ 1 := by
  match bs, hm, hf with
  | [], _, _ => simp
  | [_], _, _ => simp
  | x :: y :: r, hm, hf =>
    have := (List.chain'_cons.1 hm).1
    exact absurd ⟨hf x (by simp), hf y (by simp)⟩ this

/-- A chunk without a block in use is a single free block that spans the chunk. -/
theorem single_of_all_free {s : State} {L : List BlockAllocation} (h : Inv s L) {c : Chunk}
    (hc : c ∈ s.chunks_) (hf : ∀ b ∈ c.blocks_, b.is_free_ = true) :
    ∃ b, c.blocks_ = [b] ∧ b.is_free_ = true ∧ b.ptr_ = c.allocation_.ptr ∧
      b.size_ = c.allocation_.size := by
  have hp := h.partition c hc
  have hl := all_free_length (h.maximal c hc) hf
  have hne := hp.nonempty
  have hcont := hp.contig
  have htot := hp.total
  match hb : c.blocks_, hl, hne with
  | [b], _, _ =>
    rw [hb] at hf hcont htot
    refine ⟨b, rfl, hf b (by simp), hcont.1, ?_⟩
    simpa using htot

/-- C5. Coalescing completeness: in every reachable state, a chunk none of whose blocks is
in use (equivalently: no live handle refers to one of its blocks, every handle carved from
it having been freed, in whatever order) has a Block List of exactly one block, which is
free, starts at the base address of the chunk and has its full reserved size. -/
theorem coalescing_complete (a : Config) (hu : Sized a.underlying_allocator_)
    (s : State) (L : List BlockAllocation) (hr : Reachable a s L)
    (c : Chunk) (hc : c ∈ s.chunks_)
    (hfree : (∀ b ∈ c.blocks_, b.is_free_ = true) ∨
      (∀ g ∈ L, ∀ b ∈ c.blocks_, b.node ≠ g.block_it_)) :
    ∃ b, c.blocks_ = [b] ∧ b.is_free_ = true ∧ b.ptr_ = c.allocation_.ptr ∧
      b.size_ = c.allocation_.size := by
  have hi := hr.inv hu
  apply single_of_all_free hi hc
  rcases hfree with hf | hf
  · exact hf
  · intro b hb
    by_contra hb2
    simp only [Bool.not_eq_true] at hb2
    obtain ⟨g, hg, hgb⟩ := hi.owned b (mem_allBlocks.2 ⟨c, hc, hb⟩) hb2
    exact hf g hg b hb hgb.symm

/-- Coalescing completeness on the example scenario: after both handles are freed the
chunk of `demoFreed` is one free block. -/
theorem coalescing_complete_witness :
    Sized demo.underlying_allocator_ ∧ Reachable demo demoFreed [] ∧
      (⟨⟨4096, 4096⟩, [⟨2, 4096, 4096, true⟩]⟩ : Chunk) ∈ demoFreed.chunks_ ∧
      ∃ b, (⟨⟨4096, 4096⟩, [⟨2, 4096, 4096, true⟩]⟩ : Chunk).blocks_ = [b] ∧
        b.is_free_ = true ∧
        b.ptr_ = (⟨⟨4096, 4096⟩, [⟨2, 4096, 4096, true⟩]⟩ : Chunk).allocation_.ptr ∧
        b.size_ = (⟨⟨4096, 4096⟩, [⟨2, 4096, 4096, true⟩]⟩ : Chunk).allocation_.size :=
  ⟨bump_sized, demoFreed_reachable, by decide,
    coalescing_complete demo bump_sized demoFreed [] demoFreed_reachable
      ⟨⟨4096, 4096⟩, [⟨2, 4096, 4096, true⟩]⟩ (by decide) (Or.inl (by decide))⟩

/-- C8. Handle stability: for every reachable state and every live handle `h`, a
successful `Allocate` leaves the block of `h` untouched: the very same block (same node,
in use, with the address and the size recorded in `h`) is still in the Block List of its
chunk. -/
theorem handle_stability (a : Config) (hu : Sized a.underlying_allocator_)
    (s : State) (L : List BlockAllocation) (hr : Reachable a s L)
    (h : BlockAllocation) (hh : h ∈ L) (n : Nat) (t : State) (g : BlockAllocation)
    (hal : AllocateImpl a s n = some (t, some g)) :
    ∃ c ∈ s.chunks_, ∃ b ∈ c.blocks_, Holds h b ∧
      ∃ d ∈ t.chunks_, d.allocation_ = c.allocation_ ∧ b ∈ d.blocks_ := by
  have hi := hr.inv hu
  obtain ⟨b, hb, hd⟩ := hi.live h hh
  obtain ⟨c, hc, hbc⟩ := mem_allBlocks.1 hb
  refine ⟨c, hc, b, hbc, hd, ?_⟩
  unfold AllocateImpl at hal
  simp only at hal
  cases hlb : lower_bound (realizedSize a n, 0) s.free_blocks_ with
  | some iter =>
    simp only [hlb] at hal
    obtain ⟨hit, hsz⟩ := lower_bound_hit hlb
    cases hh2 : allocateHit s (realizedSize a n) iter with
    | none => simp [hh2] at hal
    | some p =>
      obtain ⟨t1, g1⟩ := p
      simp only [hh2, Option.some.injEq, Prod.mk.injEq] at hal
      obtain ⟨rfl, _⟩ := hal
      refine mem_allocateHit hi hit hsz hh2 hc hbc ?_
      intro hne
      obtain ⟨y, hy, hdy⟩ := hi.index_valid iter hit
      have : y = b := eq_of_node_eq hi.nodes_nodup hy hb (by rw [hdy.1, hne])
      subst this
      have h1 := hd.2.1
      rw [hdy.2.1] at h1
      exact absurd h1 (by simp)
  | none =>
    simp only [hlb, Option.some.injEq] at hal
    have := mem_allocateMiss a (realizedSize a n) hc
      (not_idle_of_in_use hbc hd.2.1)
    rw [hal] at this
    exact ⟨c, this, rfl, hbc⟩

/-- Handle stability on the example scenario: `Allocate(3000)` in `demoState` leaves the
block of the handle of `Allocate(100)` in place. -/
theorem handle_stability_witness :
    Sized demo.underlying_allocator_ ∧ Reachable demo demoState demoLive ∧
      (⟨8088, 104, 1⟩ : BlockAllocation) ∈ demoLive ∧
      AllocateImpl demo demoState 3000 = some
        (⟨[⟨⟨4096, 4096⟩, [⟨3, 4096, 936, true⟩, ⟨2, 5032, 3000, false⟩,
            ⟨0, 8032, 56, false⟩, ⟨1, 8088, 104, false⟩]⟩],
          [((936, 4096), 3)], 3, 3160, 0, 0, 4, [4096]⟩, some ⟨5032, 3000, 2⟩) ∧
      ∃ c ∈ demoState.chunks_, ∃ b ∈ c.blocks_, Holds ⟨8088, 104, 1⟩ b ∧
        ∃ d ∈ [(⟨⟨4096, 4096⟩, [⟨3, 4096, 936, true⟩, ⟨2, 5032, 3000, false⟩,
            ⟨0, 8032, 56, false⟩, ⟨1, 8088, 104, false⟩]⟩ : Chunk)],
          d.allocation_ = c.allocation_ ∧ b ∈ d.blocks_ :=
  ⟨bump_sized, demo_reachable, by decide, by rfl,
    handle_stability demo bump_sized demoState demoLive demo_reachable ⟨8088, 104, 1⟩
      (by decide) 3000 _ ⟨5032, 3000, 2⟩ (by rfl)⟩

theorem orphan_reachable : Reachable padded orphanState orphanLive :=
  script_reachable (orphanScript) (by rfl)

theorem orphanOnly_reachable : Reachable padded orphanOnly orphanOnlyLive :=
  script_reachable (orphanScript ++ [Op.allocate wrapRequest]) (by rfl)

theorem demoTwoFree_reachable : Reachable demo demoTwoFree [⟨8032, 56, 0⟩] :=
  script_reachable ([Op.allocate 100, Op.allocate 50, Op.free 1]) (by rfl)

/-- An entry that refers to the node of a block describes that block. -/
theorem describes_of_node {s : State} {L : List BlockAllocation} (h : Inv s L)
    {e : Key × Nat} (he : e ∈ s.free_blocks_) {b : Block} (hb : b ∈ allBlocks s.chunks_)
    (hn : e.2 = b.node) : Describes e b := by
  obtain ⟨y, hy, hd⟩ := h.index_valid e he
  have : y = b := eq_of_node_eq h.nodes_nodup hy hb (by rw [hd.1, hn])
  subst this
  exact hd

/-- C2, as stated, fails: after `orphanScript`, whose requests are positive values of
`size_t`, under a well-behaved underlying allocator, the free block of node 0 has no entry
in the Free Index. -/
theorem free_index_consistency_counterexample :
    WellBehaved padded.underlying_allocator_ ∧ Reachable padded orphanState orphanLive ∧
      ¬ FreeIndexConsistent orphanState := by
  refine ⟨bump_wellBehaved, orphan_reachable, ?_⟩
  rintro ⟨h1, _, _⟩
  obtain ⟨e, he, hd, _⟩ := h1 ⟨0, 8176, 0, true⟩ (by decide) rfl
  have he2 : e = ((0, 8176), 3) := by simpa [orphanState] using he
  subst he2
  exact absurd hd.1 (by decide)

/-- C2, amended: in every reachable state, under a well-behaved underlying allocator, the
Free Index has exactly one entry for each free block of non-zero size, keyed by the
current (size, address) of that block and referring to it; at most one entry refers to any
block; every entry describes an existing free block; and no entry refers to a block in
use. -/
theorem free_index_consistency (a : Config) (hu : WellBehaved a.underlying_allocator_)
    (s : State) (L : List BlockAllocation) (hr : Reachable a s L) :
    (∀ b ∈ allBlocks s.chunks_, b.is_free_ = true → 0 < b.size_ → Indexed s b) ∧
      (∀ b ∈ allBlocks s.chunks_, ∀ e ∈ s.free_blocks_, ∀ f ∈ s.free_blocks_,
        e.2 = b.node → f.2 = b.node → e = f) ∧
      IndexSound s ∧
      ∀ e ∈ s.free_blocks_, ∀ b ∈ allBlocks s.chunks_, b.node = e.2 → b.is_free_ = true := by
  have hi := hr.inv hu.sized
  have hk := hr.inv2 hu
  have huniq : ∀ b ∈ allBlocks s.chunks_, ∀ e ∈ s.free_blocks_, ∀ f ∈ s.free_blocks_,
      e.2 = b.node → f.2 = b.node → e = f := by
    intro b hb e he f hf hen hfn
    have h1 := describes_of_node hi he hb hen
    have h2 := describes_of_node hi hf hb hfn
    exact Prod.ext (h1.2.2.trans h2.2.2.symm) (hen.trans hfn.symm)
  refine ⟨?_, huniq, hi.index_valid, ?_⟩
  · intro b hb hf h0
    have hm := hk.covers b hb hf h0
    exact ⟨_, hm, ⟨rfl, hf, rfl⟩, fun f hfm hfn => huniq b hb f hfm _ hm hfn rfl⟩
  · intro e he b hb hn
    exact (describes_of_node hi he hb hn.symm).2.1

/-- The amended free-index consistency on `demoTwoFree`, which has two free blocks. -/
theorem free_index_consistency_witness :
    WellBehaved demo.underlying_allocator_ ∧ Reachable demo demoTwoFree [⟨8032, 56, 0⟩] ∧
      ((∀ b ∈ allBlocks demoTwoFree.chunks_, b.is_free_ = true → 0 < b.size_ →
          Indexed demoTwoFree b) ∧
        (∀ b ∈ allBlocks demoTwoFree.chunks_, ∀ e ∈ demoTwoFree.free_blocks_,
          ∀ f ∈ demoTwoFree.free_blocks_, e.2 = b.node → f.2 = b.node → e = f) ∧
        IndexSound demoTwoFree ∧
        ∀ e ∈ demoTwoFree.free_blocks_, ∀ b ∈ allBlocks demoTwoFree.chunks_,
          b.node = e.2 → b.is_free_ = true) :=
  ⟨bump_wellBehaved, demoTwoFree_reachable,
    free_index_consistency demo bump_wellBehaved demoTwoFree _ demoTwoFree_reachable⟩

/-- The Free Index after a cache hit keeps every entry whose key is not the matched
one. -/
theorem allocateHit_index {s : State} {L : List BlockAllocation} (h : Inv s L)
    {iter : Key × Nat} (hi : iter ∈ s.free_blocks_) {size : Nat} (hsz : size ≤ iter.1.1)
    {t : State} {g : BlockAllocation} (hr : allocateHit s size iter = some (t, g))
    {e : Key × Nat} (he : e ∈ s.free_blocks_) (hne : e.1 ≠ iter.1) : e ∈ t.free_blocks_ := by
  obtain ⟨cur, hcur, hat, hd, hle, hw⟩ := hit_cursor h hi hsz
  unfold allocateHit at hr
  simp only [hcur, hw] at hr
  split_ifs at hr with h0
  · simp only [Option.some.injEq, Prod.mk.injEq] at hr
    obtain ⟨rfl, rfl⟩ := hr
    exact mem_erase.2 ⟨he, hne⟩
  · simp only [Option.some.injEq, Prod.mk.injEq] at hr
    obtain ⟨rfl, rfl⟩ := hr
    exact mem_emplace_of_mem (mem_erase.2 ⟨he, hne⟩)

/-- The handle returned on a cache hit: the tail of the matched block. -/
theorem allocateHit_handle {s : State} {L : List BlockAllocation} (h : Inv s L)
    {iter : Key × Nat} (hi : iter ∈ s.free_blocks_) {size : Nat} (hsz : size ≤ iter.1.1)
    {t : State} {g : BlockAllocation} (hr : allocateHit s size iter = some (t, g)) :
    g.block_it_ = iter.2 ∧ g.ptr = iter.1.2 + (iter.1.1 - size) ∧ g.size = size ∧
      t.chunks_.map Chunk.allocation_ = s.chunks_.map Chunk.allocation_ ∧
      t.requests = s.requests := by
  obtain ⟨cur, hcur, hat, hd, hle, hw⟩ := hit_cursor h hi hsz
  have hk := hd.2.2
  unfold allocateHit at hr
  simp only [hcur, hw] at hr
  split_ifs at hr with h0
  · simp only [Option.some.injEq, Prod.mk.injEq] at hr
    obtain ⟨rfl, rfl⟩ := hr
    refine ⟨hd.1, ?_, ?_, ?_, rfl⟩
    · simp only [hk, h0, Nat.add_zero]
    · show cur.block.size_ = size
      omega
    · simp [Cursor.store, hat.chunks]
  · simp only [Option.some.injEq, Prod.mk.injEq] at hr
    obtain ⟨rfl, rfl⟩ := hr
    refine ⟨hd.1, ?_, rfl, ?_, rfl⟩
    · simp only [hk]
    · simp [Cursor.store, hat.chunks]

/-- C4, as stated, fails: in the reachable state `orphanOnly` the only free block has size
0 and no entry in the Free Index; the request `wrapRequest`, whose realized size is 0, is
not carved out of it: `Allocate` asks the underlying allocator for a new chunk. -/
theorem best_fit_counterexample :
    WellBehaved padded.underlying_allocator_ ∧
      Reachable padded orphanOnly orphanOnlyLive ∧ 0 < wrapRequest ∧ wrapRequest < SIZE ∧
      ¬ BestFit padded orphanOnly wrapRequest := by
  refine ⟨bump_wellBehaved, orphanOnly_reachable, by decide, by decide, ?_⟩
  intro hbf
  obtain ⟨b, hb, hf, _, _, t, g, hal, hnode, _⟩ :=
    hbf ⟨⟨0, 8176, 0, true⟩, by decide, rfl, by decide⟩
  have heval : AllocateImpl padded orphanOnly wrapRequest = some
      (⟨[⟨⟨4096, 4096⟩, [⟨4, 4096, 4080, false⟩, ⟨3, 8176, 0, false⟩, ⟨2, 8176, 0, false⟩,
          ⟨0, 8176, 0, true⟩, ⟨1, 8176, 16, false⟩]⟩,
        ⟨⟨8192, 4096⟩, [⟨5, 8192, 4096, true⟩, ⟨6, 12288, 0, false⟩]⟩],
        [((4096, 8192), 5)], 7, 4096, 2, 0, 7, [4096, 4096]⟩, some ⟨12288, 0, 6⟩) := by rfl
  rw [heval] at hal
  simp only [Option.some.injEq, Prod.mk.injEq] at hal
  obtain ⟨_, rfl⟩ := hal
  simp only [orphanOnly, allBlocks_cons, allBlocks_nil, List.append_nil, List.mem_cons,
    List.mem_singleton, List.not_mem_nil, or_false] at hb
  rcases hb with rfl | rfl | rfl | rfl | rfl <;> simp at hf hnode

/-- C4, amended: for every reachable state, under a well-behaved underlying allocator, and
every request whose realized size is not zero, if some free block is large enough then
`Allocate` succeeds without growth and carves its result out of the tail of the free block
whose key (size, address) is least among the free blocks that are large enough: the
smallest one and, among those of that size, the one at the lowest address; every other
free block stays in its Block List, with its entry in the Free Index. -/
theorem best_fit (a : Config) (hu : WellBehaved a.underlying_allocator_)
    (s : State) (L : List BlockAllocation) (hr : Reachable a s L) (n : Nat)
    (hpos : 0 < realizedSize a n) : BestFit a s n := by
  have hi := hr.inv hu.sized
  have hk := hr.inv2 hu
  rintro ⟨x, hx, hxf, hxs⟩
  have hxm := hk.covers x hx hxf (by omega)
  cases hlb : lower_bound (realizedSize a n, 0) s.free_blocks_ with
  | none =>
    have := lower_bound_eq_none hlb _ hxm
    unfold keyLt at this
    simp only at this
    omega
  | some iter =>
    obtain ⟨hit, hsz⟩ := lower_bound_hit hlb
    obtain ⟨b, hb, hd⟩ := hi.index_valid iter hit
    have hkey := hd.2.2
    have hbs : realizedSize a n ≤ b.size_ := by
      rw [hkey] at hsz
      exact hsz
    obtain ⟨t, g, hh⟩ := allocateHit_isSome hi hit hsz
    have hal : AllocateImpl a s n = some (t, some g) := by
      unfold AllocateImpl
      simp only [hlb, hh]
    obtain ⟨h1, h2, h3, h4, h5⟩ := allocateHit_handle hi hit hsz hh
    refine ⟨b, hb, hd.2.1, hbs, ?_, t, g, hal, h1.trans hd.1.symm, ?_, h3, h4, h5, ?_⟩
    · intro y hy hyf hys
      have hym := hk.covers y hy hyf (by omega)
      rcases lower_bound_least hi.index_sorted hlb _ hym
        ((not_keyLt_zero _ _).2 hys) with h6 | h6
      · rw [← hkey, ← h6]
        exact keyLt_irrefl _
      · rw [← hkey]
        exact keyLt_asymm h6
    · rw [h2, hkey]
    · intro y hy hyf hyn
      constructor
      · obtain ⟨d, hd1, _, hd2⟩ := mem_allocateHit hi hit hsz hh
          (mem_allBlocks.1 hy).choose_spec.1 (mem_allBlocks.1 hy).choose_spec.2
          (by rw [← hd.1]; exact hyn)
        exact mem_allBlocks.2 ⟨d, hd1, hd2⟩
      · intro e he hen
        refine allocateHit_index hi hit hsz hh he ?_
        intro hke
        have := eq_of_key_eq hi.index_sorted he hit hke
        apply hyn
        rw [← hen, this, hd.1]

/-- The amended best fit on `demoTwoFree`: a request of realized size 104, with free blocks of
sizes 104 and 3936. -/
theorem best_fit_witness :
    WellBehaved demo.underlying_allocator_ ∧ Reachable demo demoTwoFree [⟨8032, 56, 0⟩] ∧
      0 < realizedSize demo 100 ∧
      (∃ x ∈ allBlocks demoTwoFree.chunks_, x.is_free_ = true ∧
        realizedSize demo 100 ≤ x.size_) ∧
      BestFit demo demoTwoFree 100 :=
  ⟨bump_wellBehaved, demoTwoFree_reachable, by decide, by decide,
    best_fit demo bump_wellBehaved demoTwoFree _ demoTwoFree_reachable 100 (by decide)⟩

/-- C9, as stated, fails: with alignment 8 and 8 bytes of padding, the request
`2 ^ 64 - 8` has the realized size 0, which is smaller than the request. -/
theorem size_rounding_counterexample :
    0 < wrapRequest ∧ wrapRequest < SIZE ∧ padded.alignment_ = 2 ^ 3 ∧
      0 ≤ padded.extra_padding_size_ ∧ realizedSize padded wrapRequest = 0 ∧
      ¬ RoundsUp padded wrapRequest := by
  refine ⟨by decide, by decide, by decide, by decide, by rfl, ?_⟩
  rintro ⟨_, h⟩
  have h0 : realizedSize padded wrapRequest = 0 := by rfl
  rw [h0] at h
  exact absurd h (by decide)

theorem AlignedSize_dvd (x k : Nat) : 2 ^ k ∣ AlignedSize x (2 ^ k) := by
  unfold AlignedSize
  simp only
  split_ifs with h0
  · exact Nat.dvd_of_mod_eq_zero h0
  · have hm : x + 2 ^ k - x % 2 ^ k = 2 ^ k * (x / 2 ^ k + 1) := by
      have h1 := Nat.div_add_mod x (2 ^ k)
      have h2 := Nat.mod_lt x (Nat.pos_pow_of_pos k (by norm_num) : 0 < 2 ^ k)
      rw [Nat.mul_add, Nat.mul_one]
      omega
    rw [hm]
    rcases Nat.le_total k 64 with hk | hk
    · have hd : 2 ^ k ∣ SIZE := by
        unfold SIZE
        exact Nat.pow_dvd_pow 2 hk
      exact (Nat.dvd_mod_iff hd).2 (Nat.dvd_mul_right _ _)
    · have hd : SIZE ∣ 2 ^ k := by
        unfold SIZE
        exact Nat.pow_dvd_pow 2 hk
      have : 2 ^ k * (x / 2 ^ k + 1) % SIZE = 0 :=
        Nat.mod_eq_zero_of_dvd (Dvd.dvd.mul_right hd _)
      rw [this]
      exact Nat.dvd_zero _

theorem le_AlignedSize {x al : Nat} (hal : 0 < al) (h : x + al ≤ SIZE) :
    x ≤ AlignedSize x al := by
  unfold AlignedSize
  simp only
  split_ifs with h0
  · exact le_refl _
  · have h2 := Nat.mod_lt x hal
    rw [Nat.mod_eq_of_lt (by omega)]
    omega

/-- C9, amended: for every requested size, every power-of-two alignment and every
`extraPadding >= 0`, the realized size `AlignedSize(requestedSize + extraPadding,
alignment)` is a multiple of the alignment; and when the computation does not wrap
(`requestedSize + extraPadding + alignment <= 2 ^ 64`) it is not smaller than
`requestedSize + extraPadding`, hence not smaller than the requested size. -/
theorem size_rounding (a : Config) (n k : Nat) (hal : a.alignment_ = 2 ^ k)
    (hpad : 0 ≤ a.extra_padding_size_) :
    a.alignment_ ∣ realizedSize a n ∧
      (n + a.extra_padding_size_.toNat + a.alignment_ ≤ SIZE →
        n + a.extra_padding_size_.toNat ≤ realizedSize a n ∧ n ≤ realizedSize a n) := by
  constructor
  · unfold realizedSize
    rw [hal]
    exact AlignedSize_dvd _ k
  · intro hw
    have hpos : 0 < a.alignment_ := by
      rw [hal]
      exact Nat.pos_pow_of_pos k (by norm_num)
    have hp : toSizeT a.extra_padding_size_ = a.extra_padding_size_.toNat := by
      unfold toSizeT
      have h1 : a.extra_padding_size_ < (SIZE : Int) := by
        have : (a.extra_padding_size_.toNat : Int) = a.extra_padding_size_ :=
          Int.toNat_of_nonneg hpad
        omega
      rw [Int.emod_eq_of_lt hpad h1]
    have hle : n + a.extra_padding_size_.toNat ≤ realizedSize a n := by
      unfold realizedSize
      rw [hp, Nat.mod_eq_of_lt (by omega)]
      exact le_AlignedSize hpos (by omega)
    exact ⟨hle, by omega⟩

/-- The amended size rounding on the request 100 with alignment 8 and no padding. -/
theorem size_rounding_witness :
    demo.alignment_ = 2 ^ 3 ∧ 0 ≤ demo.extra_padding_size_ ∧
      (demo.alignment_ ∣ realizedSize demo 100 ∧
        (100 + demo.extra_padding_size_.toNat + demo.alignment_ ≤ SIZE →
          100 + demo.extra_padding_size_.toNat ≤ realizedSize demo 100 ∧
            100 ≤ realizedSize demo 100)) :=
  ⟨by decide, by decide, size_rounding demo 100 3 (by decide) (by decide)⟩

theorem carve_requests (s : State) (r : Allocation) (size : Nat) :
    (carve s r size).1.requests = s.requests := by
  unfold carve
  simp only
  split_ifs <;> rfl

/-- The requests made to the underlying allocator within one growth miss: one, or two
of the same size. -/
theorem allocateMiss_requests (a : Config) (s : State) (size : Nat) :
    (allocateMiss a s size).1.requests = s.requests ++ [max size a.chunk_size_] ∨
      (allocateMiss a s size).1.requests =
        s.requests ++ [max size a.chunk_size_, max size a.chunk_size_] := by
  unfold allocateMiss
  simp only
  have h1 : (if a.FLAGS_free_when_no_cache_hit = true then (FreeIdleChunks a s).1
      else s).requests = s.requests := by
    split_ifs
    · exact FreeIdleChunks_requests a s
    · rfl
  generalize (if a.FLAGS_free_when_no_cache_hit = true then (FreeIdleChunks a s).1 else s) = s1
    at h1
  simp only [underlyingAllocate]
  split
  · next s2 r heq =>
    simp only [Prod.mk.injEq] at heq
    obtain ⟨rfl, _⟩ := heq
    left
    rw [carve_requests, h1]
  · next s2 heq =>
    simp only [Prod.mk.injEq] at heq
    obtain ⟨rfl, _⟩ := heq
    split_ifs
    · left
      simp only [h1]
    · split
      · next s4 r heq2 =>
        simp only [Prod.mk.injEq] at heq2
        obtain ⟨rfl, _⟩ := heq2
        right
        rw [carve_requests]
        simp [FreeIdleChunks_requests, h1]
      · next s4 heq2 =>
        simp only [Prod.mk.injEq] at heq2
        obtain ⟨rfl, _⟩ := heq2
        right
        simp [FreeIdleChunks_requests, h1]

theorem allocateHit_requests {s t : State} {size : Nat} {iter : Key × Nat}
    {g : BlockAllocation} (hr : allocateHit s size iter = some (t, g)) :
    t.requests = s.requests := by
  unfold allocateHit at hr
  split at hr
  · simp at hr
  · simp only at hr
    split_ifs at hr
    · simp only [Option.some.injEq, Prod.mk.injEq] at hr
      obtain ⟨rfl, _⟩ := hr
      rfl
    · simp only [Option.some.injEq, Prod.mk.injEq] at hr
      obtain ⟨rfl, _⟩ := hr
      rfl

/-- C10. Exactly-one retry.  Within one `Allocate` the underlying allocator is asked at
most twice.  With `freeIdleChunkOnGrowthMiss` off, on a growth miss whose first reservation
fails, `Allocate` runs `Reclaim` once and repeats the reservation exactly once, with the
same size: the underlying allocator has been asked twice for `max(size, chunk_size_)`; if
the retry succeeds `Allocate` succeeds, carving the region of the retry, and if it fails
`Allocate` fails with out-of-memory. -/
theorem exactly_one_retry (a : Config) (s : State) (n : Nat) (t : State)
    (r : Option BlockAllocation) (hal : AllocateImpl a s n = some (t, r)) :
    (∃ l, t.requests = s.requests ++ l ∧ l.length ≤ 2) ∧
      (a.FLAGS_free_when_no_cache_hit = false →
        lower_bound (realizedSize a n, 0) s.free_blocks_ = none →
        a.underlying_allocator_ s.requests.length (s.chunks_.map Chunk.allocation_)
          (max (realizedSize a n) a.chunk_size_) = none →
        t.requests = s.requests ++
          [max (realizedSize a n) a.chunk_size_, max (realizedSize a n) a.chunk_size_] ∧
        match a.underlying_allocator_ (s.requests.length + 1)
            ((FreeIdleChunks a s).1.chunks_.map Chunk.allocation_)
            (max (realizedSize a n) a.chunk_size_) with
        | some region =>
          t = (carve { (FreeIdleChunks a s).1 with requests := s.requests ++
              [max (realizedSize a n) a.chunk_size_, max (realizedSize a n) a.chunk_size_] }
            region (realizedSize a n)).1 ∧
          r = some (carve { (FreeIdleChunks a s).1 with requests := s.requests ++
              [max (realizedSize a n) a.chunk_size_, max (realizedSize a n) a.chunk_size_] }
            region (realizedSize a n)).2
        | none =>
          t = { (FreeIdleChunks a s).1 with requests := s.requests ++
              [max (realizedSize a n) a.chunk_size_, max (realizedSize a n) a.chunk_size_] } ∧
          r = none) := by
  constructor
  · unfold AllocateImpl at hal
    simp only at hal
    cases hlb : lower_bound (realizedSize a n, 0) s.free_blocks_ with
    | some iter =>
      simp only [hlb] at hal
      cases hh : allocateHit s (realizedSize a n) iter with
      | none => simp [hh] at hal
      | some p =>
        obtain ⟨t1, g⟩ := p
        simp only [hh, Option.some.injEq, Prod.mk.injEq] at hal
        obtain ⟨rfl, _⟩ := hal
        exact ⟨[], by simp [allocateHit_requests hh], by simp⟩
    | none =>
      simp only [hlb, Option.some.injEq] at hal
      have := allocateMiss_requests a s (realizedSize a n)
      rw [hal] at this
      rcases this with h1 | h1
      · exact ⟨_, h1, by simp⟩
      · exact ⟨_, h1, by simp⟩
  · intro hflag hmiss hfail
    unfold AllocateImpl at hal
    simp only [hmiss, Option.some.injEq] at hal
    unfold allocateMiss at hal
    simp only [hflag, Bool.false_eq_true, if_false, underlyingAllocate, hfail] at hal
    have hch : (FreeIdleChunks a { s with requests :=
        s.requests ++ [max (realizedSize a n) a.chunk_size_] }).1 =
        { (FreeIdleChunks a s).1 with requests :=
          s.requests ++ [max (realizedSize a n) a.chunk_size_] } := by
      unfold FreeIdleChunks
      split_ifs <;> rfl
    rw [hch] at hal
    simp only [List.length_append, List.length_singleton, List.append_assoc,
      List.singleton_append] at hal
    cases hq : a.underlying_allocator_ (s.requests.length + 1)
        ((FreeIdleChunks a s).1.chunks_.map Chunk.allocation_)
        (max (realizedSize a n) a.chunk_size_) with
    | some region =>
      simp only [hq, Prod.mk.injEq] at hal
      obtain ⟨rfl, rfl⟩ := hal
      simp only [carve_requests, and_self]
    | none =>
      simp only [hq, Prod.mk.injEq] at hal
      obtain ⟨rfl, rfl⟩ := hal
      exact ⟨rfl, rfl, rfl⟩

/-- The retry on `retrying`, whose underlying allocator fails the first call: the request
is made twice and `Allocate` succeeds. -/
theorem exactly_one_retry_witness :
    AllocateImpl retrying State.init 100 = some
        (⟨[⟨⟨4096, 4096⟩, [⟨0, 4096, 3992, true⟩, ⟨1, 8088, 104, false⟩]⟩],
          [((3992, 4096), 0)], 1, 104, 0, 0, 2, [4096, 4096]⟩, some ⟨8088, 104, 1⟩) ∧
      retrying.FLAGS_free_when_no_cache_hit = false ∧
      lower_bound (realizedSize retrying 100, 0) State.init.free_blocks_ = none ∧
      retrying.underlying_allocator_ State.init.requests.length
        (State.init.chunks_.map Chunk.allocation_)
        (max (realizedSize retrying 100) retrying.chunk_size_) = none ∧
      (∃ l, [4096, 4096] = State.init.requests ++ l ∧ l.length ≤ 2) :=
  ⟨by rfl, by rfl, by rfl, by rfl,
    (exactly_one_retry retrying State.init 100
      ⟨[⟨⟨4096, 4096⟩, [⟨0, 4096, 3992, true⟩, ⟨1, 8088, 104, false⟩]⟩],
        [((3992, 4096), 0)], 1, 104, 0, 0, 2, [4096, 4096]⟩ (some ⟨8088, 104, 1⟩)
      (by rfl)).1⟩

/-! ## The total size of regions that lie apart -/

theorem mem_cover {rs : List Allocation} {x : Nat} :
    x ∈ cover rs ↔ ∃ r ∈ rs, r.ptr ≤ x ∧ x < r.ptr + r.size := by
  induction rs with
  | nil => simp [cover]
  | cons r rs ih => simp [cover, ih]

theorem card_cover {rs : List Allocation} (hp : rs.Pairwise separated) :
    (cover rs).card = (rs.map Allocation.size).sum := by
  induction rs with
  | nil => simp [cover]
  | cons r rs ih =>
    have h1 := List.pairwise_cons.1 hp
    have hd : Disjoint (Finset.Ico r.ptr (r.ptr + r.size)) (cover rs) := by
      rw [Finset.disjoint_left]
      intro x hx hc
      obtain ⟨q, hq, hq1, hq2⟩ := mem_cover.1 hc
      have := h1.1 q hq
      simp only [Finset.mem_Ico] at hx
      unfold separated apart at this
      omega
    simp only [cover, List.map_cons, List.sum_cons]
    rw [Finset.card_union_of_disjoint hd, ih h1.2, Nat.card_Ico]
    omega

theorem sum_sizes_lt {rs : List Allocation} (hp : rs.Pairwise separated)
    (hb : ∀ r ∈ rs, 0 < r.ptr ∧ r.ptr + r.size ≤ SIZE) :
    (rs.map Allocation.size).sum < SIZE := by
  rw [← card_cover hp]
  have hsub : cover rs ⊆ Finset.Ico 1 SIZE := by
    intro x hx
    obtain ⟨r, hr, h1, h2⟩ := mem_cover.1 hx
    have := hb r hr
    simp only [Finset.mem_Ico]
    omega
  have := Finset.card_le_card hsub
  rw [Nat.card_Ico] at this
  have := SIZE_pos
  omega

/-! ## Reclaim -/

theorem freeIdleLoop_index_eq (cs : List Chunk) (m : FreeBlocks) (bytes : Nat) :
    (freeIdleLoop cs m bytes).2.1 = m.filter (fun e => decide (e.1 ∉ idleKeys cs)) := by
  induction cs generalizing m bytes with
  | nil => simp [freeIdleLoop, idleKeys]
  | cons c cs ih =>
    rw [freeIdleLoop_cons]
    split_ifs with h
    · rw [ih]
      obtain ⟨b, hb, _⟩ := idle_iff.1 h
      unfold erase
      rw [List.filter_filter]
      apply List.filter_congr
      intro e _
      simp [idleKeys, List.filter_cons, h, hb, Bool.and_comm]
    · simp only [ih]
      simp [idleKeys, List.filter_cons, h]

/-- In a reachable state, an entry has the key of the sole block of an idle chunk exactly
when it refers to that block. -/
theorem key_idle_iff {a : Config} {s : State} {L : List BlockAllocation} (h : Inv s L)
    (k : Inv2 a s) (hcs : 0 < a.chunk_size_) {e : Key × Nat} (he : e ∈ s.free_blocks_) :
    e.1 ∈ idleKeys s.chunks_ ↔ refersToIdle s.chunks_ e = true := by
  simp only [refersToIdle, List.any_eq_true, decide_eq_true_eq, mem_idleKeys, mem_allBlocks,
    List.mem_filter]
  obtain ⟨y, hy, hd⟩ := h.index_valid e he
  constructor
  · rintro ⟨c, hc, b, hb, hbf, hk⟩
    have hbm : b ∈ allBlocks s.chunks_ := mem_allBlocks.2 ⟨c, hc, by simp [hb]⟩
    have hsz : b.size_ = c.allocation_.size := by
      have := (h.partition c hc).total
      rw [hb] at this
      simpa using this
    have hmin := k.chunk_min c hc
    have hk2 := hd.2.2
    rw [hk] at hk2
    simp only [Prod.mk.injEq] at hk2
    have : y = b := block_unique h.partition k.disjoint hy hbm hk2.2.symm (by omega) (by omega)
    subst this
    exact ⟨y, ⟨c, ⟨hc, idle_iff.2 ⟨y, hb, hbf⟩⟩, by simp [hb]⟩, hd.1⟩
  · rintro ⟨b, ⟨c, ⟨hc, hi⟩, hbc⟩, hn⟩
    obtain ⟨b1, hb1, hbf⟩ := idle_iff.1 hi
    rw [hb1] at hbc
    simp only [List.mem_singleton] at hbc
    subst hbc
    have hbm : b ∈ allBlocks s.chunks_ := mem_allBlocks.2 ⟨c, hc, by simp [hb1]⟩
    have : y = b := eq_of_node_eq h.nodes_nodup hy hbm (by rw [hd.1, hn])
    subst this
    exact ⟨c, hc, y, hb1, hbf, hd.2.2⟩

theorem sum_idle_sizes {s : State} {L : List BlockAllocation} (h : Inv s L) :
    ((s.chunks_.filter Chunk.idle).map (fun c => sizes c.blocks_)).sum =
      ((s.chunks_.filter Chunk.idle).map (fun c => c.allocation_.size)).sum := by
  congr 1
  apply List.map_congr_left
  intro c hc
  exact (h.partition c (List.mem_filter.1 hc).1).total

theorem demoIdle_reachable : Reachable demo demoIdle [⟨8192, 5000, 2⟩] :=
  script_reachable ([Op.allocate 100, Op.allocate 5000, Op.free 1]) (by rfl)

/-- In a constructed allocator with a non-zero alignment the chunk size is not zero. -/
theorem create_chunk_size_pos (u : Nat → List Allocation → Nat → Option Allocation)
    (alignment chunk_size : Nat) (allow : Bool) (pad : Int) (f1 f2 f3 : Bool)
    (h : 0 < alignment) :
    0 < (Config.create u alignment chunk_size allow pad f1 f2 f3).chunk_size_ :=
  lt_of_lt_of_le h (le_max_right _ _)

/-- C6. Reclaim correctness: when `allowIdleChunkRelease` is true, `Reclaim` on a reachable
state (the underlying allocator being well behaved and its regions address ranges, the
chunk size not zero) removes from the Chunk Pool exactly the chunks whose Block List is a
single free block, removes from the Free Index exactly the entries that refer to the
blocks of those chunks, keeps every other chunk and entry in the original order, and
returns the sum of the reserved sizes of the removed chunks; in particular a chunk all of
whose blocks have been freed is removed and its size is included in the bytes released. -/
theorem reclaim_correct (a : Config) (hu : WellBehaved a.underlying_allocator_)
    (hA : Addressable a.underlying_allocator_) (hcs : 0 < a.chunk_size_)
    (hallow : a.allow_free_idle_chunk_ = true)
    (s : State) (L : List BlockAllocation) (hr : Reachable a s L) :
    (FreeIdleChunks a s).1.chunks_ = s.chunks_.filter (fun c => !c.idle) ∧
      (FreeIdleChunks a s).1.free_blocks_ =
        s.free_blocks_.filter (fun e => !refersToIdle s.chunks_ e) ∧
      (FreeIdleChunks a s).2 =
        ((s.chunks_.filter Chunk.idle).map (fun c => c.allocation_.size)).sum ∧
      ∀ c ∈ s.chunks_, (∀ b ∈ c.blocks_, b.is_free_ = true) →
        c ∉ (FreeIdleChunks a s).1.chunks_ ∧ c.allocation_.size ≤ (FreeIdleChunks a s).2 := by
  have hi := hr.inv hu.sized
  have hk := hr.inv2 hu
  have hbytes : (FreeIdleChunks a s).2 =
      ((s.chunks_.filter Chunk.idle).map (fun c => c.allocation_.size)).sum := by
    unfold FreeIdleChunks
    simp only [hallow, Bool.true_eq_false, if_false]
    have h1 := freeIdleLoop_bytes s.chunks_ s.free_blocks_ 0
    have h2 := freeIdleLoop_bytes_lt s.chunks_ s.free_blocks_ 0 SIZE_pos
    rw [Nat.mod_eq_of_lt h2, Nat.zero_add, sum_idle_sizes hi] at h1
    rw [h1]
    apply Nat.mod_eq_of_lt
    have hsub : (s.chunks_.filter Chunk.idle).Sublist s.chunks_ := List.filter_sublist _
    have hp : ((s.chunks_.filter Chunk.idle).map Chunk.allocation_).Pairwise separated :=
      List.pairwise_map.2 (hk.disjoint.sublist hsub)
    have := sum_sizes_lt hp (by
      intro r hr
      obtain ⟨c, hc, rfl⟩ := List.mem_map.1 hr
      exact hk.bounded hA c (hsub.subset hc))
    simpa [List.map_map] using this
  have hchunks : (FreeIdleChunks a s).1.chunks_ = s.chunks_.filter (fun c => !c.idle) := by
    rw [FreeIdleChunks_chunks]
    simp [hallow]
  refine ⟨hchunks, ?_, hbytes, ?_⟩
  · unfold FreeIdleChunks
    simp only [hallow, Bool.true_eq_false, if_false, freeIdleLoop_index_eq]
    apply List.filter_congr
    intro e he
    have := key_idle_iff hi hk hcs he
    by_cases hc : refersToIdle s.chunks_ e = true
    · simp [hc, this.2 hc]
    · have hn : e.1 ∉ idleKeys s.chunks_ := fun hx => hc (this.1 hx)
      simp [hc, hn]
  · intro c hc hf
    obtain ⟨b, hb, hbf, _, _⟩ := single_of_all_free hi hc hf
    have hidle : c.idle = true := idle_iff.2 ⟨b, hb, hbf⟩
    constructor
    · rw [hchunks]
      simp [List.mem_filter, hidle]
    · rw [hbytes]
      exact List.single_le_sum (by simp) _
        (List.mem_map.2 ⟨c, List.mem_filter.2 ⟨hc, hidle⟩, rfl⟩)

/-- Reclaim on `demoIdle`: the idle chunk of 4096 bytes and its entry are removed, the
chunk in use is kept, 4096 is returned. -/
theorem reclaim_correct_witness :
    WellBehaved demo.underlying_allocator_ ∧ Addressable demo.underlying_allocator_ ∧
      0 < demo.chunk_size_ ∧ demo.allow_free_idle_chunk_ = true ∧
      Reachable demo demoIdle [⟨8192, 5000, 2⟩] ∧
      FreeIdleChunks demo demoIdle =
        ({ demoIdle with
            chunks_ := [⟨⟨8192, 5000⟩, [⟨2, 8192, 5000, false⟩]⟩]
            free_blocks_ := [] }, 4096) ∧
      (FreeIdleChunks demo demoIdle).1.chunks_ = demoIdle.chunks_.filter (fun c => !c.idle) ∧
      (FreeIdleChunks demo demoIdle).2 =
        ((demoIdle.chunks_.filter Chunk.idle).map (fun c => c.allocation_.size)).sum :=
  ⟨bump_wellBehaved, bump_addressable, by decide, by decide, demoIdle_reachable, by rfl,
    (reclaim_correct demo bump_wellBehaved bump_addressable (by decide) (by decide)
      demoIdle _ demoIdle_reachable).1,
    (reclaim_correct demo bump_wellBehaved bump_addressable (by decide) (by decide)
      demoIdle _ demoIdle_reachable).2.2.1⟩

/-! ## Erasing and inserting in a sorted index -/

theorem erase_eq_self {k : Key} {m : FreeBlocks} (h : ∀ e ∈ m, e.1 ≠ k) : erase k m = m := by
  unfold erase
  rw [List.filter_eq_self]
  intro e he
  simpa using h e he

theorem erase_insertEntry {k : Key} {v : Nat} {m : FreeBlocks} (h : ∀ e ∈ m, e.1 ≠ k) :
    erase k (insertEntry (k, v) m) = m := by
  induction m with
  | nil => simp [insertEntry, erase]
  | cons x xs ih =>
    have hx := h x (List.mem_cons_self _ _)
    have hxs : ∀ e ∈ xs, e.1 ≠ k := fun e he => h e (List.mem_cons_of_mem _ he)
    simp only [insertEntry]
    split_ifs
    · have h1 : erase k ((k, v) :: x :: xs) = erase k (x :: xs) := by
        simp [erase]
      rw [h1, erase_eq_self h]
    · have h1 : erase k (x :: insertEntry (k, v) xs) =
          x :: erase k (insertEntry (k, v) xs) := by
        simp [erase, hx]
      rw [h1, ih hxs]

theorem erase_emplace {k : Key} {v : Nat} {m : FreeBlocks} (h : ∀ e ∈ m, e.1 ≠ k) :
    erase k (emplace k v m) = m := by
  unfold emplace
  split_ifs with hc
  · simp only [List.any_eq_true, decide_eq_true_eq] at hc
    obtain ⟨e, he, hek⟩ := hc
    exact absurd hek (h e he)
  · exact erase_insertEntry h

theorem emplace_erase {k : Key} (v w : Nat) {m : FreeBlocks}
    (hs : m.Pairwise (fun e f => keyLt e.1 f.1)) (hm : (k, v) ∈ m) :
    emplace k w (erase k m) = m.map (fun e => if e.1 = k then (k, w) else e) := by
  have hno : ∀ e ∈ erase k m, e.1 ≠ k := fun e he => (mem_erase.1 he).2
  unfold emplace
  rw [if_neg (by
    simp only [List.any_eq_true, decide_eq_true_eq, not_exists, not_and]
    exact hno)]
  clear hno
  induction m with
  | nil => simp at hm
  | cons x xs ih =>
    have hp := List.pairwise_cons.1 hs
    by_cases hx : x.1 = k
    · have hxs : ∀ e ∈ xs, e.1 ≠ k := by
        intro e he hek
        have := hp.1 e he
        rw [hx, hek] at this
        exact keyLt_irrefl _ this
      have h1 : erase k (x :: xs) = xs := by
        have := erase_eq_self hxs
        unfold erase at this ⊢
        simp only [List.filter_cons, ne_eq, hx, not_true_eq_false, decide_False,
          Bool.false_eq_true, if_false]
        exact this
      have h2 : insertEntry (k, w) xs = (k, w) :: xs := by
        cases xs with
        | nil => rfl
        | cons y ys =>
          have := hp.1 y (List.mem_cons_self _ _)
          rw [hx] at this
          simp [insertEntry, this]
      have h3 : xs.map (fun e => if e.1 = k then (k, w) else e) = xs := by
        conv_rhs => rw [← List.map_id xs]
        apply List.map_congr_left
        intro e he
        simp [hxs e he]
      rw [h1, h2]
      simp [hx, h3]
    · have hm2 : (k, v) ∈ xs := by
        rcases List.mem_cons.1 hm with h | h
        · exact absurd (by rw [← h]) hx
        · exact h
      have hlt : keyLt x.1 k := hp.1 _ hm2
      have h1 : erase k (x :: xs) = x :: erase k xs := by
        unfold erase
        simp [List.filter_cons, hx]
      rw [h1]
      simp only [insertEntry, List.map_cons, hx, if_false]
      rw [if_neg (keyLt_asymm hlt), ih hp.2 hm2]

/-! ## Renaming nodes -/

theorem renameChunks_eq_self (f : Nat → Nat) (cs : List Chunk)
    (h : ∀ x ∈ allBlocks cs, f x.node = x.node) : renameChunks f cs = cs := by
  unfold renameChunks
  conv_rhs => rw [← List.map_id cs]
  apply List.map_congr_left
  intro c hc
  have : c.blocks_.map (Block.rename f) = c.blocks_ := by
    conv_rhs => rw [← List.map_id c.blocks_]
    apply List.map_congr_left
    intro b hb
    have := h b (mem_allBlocks.2 ⟨c, hc, hb⟩)
    cases b
    simp only [Block.rename, id_eq, Block.mk.injEq, and_self, and_true]
    exact this
  simp [this]

theorem rename_blocks_eq_self (f : Nat → Nat) (bs : List Block)
    (h : ∀ x ∈ bs, f x.node = x.node) : bs.map (Block.rename f) = bs := by
  conv_rhs => rw [← List.map_id bs]
  apply List.map_congr_left
  intro b hb
  have := h b hb
  cases b
  simp only [Block.rename, id_eq, Block.mk.injEq, and_self, and_true]
  exact this

theorem SameUpToNodes.of_eq {s t : State} (h1 : t.chunks_ = s.chunks_)
    (h2 : t.free_blocks_ = s.free_blocks_) : SameUpToNodes s t := by
  refine ⟨id, fun _ _ _ _ h => h, ?_, ?_⟩
  · rw [h1, renameChunks_eq_self id s.chunks_ (fun _ _ => rfl)]
  · rw [h2]
    simp [renameIndex]

/-! ## Dereferencing in a stored Block List -/

theorem splitNode_append {it : Nat} {pre post : List Block} {b : Block}
    (hpre : ∀ x ∈ pre, x.node ≠ it) (hb : b.node = it) :
    splitNode it (pre ++ b :: post) = some (pre, b, post) := by
  induction pre with
  | nil => simp [splitNode, hb]
  | cons x xs ih =>
    have hx := hpre x (List.mem_cons_self _ _)
    simp only [List.cons_append, splitNode, hx, if_false, List.append_eq]
    rw [ih (fun y hy => hpre y (List.mem_cons_of_mem _ hy))]

theorem splitNode_none {it : Nat} {bs : List Block} (h : ∀ x ∈ bs, x.node ≠ it) :
    splitNode it bs = none := by
  induction bs with
  | nil => rfl
  | cons x xs ih =>
    have hx := h x (List.mem_cons_self _ _)
    simp only [splitNode, hx, if_false]
    rw [ih (fun y hy => h y (List.mem_cons_of_mem _ hy))]

theorem deref_store {it : Nat} {before after : List Chunk} {al : Allocation}
    {pre post : List Block} {b : Block}
    (hbefore : ∀ x ∈ allBlocks before, x.node ≠ it) (hpre : ∀ x ∈ pre, x.node ≠ it)
    (hb : b.node = it) :
    deref it (before ++ ⟨al, pre ++ b :: post⟩ :: after) =
      some ⟨before, ⟨al, pre ++ b :: post⟩, after, pre, b, post⟩ := by
  induction before with
  | nil =>
    simp only [List.nil_append, deref]
    rw [splitNode_append hpre hb]
  | cons c cs ih =>
    have h1 : ∀ x ∈ c.blocks_, x.node ≠ it := by
      intro x hx
      exact hbefore x (by simp [hx])
    have h2 : ∀ x ∈ allBlocks cs, x.node ≠ it := by
      intro x hx
      exact hbefore x (by simp [hx])
    simp only [List.cons_append, deref, List.append_eq]
    rw [splitNode_none h1, ih h2]

/-! ## A pool without idle chunks -/

theorem freeIdleLoop_of_no_idle {cs : List Chunk} (h : ∀ c ∈ cs, c.idle = false)
    (m : FreeBlocks) (bytes : Nat) : freeIdleLoop cs m bytes = (cs, m, bytes) := by
  induction cs with
  | nil => rfl
  | cons c cs ih =>
    rw [freeIdleLoop_cons]
    have hc := h c (List.mem_cons_self _ _)
    simp only [hc, Bool.false_eq_true, if_false]
    rw [ih (fun d hd => h d (List.mem_cons_of_mem _ hd))]

theorem FreeIdleChunks_of_no_idle (a : Config) {s : State}
    (h : ∀ c ∈ s.chunks_, c.idle = false) : (FreeIdleChunks a s).1 = s := by
  unfold FreeIdleChunks
  split_ifs
  · rfl
  · simp only [freeIdleLoop_of_no_idle h]

theorem idle_rename (f : Nat → Nat) (c : Chunk) :
    ({ c with blocks_ := c.blocks_.map (Block.rename f) } : Chunk).idle = c.idle := by
  unfold Chunk.idle
  match hb : c.blocks_ with
  | [] => simp
  | [b] => simp [Block.rename]
  | _ :: _ :: _ => simp

theorem mergePrev_of_not_free {prevs : List Block} (h : ∀ x ∈ prevs.getLast?, x.is_free_ = false)
    (block : Block) (m : FreeBlocks) : mergePrev prevs block m = (prevs, block, m) := by
  unfold mergePrev
  cases hp : prevs.getLast? with
  | none => rfl
  | some p =>
    have := h p (by simp [hp])
    simp [this]

theorem mergeNext_of_not_free {nexts : List Block} (h : ∀ x ∈ nexts.head?, x.is_free_ = false)
    (block : Block) (m : FreeBlocks) : mergeNext block nexts m = (block, nexts, m) := by
  unfold mergeNext
  cases nexts with
  | nil => rfl
  | cons y ys =>
    have := h y (by simp)
    simp [this]

/-! ## Chunks after an operation -/

theorem chunks_of_FreeIdleChunks {a : Config} {s : State} {c : Chunk}
    (hc : c ∈ (FreeIdleChunks a s).1.chunks_) : c ∈ s.chunks_ := by
  rw [FreeIdleChunks_chunks] at hc
  split_ifs at hc
  · exact hc
  · exact (List.mem_filter.1 hc).1

theorem chunks_of_carve {s : State} {r : Allocation} {size : Nat} {c : Chunk}
    (hc : c ∈ (carve s r size).1.chunks_) :
    c ∈ s.chunks_ ∨ ∃ b ∈ c.blocks_, b.is_free_ = false := by
  unfold carve at hc
  simp only at hc
  split_ifs at hc
  · simp only [List.mem_append, List.mem_singleton] at hc
    rcases hc with hc | rfl
    · exact Or.inl hc
    · exact Or.inr ⟨⟨s.fresh + 1, r.ptr + (r.size + SIZE - size) % SIZE, size, false⟩,
        by simp, rfl⟩
  · simp only [List.mem_append, List.mem_singleton] at hc
    rcases hc with hc | rfl
    · exact Or.inl hc
    · exact Or.inr ⟨⟨s.fresh, r.ptr + (r.size + SIZE - size) % SIZE, size, false⟩,
        by simp, rfl⟩

theorem chunks_of_allocateMiss (a : Config) (s : State) (size : Nat) (c : Chunk)
    (hc : c ∈ (allocateMiss a s size).1.chunks_) :
    c ∈ s.chunks_ ∨ ∃ b ∈ c.blocks_, b.is_free_ = false := by
  have h1 : ∀ d, d ∈ (if a.FLAGS_free_when_no_cache_hit = true then (FreeIdleChunks a s).1
      else s).chunks_ → d ∈ s.chunks_ := by
    intro d hd
    split_ifs at hd
    · exact chunks_of_FreeIdleChunks hd
    · exact hd
  unfold allocateMiss at hc
  simp only at hc
  generalize (if a.FLAGS_free_when_no_cache_hit = true then (FreeIdleChunks a s).1 else s) = s1
    at h1 hc
  cases hr : (underlyingAllocate a s1 (max size a.chunk_size_)).2 with
  | some r =>
    have hr2 : underlyingAllocate a s1 (max size a.chunk_size_) =
        ((underlyingAllocate a s1 (max size a.chunk_size_)).1, some r) := by
      rw [← hr]
    rw [hr2] at hc
    rcases chunks_of_carve hc with h2 | h2
    · exact Or.inl (h1 c h2)
    · exact Or.inr h2
  | none =>
    have hr2 : underlyingAllocate a s1 (max size a.chunk_size_) =
        ((underlyingAllocate a s1 (max size a.chunk_size_)).1, none) := by
      rw [← hr]
    rw [hr2] at hc
    simp only at hc
    split_ifs at hc with hf
    · exact Or.inl (h1 c hc)
    · have h3 : ∀ d, d ∈ (FreeIdleChunks a
          (underlyingAllocate a s1 (max size a.chunk_size_)).1).1.chunks_ → d ∈ s.chunks_ :=
        fun d hd => h1 d (chunks_of_FreeIdleChunks (a := a)
          (s := (underlyingAllocate a s1 (max size a.chunk_size_)).1) hd)
      generalize (FreeIdleChunks a (underlyingAllocate a s1 (max size a.chunk_size_)).1).1 = s3
        at h3 hc
      cases hq : (underlyingAllocate a s3 (max size a.chunk_size_)).2 with
      | some r =>
        have hq2 : underlyingAllocate a s3 (max size a.chunk_size_) =
            ((underlyingAllocate a s3 (max size a.chunk_size_)).1, some r) := by
          rw [← hq]
        rw [hq2] at hc
        rcases chunks_of_carve hc with h2 | h2
        · exact Or.inl (h3 c h2)
        · exact Or.inr h2
      | none =>
        have hq2 : underlyingAllocate a s3 (max size a.chunk_size_) =
            ((underlyingAllocate a s3 (max size a.chunk_size_)).1, none) := by
          rw [← hq]
        rw [hq2] at hc
        exact Or.inl (h3 c hc)

theorem chunks_of_allocateHit {s : State} {L : List BlockAllocation} (h : Inv s L)
    {iter : Key × Nat} (hi : iter ∈ s.free_blocks_) {size : Nat} (hsz : size ≤ iter.1.1)
    {t : State} {g : BlockAllocation} (hr : allocateHit s size iter = some (t, g))
    {c : Chunk} (hc : c ∈ t.chunks_) :
    c ∈ s.chunks_ ∨ ∃ b ∈ c.blocks_, b.is_free_ = false := by
  obtain ⟨cur, hcur, hat, hd, hle, hw⟩ := hit_cursor h hi hsz
  unfold allocateHit at hr
  simp only [hcur, hw] at hr
  split_ifs at hr with h0
  · simp only [Option.some.injEq, Prod.mk.injEq] at hr
    obtain ⟨rfl, rfl⟩ := hr
    simp only [Cursor.store, List.mem_append, List.mem_cons] at hc
    rw [hat.chunks]
    rcases hc with hc | rfl | hc
    · exact Or.inl (by simp [hc])
    · exact Or.inr ⟨{ cur.block with is_free_ := false }, by simp, rfl⟩
    · exact Or.inl (by simp [hc])
  · simp only [Option.some.injEq, Prod.mk.injEq] at hr
    obtain ⟨rfl, rfl⟩ := hr
    simp only [Cursor.store, List.mem_append, List.mem_cons] at hc
    rw [hat.chunks]
    rcases hc with hc | rfl | hc
    · exact Or.inl (by simp [hc])
    · exact Or.inr ⟨⟨cur.block.node, cur.block.ptr_ + (cur.block.size_ - size), size, false⟩,
        by simp, rfl⟩
    · exact Or.inl (by simp [hc])

theorem chunks_of_AllocateImpl {a : Config} {s t : State} {L : List BlockAllocation}
    (h : Inv s L) {n : Nat} {r : Option BlockAllocation}
    (hr : AllocateImpl a s n = some (t, r)) {c : Chunk} (hc : c ∈ t.chunks_) :
    c ∈ s.chunks_ ∨ ∃ b ∈ c.blocks_, b.is_free_ = false := by
  unfold AllocateImpl at hr
  simp only at hr
  cases hlb : lower_bound (realizedSize a n, 0) s.free_blocks_ with
  | some iter =>
    simp only [hlb] at hr
    obtain ⟨hi, hsz⟩ := lower_bound_hit hlb
    cases hh : allocateHit s (realizedSize a n) iter with
    | none => simp [hh] at hr
    | some p =>
      obtain ⟨t1, g⟩ := p
      simp only [hh, Option.some.injEq, Prod.mk.injEq] at hr
      obtain ⟨rfl, _⟩ := hr
      exact chunks_of_allocateHit h hi hsz hh hc
  | none =>
    simp only [hlb, Option.some.injEq] at hr
    have := chunks_of_allocateMiss a s (realizedSize a n) c
    rw [hr] at this
    exact this hc

/-- With the reclaim-on-free policy on and idle chunks releasable, no reachable state has
an idle chunk. -/
theorem Reachable.noIdle {a : Config} (hu : Sized a.underlying_allocator_) {s : State}
    {L : List BlockAllocation} (hr : Reachable a s L)
    (hf : a.FLAGS_free_idle_chunk = true) (hal : a.allow_free_idle_chunk_ = true) :
    ∀ c ∈ s.chunks_, c.idle = false := by
  induction hr with
  | init => simp [State.init]
  | allocate hp _ _ hal2 ih =>
    intro c hc
    rcases chunks_of_AllocateImpl (hp.inv hu) hal2 hc with h1 | ⟨b, hb, hbf⟩
    · exact ih c h1
    · exact not_idle_of_in_use hb hbf
  | bad_alloc hp _ _ hal2 ih =>
    intro c hc
    rcases chunks_of_AllocateImpl (hp.inv hu) hal2 hc with h1 | ⟨b, hb, hbf⟩
    · exact ih c h1
    · exact not_idle_of_in_use hb hbf
  | free hp hg hfr _ =>
    intro c hc
    unfold FreeImpl at hfr
    split at hfr
    · simp at hfr
    · simp only [hf, if_true, Option.some.injEq] at hfr
      subst hfr
      rw [FreeIdleChunks_chunks] at hc
      simp only [hal, Bool.true_eq_false, if_false, List.mem_filter, Bool.not_eq_true'] at hc
      exact hc.2
  | reclaim hp _ =>
    intro c hc
    rw [FreeIdleChunks_chunks] at hc
    simp only [hal, Bool.true_eq_false, if_false, List.mem_filter, Bool.not_eq_true'] at hc
    exact hc.2

/-- A state that is a reachable state up to the identity of nodes is not changed by the
reclaim-on-free policy when that policy has been on all along. -/
theorem SameUpToNodes.reclaim {a : Config} {s t : State}
    (hn : a.FLAGS_free_idle_chunk = true → a.allow_free_idle_chunk_ = true →
      ∀ c ∈ s.chunks_, c.idle = false)
    (h : SameUpToNodes s t) :
    SameUpToNodes s (if a.FLAGS_free_idle_chunk = true then (FreeIdleChunks a t).1 else t) := by
  split_ifs with hf
  · by_cases hal : a.allow_free_idle_chunk_ = true
    · have : ∀ c ∈ t.chunks_, c.idle = false := by
        obtain ⟨f, _, h2, _⟩ := h
        intro c hc
        rw [h2] at hc
        simp only [renameChunks, List.mem_map] at hc
        obtain ⟨c0, hc0, rfl⟩ := hc
        rw [idle_rename]
        exact hn hf hal c0 hc0
      rw [FreeIdleChunks_of_no_idle a this]
      exact h
    · simp only [Bool.not_eq_true] at hal
      have : (FreeIdleChunks a t).1 = t := by
        unfold FreeIdleChunks
        simp [hal]
      rw [this]
      exact h
  · exact h

theorem map_ite_eq_self {k : Key} {v : Nat} {m : FreeBlocks}
    (hs : m.Pairwise (fun e f => keyLt e.1 f.1)) (hm : (k, v) ∈ m) :
    m.map (fun e => if e.1 = k then (k, v) else e) = m := by
  conv_rhs => rw [← List.map_id m]
  apply List.map_congr_left
  intro e he
  by_cases hk : e.1 = k
  · simp only [hk, if_true, id_eq]
    exact (eq_of_key_eq hs he hm hk).symm
  · simp [hk]

theorem mergePrev_concat_free (P : List Block) (prev : Block) (hf : prev.is_free_ = true)
    (block : Block) (m : FreeBlocks) :
    mergePrev (P ++ [prev]) block m =
      (P, { prev with size_ := (prev.size_ + block.size_) % SIZE },
        erase (prev.size_, prev.ptr_) m) := by
  simp [mergePrev, hf]

theorem hit_then_free {a : Config} {s : State} {L : List BlockAllocation} (h : Inv s L)
    (k : Inv2 a s) {iter : Key × Nat} (hi : iter ∈ s.free_blocks_) {size : Nat}
    (hsz : size ≤ iter.1.1) :
    ∃ s1 g cur1, allocateHit s size iter = some (s1, g) ∧
      deref g.block_it_ s1.chunks_ = some cur1 ∧ SameUpToNodes s (freeBlock s1 cur1) := by
  obtain ⟨cur, hcur, hat, hd, hle, hw⟩ := hit_cursor h hi hsz
  have hbm := hat.mem_block
  have hbsz := block_size_lt h hbm
  have hfresh := h.nodes_lt _ hbm
  have hmax := h.maximal _ hat.mem_chunk
  have hnn := h.nodes_nodup
  have hall := hat.allBlocks_eq
  obtain ⟨before, chunk, after, prevs, b, nexts⟩ := cur
  obtain ⟨al, blocks⟩ := chunk
  have hblocks : blocks = prevs ++ b :: nexts := hat.blocks
  subst hblocks
  have hchunks : s.chunks_ = before ++ ⟨al, prevs ++ b :: nexts⟩ :: after := hat.chunks
  obtain ⟨bn, bp, bs, bf⟩ := b
  obtain ⟨⟨ks, kp⟩, kv⟩ := iter
  obtain ⟨h1, h2, h3⟩ := hd
  simp only [Prod.mk.injEq] at h1 h2 h3
  obtain ⟨rfl, rfl⟩ := h3
  subst h1 h2
  simp only at hall hmax hle hw hbsz hfresh hcur hsz
  rw [noAdjFree_middle] at hmax
  have hpl : ∀ x ∈ prevs.getLast?, x.is_free_ = false := by
    intro x hx
    have := hmax.2.2.1 x hx
    simpa using this
  have hnl : ∀ x ∈ nexts.head?, x.is_free_ = false := by
    intro x hx
    have := hmax.2.2.2 x hx
    simpa using this
  rw [hall] at hnn
  have hother : ∀ x, x ∈ allBlocks before ∨ x ∈ prevs ∨ x ∈ nexts ∨ x ∈ allBlocks after →
      x.node ≠ bn := by
    intro x hx hxn
    have h5 : (allBlocks before ++ (prevs ++ ⟨bn, kp, ks, true⟩ :: nexts) ++
        allBlocks after).map Block.node =
        ((allBlocks before ++ prevs).map Block.node) ++ bn ::
          ((nexts ++ allBlocks after).map Block.node) := by simp
    rw [h5] at hnn
    have h6 := (List.nodup_cons.1 (List.nodup_middle.1 hnn)).1
    apply h6
    rw [← hxn]
    simp only [List.map_append, List.mem_append, List.mem_map]
    rcases hx with hx | hx | hx | hx
    · exact Or.inl (Or.inl ⟨x, hx, rfl⟩)
    · exact Or.inl (Or.inr ⟨x, hx, rfl⟩)
    · exact Or.inr (Or.inl ⟨x, hx, rfl⟩)
    · exact Or.inr (Or.inr ⟨x, hx, rfl⟩)
  unfold allocateHit
  simp only [hcur, hw]
  split_ifs with h0
  · refine ⟨_, _, ⟨before, ⟨al, prevs ++ ⟨bn, kp, ks, false⟩ :: nexts⟩, after, prevs,
      ⟨bn, kp, ks, false⟩, nexts⟩, rfl, ?_, ?_⟩
    · exact deref_store (fun x hx => hother x (Or.inl hx))
        (fun x hx => hother x (Or.inr (Or.inl hx))) rfl
    · apply SameUpToNodes.of_eq
      · simp only [freeBlock, mergePrev_of_not_free hpl, mergeNext_of_not_free hnl,
          Cursor.store]
        rw [hchunks]
      · simp only [freeBlock, mergePrev_of_not_free hpl, mergeNext_of_not_free hnl]
        rw [emplace_erase bn bn h.index_sorted hi]
        exact map_ite_eq_self h.index_sorted hi
  · have hrem : 0 < ks - size := by omega
    have hw2 : (ks - size + size) % SIZE = ks := by
      rw [Nat.sub_add_cancel hle]
      exact Nat.mod_eq_of_lt hbsz
    have hno : ∀ e ∈ erase (ks, kp) s.free_blocks_, e.1 ≠ (ks - size, kp) := by
      intro e he hk
      rw [mem_erase] at he
      obtain ⟨y, hy, hdy⟩ := h.index_valid e he.1
      have hk2 := hdy.2.2
      rw [hk] at hk2
      simp only [Prod.mk.injEq] at hk2
      have : y = ⟨bn, kp, ks, true⟩ :=
        block_unique h.partition k.disjoint hy hbm hk2.2.symm (by omega)
          (by show 0 < ks; omega)
      subst this
      exact he.2 hdy.2.2
    have hsplit : prevs ++ (⟨s.fresh, kp, ks - size, true⟩ : Block) ::
        ⟨bn, kp + (ks - size), size, false⟩ :: nexts =
        (prevs ++ [⟨s.fresh, kp, ks - size, true⟩]) ++
          ⟨bn, kp + (ks - size), size, false⟩ :: nexts := by simp
    refine ⟨_, _, ⟨before, ⟨al, (prevs ++ [⟨s.fresh, kp, ks - size, true⟩]) ++
        ⟨bn, kp + (ks - size), size, false⟩ :: nexts⟩, after,
      prevs ++ [⟨s.fresh, kp, ks - size, true⟩], ⟨bn, kp + (ks - size), size, false⟩, nexts⟩,
      rfl, ?_, ?_⟩
    · show deref bn (before ++ ⟨al, prevs ++ (⟨s.fresh, kp, ks - size, true⟩ : Block) ::
        ⟨bn, kp + (ks - size), size, false⟩ :: nexts⟩ :: after) = _
      rw [hsplit]
      refine deref_store (fun x hx => hother x (Or.inl hx)) ?_ rfl
      intro x hx
      simp only [List.mem_append, List.mem_singleton] at hx
      rcases hx with hx | rfl
      · exact hother x (Or.inr (Or.inl hx))
      · show s.fresh ≠ bn
        omega
    · have hf1 : ∀ x, x ∈ allBlocks before ∨ x ∈ prevs ∨ x ∈ nexts ∨ x ∈ allBlocks after →
          (fun n => if n = bn then s.fresh else n) x.node = x.node := by
        intro x hx
        simp [hother x hx]
      refine ⟨fun n => if n = bn then s.fresh else n, ?_, ?_, ?_⟩
      · intro x hx y hy hxy
        have h7 := h.nodes_lt x hx
        have h8 := h.nodes_lt y hy
        simp only at hxy
        split_ifs at hxy with h9 h10 h10
        · rw [h9, h10]
        · omega
        · omega
        · exact hxy
      · simp only [freeBlock,
          mergePrev_concat_free prevs ⟨s.fresh, kp, ks - size, true⟩ rfl,
          mergeNext_of_not_free hnl, Cursor.store, hw2]
        rw [hchunks]
        simp only [renameChunks, List.map_append, List.map_cons, Block.rename, if_true]
        have e1 := renameChunks_eq_self (fun n => if n = bn then s.fresh else n)
          before (fun x hx => hf1 x (Or.inl hx))
        have e2 := renameChunks_eq_self (fun n => if n = bn then s.fresh else n)
          after (fun x hx => hf1 x (Or.inr (Or.inr (Or.inr hx))))
        have e3 := rename_blocks_eq_self (fun n => if n = bn then s.fresh else n)
          prevs (fun x hx => hf1 x (Or.inr (Or.inl hx)))
        have e4 := rename_blocks_eq_self (fun n => if n = bn then s.fresh else n)
          nexts (fun x hx => hf1 x (Or.inr (Or.inr (Or.inl hx))))
        unfold renameChunks at e1 e2
        rw [e1, e2, e3, e4]
      · simp only [freeBlock,
          mergePrev_concat_free prevs ⟨s.fresh, kp, ks - size, true⟩ rfl,
          mergeNext_of_not_free hnl, hw2]
        rw [erase_emplace hno, emplace_erase bn s.fresh h.index_sorted hi]
        unfold renameIndex
        apply List.map_congr_left
        intro e he
        by_cases hk : e.1 = (ks, kp)
        · have := eq_of_key_eq h.index_sorted he hi hk
          subst this
          simp
        · have hne : e.2 ≠ bn := by
            intro hen
            have := describes_of_node h he hbm hen
            exact hk this.2.2
          simp [hk, hne]

/-- C7, as stated, fails: on a freshly constructed allocator `Allocate(100)` is a growth
miss that adds a chunk, and the `Free` of the returned handle leaves that chunk in the
Chunk Pool (as one free block, with its entry in the Free Index). -/
theorem round_trip_counterexample :
    Reachable demo State.init [] ∧ 0 < 100 ∧
      AllocateImpl demo State.init 100 = some
        (⟨[⟨⟨4096, 4096⟩, [⟨0, 4096, 3992, true⟩, ⟨1, 8088, 104, false⟩]⟩],
          [((3992, 4096), 0)], 1, 104, 0, 0, 2, [4096]⟩, some ⟨8088, 104, 1⟩) ∧
      FreeImpl demo
        ⟨[⟨⟨4096, 4096⟩, [⟨0, 4096, 3992, true⟩, ⟨1, 8088, 104, false⟩]⟩],
          [((3992, 4096), 0)], 1, 104, 0, 0, 2, [4096]⟩ ⟨8088, 104, 1⟩ = some
        ⟨[⟨⟨4096, 4096⟩, [⟨0, 4096, 4096, true⟩]⟩], [((4096, 4096), 0)],
          1, 104, 1, 104, 2, [4096]⟩ ∧
      ¬ RoundTrip demo State.init 100 := by
  refine ⟨Reachable.init, by decide, by rfl, by rfl, ?_⟩
  intro hrt
  obtain ⟨s2, hf, f, _, hc, _⟩ := hrt
    ⟨[⟨⟨4096, 4096⟩, [⟨0, 4096, 3992, true⟩, ⟨1, 8088, 104, false⟩]⟩],
      [((3992, 4096), 0)], 1, 104, 0, 0, 2, [4096]⟩ ⟨8088, 104, 1⟩ (by rfl)
  have hf2 : FreeImpl demo
      ⟨[⟨⟨4096, 4096⟩, [⟨0, 4096, 3992, true⟩, ⟨1, 8088, 104, false⟩]⟩],
        [((3992, 4096), 0)], 1, 104, 0, 0, 2, [4096]⟩ ⟨8088, 104, 1⟩ = some
      ⟨[⟨⟨4096, 4096⟩, [⟨0, 4096, 4096, true⟩]⟩], [((4096, 4096), 0)],
        1, 104, 1, 104, 2, [4096]⟩ := by rfl
  rw [hf2] at hf
  simp only [Option.some.injEq] at hf
  subst hf
  simp [renameChunks, State.init] at hc

/-- The calls of a growth miss account for the state it leaves on failure. -/
theorem allocateMiss_calls (a : Config) (s : State) (size : Nat)
    (h : (allocateMiss a s size).2 = none) :
    (allocateMiss a s size).1 = (missCalls a s size).foldl (perform a) s := by
  cases hf : a.FLAGS_free_when_no_cache_hit
  · simp only [allocateMiss, missCalls, hf, underlyingAllocate, Bool.false_eq_true,
      if_false] at h ⊢
    cases h1 : a.underlying_allocator_ s.requests.length (s.chunks_.map Chunk.allocation_)
      (max size a.chunk_size_)
    · simp only [h1] at h ⊢
      split at h
      · simp at h
      · next s4 heq =>
        simp only [Prod.mk.injEq] at heq
        obtain ⟨rfl, h4⟩ := heq
        simp only [h4, List.nil_append, List.foldl_cons, List.foldl_nil, perform,
          underlyingAllocate]
    · simp [h1] at h
  · simp only [allocateMiss, missCalls, hf, underlyingAllocate, if_true] at h ⊢
    cases h1 : a.underlying_allocator_ (FreeIdleChunks a s).1.requests.length
      ((FreeIdleChunks a s).1.chunks_.map Chunk.allocation_) (max size a.chunk_size_)
    · simp only [h1, List.singleton_append, List.foldl_cons, List.foldl_nil, perform,
        underlyingAllocate]
    · simp [h1] at h

/-- C11, as stated, fails: with `FLAGS_free_when_no_cache_hit` on and an exhausted
underlying allocator, `Allocate(100)` on a fresh allocator runs `Reclaim`, makes one
reservation of 4096 bytes and fails; no second `Reclaim` is run. -/
theorem reclaim_on_miss_counterexample :
    eager.FLAGS_free_when_no_cache_hit = true ∧
      AllocateImpl eager State.init 100 =
        some ({ State.init with requests := [4096] }, none) ∧
      missCalls eager State.init (realizedSize eager 100) =
        [Call.reclaim, Call.reserve 4096] ∧
      ¬ ReclaimsAgain eager State.init 100 := by
  refine ⟨rfl, by rfl, by rfl, ?_⟩
  intro h
  obtain ⟨q, rest, hq⟩ := h rfl (by rfl) (by rfl)
  have h2 : missCalls eager State.init (realizedSize eager 100) =
      [Call.reclaim, Call.reserve 4096] := by rfl
  rw [h2] at hq
  simp at hq

/-- C11, amended: with `freeIdleChunkOnGrowthMiss` on, `Allocate` on a growth miss runs
`Reclaim` exactly once, before the reservation, and makes exactly one reservation, of
`max(size, chunk_size_)` bytes; if the reservation succeeds the region is carved, and if
it fails `Allocate` fails at once, in the state that `Reclaim` and the reservation left:
there is no second `Reclaim` and no retry. -/
theorem reclaim_on_miss (a : Config) (s : State) (n : Nat)
    (hf : a.FLAGS_free_when_no_cache_hit = true)
    (hmiss : lower_bound (realizedSize a n, 0) s.free_blocks_ = none) :
    missCalls a s (realizedSize a n) =
        [Call.reclaim, Call.reserve (max (realizedSize a n) a.chunk_size_)] ∧
      ((underlyingAllocate a (FreeIdleChunks a s).1
            (max (realizedSize a n) a.chunk_size_)).2 = none →
        AllocateImpl a s n =
          some ((underlyingAllocate a (FreeIdleChunks a s).1
            (max (realizedSize a n) a.chunk_size_)).1, none)) ∧
      ∀ r, (underlyingAllocate a (FreeIdleChunks a s).1
            (max (realizedSize a n) a.chunk_size_)).2 = some r →
        AllocateImpl a s n =
          some ((carve (underlyingAllocate a (FreeIdleChunks a s).1
              (max (realizedSize a n) a.chunk_size_)).1 r (realizedSize a n)).1,
            some (carve (underlyingAllocate a (FreeIdleChunks a s).1
              (max (realizedSize a n) a.chunk_size_)).1 r (realizedSize a n)).2) := by
  simp only [AllocateImpl, hmiss, allocateMiss, missCalls, hf, if_true, underlyingAllocate]
  cases h1 : a.underlying_allocator_ (FreeIdleChunks a s).1.requests.length
    ((FreeIdleChunks a s).1.chunks_.map Chunk.allocation_)
    (max (realizedSize a n) a.chunk_size_)
  · simp
  · simp

/-- The amended C11 on `Allocate(100)` over an exhausted underlying allocator. -/
theorem reclaim_on_miss_witness :
    eager.FLAGS_free_when_no_cache_hit = true ∧
      lower_bound (realizedSize eager 100, 0) State.init.free_blocks_ = none ∧
      missCalls eager State.init (realizedSize eager 100) =
        [Call.reclaim, Call.reserve (max (realizedSize eager 100) eager.chunk_size_)] :=
  ⟨rfl, by rfl, (reclaim_on_miss eager State.init 100 rfl (by rfl)).1⟩

/-- C12. Fixed-pool mode: when `allowIdleChunkRelease` is false, `Reclaim` returns 0 and
leaves the state (the Chunk Pool, every Block List, the Free Index) unchanged, whatever
the state is. -/
theorem fixed_pool (a : Config) (s : State) (h : a.allow_free_idle_chunk_ = false) :
    FreeIdleChunks a s = (s, 0) ∧ (FreeIdleChunks a s).2 = 0 ∧
      (FreeIdleChunks a s).1.chunks_ = s.chunks_ ∧
      (FreeIdleChunks a s).1.free_blocks_ = s.free_blocks_ := by
  have : FreeIdleChunks a s = (s, 0) := by
    unfold FreeIdleChunks
    simp [h]
  rw [this]
  exact ⟨rfl, rfl, rfl, rfl⟩

/-- Fixed-pool mode on a state whose only chunk is idle: the chunk stays. -/
theorem fixed_pool_witness :
    fixedPool.allow_free_idle_chunk_ = false ∧ demoFreed.chunks_.all Chunk.idle = true ∧
      FreeIdleChunks fixedPool demoFreed = (demoFreed, 0) :=
  ⟨rfl, by decide, (fixed_pool fixedPool demoFreed rfl).1⟩

theorem FreeIdleChunks_counters (a : Config) (s : State) :
    (FreeIdleChunks a s).1.total_alloc_times_ = s.total_alloc_times_ ∧
      (FreeIdleChunks a s).1.total_alloc_size_ = s.total_alloc_size_ ∧
      (FreeIdleChunks a s).1.total_free_times_ = s.total_free_times_ ∧
      (FreeIdleChunks a s).1.total_free_size_ = s.total_free_size_ := by
  unfold FreeIdleChunks
  split_ifs <;> exact ⟨rfl, rfl, rfl, rfl⟩

/-- C14. Growth request size: on a growth miss `Allocate` asks the underlying allocator
once or twice, each time for exactly `max(size, chunk_size_)` bytes, `size` being the
realized size and `chunk_size_` the effective chunk size. -/
theorem growth_request_size (a : Config) (s : State) (n : Nat) (t : State)
    (r : Option BlockAllocation)
    (hmiss : lower_bound (realizedSize a n, 0) s.free_blocks_ = none)
    (hal : AllocateImpl a s n = some (t, r)) :
    ∃ k, (k = 1 ∨ k = 2) ∧
      t.requests = s.requests ++ List.replicate k (max (realizedSize a n) a.chunk_size_) ∧
      reservations (missCalls a s (realizedSize a n)) =
        List.replicate k (max (realizedSize a n) a.chunk_size_) := by
  simp only [AllocateImpl, hmiss, Option.some.injEq] at hal
  have ht : t = (allocateMiss a s (realizedSize a n)).1 := by rw [hal]
  subst ht
  clear hal
  cases hf : a.FLAGS_free_when_no_cache_hit
  · simp only [allocateMiss, missCalls, hf, underlyingAllocate, Bool.false_eq_true,
      if_false]
    cases h1 : a.underlying_allocator_ s.requests.length (s.chunks_.map Chunk.allocation_)
      (max (realizedSize a n) a.chunk_size_)
    · refine ⟨2, Or.inr rfl, ?_, by simp [reservations, List.replicate]⟩
      simp only
      split
      · next s4 r4 heq =>
        simp only [Prod.mk.injEq] at heq
        obtain ⟨rfl, _⟩ := heq
        rw [carve_requests]
        simp [FreeIdleChunks_requests, List.replicate]
      · next s4 heq =>
        simp only [Prod.mk.injEq] at heq
        obtain ⟨rfl, _⟩ := heq
        simp [FreeIdleChunks_requests, List.replicate]
    · refine ⟨1, Or.inl rfl, ?_, by simp [reservations, List.replicate]⟩
      simp only
      rw [carve_requests]
      simp [List.replicate]
  · simp only [allocateMiss, missCalls, hf, underlyingAllocate, if_true]
    cases h1 : a.underlying_allocator_ (FreeIdleChunks a s).1.requests.length
      ((FreeIdleChunks a s).1.chunks_.map Chunk.allocation_)
      (max (realizedSize a n) a.chunk_size_)
    · exact ⟨1, Or.inl rfl, by simp [FreeIdleChunks_requests, List.replicate],
        by simp [reservations, List.replicate]⟩
    · refine ⟨1, Or.inl rfl, ?_, by simp [reservations, List.replicate]⟩
      simp only
      rw [carve_requests]
      simp [FreeIdleChunks_requests, List.replicate]

/-- Growth on the first `Allocate(100)` of `demo`: one request, of 4096 bytes. -/
theorem growth_request_size_witness :
    lower_bound (realizedSize demo 100, 0) State.init.free_blocks_ = none ∧
      ∃ t r, AllocateImpl demo State.init 100 = some (t, r) ∧ t.requests = [4096] ∧
        ∃ k, (k = 1 ∨ k = 2) ∧
          t.requests = State.init.requests ++
            List.replicate k (max (realizedSize demo 100) demo.chunk_size_) ∧
          reservations (missCalls demo State.init (realizedSize demo 100)) =
            List.replicate k (max (realizedSize demo 100) demo.chunk_size_) :=
  ⟨by rfl, _, _, by rfl, by rfl,
    growth_request_size demo State.init 100 _ _ (by rfl) (by rfl)⟩

/-- Without wrap-around `AlignedSize` is rounding up. -/
theorem AlignedSize_eq_roundUp {x al : Nat} (hal : 0 < al) (h : x + al ≤ SIZE) :
    AlignedSize x al = roundUp x al := by
  have h1 := Nat.div_add_mod x al
  have h2 := Nat.mod_lt x hal
  unfold AlignedSize roundUp
  simp only
  split_ifs with h0
  · have hx : x + al - 1 = (al - 1) + al * (x / al) := by omega
    rw [hx, Nat.add_mul_div_left _ _ hal, Nat.div_eq_of_lt (by omega), Nat.zero_add,
      Nat.mul_comm]
    omega
  · have hx : x + al - 1 = (x % al - 1) + al * (x / al + 1) := by
      rw [Nat.mul_add, Nat.mul_one]
      omega
    rw [Nat.mod_eq_of_lt (by omega), hx, Nat.add_mul_div_left _ _ hal,
      Nat.div_eq_of_lt (by omega), Nat.zero_add, Nat.mul_comm, Nat.mul_add, Nat.mul_one]
    omega

/-- The value of `AlignedSize` is a multiple of the alignment or smaller than it. -/
theorem AlignedSize_dvd_or_lt {x al : Nat} (hal : 0 < al) (hx : x < SIZE) :
    al ∣ AlignedSize x al ∨ AlignedSize x al < al := by
  have h1 := Nat.div_add_mod x al
  have h2 := Nat.mod_lt x hal
  unfold AlignedSize
  simp only
  split_ifs with h0
  · exact Or.inl (Nat.dvd_of_mod_eq_zero h0)
  · have hm : x + al - x % al = al * (x / al + 1) := by
      rw [Nat.mul_add, Nat.mul_one]
      omega
    rcases Nat.lt_or_ge (x + al - x % al) SIZE with hlt | hge
    · left
      rw [Nat.mod_eq_of_lt hlt, hm]
      exact Nat.dvd_mul_right _ _
    · right
      have h3 : (x + al - x % al - SIZE) % SIZE = (x + al - x % al) % SIZE := by
        rw [← Nat.mod_eq_sub_mod hge]
      rw [← h3]
      exact lt_of_le_of_lt (Nat.mod_le _ _) (by omega)

/-- C15, as stated, fails: constructed with alignment 8 and the chunk size `2 ^ 64 - 1`,
the allocator has the effective chunk size 8, which is smaller than the chunk size asked
for. -/
theorem effective_chunk_size_counterexample :
    hugeChunk.chunk_size_ = 8 ∧ ¬ EffectiveChunkSize hugeChunk 8 (2 ^ 64 - 1) := by
  have h8 : hugeChunk.chunk_size_ = 8 := by rfl
  refine ⟨h8, ?_⟩
  rintro ⟨_, _, _, _, h, _⟩
  rw [h8] at h
  exact absurd h (by norm_num)

/-- C15, amended: for every chunk size (a `size_t`) and every alignment > 0 given at
construction, the chunk size of the allocator is
`max(AlignedSize(chunk_size, alignment), alignment)`; it is a positive multiple of the
alignment, at least the alignment, and equal to the alignment when the chunk size given
is 0; and when the rounding does not wrap (`chunk_size + alignment <= 2 ^ 64`) it is the
maximum of the alignment and the chunk size rounded up to a multiple of the alignment,
and it is at least the chunk size given. -/
theorem effective_chunk_size (u : Nat → List Allocation → Nat → Option Allocation)
    (alignment chunk_size : Nat) (allow : Bool) (pad : Int) (f1 f2 f3 : Bool)
    (hal : 0 < alignment) (hcs : chunk_size < SIZE) :
    (Config.create u alignment chunk_size allow pad f1 f2 f3).chunk_size_ =
        max (AlignedSize chunk_size alignment) alignment ∧
      0 < (Config.create u alignment chunk_size allow pad f1 f2 f3).chunk_size_ ∧
      alignment ∣ (Config.create u alignment chunk_size allow pad f1 f2 f3).chunk_size_ ∧
      alignment ≤ (Config.create u alignment chunk_size allow pad f1 f2 f3).chunk_size_ ∧
      (chunk_size = 0 →
        (Config.create u alignment chunk_size allow pad f1 f2 f3).chunk_size_ = alignment) ∧
      (chunk_size + alignment ≤ SIZE →
        (Config.create u alignment chunk_size allow pad f1 f2 f3).chunk_size_ =
            max (roundUp chunk_size alignment) alignment ∧
          chunk_size ≤ (Config.create u alignment chunk_size allow pad f1 f2 f3).chunk_size_) := by
  have hc : (Config.create u alignment chunk_size allow pad f1 f2 f3).chunk_size_ =
      max (AlignedSize chunk_size alignment) alignment := rfl
  rw [hc]
  refine ⟨rfl, lt_of_lt_of_le hal (le_max_right _ _), ?_, le_max_right _ _, ?_, ?_⟩
  · rcases AlignedSize_dvd_or_lt hal hcs with hd | hlt
    · rcases le_total (AlignedSize chunk_size alignment) alignment with hle | hle
      · rw [max_eq_right hle]
      · rw [max_eq_left hle]
        exact hd
    · rw [max_eq_right (le_of_lt hlt)]
  · rintro rfl
    have : AlignedSize 0 alignment = 0 := by simp [AlignedSize]
    rw [this]
    exact max_eq_right (Nat.zero_le _)
  · intro hw
    refine ⟨by rw [AlignedSize_eq_roundUp hal hw], ?_⟩
    exact le_trans (le_AlignedSize hal hw) (le_max_left _ _)

/-- The amended C15 on the chunk size 4096 and the alignment 8 of `demo`. -/
theorem effective_chunk_size_witness :
    (0 : Nat) < 8 ∧ 4096 < SIZE ∧ demo.chunk_size_ = 4096 ∧
      demo.chunk_size_ = max (AlignedSize 4096 8) 8 ∧ 8 ∣ demo.chunk_size_ :=
  ⟨by decide, by decide, by rfl,
    (effective_chunk_size bump 8 4096 true 0 false false false (by decide) (by decide)).1,
    (effective_chunk_size bump 8 4096 true 0 false false false (by decide)
      (by decide)).2.2.1⟩

theorem scenario_size_100 (u : Nat → List Allocation → Nat → Option Allocation) :
    realizedSize (scenario u) 100 = 104 := by
  show AlignedSize ((100 + toSizeT 0) % SIZE) 8 = 104
  decide

theorem scenario_size_50 (u : Nat → List Allocation → Nat → Option Allocation) :
    realizedSize (scenario u) 50 = 56 := by
  show AlignedSize ((50 + toSizeT 0) % SIZE) 8 = 56
  decide

theorem scenario_allocate_A (u : Nat → List Allocation → Nat → Option Allocation) (p : Nat)
    (hu : u 0 [] 4096 = some ⟨p, 4096⟩) :
    AllocateImpl (scenario u) State.init 100 = some (afterA p, some (handleA p)) := by
  have hc : (scenario u).chunk_size_ = 4096 := by
    show max (AlignedSize 4096 8) 8 = 4096
    decide
  have hf : (scenario u).FLAGS_free_when_no_cache_hit = false := rfl
  have hun : (scenario u).underlying_allocator_ = u := rfl
  simp only [AllocateImpl, scenario_size_100, State.init, lower_bound, List.find?_nil,
    allocateMiss, hf, hc, underlyingAllocate, hun, Bool.false_eq_true, if_false,
    List.length_nil, List.map_nil]
  have : max 104 4096 = 4096 := by decide
  rw [this, hu]
  have hr : (4096 + SIZE - 104) % SIZE = 3992 := by decide
  have h1 : (0 + 1) % SIZE = 1 := by decide
  have h2 : (0 + 104) % SIZE = 104 := by decide
  simp only [carve, hr, h1, h2]
  simp [afterA, handleA, emplace, insertEntry]


/-- `AllocateImpl` on a cache hit. -/
theorem AllocateImpl_hit {a : Config} {s : State} {n : Nat} {iter : Key × Nat}
    (h : lower_bound (realizedSize a n, 0) s.free_blocks_ = some iter) :
    AllocateImpl a s n =
      (allocateHit s (realizedSize a n) iter).map (fun r => (r.1, some r.2)) := by
  simp only [AllocateImpl, h]
  cases allocateHit s (realizedSize a n) iter <;> rfl

/-- `allocateHit` when the matched block is larger than the request: the split. -/
theorem allocateHit_split {s : State} {size : Nat} {iter : Key × Nat} {cur : Cursor}
    (hd : deref iter.2 s.chunks_ = some cur)
    (hr : (cur.block.size_ + SIZE - size) % SIZE ≠ 0) :
    allocateHit s size iter =
      some ({ s with
          chunks_ := cur.store (cur.prevs ++
            ⟨s.fresh, cur.block.ptr_, (cur.block.size_ + SIZE - size) % SIZE, true⟩ ::
            ⟨cur.block.node, cur.block.ptr_ + (cur.block.size_ + SIZE - size) % SIZE, size,
              false⟩ :: cur.nexts)
          free_blocks_ :=
            emplace ((cur.block.size_ + SIZE - size) % SIZE, cur.block.ptr_) s.fresh
              (erase iter.1 s.free_blocks_)
          fresh := s.fresh + 1
          total_alloc_times_ := (s.total_alloc_times_ + 1) % SIZE
          total_alloc_size_ := (s.total_alloc_size_ + size) % SIZE },
        ⟨cur.block.ptr_ + (cur.block.size_ + SIZE - size) % SIZE, size, cur.block.node⟩) := by
  simp only [allocateHit, hd, hr, if_false]

theorem scenario_allocate_B (u : Nat → List Allocation → Nat → Option Allocation) (p : Nat) :
    AllocateImpl (scenario u) (afterA p) 50 = some (afterB p, some (handleB p)) := by
  have hl : lower_bound (realizedSize (scenario u) 50, 0) (afterA p).free_blocks_ =
      some ((3992, p), 0) := by
    rw [scenario_size_50]
    simp [afterA, lower_bound, keyLt]
  have hd : deref ((3992, p), 0).2 (afterA p).chunks_ =
      some ⟨[], ⟨⟨p, 4096⟩, [⟨0, p, 3992, true⟩, ⟨1, p + 3992, 104, false⟩]⟩, [], [],
        ⟨0, p, 3992, true⟩, [⟨1, p + 3992, 104, false⟩]⟩ := by
    simp [afterA, deref, splitNode]
  have hr : (3992 + SIZE - 56) % SIZE = 3936 := by decide
  have h1 : (1 + 1) % SIZE = 2 := by decide
  have h2 : (104 + 56) % SIZE = 160 := by decide
  rw [AllocateImpl_hit hl, scenario_size_50, allocateHit_split hd (by rw [hr]; decide)]
  simp only [hr, Option.map_some']
  simp [afterA, erase, emplace, insertEntry, Cursor.store, afterB, handleB, h1, h2]

/-- `FreeImpl` on a handle whose node exists. -/
theorem FreeImpl_eq {a : Config} {s : State} {h : BlockAllocation} {cur : Cursor}
    (hd : deref h.block_it_ s.chunks_ = some cur) :
    FreeImpl a s h =
      some (if a.FLAGS_free_idle_chunk then (FreeIdleChunks a (freeBlock s cur)).1
        else freeBlock s cur) := by
  simp only [FreeImpl, hd]

theorem scenario_deref_A (p : Nat) :
    deref (handleA p).block_it_ (afterB p).chunks_ =
      some ⟨[], ⟨⟨p, 4096⟩,
          [⟨2, p, 3936, true⟩, ⟨0, p + 3936, 56, false⟩, ⟨1, p + 3992, 104, false⟩]⟩, [],
        [⟨2, p, 3936, true⟩, ⟨0, p + 3936, 56, false⟩], ⟨1, p + 3992, 104, false⟩, []⟩ := by
  simp [afterB, handleA, deref, splitNode]

theorem scenario_deref_B (p : Nat) :
    deref (handleB p).block_it_ (afterFreeA p).chunks_ =
      some ⟨[], ⟨⟨p, 4096⟩,
          [⟨2, p, 3936, true⟩, ⟨0, p + 3936, 56, false⟩, ⟨1, p + 3992, 104, true⟩]⟩, [],
        [⟨2, p, 3936, true⟩], ⟨0, p + 3936, 56, false⟩, [⟨1, p + 3992, 104, true⟩]⟩ := by
  simp [afterFreeA, handleB, deref, splitNode]

theorem scenario_mergePrev_A (p : Nat) :
    mergePrev [⟨2, p, 3936, true⟩, ⟨0, p + 3936, 56, false⟩] ⟨1, p + 3992, 104, true⟩
        (afterB p).free_blocks_ =
      ([⟨2, p, 3936, true⟩, ⟨0, p + 3936, 56, false⟩], ⟨1, p + 3992, 104, true⟩,
        [((3936, p), 2)]) := by
  simp [mergePrev, afterB]

theorem scenario_mergeNext_A (p : Nat) :
    mergeNext ⟨1, p + 3992, 104, true⟩ [] [((3936, p), 2)] =
      (⟨1, p + 3992, 104, true⟩, [], [((3936, p), 2)]) := by
  simp [mergeNext]

theorem scenario_mergePrev_B (p : Nat) :
    mergePrev [⟨2, p, 3936, true⟩] ⟨0, p + 3936, 56, true⟩ (afterFreeA p).free_blocks_ =
      ([], ⟨2, p, 3992, true⟩, [((104, p + 3992), 1)]) := by
  have h3 : (3936 + 56) % SIZE = 3992 := by decide
  simp [mergePrev, afterFreeA, erase, h3]

theorem scenario_mergeNext_B (p : Nat) :
    mergeNext ⟨2, p, 3992, true⟩ [⟨1, p + 3992, 104, true⟩] [((104, p + 3992), 1)] =
      (⟨2, p, 4096, true⟩, [], []) := by
  have h4 : (3992 + 104) % SIZE = 4096 := by decide
  simp [mergeNext, erase, h4]

theorem scenario_free_A (u : Nat → List Allocation → Nat → Option Allocation) (p : Nat) :
    FreeImpl (scenario u) (afterB p) (handleA p) = some (afterFreeA p) := by
  have hf : (scenario u).FLAGS_free_idle_chunk = false := rfl
  have h1 : (0 + 1) % SIZE = 1 := by decide
  have h2 : (0 + 104) % SIZE = 104 := by decide
  rw [FreeImpl_eq (scenario_deref_A p), hf]
  simp only [Bool.false_eq_true, if_false, freeBlock, scenario_mergePrev_A,
    scenario_mergeNext_A]
  simp [afterB, emplace, insertEntry, keyLt, Cursor.store, afterFreeA, h1, h2]

theorem scenario_free_B (u : Nat → List Allocation → Nat → Option Allocation) (p : Nat) :
    FreeImpl (scenario u) (afterFreeA p) (handleB p) = some (afterFreeB p) := by
  have hf : (scenario u).FLAGS_free_idle_chunk = false := rfl
  have h1 : (1 + 1) % SIZE = 2 := by decide
  have h2 : (104 + 56) % SIZE = 160 := by decide
  rw [FreeImpl_eq (scenario_deref_B p), hf]
  simp only [Bool.false_eq_true, if_false, freeBlock, scenario_mergePrev_B,
    scenario_mergeNext_B]
  simp [afterFreeA, emplace, insertEntry, Cursor.store, afterFreeB, h1, h2]

theorem scenario_reclaim (u : Nat → List Allocation → Nat → Option Allocation) (p : Nat) :
    FreeIdleChunks (scenario u) (afterFreeB p) = (afterReclaim, 4096) := by
  have hf : (scenario u).allow_free_idle_chunk_ = true := rfl
  have h1 : (0 + 4096) % SIZE = 4096 := by decide
  simp [FreeIdleChunks, hf, afterFreeB, freeIdleLoop, erase, afterReclaim, h1]

/-- C16. The example scenario, for every underlying allocator that answers the first
request, of 4096 bytes, with a region of exactly 4096 bytes, at any base address `p`;
alignment 8, chunk size 4096, no padding, idle chunks may be released, policy flags off.
`Allocate(100)` reserves one chunk of 4096 and returns the handle A of size 104, leaving a
free remainder of 3992; `Allocate(50)` returns the handle B of size 56 carved from that
remainder, leaving a free block of 3936, without a second reservation; after `Free(A)`
and `Free(B)` the chunk is a single free block of size 4096; `Reclaim` then releases the
chunk and returns 4096. -/
theorem example_scenario (u : Nat → List Allocation → Nat → Option Allocation) (p : Nat)
    (hu : u 0 [] 4096 = some ⟨p, 4096⟩) :
    AllocateImpl (scenario u) State.init 100 = some (afterA p, some (handleA p)) ∧
      (handleA p).size = 104 ∧
      (afterA p).chunks_ =
        [⟨⟨p, 4096⟩, [⟨0, p, 3992, true⟩, ⟨1, p + 3992, 104, false⟩]⟩] ∧
      (afterA p).requests = [4096] ∧
      AllocateImpl (scenario u) (afterA p) 50 = some (afterB p, some (handleB p)) ∧
      (handleB p).size = 56 ∧
      (afterB p).chunks_ =
        [⟨⟨p, 4096⟩,
          [⟨2, p, 3936, true⟩, ⟨0, p + 3936, 56, false⟩, ⟨1, p + 3992, 104, false⟩]⟩] ∧
      (afterB p).requests = [4096] ∧
      FreeImpl (scenario u) (afterB p) (handleA p) = some (afterFreeA p) ∧
      FreeImpl (scenario u) (afterFreeA p) (handleB p) = some (afterFreeB p) ∧
      (afterFreeB p).chunks_ = [⟨⟨p, 4096⟩, [⟨2, p, 4096, true⟩]⟩] ∧
      FreeIdleChunks (scenario u) (afterFreeB p) = (afterReclaim, 4096) ∧
      afterReclaim.chunks_ = [] ∧ afterReclaim.free_blocks_ = [] :=
  ⟨scenario_allocate_A u p hu, rfl, rfl, rfl, scenario_allocate_B u p, rfl, rfl, rfl,
    scenario_free_A u p, scenario_free_B u p, rfl, scenario_reclaim u p, rfl, rfl⟩

/-- The example scenario over the underlying allocator `bump`, whose first region is at
the address 4096. -/
theorem example_scenario_witness :
    bump 0 [] 4096 = some ⟨4096, 4096⟩ ∧
      AllocateImpl (scenario bump) State.init 100 =
        some (afterA 4096, some (handleA 4096)) ∧
      FreeIdleChunks (scenario bump) (afterFreeB 4096) = (afterReclaim, 4096) :=
  ⟨by rfl, (example_scenario bump 4096 (by rfl)).1,
    (example_scenario bump 4096 (by rfl)).2.2.2.2.2.2.2.2.2.2.2.1⟩

/-- C17, as stated, fails: in the example scenario over `bump` the block of A is the last
block of the chunk; at `Free(A)` it has a left neighbour (the block of B) and no right
neighbour. -/
theorem scenario_layout_counterexample :
    AllocateImpl (scenario bump) State.init 100 = some (afterA 4096, some (handleA 4096)) ∧
      AllocateImpl (scenario bump) (afterA 4096) 50 =
        some (afterB 4096, some (handleB 4096)) ∧
      FreeImpl (scenario bump) (afterB 4096) (handleA 4096) = some (afterFreeA 4096) ∧
      ¬ ScenarioLayout (afterB 4096) (afterFreeA 4096) (handleA 4096) (handleB 4096) := by
  refine ⟨scenario_allocate_A bump 4096 (by rfl), scenario_allocate_B bump 4096,
    scenario_free_A bump 4096, ?_⟩
  rintro ⟨curA, curB, hA, _, hnone, _⟩
  rw [scenario_deref_A] at hA
  simp only [Option.some.injEq] at hA
  subst hA
  simp at hnone

/-- C17, amended.  In the example scenario the chunk is laid out, in address order, as the
free remainder of 3936 bytes, the block of B, the block of A.  At `Free(A)` the left
neighbour of the block of A is the in-use block of B and there is no right neighbour, so
no merge happens and the Free Index gains the entry (104, address of A).  At `Free(B)` the
left neighbour of the block of B is the free remainder of 3936 bytes, so the first merge
yields a free block of size 3992 at the base address of the chunk; the right neighbour is
the free block of A, so the second merge yields a free block of size 4096. -/
theorem scenario_layout (u : Nat → List Allocation → Nat → Option Allocation) (p : Nat)
    (hu : u 0 [] 4096 = some ⟨p, 4096⟩) :
    AllocateImpl (scenario u) State.init 100 = some (afterA p, some (handleA p)) ∧
      AllocateImpl (scenario u) (afterA p) 50 = some (afterB p, some (handleB p)) ∧
      (∃ curA, deref (handleA p).block_it_ (afterB p).chunks_ = some curA ∧
        curA.prevs.getLast? = some ⟨(handleB p).block_it_, (handleB p).ptr, 56, false⟩ ∧
        curA.nexts = [] ∧
        mergePrev curA.prevs { curA.block with is_free_ := true } (afterB p).free_blocks_ =
          (curA.prevs, { curA.block with is_free_ := true }, (afterB p).free_blocks_) ∧
        (afterB p).free_blocks_ = [((3936, p), 2)] ∧
        FreeImpl (scenario u) (afterB p) (handleA p) = some (afterFreeA p) ∧
        (afterFreeA p).free_blocks_ = [((104, (handleA p).ptr), 1), ((3936, p), 2)]) ∧
      ∃ curB, deref (handleB p).block_it_ (afterFreeA p).chunks_ = some curB ∧
        curB.prevs.getLast? = some ⟨2, p, 3936, true⟩ ∧
        (mergePrev curB.prevs { curB.block with is_free_ := true }
          (afterFreeA p).free_blocks_).2.1 = ⟨2, p, 3992, true⟩ ∧
        curB.nexts.head? = some ⟨(handleA p).block_it_, (handleA p).ptr, 104, true⟩ ∧
        (mergeNext
          (mergePrev curB.prevs { curB.block with is_free_ := true }
            (afterFreeA p).free_blocks_).2.1
          curB.nexts
          (mergePrev curB.prevs { curB.block with is_free_ := true }
            (afterFreeA p).free_blocks_).2.2).1 = ⟨2, p, 4096, true⟩ ∧
        FreeImpl (scenario u) (afterFreeA p) (handleB p) = some (afterFreeB p) ∧
        (afterFreeB p).chunks_ = [⟨⟨p, 4096⟩, [⟨2, p, 4096, true⟩]⟩] := by
  refine ⟨scenario_allocate_A u p hu, scenario_allocate_B u p,
    ⟨_, scenario_deref_A p, rfl, rfl, ?_, rfl, scenario_free_A u p, rfl⟩,
    ⟨_, scenario_deref_B p, rfl, ?_, rfl, ?_, scenario_free_B u p, rfl⟩⟩
  · exact scenario_mergePrev_A p
  · simp only [scenario_mergePrev_B]
  · simp only [scenario_mergePrev_B, scenario_mergeNext_B]

/-- The amended C17 over the underlying allocator `bump`. -/
theorem scenario_layout_witness :
    bump 0 [] 4096 = some ⟨4096, 4096⟩ ∧
      ∃ curB, deref (handleB 4096).block_it_ (afterFreeA 4096).chunks_ = some curB ∧
        curB.prevs.getLast? = some ⟨2, 4096, 3936, true⟩ ∧
        (mergePrev curB.prevs { curB.block with is_free_ := true }
          (afterFreeA 4096).free_blocks_).2.1 = ⟨2, 4096, 3992, true⟩ := by
  obtain ⟨_, _, _, curB, h1, h2, h3, _⟩ := scenario_layout bump 4096 (by rfl)
  exact ⟨by rfl, curB, h1, h2, h3⟩

/-- C20. Split on hit.  In every reachable state (the underlying allocator being well
behaved), when the entry matched by the lookup has the key (m, a) with m strictly greater
than the realized size s: the entry describes the free block (a, m); after `Allocate` the
Block List of its chunk holds, in the place of that block, the free block (a, m - s)
immediately followed by the in-use block (a + m - s, s); the handle returned refers to
the latter; and the Free Index is the index before with the entry (m, a) removed and the
entry (m - s, a), referring to the remainder, added. -/
theorem split_on_hit (a : Config) (hu : WellBehaved a.underlying_allocator_)
    (s : State) (L : List BlockAllocation) (hr : Reachable a s L) (n : Nat)
    (iter : Key × Nat)
    (hit : lower_bound (realizedSize a n, 0) s.free_blocks_ = some iter)
    (hgt : realizedSize a n < iter.1.1) :
    ∃ cur, deref iter.2 s.chunks_ = some cur ∧ cur.At iter.2 s.chunks_ ∧
      cur.block = ⟨iter.2, iter.1.2, iter.1.1, true⟩ ∧
      ∃ t, AllocateImpl a s n =
          some (t, some ⟨iter.1.2 + (iter.1.1 - realizedSize a n), realizedSize a n,
            iter.2⟩) ∧
        t.chunks_ = cur.store (cur.prevs ++
          ⟨s.fresh, iter.1.2, iter.1.1 - realizedSize a n, true⟩ ::
          ⟨iter.2, iter.1.2 + (iter.1.1 - realizedSize a n), realizedSize a n, false⟩ ::
          cur.nexts) ∧
        (∀ x ∈ allBlocks s.chunks_, x.node ≠ s.fresh) ∧
        (∀ e, e ∈ t.free_blocks_ ↔
          (e ∈ s.free_blocks_ ∧ e ≠ iter) ∨
            e = ((iter.1.1 - realizedSize a n, iter.1.2), s.fresh)) ∧
        t.free_blocks_.Pairwise (fun e f => keyLt e.1 f.1) := by
  have hi := hr.inv hu.sized
  have k := hr.inv2 hu
  obtain ⟨hmem, _⟩ := lower_bound_eq_some hit
  obtain ⟨cur, hcur, hat, hd, hle, hw⟩ := hit_cursor hi hmem (le_of_lt hgt)
  have hblock : cur.block = ⟨iter.2, iter.1.2, iter.1.1, true⟩ := by
    obtain ⟨h1, h2, h3⟩ := hd
    cases hb : cur.block with
    | mk nd p sz f =>
      rw [hb] at h1 h2 h3
      simp only at h1 h2 h3
      rw [h3]
      simp only [Block.mk.injEq]
      exact ⟨h1, trivial, trivial, h2⟩
  have hsz : cur.block.size_ = iter.1.1 := by rw [hblock]
  have hptr : cur.block.ptr_ = iter.1.2 := by rw [hblock]
  have hnode : cur.block.node = iter.2 := by rw [hblock]
  have hrem : (cur.block.size_ + SIZE - realizedSize a n) % SIZE =
      iter.1.1 - realizedSize a n := by rw [hw, hsz]
  have hne : (cur.block.size_ + SIZE - realizedSize a n) % SIZE ≠ 0 := by
    rw [hrem]
    omega
  refine ⟨cur, hcur, hat, hblock,
    { s with
      chunks_ := cur.store (cur.prevs ++
        ⟨s.fresh, iter.1.2, iter.1.1 - realizedSize a n, true⟩ ::
        ⟨iter.2, iter.1.2 + (iter.1.1 - realizedSize a n), realizedSize a n, false⟩ ::
        cur.nexts)
      free_blocks_ := emplace (iter.1.1 - realizedSize a n, iter.1.2) s.fresh
        (erase iter.1 s.free_blocks_)
      fresh := s.fresh + 1
      total_alloc_times_ := (s.total_alloc_times_ + 1) % SIZE
      total_alloc_size_ := (s.total_alloc_size_ + realizedSize a n) % SIZE },
    ?_, rfl, ?_, ?_, ?_⟩
  · rw [AllocateImpl_hit hit, allocateHit_split hcur hne, Option.map_some']
    simp only [hrem, hptr, hnode]
  · intro x hx
    exact Nat.ne_of_lt (hi.nodes_lt x hx)
  · intro e
    simp only
    rw [mem_emplace]
    have hfree : ∀ e ∈ erase iter.1 s.free_blocks_,
        e.1 ≠ (iter.1.1 - realizedSize a n, iter.1.2) := by
      intro e he hk
      rw [mem_erase] at he
      obtain ⟨y, hy, hdy⟩ := hi.index_valid e he.1
      have hy1 : y.size_ = iter.1.1 - realizedSize a n := by
        have := hdy.2.2
        rw [hk] at this
        exact (Prod.mk.inj this).1.symm
      have hy2 : y.ptr_ = iter.1.2 := by
        have := hdy.2.2
        rw [hk] at this
        exact (Prod.mk.inj this).2.symm
      have hyb : y = cur.block :=
        block_unique hi.partition k.disjoint hy hat.mem_block (by rw [hy2, hptr])
          (by omega) (by omega)
      apply he.2
      rw [hdy.2.2, hyb, hd.2.2]
    constructor
    · rintro (he | ⟨he, _⟩)
      · rw [mem_erase] at he
        left
        refine ⟨he.1, ?_⟩
        rintro rfl
        exact he.2 rfl
      · right
        exact he
    · rintro (⟨he, hne2⟩ | he)
      · left
        rw [mem_erase]
        refine ⟨he, ?_⟩
        intro hk
        exact hne2 (eq_of_key_eq hi.index_sorted he hmem hk)
      · right
        exact ⟨he, hfree⟩
  · exact sorted_emplace (sorted_erase hi.index_sorted)

theorem orphanBefore_reachable : Reachable padded orphanBefore orphanBeforeLive :=
  script_reachable (orphanScript.take 6) (by rfl)

/-- C19, as stated, fails: in a state reached by `padded`, `Free` of the live handle of the
block of node 0 (size 0, both neighbours in use) leaves the Free Index as it was: the entry
for the freed block is not inserted, the key (0, 8176) being taken by the entry of another
block. -/
theorem free_merges_counterexample :
    WellBehaved padded.underlying_allocator_ ∧
      Reachable padded orphanBefore orphanBeforeLive ∧
      (⟨8176, 0, 0⟩ : BlockAllocation) ∈ orphanBeforeLive ∧
      padded.FLAGS_free_idle_chunk = false ∧
      FreeImpl padded orphanBefore ⟨8176, 0, 0⟩ = some orphanState ∧
      orphanState.free_blocks_ = orphanBefore.free_blocks_ ∧
      ¬ MergesBoth orphanBefore ⟨8176, 0, 0⟩ orphanState := by
  refine ⟨bump_wellBehaved, orphanBefore_reachable, by decide, rfl, by rfl, rfl, ?_⟩
  rintro ⟨cur, node, hcur, hch, hidx, _⟩
  have hc : deref 0 orphanBefore.chunks_ =
      some ⟨[], ⟨⟨4096, 4096⟩, [⟨4, 4096, 4080, false⟩, ⟨3, 8176, 0, true⟩,
          ⟨2, 8176, 0, false⟩, ⟨0, 8176, 0, false⟩, ⟨1, 8176, 16, false⟩]⟩, [],
        [⟨4, 4096, 4080, false⟩, ⟨3, 8176, 0, true⟩, ⟨2, 8176, 0, false⟩],
        ⟨0, 8176, 0, false⟩, [⟨1, 8176, 16, false⟩]⟩ := by rfl
  rw [show (⟨8176, 0, 0⟩ : BlockAllocation).block_it_ = 0 from rfl, hc] at hcur
  simp only [Option.some.injEq] at hcur
  subst hcur
  have h1 := (hidx ((0, 8176), node)).2 (Or.inr (by rfl))
  have hn : node = 3 := by
    simp only [orphanState, List.mem_singleton, Prod.mk.injEq, true_and] at h1
    exact h1
  subst hn
  exact absurd hch (by decide)

theorem left_cases (cur : Cursor) (m : FreeBlocks) :
    (∃ P prev, cur.prevs = P ++ [prev] ∧ prev.is_free_ = true ∧ absorbedLeft cur = [prev] ∧
        keptLeft cur = P ∧ mergedPtr cur = prev.ptr_ ∧ mergedNode cur = prev.node ∧
        mergePrev cur.prevs { cur.block with is_free_ := true } m =
          (P, { prev with size_ := (prev.size_ + cur.block.size_) % SIZE },
            erase (prev.size_, prev.ptr_) m)) ∨
      (absorbedLeft cur = [] ∧ keptLeft cur = cur.prevs ∧ mergedPtr cur = cur.block.ptr_ ∧
        mergedNode cur = cur.block.node ∧
        mergePrev cur.prevs { cur.block with is_free_ := true } m =
          (cur.prevs, { cur.block with is_free_ := true }, m)) := by
  rcases List.eq_nil_or_concat cur.prevs with h0 | ⟨P, prev, h0⟩
  · right
    have ha : absorbedLeft cur = [] := by simp [absorbedLeft, h0]
    simp [keptLeft, mergedPtr, mergedNode, ha, mergePrev, h0]
  · rw [List.concat_eq_append] at h0
    by_cases hf : prev.is_free_ = true
    · left
      have ha : absorbedLeft cur = [prev] := by simp [absorbedLeft, h0, hf]
      exact ⟨P, prev, h0, hf, ha, by simp [keptLeft, ha, h0], by simp [mergedPtr, ha],
        by simp [mergedNode, ha], by simp [mergePrev, h0, hf]⟩
    · right
      simp only [Bool.not_eq_true] at hf
      have ha : absorbedLeft cur = [] := by simp [absorbedLeft, h0, hf]
      simp [keptLeft, mergedPtr, mergedNode, ha, mergePrev, h0, hf]

theorem right_cases (cur : Cursor) (block : Block) (m : FreeBlocks) :
    (∃ next N, cur.nexts = next :: N ∧ next.is_free_ = true ∧ absorbedRight cur = [next] ∧
        keptRight cur = N ∧
        mergeNext block cur.nexts m =
          ({ block with size_ := (block.size_ + next.size_) % SIZE }, N,
            erase (next.size_, next.ptr_) m)) ∨
      (absorbedRight cur = [] ∧ keptRight cur = cur.nexts ∧
        mergeNext block cur.nexts m = (block, cur.nexts, m)) := by
  cases h0 : cur.nexts with
  | nil =>
    right
    have ha : absorbedRight cur = [] := by simp [absorbedRight, h0]
    simp [keptRight, ha, mergeNext, h0]
  | cons next N =>
    by_cases hf : next.is_free_ = true
    · left
      have ha : absorbedRight cur = [next] := by simp [absorbedRight, h0, hf]
      exact ⟨next, N, rfl, hf, ha, by simp [keptRight, ha, h0], by simp [mergeNext, hf]⟩
    · right
      simp only [Bool.not_eq_true] at hf
      have ha : absorbedRight cur = [] := by simp [absorbedRight, h0, hf]
      simp [keptRight, ha, mergeNext, h0, hf]

/-- For a free block of non-zero size, the entries with its key are the entries that refer
to its node. -/
theorem key_iff_node {a : Config} {s : State} {L : List BlockAllocation} (h : Inv s L)
    (k : Inv2 a s) {x : Block} (hx : x ∈ allBlocks s.chunks_) (hf : x.is_free_ = true)
    (h0 : 0 < x.size_) {e : Key × Nat} (he : e ∈ s.free_blocks_) :
    e.1 = (x.size_, x.ptr_) ↔ e.2 = x.node := by
  constructor
  · intro hk
    have hex := k.covers x hx hf h0
    have := eq_of_key_eq h.index_sorted he hex hk
    rw [this]
  · intro hn
    exact (describes_of_node h he hx hn).2.2

/-- The Free Index after the entries of absorbed free blocks of non-zero size are erased
and one entry is inserted under a key that no remaining entry has. -/
theorem index_after_merge {a : Config} {s : State} {L : List BlockAllocation} (h : Inv s L)
    (k2 : Inv2 a s) (A : List Block)
    (hA : ∀ x ∈ A, x ∈ allBlocks s.chunks_ ∧ x.is_free_ = true ∧ 0 < x.size_)
    (k : Key) (nd : Nat)
    (hk : ∀ e ∈ s.free_blocks_, (∀ x ∈ A, e.2 ≠ x.node) → e.1 ≠ k) (e : Key × Nat) :
    e ∈ emplace k nd (A.foldl (fun m x => erase (x.size_, x.ptr_) m) s.free_blocks_) ↔
      (e ∈ s.free_blocks_ ∧ ∀ x ∈ A, e.2 ≠ x.node) ∨ e = (k, nd) := by
  have hfold : ∀ (B : List Block) (m : FreeBlocks) (e : Key × Nat),
      e ∈ B.foldl (fun m x => erase (x.size_, x.ptr_) m) m ↔
        e ∈ m ∧ ∀ x ∈ B, e.1 ≠ (x.size_, x.ptr_) := by
    intro B
    induction B with
    | nil => simp
    | cons y ys ih =>
      intro m e
      simp only [List.foldl_cons, ih, mem_erase, List.mem_cons, forall_eq_or_imp]
      tauto
  have hmem : ∀ e, e ∈ A.foldl (fun m x => erase (x.size_, x.ptr_) m) s.free_blocks_ ↔
      e ∈ s.free_blocks_ ∧ ∀ x ∈ A, e.2 ≠ x.node := by
    intro e
    rw [hfold]
    constructor
    · rintro ⟨he, hne⟩
      refine ⟨he, fun x hx hn => hne x hx ?_⟩
      obtain ⟨h1, h2, h3⟩ := hA x hx
      exact (key_iff_node h k2 h1 h2 h3 he).2 hn
    · rintro ⟨he, hne⟩
      refine ⟨he, fun x hx hn => hne x hx ?_⟩
      obtain ⟨h1, h2, h3⟩ := hA x hx
      exact (key_iff_node h k2 h1 h2 h3 he).1 hn
  rw [mem_emplace]
  constructor
  · rintro (he | ⟨he, _⟩)
    · exact Or.inl ((hmem e).1 he)
    · exact Or.inr he
  · rintro (he | he)
    · exact Or.inl ((hmem e).2 he)
    · refine Or.inr ⟨he, ?_⟩
      intro e2 he2
      have := (hmem e2).1 he2
      exact hk e2 this.1 this.2

theorem nodup_of_sorted {m : FreeBlocks} (h : m.Pairwise (fun e f => keyLt e.1 f.1)) :
    m.Nodup := by
  refine h.imp ?_
  intro x y hxy hne
  rw [hne] at hxy
  exact keyLt_irrefl _ hxy

/-- C19, amended.  In every reachable state (the underlying allocator being well behaved),
`Free` of a live handle whose absorbed neighbours and merged block have non-zero size: the
block of the handle is marked free and merged with its left neighbour if that is free and
with its right neighbour if that is free; the merged block starts at the address of the
leftmost merged block and its size is the sum of their sizes; the Free Index loses exactly
the entries of the absorbed neighbours and gains exactly one entry, for the merged block;
every other block and chunk is unchanged.  (This is the state before the reclaim-on-free
policy is applied.) -/
theorem free_merges (a : Config) (hu : WellBehaved a.underlying_allocator_)
    (s : State) (L : List BlockAllocation) (hr : Reachable a s L)
    (h : BlockAllocation) (hh : h ∈ L) (cur : Cursor)
    (hcur : deref h.block_it_ s.chunks_ = some cur)
    (hab : ∀ x ∈ absorbedLeft cur ++ absorbedRight cur, 0 < x.size_)
    (hm : 0 < sizes (mergedBlocks cur)) :
    Holds h cur.block ∧
      FreeImpl a s h =
        some (if a.FLAGS_free_idle_chunk then (FreeIdleChunks a (freeBlock s cur)).1
          else freeBlock s cur) ∧
      MergesBoth s h (freeBlock s cur) := by
  have hi := hr.inv hu.sized
  have k := hr.inv2 hu
  obtain ⟨cur1, hcur1, hat, hd⟩ := free_cursor hi hh
  rw [hcur] at hcur1
  simp only [Option.some.injEq] at hcur1
  subst hcur1
  have hpart := hi.partition _ hat.mem_chunk
  have hcont := hpart.contig
  have htot := hpart.total
  have hsmall := hi.small _ hat.mem_chunk
  have hbm := hat.mem_block
  have hbf := hd.2.1
  have hnd := nodup_of_sorted (freeBlock_inv hi hh hat hd).index_sorted
  have hmemc : ∀ x ∈ cur.chunk.blocks_, x ∈ allBlocks s.chunks_ :=
    fun x hx => mem_allBlocks.2 ⟨_, hat.mem_chunk, hx⟩
  refine ⟨hd, FreeImpl_eq hcur, cur, mergedNode cur, hcur, ?_⟩
  rcases left_cases cur s.free_blocks_ with
    ⟨P, prev, hP, hpf, haL, hkL, hptr, hnode, hl⟩ | ⟨haL, hkL, hptr, hnode, hl⟩
  · rcases right_cases cur { prev with size_ := (prev.size_ + cur.block.size_) % SIZE }
      (erase (prev.size_, prev.ptr_) s.free_blocks_) with
      ⟨next, N, hN, hnf, haR, hkR, hr2⟩ | ⟨haR, hkR, hr2⟩
    · -- both neighbours are merged
      have hblocks : cur.chunk.blocks_ = P ++ [prev, cur.block, next] ++ N := by
        rw [hat.blocks, hP, hN]; simp
      have hprev : prev ∈ cur.chunk.blocks_ := by rw [hblocks]; simp
      have hnext : next ∈ cur.chunk.blocks_ := by rw [hblocks]; simp
      rw [hblocks] at hcont htot
      simp only [List.append_assoc, List.cons_append, List.nil_append, contiguous_append,
        contiguous, sizes_append, sizes_cons, sizes_nil] at hcont htot
      have hw1 : (prev.size_ + cur.block.size_) % SIZE = prev.size_ + cur.block.size_ :=
        Nat.mod_eq_of_lt (by omega)
      have hw2 : (prev.size_ + cur.block.size_ + next.size_) % SIZE =
          prev.size_ + cur.block.size_ + next.size_ := Nat.mod_eq_of_lt (by omega)
      have hsz : sizes (mergedBlocks cur) = prev.size_ + cur.block.size_ + next.size_ := by
        simp only [mergedBlocks, haL, haR, List.cons_append, List.nil_append, sizes_cons,
          sizes_nil]
        omega
      rw [haL, haR] at hab
      have hp0 : 0 < prev.size_ := hab prev (by simp)
      have hn0 : 0 < next.size_ := hab next (by simp)
      simp only [freeBlock, hl, hr2]
      simp only [hw1, hw2, hkL, hkR, hptr, hnode, hsz, haL, haR, hpf]
      refine ⟨trivial, ?_, ?_⟩
      · intro e
        refine index_after_merge hi k [prev, next] ?_ _ _ ?_ e
        · intro x hx
          simp only [List.mem_cons, List.mem_singleton, List.not_mem_nil, or_false] at hx
          rcases hx with rfl | rfl
          · exact ⟨hmemc _ hprev, hpf, hp0⟩
          · exact ⟨hmemc _ hnext, hnf, hn0⟩
        · intro e he hne hk
          obtain ⟨y, hy, hdy⟩ := hi.index_valid e he
          have hy1 : y.size_ = prev.size_ + cur.block.size_ + next.size_ := by
            have := hdy.2.2
            rw [hk] at this
            exact (Prod.mk.inj this).1.symm
          have hy2 : y.ptr_ = prev.ptr_ := by
            have := hdy.2.2
            rw [hk] at this
            exact (Prod.mk.inj this).2.symm
          have : y = prev :=
            block_unique hi.partition k.disjoint hy (hmemc _ hprev) hy2 (by omega) hp0
          exact hne prev (by simp) (by rw [← hdy.1, this])
      · simp only [freeBlock, hl, hr2] at hnd
        simpa only [hw1, hw2, hpf] using hnd
    · -- only the left neighbour is merged
      have hblocks : cur.chunk.blocks_ = P ++ [prev, cur.block] ++ cur.nexts := by
        rw [hat.blocks, hP]; simp
      have hprev : prev ∈ cur.chunk.blocks_ := by rw [hblocks]; simp
      rw [hblocks] at hcont htot
      simp only [List.append_assoc, List.cons_append, List.nil_append, contiguous_append,
        contiguous, sizes_append, sizes_cons, sizes_nil] at hcont htot
      have hw1 : (prev.size_ + cur.block.size_) % SIZE = prev.size_ + cur.block.size_ :=
        Nat.mod_eq_of_lt (by omega)
      have hsz : sizes (mergedBlocks cur) = prev.size_ + cur.block.size_ := by
        simp only [mergedBlocks, haL, haR, List.cons_append, List.nil_append, sizes_cons,
          sizes_nil]
        omega
      rw [haL, haR] at hab
      have hp0 : 0 < prev.size_ := hab prev (by simp)
      simp only [freeBlock, hl, hr2]
      simp only [hw1, hkL, hkR, hptr, hnode, hsz, haL, haR, hpf]
      refine ⟨trivial, ?_, ?_⟩
      · intro e
        refine index_after_merge hi k [prev] ?_ _ _ ?_ e
        · intro x hx
          simp only [List.mem_singleton] at hx
          subst hx
          exact ⟨hmemc _ hprev, hpf, hp0⟩
        · intro e he hne hk
          obtain ⟨y, hy, hdy⟩ := hi.index_valid e he
          have hy1 : y.size_ = prev.size_ + cur.block.size_ := by
            have := hdy.2.2
            rw [hk] at this
            exact (Prod.mk.inj this).1.symm
          have hy2 : y.ptr_ = prev.ptr_ := by
            have := hdy.2.2
            rw [hk] at this
            exact (Prod.mk.inj this).2.symm
          have : y = prev :=
            block_unique hi.partition k.disjoint hy (hmemc _ hprev) hy2 (by omega) hp0
          exact hne prev (by simp) (by rw [← hdy.1, this])
      · simp only [freeBlock, hl, hr2] at hnd
        simpa only [hw1, hpf] using hnd
  · rcases right_cases cur { cur.block with is_free_ := true } s.free_blocks_ with
      ⟨next, N, hN, hnf, haR, hkR, hr2⟩ | ⟨haR, hkR, hr2⟩
    · -- only the right neighbour is merged
      have hblocks : cur.chunk.blocks_ = cur.prevs ++ [cur.block, next] ++ N := by
        rw [hat.blocks, hN]; simp
      have hnext : next ∈ cur.chunk.blocks_ := by rw [hblocks]; simp
      rw [hblocks] at hcont htot
      simp only [List.append_assoc, List.cons_append, List.nil_append, contiguous_append,
        contiguous, sizes_append, sizes_cons, sizes_nil] at hcont htot
      have hw1 : (cur.block.size_ + next.size_) % SIZE = cur.block.size_ + next.size_ :=
        Nat.mod_eq_of_lt (by omega)
      have hsz : sizes (mergedBlocks cur) = cur.block.size_ + next.size_ := by
        simp only [mergedBlocks, haL, haR, List.nil_append, sizes_cons, sizes_nil]
        omega
      rw [haL, haR] at hab
      have hn0 : 0 < next.size_ := hab next (by simp)
      simp only [freeBlock, hl, hr2]
      simp only [hw1, hkL, hkR, hptr, hnode, hsz, haL, haR]
      refine ⟨trivial, ?_, ?_⟩
      · intro e
        refine index_after_merge hi k [next] ?_ _ _ ?_ e
        · intro x hx
          simp only [List.mem_singleton] at hx
          subst hx
          exact ⟨hmemc _ hnext, hnf, hn0⟩
        · intro e he hne hk
          obtain ⟨y, hy, hdy⟩ := hi.index_valid e he
          have hy1 : y.size_ = cur.block.size_ + next.size_ := by
            have := hdy.2.2
            rw [hk] at this
            exact (Prod.mk.inj this).1.symm
          have hy2 : y.ptr_ = cur.block.ptr_ := by
            have := hdy.2.2
            rw [hk] at this
            exact (Prod.mk.inj this).2.symm
          rcases Nat.eq_zero_or_pos cur.block.size_ with hb0 | hb0
          · have : y = next :=
              block_unique hi.partition k.disjoint hy (hmemc _ hnext) (by omega) (by omega)
                hn0
            exact hne next (by simp) (by rw [← hdy.1, this])
          · have : y = cur.block :=
              block_unique hi.partition k.disjoint hy hbm hy2 (by omega) hb0
            have hyf := hdy.2.1
            rw [this, hbf] at hyf
            exact absurd hyf (by simp)
      · simp only [freeBlock, hl, hr2] at hnd
        simpa only [hw1] using hnd
    · -- no neighbour is merged
      have hsz : sizes (mergedBlocks cur) = cur.block.size_ := by
        simp only [mergedBlocks, haL, haR, List.nil_append, sizes_cons, sizes_nil]
        omega
      have hb0 : 0 < cur.block.size_ := by rw [← hsz]; exact hm
      simp only [freeBlock, hl, hr2, hkL, hkR, hptr, hnode, hsz, haL, haR]
      refine ⟨trivial, ?_, ?_⟩
      · intro e
        refine index_after_merge hi k [] ?_ _ _ ?_ e
        · intro x hx
          simp at hx
        · intro e he _ hk
          obtain ⟨y, hy, hdy⟩ := hi.index_valid e he
          have hy1 : y.size_ = cur.block.size_ := by
            have := hdy.2.2
            rw [hk] at this
            exact (Prod.mk.inj this).1.symm
          have hy2 : y.ptr_ = cur.block.ptr_ := by
            have := hdy.2.2
            rw [hk] at this
            exact (Prod.mk.inj this).2.symm
          have : y = cur.block :=
            block_unique hi.partition k.disjoint hy hbm hy2 (by omega) hb0
          have hyf := hdy.2.1
          rw [this, hbf] at hyf
          exact absurd hyf (by simp)
      · simpa only [freeBlock, hl, hr2] using hnd

/-- The amended C19 on the example scenario: `Free` of the handle of `Allocate(50)` in
`demoTwoFree`, where both neighbours are free, yields one free block of 4096 bytes. -/
theorem free_merges_witness :
    WellBehaved demo.underlying_allocator_ ∧ Reachable demo demoTwoFree [⟨8032, 56, 0⟩] ∧
      deref 0 demoTwoFree.chunks_ = some demoTwoFreeCursor ∧
      (freeBlock demoTwoFree demoTwoFreeCursor).chunks_ =
        [⟨⟨4096, 4096⟩, [⟨2, 4096, 4096, true⟩]⟩] ∧
      MergesBoth demoTwoFree ⟨8032, 56, 0⟩ (freeBlock demoTwoFree demoTwoFreeCursor) :=
  ⟨bump_wellBehaved, demoTwoFree_reachable, by rfl, by rfl,
    (free_merges demo bump_wellBehaved demoTwoFree [⟨8032, 56, 0⟩] demoTwoFree_reachable
      ⟨8032, 56, 0⟩ (by decide) _ (by rfl) (by decide) (by decide)).2.2⟩

/-- The split on a hit in the example scenario: `Allocate(3000)` in `demoState` splits the
free block of 3936 bytes. -/
theorem split_on_hit_witness :
    WellBehaved demo.underlying_allocator_ ∧ Reachable demo demoState demoLive ∧
      lower_bound (realizedSize demo 3000, 0) demoState.free_blocks_ =
        some ((3936, 4096), 2) ∧
      realizedSize demo 3000 < 3936 ∧
      ∃ cur, deref 2 demoState.chunks_ = some cur ∧ cur.block = ⟨2, 4096, 3936, true⟩ ∧
        ∃ t, AllocateImpl demo demoState 3000 =
          some (t, some ⟨4096 + (3936 - realizedSize demo 3000), realizedSize demo 3000, 2⟩) := by
  obtain ⟨cur, h1, _, h3, t, h4, _⟩ :=
    split_on_hit demo bump_wellBehaved demoState demoLive demo_reachable 3000
      ((3936, 4096), 2) (by rfl) (by decide)
  exact ⟨bump_wellBehaved, demo_reachable, by rfl, by decide, cur, h1, h3, t, h4⟩

/-! ## Lists related element by element -/

theorem forall2_of_zip {α β : Type} {R : α → β → Prop} {l : List α} {l' : List β}
    (h : List.Forall₂ R l l') {p : α × β} (hp : p ∈ l.zip l') : R p.1 p.2 := by
  induction h with
  | nil => simp at hp
  | cons hab _ ih =>
    simp only [List.zip_cons_cons, List.mem_cons] at hp
    rcases hp with rfl | hp
    · exact hab
    · exact ih hp

/-- The state after the merges of `Free`, in terms of the absorbed neighbours. -/
theorem freeBlock_shape {s : State} {L : List BlockAllocation} (h : Inv s L)
    {g : BlockAllocation} {cur : Cursor} (hat : cur.At g.block_it_ s.chunks_) :
    (freeBlock s cur).chunks_ =
        cur.store (keptLeft cur ++
          ⟨mergedNode cur, mergedPtr cur, sizes (mergedBlocks cur), true⟩ :: keptRight cur) ∧
      (freeBlock s cur).free_blocks_ =
        emplace (sizes (mergedBlocks cur), mergedPtr cur) (mergedNode cur)
          ((absorbedLeft cur ++ absorbedRight cur).foldl
            (fun m x => erase (x.size_, x.ptr_) m) s.free_blocks_) := by
  have hpart := h.partition _ hat.mem_chunk
  have htot := hpart.total
  have hsmall := h.small _ hat.mem_chunk
  rcases left_cases cur s.free_blocks_ with
    ⟨P, prev, hP, hpf, haL, hkL, hptr, hnode, hl⟩ | ⟨haL, hkL, hptr, hnode, hl⟩
  · rcases right_cases cur { prev with size_ := (prev.size_ + cur.block.size_) % SIZE }
      (erase (prev.size_, prev.ptr_) s.free_blocks_) with
      ⟨next, N, hN, hnf, haR, hkR, hr2⟩ | ⟨haR, hkR, hr2⟩
    · have hblocks : cur.chunk.blocks_ = P ++ [prev, cur.block, next] ++ N := by
        rw [hat.blocks, hP, hN]; simp
      rw [hblocks] at htot
      simp only [List.append_assoc, List.cons_append, List.nil_append, sizes_append,
        sizes_cons, sizes_nil] at htot
      have hw1 : (prev.size_ + cur.block.size_) % SIZE = prev.size_ + cur.block.size_ :=
        Nat.mod_eq_of_lt (by omega)
      have hw2 : (prev.size_ + cur.block.size_ + next.size_) % SIZE =
          prev.size_ + cur.block.size_ + next.size_ := Nat.mod_eq_of_lt (by omega)
      have hsz : sizes (mergedBlocks cur) = prev.size_ + cur.block.size_ + next.size_ := by
        simp only [mergedBlocks, haL, haR, List.cons_append, List.nil_append, sizes_cons,
          sizes_nil]
        omega
      simp only [freeBlock, hl, hr2]
      simp [hw1, hw2, hkL, hkR, hptr, hnode, hsz, haL, haR, hpf]
    · have hblocks : cur.chunk.blocks_ = P ++ [prev, cur.block] ++ cur.nexts := by
        rw [hat.blocks, hP]; simp
      rw [hblocks] at htot
      simp only [List.append_assoc, List.cons_append, List.nil_append, sizes_append,
        sizes_cons, sizes_nil] at htot
      have hw1 : (prev.size_ + cur.block.size_) % SIZE = prev.size_ + cur.block.size_ :=
        Nat.mod_eq_of_lt (by omega)
      have hsz : sizes (mergedBlocks cur) = prev.size_ + cur.block.size_ := by
        simp only [mergedBlocks, haL, haR, List.cons_append, List.nil_append, sizes_cons,
          sizes_nil]
        omega
      simp only [freeBlock, hl, hr2]
      simp [hw1, hkL, hkR, hptr, hnode, hsz, haL, haR, hpf]
  · rcases right_cases cur { cur.block with is_free_ := true } s.free_blocks_ with
      ⟨next, N, hN, hnf, haR, hkR, hr2⟩ | ⟨haR, hkR, hr2⟩
    · have hblocks : cur.chunk.blocks_ = cur.prevs ++ [cur.block, next] ++ N := by
        rw [hat.blocks, hN]; simp
      rw [hblocks] at htot
      simp only [List.append_assoc, List.cons_append, List.nil_append, sizes_append,
        sizes_cons, sizes_nil] at htot
      have hw1 : (cur.block.size_ + next.size_) % SIZE = cur.block.size_ + next.size_ :=
        Nat.mod_eq_of_lt (by omega)
      have hsz : sizes (mergedBlocks cur) = cur.block.size_ + next.size_ := by
        simp only [mergedBlocks, haL, haR, List.nil_append, sizes_cons, sizes_nil]
        omega
      simp only [freeBlock, hl, hr2]
      simp [hw1, hkL, hkR, hptr, hnode, hsz, haL, haR]
    · have hsz : sizes (mergedBlocks cur) = cur.block.size_ := by
        simp only [mergedBlocks, haL, haR, List.nil_append, sizes_cons, sizes_nil]
        omega
      simp only [freeBlock, hl, hr2]
      simp [hkL, hkR, hptr, hnode, hsz, haL, haR]

/-! ## The first block of a chunk is never empty -/

theorem forall2_append3 {p q : Nat} {P P' Q Q' N N' : List Block}
    (hP : List.Forall₂ (BlockSim p q) P P') (hQ : List.Forall₂ (BlockSim p q) Q Q')
    (hN : List.Forall₂ (BlockSim p q) N N') :
    List.Forall₂ (BlockSim p q) (P ++ Q ++ N) (P' ++ Q' ++ N') :=
  List.rel_append (List.rel_append hP hQ) hN

/-! ## The Free Index side by side -/

/-- `allocateHit` when the matched block has exactly the size of the request. -/
theorem allocateHit_exact {s : State} {size : Nat} {iter : Key × Nat} {cur : Cursor}
    (hd : deref iter.2 s.chunks_ = some cur)
    (hr : (cur.block.size_ + SIZE - size) % SIZE = 0) :
    allocateHit s size iter =
      some ({ s with
          chunks_ := cur.store (cur.prevs ++ { cur.block with is_free_ := false } :: cur.nexts)
          free_blocks_ := erase iter.1 s.free_blocks_
          total_alloc_times_ := (s.total_alloc_times_ + 1) % SIZE
          total_alloc_size_ := (s.total_alloc_size_ + size) % SIZE },
        ⟨cur.block.ptr_, cur.block.size_, cur.block.node⟩) := by
  simp only [allocateHit, hd, hr, if_true]

theorem absorbed_mem {cur : Cursor} {it : Nat} {cs : List Chunk} (hat : cur.At it cs) :
    ∀ x ∈ absorbedLeft cur ++ absorbedRight cur, x ∈ allBlocks cs := by
  intro x hx
  refine mem_allBlocks.2 ⟨cur.chunk, hat.mem_chunk, ?_⟩
  rw [hat.blocks]
  rcases List.mem_append.1 hx with hx | hx
  · unfold absorbedLeft at hx
    split at hx
    · next prev hprev =>
      split_ifs at hx
      · simp only [List.mem_singleton] at hx
        subst hx
        have := List.mem_of_getLast?_eq_some hprev
        simp [this]
      · simp at hx
    · simp at hx
  · unfold absorbedRight at hx
    split at hx
    · next nx N hN =>
      split_ifs at hx
      · simp only [List.mem_singleton] at hx
        subst hx
        simp [hN]
      · simp at hx
    · simp at hx

theorem pool_top (base : Nat) (held : List Allocation) :
    ∀ h ∈ held, h.ptr + h.size ≤ held.foldr (fun h acc => max (h.ptr + h.size) acc) base := by
  intro h hh
  induction held with
  | nil => simp at hh
  | cons x xs ih =>
    simp only [List.foldr_cons]
    rcases List.mem_cons.1 hh with rfl | hx
    · exact le_max_left _ _
    · exact le_trans (ih hx) (le_max_right _ _)

theorem pool_wellBehaved (base cap : Nat) (hcap : cap < SIZE) : WellBehaved (pool base cap) := by
  intro k held n r h
  unfold pool at h
  split_ifs at h with hn
  simp only [Option.some.injEq] at h
  subst h
  refine ⟨le_refl _, ?_, ?_⟩
  · show n < SIZE
    omega
  · intro h hh
    left
    exact pool_top base held h hh

theorem carve_counters (s : State) (r : Allocation) (size : Nat) :
    (carve s r size).1.total_alloc_times_ = (s.total_alloc_times_ + 1) % SIZE ∧
      (carve s r size).1.total_alloc_size_ = (s.total_alloc_size_ + size) % SIZE ∧
      (carve s r size).1.total_free_times_ = s.total_free_times_ ∧
      (carve s r size).1.total_free_size_ = s.total_free_size_ ∧
      (carve s r size).2.size = size := by
  unfold carve
  simp only
  split_ifs <;> exact ⟨rfl, rfl, rfl, rfl, rfl⟩

theorem allocateHit_counters {s t : State} {size : Nat} {iter : Key × Nat}
    {g : BlockAllocation} (h : allocateHit s size iter = some (t, g)) :
    t.total_alloc_times_ = (s.total_alloc_times_ + 1) % SIZE ∧
      t.total_alloc_size_ = (s.total_alloc_size_ + size) % SIZE ∧
      t.total_free_times_ = s.total_free_times_ ∧
      t.total_free_size_ = s.total_free_size_ := by
  unfold allocateHit at h
  cases hd : deref iter.2 s.chunks_ with
  | none => simp [hd] at h
  | some cur =>
    simp only [hd] at h
    split_ifs at h <;>
    · simp only [Option.some.injEq, Prod.mk.injEq] at h
      obtain ⟨rfl, _⟩ := h
      exact ⟨rfl, rfl, rfl, rfl⟩

theorem carve_counters_of (s0 : State) {s : State}
    (h1 : s.total_alloc_times_ = s0.total_alloc_times_)
    (h2 : s.total_alloc_size_ = s0.total_alloc_size_)
    (h3 : s.total_free_times_ = s0.total_free_times_)
    (h4 : s.total_free_size_ = s0.total_free_size_) (r : Allocation) (size : Nat) :
    (carve s r size).1.total_free_times_ = s0.total_free_times_ ∧
      (carve s r size).1.total_free_size_ = s0.total_free_size_ ∧
      (carve s r size).2.size = size ∧
      (carve s r size).1.total_alloc_times_ = (s0.total_alloc_times_ + 1) % SIZE ∧
      (carve s r size).1.total_alloc_size_ = (s0.total_alloc_size_ + size) % SIZE := by
  have := carve_counters s r size
  rw [h1, h2, h3, h4] at this
  exact ⟨this.2.2.1, this.2.2.2.1, this.2.2.2.2, this.1, this.2.1⟩

/-- The counters after a growth miss: the free counters are unchanged; the allocation
counters are unchanged on failure and advanced on success. -/
theorem allocateMiss_counters (a : Config) (s : State) (size : Nat) :
    (allocateMiss a s size).1.total_free_times_ = s.total_free_times_ ∧
      (allocateMiss a s size).1.total_free_size_ = s.total_free_size_ ∧
      (((allocateMiss a s size).2 = none ∧
          (allocateMiss a s size).1.total_alloc_times_ = s.total_alloc_times_ ∧
          (allocateMiss a s size).1.total_alloc_size_ = s.total_alloc_size_) ∨
        (∃ g, (allocateMiss a s size).2 = some g ∧ g.size = size ∧
          (allocateMiss a s size).1.total_alloc_times_ = (s.total_alloc_times_ + 1) % SIZE ∧
          (allocateMiss a s size).1.total_alloc_size_ =
            (s.total_alloc_size_ + size) % SIZE)) := by
  have hc := FreeIdleChunks_counters a
  cases hf : a.FLAGS_free_when_no_cache_hit
  · simp only [allocateMiss, hf, underlyingAllocate, Bool.false_eq_true, if_false]
    cases h1 : a.underlying_allocator_ s.requests.length (s.chunks_.map Chunk.allocation_)
      (max size a.chunk_size_) with
    | some r =>
      simp only
      have := carve_counters_of s (s := { s with requests := s.requests ++ [max size a.chunk_size_] })
        rfl rfl rfl rfl r size
      exact ⟨this.1, this.2.1, Or.inr ⟨_, rfl, this.2.2⟩⟩
    | none =>
      simp only
      have h2 := hc { s with requests := s.requests ++ [max size a.chunk_size_] }
      split
      · next s4 r4 heq =>
        simp only [Prod.mk.injEq] at heq
        obtain ⟨rfl, _⟩ := heq
        have := carve_counters_of s (s := { (FreeIdleChunks a
          { s with requests := s.requests ++ [max size a.chunk_size_] }).1 with
          requests := (FreeIdleChunks a
            { s with requests := s.requests ++ [max size a.chunk_size_] }).1.requests ++
              [max size a.chunk_size_] }) h2.1 h2.2.1 h2.2.2.1 h2.2.2.2 r4 size
        exact ⟨this.1, this.2.1, Or.inr ⟨_, rfl, this.2.2⟩⟩
      · next s4 heq =>
        simp only [Prod.mk.injEq] at heq
        obtain ⟨rfl, _⟩ := heq
        exact ⟨h2.2.2.1, h2.2.2.2, Or.inl ⟨rfl, h2.1, h2.2.1⟩⟩
  · simp only [allocateMiss, hf, underlyingAllocate, if_true]
    have h2 := hc s
    cases h1 : a.underlying_allocator_ (FreeIdleChunks a s).1.requests.length
      ((FreeIdleChunks a s).1.chunks_.map Chunk.allocation_) (max size a.chunk_size_) with
    | some r =>
      simp only
      have := carve_counters_of s (s := { (FreeIdleChunks a s).1 with
        requests := (FreeIdleChunks a s).1.requests ++ [max size a.chunk_size_] })
        h2.1 h2.2.1 h2.2.2.1 h2.2.2.2 r size
      exact ⟨this.1, this.2.1, Or.inr ⟨_, rfl, this.2.2⟩⟩
    | none =>
      exact ⟨h2.2.2.1, h2.2.2.2, Or.inl ⟨rfl, h2.1, h2.2.1⟩⟩

/-- The counters after `AllocateImpl`. -/
theorem AllocateImpl_counters {a : Config} {s t : State} {n : Nat}
    {r : Option BlockAllocation} (h : AllocateImpl a s n = some (t, r)) :
    t.total_free_times_ = s.total_free_times_ ∧
      t.total_free_size_ = s.total_free_size_ ∧
      ((r = none ∧ t.total_alloc_times_ = s.total_alloc_times_ ∧
          t.total_alloc_size_ = s.total_alloc_size_) ∨
        (r ≠ none ∧ t.total_alloc_times_ = (s.total_alloc_times_ + 1) % SIZE ∧
          t.total_alloc_size_ = (s.total_alloc_size_ + realizedSize a n) % SIZE)) := by
  unfold AllocateImpl at h
  simp only at h
  cases hlb : lower_bound (realizedSize a n, 0) s.free_blocks_ with
  | some iter =>
    simp only [hlb] at h
    cases hh : allocateHit s (realizedSize a n) iter with
    | none => simp [hh] at h
    | some p =>
      simp only [hh, Option.some.injEq, Prod.mk.injEq] at h
      obtain ⟨rfl, rfl⟩ := h
      have := allocateHit_counters (t := p.1) (g := p.2) hh
      exact ⟨this.2.2.1, this.2.2.2, Or.inr ⟨by simp, this.1, this.2.1⟩⟩
  | none =>
    simp only [hlb, Option.some.injEq] at h
    have := allocateMiss_counters a s (realizedSize a n)
    rw [h] at this
    refine ⟨this.1, this.2.1, ?_⟩
    rcases this.2.2 with h1 | ⟨g, h1, _, h2, h3⟩
    · exact Or.inl h1
    · simp only at h1
      exact Or.inr ⟨by rw [h1]; simp, h2, h3⟩

/-- The counters after `freeBlock`. -/
theorem freeBlock_counters (s : State) (cur : Cursor) :
    (freeBlock s cur).total_alloc_times_ = s.total_alloc_times_ ∧
      (freeBlock s cur).total_alloc_size_ = s.total_alloc_size_ ∧
      (freeBlock s cur).total_free_times_ = (s.total_free_times_ + 1) % SIZE ∧
      (freeBlock s cur).total_free_size_ = (s.total_free_size_ + cur.block.size_) % SIZE :=
  ⟨rfl, rfl, rfl, rfl⟩

/-- The counters after `FreeImpl`. -/
theorem FreeImpl_counters {a : Config} {s t : State} {h : BlockAllocation} {cur : Cursor}
    (hd : deref h.block_it_ s.chunks_ = some cur) (hf : FreeImpl a s h = some t) :
    t.total_alloc_times_ = s.total_alloc_times_ ∧
      t.total_alloc_size_ = s.total_alloc_size_ ∧
      t.total_free_times_ = (s.total_free_times_ + 1) % SIZE ∧
      t.total_free_size_ = (s.total_free_size_ + cur.block.size_) % SIZE := by
  rw [FreeImpl_eq hd] at hf
  simp only [Option.some.injEq] at hf
  subst hf
  have hc := FreeIdleChunks_counters a (freeBlock s cur)
  have hb := freeBlock_counters s cur
  split_ifs
  · rw [hc.1, hc.2.1, hc.2.2.1, hc.2.2.2]
    exact hb
  · exact hb

theorem halfState_reachable : Reachable demo halfState [] :=
  script_reachable halfScript (by rfl)

/-- C21, as stated, fails: in the state of `demo` reached by allocating and freeing a block
of `2 ^ 63` bytes, the byte counter of the allocations is `2 ^ 63`; the next
`Allocate(2 ^ 63)`, a cache hit of realized size `2 ^ 63`, leaves it at 0, the sum having
wrapped in 64-bit arithmetic. -/
theorem allocation_counters_counterexample :
    Reachable demo halfState [] ∧ halfState.total_alloc_size_ = 2 ^ 63 ∧
      realizedSize demo (2 ^ 63) = 2 ^ 63 ∧
      AllocateImpl demo halfState (2 ^ 63) = some (halfAgain, some ⟨4096, 2 ^ 63, 0⟩) ∧
      halfAgain.total_alloc_size_ = 0 ∧ ¬ CountsAllocation demo halfState (2 ^ 63) := by
  refine ⟨halfState_reachable, by decide, by decide, by rfl, rfl, ?_⟩
  intro h
  have h1 := (h halfAgain ⟨4096, 2 ^ 63, 0⟩ (by rfl)).2.1
  have h2 : realizedSize demo (2 ^ 63) = 2 ^ 63 := by decide
  rw [h2] at h1
  revert h1
  decide

/-- C21, amended: every successful `Allocate`, on the hit path and on the miss path alike,
adds 1 to the allocation-request counter and the realized size of the request (not the
requested size) to the allocated-bytes counter, in 64-bit unsigned arithmetic, hence
exactly as long as the sums stay below `2 ^ 64`; it leaves the two free counters
unchanged. -/
theorem allocation_counters (a : Config) (s : State) (n : Nat) (t : State)
    (h : BlockAllocation) (hal : AllocateImpl a s n = some (t, some h)) :
    t.total_alloc_times_ = (s.total_alloc_times_ + 1) % SIZE ∧
      t.total_alloc_size_ = (s.total_alloc_size_ + realizedSize a n) % SIZE ∧
      (s.total_alloc_times_ + 1 < SIZE → t.total_alloc_times_ = s.total_alloc_times_ + 1) ∧
      (s.total_alloc_size_ + realizedSize a n < SIZE →
        t.total_alloc_size_ = s.total_alloc_size_ + realizedSize a n) ∧
      t.total_free_times_ = s.total_free_times_ ∧
      t.total_free_size_ = s.total_free_size_ := by
  obtain ⟨h1, h2, h3⟩ := AllocateImpl_counters hal
  rcases h3 with ⟨h3, _⟩ | ⟨_, h4, h5⟩
  · cases h3
  · refine ⟨h4, h5, ?_, ?_, h1, h2⟩
    · intro hlt
      rw [h4, Nat.mod_eq_of_lt hlt]
    · intro hlt
      rw [h5, Nat.mod_eq_of_lt hlt]

/-- The amended C21 on `demoState` and the request 2999, a cache hit of realized size
3000, and on the fresh allocator and the request 100, a growth miss of realized size
104. -/
theorem allocation_counters_witness :
    (AllocateImpl demo demoState 2999 = some (demoThree, some ⟨5032, 3000, 2⟩) ∧
      realizedSize demo 2999 = 3000 ∧ demoState.total_alloc_size_ = 160 ∧
      demoThree.total_alloc_size_ = 3160 ∧
      (demoThree.total_alloc_times_ = (demoState.total_alloc_times_ + 1) % SIZE ∧
        demoThree.total_alloc_size_ =
          (demoState.total_alloc_size_ + realizedSize demo 2999) % SIZE ∧
        (demoState.total_alloc_times_ + 1 < SIZE →
          demoThree.total_alloc_times_ = demoState.total_alloc_times_ + 1) ∧
        (demoState.total_alloc_size_ + realizedSize demo 2999 < SIZE →
          demoThree.total_alloc_size_ = demoState.total_alloc_size_ + realizedSize demo 2999) ∧
        demoThree.total_free_times_ = demoState.total_free_times_ ∧
        demoThree.total_free_size_ = demoState.total_free_size_)) ∧
      lower_bound (realizedSize demo 100, 0) State.init.free_blocks_ = none ∧
      ∃ t h, AllocateImpl demo State.init 100 = some (t, some h) ∧
        t.total_alloc_size_ = (State.init.total_alloc_size_ + realizedSize demo 100) % SIZE :=
  ⟨⟨by rfl, by decide, rfl, rfl,
    allocation_counters demo demoState 2999 demoThree ⟨5032, 3000, 2⟩ (by rfl)⟩, by rfl,
    ⟨⟨[⟨⟨4096, 4096⟩, [⟨0, 4096, 3992, true⟩, ⟨1, 8088, 104, false⟩]⟩],
          [((3992, 4096), 0)], 1, 104, 0, 0, 2, [4096]⟩, ⟨8088, 104, 1⟩, by rfl,
      (allocation_counters demo State.init 100 _ _ (by rfl)).2.1⟩⟩

/-- C22, as stated, fails: in the state of `demo` reached by allocating and freeing a block
of `2 ^ 63` bytes, one more `Allocate(2 ^ 63)` takes the allocated-bytes counter from
`2 ^ 63` down to 0. -/
theorem free_counters_counterexample :
    Reachable demo halfState [] ∧
      step demo (halfState, []) (Op.allocate (2 ^ 63)) =
        some (halfAgain, [⟨4096, 2 ^ 63, 0⟩]) ∧
      halfState.total_alloc_size_ = 2 ^ 63 ∧ halfAgain.total_alloc_size_ = 0 ∧
      ¬ CountersMonotone demo (halfState, []) (Op.allocate (2 ^ 63)) := by
  refine ⟨halfState_reachable, by rfl, by decide, rfl, ?_⟩
  intro h
  have h1 := (h (halfAgain, [⟨4096, 2 ^ 63, 0⟩]) (by rfl)).2.1
  revert h1
  decide

/-- C22, amended: in every reachable state (the underlying allocator returning regions at
least as large as requested), the handle `Allocate` returns records the realized size;
`Free` of a live handle adds 1 to the free-request counter and the size of the freed block
before any merging, which is the size its handle records, to the freed-bytes counter, in
64-bit unsigned arithmetic, and leaves the allocation counters unchanged; and no call
(`Allocate`, `Free`, `Reclaim`) decreases any of the four counters unless its addition to
that counter reaches `2 ^ 64` and wraps. -/
theorem free_counters (a : Config) (hu : Sized a.underlying_allocator_) (s : State)
    (L : List BlockAllocation) (hr : Reachable a s L) :
    (∀ n t g, AllocateImpl a s n = some (t, some g) → g.size = realizedSize a n) ∧
      (∀ h ∈ L, ∀ t, FreeImpl a s h = some t →
        ∃ cur, deref h.block_it_ s.chunks_ = some cur ∧ cur.block.size_ = h.size ∧
          t.total_free_times_ = (s.total_free_times_ + 1) % SIZE ∧
          t.total_free_size_ = (s.total_free_size_ + cur.block.size_) % SIZE ∧
          t.total_alloc_times_ = s.total_alloc_times_ ∧
          t.total_alloc_size_ = s.total_alloc_size_) ∧
      (∀ op q, step a (s, L) op = some q →
        (s.total_alloc_times_ ≤ q.1.total_alloc_times_ ∨ SIZE ≤ s.total_alloc_times_ + 1) ∧
        (s.total_alloc_size_ ≤ q.1.total_alloc_size_ ∨
          ∃ n, op = Op.allocate n ∧ SIZE ≤ s.total_alloc_size_ + realizedSize a n) ∧
        (s.total_free_times_ ≤ q.1.total_free_times_ ∨ SIZE ≤ s.total_free_times_ + 1) ∧
        (s.total_free_size_ ≤ q.1.total_free_size_ ∨
          ∃ i h, op = Op.free i ∧ L[i]? = some h ∧ SIZE ≤ s.total_free_size_ + h.size)) := by
  have hi := hr.inv hu
  have key : ∀ x d : Nat, x ≤ (x + d) % SIZE ∨ SIZE ≤ x + d := by
    intro x d
    rcases Nat.lt_or_ge (x + d) SIZE with hlt | hge
    · left
      rw [Nat.mod_eq_of_lt hlt]
      exact Nat.le_add_right _ _
    · exact Or.inr hge
  have hfree : ∀ h ∈ L, ∀ t, FreeImpl a s h = some t →
      ∃ cur, deref h.block_it_ s.chunks_ = some cur ∧ cur.block.size_ = h.size ∧
        t.total_free_times_ = (s.total_free_times_ + 1) % SIZE ∧
        t.total_free_size_ = (s.total_free_size_ + cur.block.size_) % SIZE ∧
        t.total_alloc_times_ = s.total_alloc_times_ ∧
        t.total_alloc_size_ = s.total_alloc_size_ := by
    intro h hh t hf
    obtain ⟨cur, hd, _, hold⟩ := free_cursor hi hh
    have hc := FreeImpl_counters hd hf
    exact ⟨cur, hd, hold.2.2.2, hc.2.2.1, hc.2.2.2, hc.1, hc.2.1⟩
  refine ⟨?_, hfree, ?_⟩
  · intro n t g hal
    cases hlb : lower_bound (realizedSize a n, 0) s.free_blocks_ with
    | some iter =>
      rw [AllocateImpl_hit hlb] at hal
      cases hh : allocateHit s (realizedSize a n) iter with
      | none => simp [hh] at hal
      | some p =>
        simp only [hh, Option.map_some', Option.some.injEq, Prod.mk.injEq] at hal
        obtain ⟨rfl, rfl⟩ := hal
        obtain ⟨hit, hsz⟩ := lower_bound_hit hlb
        exact (allocateHit_handle hi hit hsz (t := p.1) (g := p.2) hh).2.2.1
    | none =>
      simp only [AllocateImpl, hlb, Option.some.injEq] at hal
      have := allocateMiss_counters a s (realizedSize a n)
      rw [hal] at this
      rcases this.2.2 with ⟨h1, _⟩ | ⟨g1, h1, h2, _⟩
      · cases h1
      · simp only [Option.some.injEq] at h1
        rw [h1]
        exact h2
  · intro op q hq
    cases op with
    | allocate n =>
      simp only [step] at hq
      split_ifs at hq with hn
      cases hal : AllocateImpl a s n with
      | none => simp [hal] at hq
      | some p =>
        obtain ⟨t, r⟩ := p
        have hc := AllocateImpl_counters hal
        have hq1 : q.1 = t := by
          cases r <;> simp only [hal, Option.some.injEq] at hq <;> rw [← hq]
        rw [hq1]
        refine ⟨?_, ?_, Or.inl (le_of_eq hc.1.symm), Or.inl (le_of_eq hc.2.1.symm)⟩
        · rcases hc.2.2 with ⟨_, h1, _⟩ | ⟨_, h1, _⟩
          · exact Or.inl (le_of_eq h1.symm)
          · rw [h1]
            exact key _ _
        · rcases hc.2.2 with ⟨_, _, h1⟩ | ⟨_, _, h1⟩
          · exact Or.inl (le_of_eq h1.symm)
          · rw [h1]
            rcases key s.total_alloc_size_ (realizedSize a n) with h2 | h2
            · exact Or.inl h2
            · exact Or.inr ⟨n, rfl, h2⟩
    | free i =>
      simp only [step] at hq
      cases hg : L[i]? with
      | none => simp [hg] at hq
      | some h =>
        simp only [hg] at hq
        cases hf : FreeImpl a s h with
        | none => simp [hf] at hq
        | some t =>
          simp only [hf, Option.some.injEq] at hq
          have hq1 : q.1 = t := by rw [← hq]
          rw [hq1]
          have hmem : h ∈ L := List.mem_iff_getElem?.2 ⟨i, hg⟩
          obtain ⟨cur, _, hsz, h1, h2, h3, h4⟩ := hfree h hmem t hf
          refine ⟨Or.inl (le_of_eq h3.symm), Or.inl (le_of_eq h4.symm), ?_, ?_⟩
          · rw [h1]
            exact key _ _
          · rw [h2, hsz]
            rcases key s.total_free_size_ h.size with h5 | h5
            · exact Or.inl h5
            · exact Or.inr ⟨i, h, rfl, hg, h5⟩
    | reclaim =>
      simp only [step, Option.some.injEq] at hq
      have hq1 : q.1 = (FreeIdleChunks a s).1 := by rw [← hq]
      rw [hq1]
      have hc := FreeIdleChunks_counters a s
      exact ⟨Or.inl (le_of_eq hc.1.symm), Or.inl (le_of_eq hc.2.1.symm),
        Or.inl (le_of_eq hc.2.2.1.symm), Or.inl (le_of_eq hc.2.2.2.symm)⟩

/-- The amended C22 on `demoState`: the `Free` of the handle of `Allocate(100)`, whose
block has 104 bytes, takes the free counters from (0, 0) to (1, 104). -/
theorem free_counters_witness :
    Sized demo.underlying_allocator_ ∧ Reachable demo demoState demoLive ∧
      (⟨8088, 104, 1⟩ : BlockAllocation) ∈ demoLive ∧
      FreeImpl demo demoState ⟨8088, 104, 1⟩ = some demoTwoFree ∧
      demoTwoFree.total_free_times_ = 1 ∧ demoTwoFree.total_free_size_ = 104 ∧
      ∃ cur, deref 1 demoState.chunks_ = some cur ∧ cur.block.size_ = 104 ∧
        demoTwoFree.total_free_times_ = (demoState.total_free_times_ + 1) % SIZE ∧
        demoTwoFree.total_free_size_ = (demoState.total_free_size_ + cur.block.size_) % SIZE ∧
        demoTwoFree.total_alloc_times_ = demoState.total_alloc_times_ ∧
        demoTwoFree.total_alloc_size_ = demoState.total_alloc_size_ :=
  ⟨bump_sized, demo_reachable, by decide, by rfl, rfl, rfl,
    (free_counters demo bump_sized demoState demoLive demo_reachable).2.1 ⟨8088, 104, 1⟩
      (by decide) demoTwoFree (by rfl)⟩

theorem FreeIdleChunks_withFreeIdleChunk (a : Config) (b : Bool) (s : State) :
    FreeIdleChunks (a.withFreeIdleChunk b) s = FreeIdleChunks a s := rfl

theorem no_idle_after_FreeIdleChunks {a : Config} (hal : a.allow_free_idle_chunk_ = true)
    (s : State) : ∀ c ∈ (FreeIdleChunks a s).1.chunks_, c.idle = false := by
  intro c hc
  rw [FreeIdleChunks_chunks] at hc
  simp only [hal, Bool.true_eq_false, if_false, List.mem_filter, Bool.not_eq_true'] at hc
  exact hc.2

/-- C23: with the flag `FLAGS_free_idle_chunk` on, `Free(h)` is `Free(h)` with the flag off
followed by one `Reclaim`, in every state and for every handle; and when the idle chunks
may be released, no chunk whose Block List is a single free block remains in the Chunk
Pool after `Free`. -/
theorem reclaim_after_free (a : Config) (hon : a.FLAGS_free_idle_chunk = true) (s : State)
    (h : BlockAllocation) :
    FreeImpl a s h =
        (FreeImpl (a.withFreeIdleChunk false) s h).map
          (fun s1 => (FreeIdleChunks (a.withFreeIdleChunk false) s1).1) ∧
      (a.allow_free_idle_chunk_ = true → ∀ t, FreeImpl a s h = some t →
        ∀ c ∈ t.chunks_, ¬ ∃ b, c.blocks_ = [b] ∧ b.is_free_ = true) := by
  constructor
  · cases hd : deref h.block_it_ s.chunks_ with
    | none => simp [FreeImpl, hd]
    | some cur =>
      rw [FreeImpl_eq hd, FreeImpl_eq hd]
      simp only [hon, if_true, Config.withFreeIdleChunk, Bool.false_eq_true, if_false,
        Option.map_some']
      rfl
  · intro hal t ht c hc hidle
    cases hd : deref h.block_it_ s.chunks_ with
    | none => simp [FreeImpl, hd] at ht
    | some cur =>
      rw [FreeImpl_eq hd] at ht
      simp only [hon, if_true, Option.some.injEq] at ht
      subst ht
      have := no_idle_after_FreeIdleChunks hal (freeBlock s cur) c hc
      rw [idle_iff.2 hidle] at this
      cases this

/-- C23 on `reclaiming` after `Allocate(100)`: the `Free` of the handle releases the chunk,
which with the flag off stays in the Chunk Pool as one free block. -/
theorem reclaim_after_free_witness :
    reclaiming.FLAGS_free_idle_chunk = true ∧ Reachable reclaiming demoFirst [⟨8088, 104, 1⟩] ∧
      FreeImpl reclaiming demoFirst ⟨8088, 104, 1⟩ =
        some ⟨[], [], 1, 104, 1, 104, 2, [4096]⟩ ∧
      FreeImpl (reclaiming.withFreeIdleChunk false) demoFirst ⟨8088, 104, 1⟩ =
        some ⟨[⟨⟨4096, 4096⟩, [⟨0, 4096, 4096, true⟩]⟩], [((4096, 4096), 0)],
          1, 104, 1, 104, 2, [4096]⟩ ∧
      (FreeImpl reclaiming demoFirst ⟨8088, 104, 1⟩ =
        (FreeImpl (reclaiming.withFreeIdleChunk false) demoFirst ⟨8088, 104, 1⟩).map
          (fun s1 => (FreeIdleChunks (reclaiming.withFreeIdleChunk false) s1).1) ∧
      (reclaiming.allow_free_idle_chunk_ = true → ∀ t,
        FreeImpl reclaiming demoFirst ⟨8088, 104, 1⟩ = some t →
        ∀ c ∈ t.chunks_, ¬ ∃ b, c.blocks_ = [b] ∧ b.is_free_ = true)) :=
  ⟨rfl, script_reachable [Op.allocate 100] (by rfl), by rfl, by rfl,
    reclaim_after_free reclaiming rfl demoFirst ⟨8088, 104, 1⟩⟩

theorem toSizeT_of_nonneg {x : Int} (h0 : 0 ≤ x) (h1 : x.toNat < SIZE) :
    toSizeT x = x.toNat := by
  unfold toSizeT
  have : (x.toNat : Int) = x := Int.toNat_of_nonneg h0
  rw [Int.emod_eq_of_lt h0 (by omega)]

theorem roundUp_add_mul (n al k : Nat) (hal : 0 < al) :
    roundUp (n + al * k) al = roundUp n al + al * k := by
  unfold roundUp
  have : n + al * k + al - 1 = (n + al - 1) + al * k := by omega
  rw [this, Nat.add_mul_div_left _ _ hal, Nat.add_mul, Nat.mul_comm k al]

/-- C24, as stated, fails: with alignment 8 and 4 bytes of padding the request 100 has the
realized size 104, the padded request 104 being a multiple of 8, and not the rounded
request 104 plus the padding. -/
theorem padding_counterexample :
    guarded.alignment_ = 8 ∧ guarded.extra_padding_size_ = 4 ∧
      realizedSize guarded 100 = 104 ∧ roundUp 100 8 = 104 ∧
      ¬ PaddingAppended guarded 100 := by
  refine ⟨rfl, rfl, by decide, by decide, ?_⟩
  unfold PaddingAppended
  have h1 : realizedSize guarded 100 = 104 := by decide
  have h2 : roundUp 100 guarded.alignment_ = 104 := by decide
  have h3 : guarded.extra_padding_size_ = 4 := rfl
  rw [h1, h2, h3]
  decide

/-- C24, amended: for every request, positive alignment and non-negative padding, as long
as the computation does not wrap (request + padding + alignment is at most `2 ^ 64`), the
realized size is the requested size plus the padding, rounded up to a multiple of the
alignment: the padding is added before the alignment.  When the padding is a multiple of
the alignment, this is the request rounded up plus the padding. -/
theorem padding_before_alignment (a : Config) (n : Nat) (hal : 0 < a.alignment_)
    (hpad : 0 ≤ a.extra_padding_size_)
    (hfit : n + a.extra_padding_size_.toNat + a.alignment_ ≤ SIZE) :
    realizedSize a n = roundUp (n + a.extra_padding_size_.toNat) a.alignment_ ∧
      (a.alignment_ ∣ a.extra_padding_size_.toNat →
        realizedSize a n = roundUp n a.alignment_ + a.extra_padding_size_.toNat) := by
  have hp := toSizeT_of_nonneg hpad (by omega)
  have h1 : realizedSize a n = roundUp (n + a.extra_padding_size_.toNat) a.alignment_ := by
    unfold realizedSize
    rw [hp, Nat.mod_eq_of_lt (by omega)]
    exact AlignedSize_eq_roundUp hal hfit
  refine ⟨h1, ?_⟩
  rintro ⟨k, hk⟩
  rw [h1, hk]
  exact roundUp_add_mul n a.alignment_ k hal

/-- The amended C24 on `guarded` and the request 100: the realized size is 104, the padded
request rounded up. -/
theorem padding_before_alignment_witness :
    0 < guarded.alignment_ ∧ 0 ≤ guarded.extra_padding_size_ ∧
      100 + guarded.extra_padding_size_.toNat + guarded.alignment_ ≤ SIZE ∧
      roundUp (100 + guarded.extra_padding_size_.toNat) guarded.alignment_ = 104 ∧
      (realizedSize guarded 100 =
          roundUp (100 + guarded.extra_padding_size_.toNat) guarded.alignment_ ∧
        (guarded.alignment_ ∣ guarded.extra_padding_size_.toNat →
          realizedSize guarded 100 =
            roundUp 100 guarded.alignment_ + guarded.extra_padding_size_.toNat)) :=
  ⟨by decide, by decide, by decide, by decide,
    padding_before_alignment guarded 100 (by decide) (by decide) (by decide)⟩

end AutoGrowthBestFitAllocator

namespace ExecutorGcHelper

theorem findVar_cons (e : String × Value) (es : Scope) (m : String) :
    FindVar (e :: es) m = if e.1 = m then some e.2 else FindVar es m := by
  unfold FindVar
  by_cases h : e.1 = m <;> simp [List.find?_cons, h]

theorem findVar_assign (name : String) (v : Value) (scope : Scope) (m : String) :
    FindVar (assign name v scope) m =
      if m = name ∧ (FindVar scope name).isSome then some v else FindVar scope m := by
  induction scope with
  | nil => simp [assign, FindVar]
  | cons e es ih =>
    unfold assign
    by_cases he : e.1 = name
    · simp only [he, if_true, findVar_cons]
      by_cases hm : name = m
      · subst hm
        simp
      · have hm2 : ¬ m = name := fun h => hm h.symm
        simp [hm, hm2]
    · simp only [he, if_false, findVar_cons, ih]
      by_cases hem : e.1 = m
      · have hm : ¬ m = name := by
          intro h
          exact he (hem.trans h)
        simp [hem, hm]
      · simp [hem]

theorem other_assign {name : String} {v : Value} {scope : Scope}
    (hv : ∀ type, v ≠ Value.Other type) (hn : ¬ unsupported scope name) (m : String)
    (type : Nat) :
    FindVar (assign name v scope) m = some (Value.Other type) ↔
      FindVar scope m = some (Value.Other type) := by
  rw [findVar_assign]
  by_cases hm : m = name ∧ (FindVar scope name).isSome = true
  · simp only [hm, and_self, if_true, Option.some.injEq]
    obtain ⟨rfl, _⟩ := hm
    constructor
    · intro h
      exact absurd h (hv type)
    · intro h
      exact absurd ⟨type, h⟩ hn
  · simp only [hm, if_false]

theorem found_assign (name : String) (v : Value) (scope : Scope) (m : String) :
    (FindVar (assign name v scope) m).isSome = (FindVar scope m).isSome := by
  rw [findVar_assign]
  split_ifs with h
  · obtain ⟨rfl, h2⟩ := h
    rw [h2]
    rfl
  · rfl

/-- The loop throws exactly when some name of the list is that of an unsupported
variable; the error reports the first of them. -/
theorem deleteLoop_thrown (vars : List String) (scope : Scope) (garbages : List Holder) :
    ((deleteLoop vars scope garbages).2.2 = none ∧ ∀ name ∈ vars, ¬ unsupported scope name) ∨
      ∃ pre name post type, vars = pre ++ name :: post ∧
        (∀ m ∈ pre, ¬ unsupported scope m) ∧ FindVar scope name = some (Value.Other type) ∧
        (deleteLoop vars scope garbages).2.2 = some ⟨type, name⟩ := by
  induction vars generalizing scope garbages with
  | nil => exact Or.inl ⟨rfl, by simp⟩
  | cons x xs ih =>
    have step : ∀ (scope1 : Scope) (g1 : List Holder),
        deleteLoop (x :: xs) scope garbages = deleteLoop xs scope1 g1 →
        ¬ unsupported scope x →
        (∀ m type, FindVar scope1 m = some (Value.Other type) ↔
          FindVar scope m = some (Value.Other type)) →
        ((deleteLoop (x :: xs) scope garbages).2.2 = none ∧
          ∀ name ∈ x :: xs, ¬ unsupported scope name) ∨
        ∃ pre name post type, x :: xs = pre ++ name :: post ∧
          (∀ m ∈ pre, ¬ unsupported scope m) ∧
          FindVar scope name = some (Value.Other type) ∧
          (deleteLoop (x :: xs) scope garbages).2.2 = some ⟨type, name⟩ := by
      intro scope1 g1 heq hx hiff
      have hun : ∀ m, unsupported scope1 m ↔ unsupported scope m := by
        intro m
        constructor
        · rintro ⟨ty, h⟩
          exact ⟨ty, (hiff m ty).1 h⟩
        · rintro ⟨ty, h⟩
          exact ⟨ty, (hiff m ty).2 h⟩
      rw [heq]
      rcases ih scope1 g1 with ⟨h1, h2⟩ | ⟨pre, name, post, ty, h1, h2, h3, h4⟩
      · left
        refine ⟨h1, ?_⟩
        intro name hname
        rcases List.mem_cons.1 hname with rfl | hin
        · exact hx
        · exact fun h => h2 name hin ((hun name).2 h)
      · right
        refine ⟨x :: pre, name, post, ty, by rw [h1]; rfl, ?_, (hiff name ty).1 h3, h4⟩
        intro m hm
        rcases List.mem_cons.1 hm with rfl | hin
        · exact hx
        · exact fun h => h2 m hin ((hun m).2 h)
    cases hf : FindVar scope x with
    | none =>
      refine step scope garbages (by simp only [deleteLoop, hf]) ?_ (fun _ _ => Iff.rfl)
      rintro ⟨ty, h⟩
      rw [hf] at h
      cases h
    | some v =>
      cases v with
      | DenseTensor holder =>
        have hx : ¬ unsupported scope x := by
          rintro ⟨ty, h⟩
          rw [hf] at h
          cases h
        have hv : ∀ type, Value.DenseTensor none ≠ Value.Other type := by
          intro ty h
          cases h
        exact step (assign x (Value.DenseTensor none) scope) (garbages ++ [holder]) (by simp only [deleteLoop, hf]) hx
          (other_assign hv hx)
      | SelectedRows holder =>
        have hx : ¬ unsupported scope x := by
          rintro ⟨ty, h⟩
          rw [hf] at h
          cases h
        have hv : ∀ type, Value.SelectedRows none ≠ Value.Other type := by
          intro ty h
          cases h
        exact step (assign x (Value.SelectedRows none) scope) (garbages ++ [holder]) (by simp only [deleteLoop, hf]) hx
          (other_assign hv hx)
      | LoDTensorArray tensors =>
        have hx : ¬ unsupported scope x := by
          rintro ⟨ty, h⟩
          rw [hf] at h
          cases h
        have hv : ∀ type, Value.LoDTensorArray [] ≠ Value.Other type := by
          intro ty h
          cases h
        exact step (assign x (Value.LoDTensorArray []) scope) (garbages ++ tensors) (by simp only [deleteLoop, hf]) hx
          (other_assign hv hx)
      | Strings =>
        refine step scope garbages (by simp only [deleteLoop, hf]) ?_ (fun _ _ => Iff.rfl)
        rintro ⟨ty, h⟩
        rw [hf] at h
        cases h
      | Other type =>
        right
        exact ⟨[], x, xs, type, rfl, by simp, hf, by simp only [deleteLoop, hf]⟩

/-- Names that are not found do not matter to the loop. -/
theorem deleteLoop_filter (vars : List String) (scope : Scope) (garbages : List Holder) :
    deleteLoop (vars.filter (fun name => (FindVar scope name).isSome)) scope garbages =
      deleteLoop vars scope garbages := by
  induction vars generalizing scope garbages with
  | nil => rfl
  | cons x xs ih =>
    have hfilter : ∀ (scope1 : Scope), (∀ m, (FindVar scope1 m).isSome = (FindVar scope m).isSome) →
        xs.filter (fun name => (FindVar scope name).isSome) =
          xs.filter (fun name => (FindVar scope1 name).isSome) := by
      intro scope1 h
      congr 1
      funext m
      rw [h m]
    cases hf : FindVar scope x with
    | none =>
      simp only [List.filter_cons, hf, Option.isSome_none, Bool.false_eq_true, if_false,
        deleteLoop]
      exact ih scope garbages
    | some v =>
      simp only [List.filter_cons, hf, Option.isSome_some, if_true]
      cases v with
      | DenseTensor holder =>
        simp only [deleteLoop, hf]
        rw [hfilter _ (found_assign x (Value.DenseTensor none) scope)]
        exact ih _ _
      | SelectedRows holder =>
        simp only [deleteLoop, hf]
        rw [hfilter _ (found_assign x (Value.SelectedRows none) scope)]
        exact ih _ _
      | LoDTensorArray tensors =>
        simp only [deleteLoop, hf]
        rw [hfilter _ (found_assign x (Value.LoDTensorArray []) scope)]
        exact ih _ _
      | Strings =>
        simp only [deleteLoop, hf]
        exact ih _ _
      | Other type =>
        simp only [deleteLoop, hf]

/-- C26: `DeleteUnusedTensors`, processing the names of `delete_vars` in order, throws the
`Unimplemented` error if and only if some name of `delete_vars` is found in the scope with
a value that is none of `DenseTensor`, `SelectedRows`, `LoDTensorArray` and `Strings`; the
error reports the first such name; names not found in the scope are skipped (leaving them
out changes nothing); and when the error is thrown nothing is handed to the garbage
collector. -/
theorem unknown_kinds_rejected (scope : Scope) (delete_vars : List String)
    (gc : List (List Holder)) :
    ((DeleteUnusedTensors scope delete_vars gc).thrown ≠ none ↔
        ∃ name ∈ delete_vars, unsupported scope name) ∧
      (∀ e, (DeleteUnusedTensors scope delete_vars gc).thrown = some e →
        ∃ pre post, delete_vars = pre ++ e.var_name :: post ∧
          (∀ m ∈ pre, ¬ unsupported scope m) ∧
          FindVar scope e.var_name = some (Value.Other e.type)) ∧
      DeleteUnusedTensors scope
          (delete_vars.filter (fun name => (FindVar scope name).isSome)) gc =
        DeleteUnusedTensors scope delete_vars gc ∧
      ((DeleteUnusedTensors scope delete_vars gc).thrown ≠ none →
        (DeleteUnusedTensors scope delete_vars gc).gc = gc) := by
  have hth : (DeleteUnusedTensors scope delete_vars gc).thrown =
      (deleteLoop delete_vars scope []).2.2 := by
    unfold DeleteUnusedTensors
    split
    · next h => rw [h]
    · next h => rw [h]
  refine ⟨?_, ?_, ?_, ?_⟩
  · rw [hth]
    rcases deleteLoop_thrown delete_vars scope [] with ⟨h1, h2⟩ | ⟨pre, name, post, ty, h1, _, h3, h4⟩
    · rw [h1]
      constructor
      · intro h
        exact absurd rfl h
      · rintro ⟨name, hn, hu⟩
        exact absurd hu (h2 name hn)
    · rw [h4]
      constructor
      · intro _
        exact ⟨name, by rw [h1]; simp, ty, h3⟩
      · intro _ h
        cases h
  · intro e he
    rw [hth] at he
    rcases deleteLoop_thrown delete_vars scope [] with ⟨h1, _⟩ | ⟨pre, name, post, ty, h1, h2, h3, h4⟩
    · rw [h1] at he
      cases he
    · rw [h4] at he
      simp only [Option.some.injEq] at he
      subst he
      exact ⟨pre, post, h1, h2, h3⟩
  · unfold DeleteUnusedTensors
    rw [deleteLoop_filter]
  · intro h
    unfold DeleteUnusedTensors at h ⊢
    split
    · next h1 =>
      rw [h1] at h
      exact absurd rfl h
    · rfl

/-- `DeleteUnusedTensors` on `demoScope`: the memory holders of the variables found are
handed to the garbage collector in one deque; with the unsupported variable `reader` among
the names, the error is thrown and the garbage collector is handed nothing. -/
theorem deleteUnusedTensors_example :
    DeleteUnusedTensors demoScope ["x", "missing", "arr", "rows"] [] =
        ⟨[("x", Value.DenseTensor none), ("arr", Value.LoDTensorArray []),
          ("reader", Value.Other 7), ("rows", Value.SelectedRows none)],
          [[some 1, some 2, none, some 3]], none⟩ ∧
      DeleteUnusedTensors demoScope ["x", "reader", "rows"] [[some 9]] =
        ⟨[("x", Value.DenseTensor none), ("arr", Value.LoDTensorArray [some 2, none]),
          ("reader", Value.Other 7), ("rows", Value.SelectedRows (some 3))],
          [[some 9]], some ⟨7, "reader"⟩⟩ := by
  constructor <;> decide

/-- C39 fails on the code: for the name `x`, a block without a descriptor for `x`, an empty
skip set and an unpersist set that contains `x`, `VarCanBeDeleted` passes the null check of
line 72 and reads the type through the null descriptor.  In general, with no descriptor
found, the function returns false when the name is in the skip set, when there is no
unpersist set and when the unpersist set does not contain the name, and dereferences the
null descriptor in the one remaining case. -/
theorem varCanBeDeleted_missing :
    BlockDesc.FindVar [] "x" = none ∧ VarCanBeDeleted "x" [] [] (some ["x"]) = none ∧
      ¬ MissingIsKept "x" [] [] (some ["x"]) ∧
      ∀ (name : String) (block : BlockDesc) (skip_vars : List String)
        (unpersist_vars : Option (List String)), BlockDesc.FindVar block name = none →
        (VarCanBeDeleted name block skip_vars unpersist_vars = none ↔
          name ∉ skip_vars ∧ ∃ vars, unpersist_vars = some vars ∧ name ∈ vars) ∧
        (VarCanBeDeleted name block skip_vars unpersist_vars ≠ none →
          VarCanBeDeleted name block skip_vars unpersist_vars = some false) := by
  refine ⟨rfl, by decide, ?_, ?_⟩
  · intro h
    have := h rfl
    revert this
    decide
  · intro name block skip_vars unpersist_vars hf
    unfold VarCanBeDeleted
    simp only [hf]
    by_cases hs : name ∈ skip_vars
    · have hc : skip_vars.count name ≠ 0 := by
        rw [Ne, List.count_eq_zero]
        exact fun h => h hs
      simp [hc, hs]
    · have hc : ¬ skip_vars.count name ≠ 0 := by
        rw [Ne, List.count_eq_zero, not_not]
        exact hs
      simp only [hc, if_false, if_true, hs, not_false_eq_true, true_and]
      cases unpersist_vars with
      | none => simp
      | some vars =>
        by_cases hv : name ∈ vars <;> simp [hv]

end ExecutorGcHelper

namespace AutoGrowthBestFitAllocator

theorem noAdjFree_split {bs pre post : List Block} {x y : Block} (h : noAdjFree bs)
    (hs : bs = pre ++ x :: y :: post) : ¬ (x.is_free_ = true ∧ y.is_free_ = true) := by
  subst hs
  have := (noAdjFree_middle.1 h).2.2.2
  exact this y (by simp)

/-- C29: in every reachable state (the underlying allocator returning regions at least as
large as requested), no Block List has two consecutive blocks that are both free; and every
call allowed in that state (`Allocate`, be it a hit, an exact fit or a miss, `Free` of a
live handle, `Reclaim`) leads to a state with the same property. -/
theorem no_adjacent_free (a : Config) (hu : Sized a.underlying_allocator_) (s : State)
    (L : List BlockAllocation) (hr : Reachable a s L) :
    (∀ c ∈ s.chunks_, noAdjFree c.blocks_ ∧
        ∀ pre x y post, c.blocks_ = pre ++ x :: y :: post →
          ¬ (x.is_free_ = true ∧ y.is_free_ = true)) ∧
      ∀ op q, step a (s, L) op = some q →
        ∀ c ∈ q.1.chunks_, noAdjFree c.blocks_ ∧
          ∀ pre x y post, c.blocks_ = pre ++ x :: y :: post →
            ¬ (x.is_free_ = true ∧ y.is_free_ = true) := by
  have key : ∀ (t : State) (M : List BlockAllocation), Reachable a t M →
      ∀ c ∈ t.chunks_, noAdjFree c.blocks_ ∧
        ∀ pre x y post, c.blocks_ = pre ++ x :: y :: post →
          ¬ (x.is_free_ = true ∧ y.is_free_ = true) := by
    intro t M ht c hc
    have hm := (ht.inv hu).maximal c hc
    exact ⟨hm, fun pre x y post hs => noAdjFree_split hm hs⟩
  refine ⟨key s L hr, ?_⟩
  intro op q hq
  exact key q.1 q.2 (step_reachable (p := (s, L)) hr hq)

/-- C29 on `demoTwoFree`, where the two free blocks are separated by a block in use, and
on the state after the `Free` of the second handle, where all three blocks are merged. -/
theorem no_adjacent_free_witness :
    Sized demo.underlying_allocator_ ∧ Reachable demo demoTwoFree [⟨8032, 56, 0⟩] ∧
      step demo (demoTwoFree, [⟨8032, 56, 0⟩]) (Op.free 0) = some (demoFreed, []) ∧
      ((∀ c ∈ demoTwoFree.chunks_, noAdjFree c.blocks_ ∧
          ∀ pre x y post, c.blocks_ = pre ++ x :: y :: post →
            ¬ (x.is_free_ = true ∧ y.is_free_ = true)) ∧
        ∀ op q, step demo (demoTwoFree, [⟨8032, 56, 0⟩]) op = some q →
          ∀ c ∈ q.1.chunks_, noAdjFree c.blocks_ ∧
            ∀ pre x y post, c.blocks_ = pre ++ x :: y :: post →
              ¬ (x.is_free_ = true ∧ y.is_free_ = true)) :=
  ⟨bump_sized, demoTwoFree_reachable, by rfl,
    no_adjacent_free demo bump_sized demoTwoFree [⟨8032, 56, 0⟩] demoTwoFree_reachable⟩

theorem length_erase_of_mem {m : FreeBlocks} (h : m.Pairwise (fun e f => keyLt e.1 f.1))
    {x : Key × Nat} (hx : x ∈ m) : (erase x.1 m).length + 1 = m.length := by
  induction m with
  | nil => simp at hx
  | cons e es ih =>
    rw [List.pairwise_cons] at h
    unfold erase at ih ⊢
    rcases List.mem_cons.1 hx with rfl | hin
    · have : es.filter (fun e => decide (e.1 ≠ x.1)) = es := by
        rw [List.filter_eq_self]
        intro f hf
        have := h.1 f hf
        simp only [ne_eq, decide_not, Bool.not_eq_eq_eq_not, Bool.not_true, decide_eq_false_iff_not]
        intro heq
        rw [heq] at this
        exact keyLt_irrefl _ this
      rw [List.filter_cons]
      simp only [ne_eq, not_true_eq_false, decide_False, Bool.false_eq_true, if_false,
        List.length_cons]
      simp only [ne_eq] at this
      rw [this]
    · have hne : e.1 ≠ x.1 := by
        intro heq
        have := h.1 x hin
        rw [heq] at this
        exact keyLt_irrefl _ this
      simp only [List.filter_cons, ne_eq, hne, not_false_eq_true, decide_True, if_true,
        List.length_cons]
      have := ih h.2 hin
      simp only [ne_eq] at this
      omega

theorem store_self {cur : Cursor} {it : Nat} {cs : List Chunk} (hat : cur.At it cs) :
    cur.store (cur.prevs ++ cur.block :: cur.nexts) = cs := by
  unfold Cursor.store
  rw [← hat.blocks, hat.chunks]

/-- C27: in every reachable state (the underlying allocator returning regions at least as
large as requested), when the request is a cache hit and the matched free block has exactly
the realized size, `Allocate` returns the handle of that block and changes nothing but its
flag and the Free Index: the Chunk Pool is the same but for the flag of the block, so every
Block List keeps its nodes, addresses and sizes and no block is created; the Free Index
loses the matched entry and nothing else, and gains none. -/
theorem exact_fit (a : Config) (hu : Sized a.underlying_allocator_) (s : State)
    (L : List BlockAllocation) (hr : Reachable a s L) (n : Nat) (iter : Key × Nat)
    (cur : Cursor) (hlb : lower_bound (realizedSize a n, 0) s.free_blocks_ = some iter)
    (hd : deref iter.2 s.chunks_ = some cur) (hex : cur.block.size_ = realizedSize a n) :
    ∃ t, AllocateImpl a s n =
        some (t, some ⟨cur.block.ptr_, cur.block.size_, cur.block.node⟩) ∧
      cur.block.is_free_ = true ∧
      s.chunks_ = cur.store (cur.prevs ++ cur.block :: cur.nexts) ∧
      t.chunks_ =
        cur.store (cur.prevs ++ { cur.block with is_free_ := false } :: cur.nexts) ∧
      t.chunks_.map (fun c => (c.allocation_, c.blocks_.map (fun b => (b.node, b.ptr_, b.size_))))
        = s.chunks_.map
          (fun c => (c.allocation_, c.blocks_.map (fun b => (b.node, b.ptr_, b.size_)))) ∧
      t.fresh = s.fresh ∧
      (∀ e, e ∈ t.free_blocks_ ↔ e ∈ s.free_blocks_ ∧ e ≠ iter) ∧
      t.free_blocks_.Sublist s.free_blocks_ ∧
      t.free_blocks_.length + 1 = s.free_blocks_.length := by
  have hi := hr.inv hu
  obtain ⟨hit, hsz⟩ := lower_bound_hit hlb
  obtain ⟨cur1, hd1, hat, hdesc, _, hw⟩ := hit_cursor hi hit hsz
  rw [hd] at hd1
  simp only [Option.some.injEq] at hd1
  subst hd1
  have h0 : (cur.block.size_ + SIZE - realizedSize a n) % SIZE = 0 := by
    rw [hw, hex, Nat.sub_self]
  have hal := AllocateImpl_hit (a := a) (n := n) hlb
  rw [allocateHit_exact hd h0] at hal
  simp only [Option.map_some'] at hal
  refine ⟨_, hal, hdesc.2.1, (store_self hat).symm, rfl, ?_, rfl, ?_, erase_sublist _ _,
    length_erase_of_mem hi.index_sorted hit⟩
  · simp only
    conv_rhs => rw [hat.chunks]
    unfold Cursor.store
    simp only [List.map_append, List.map_cons, hat.blocks]
  · intro e
    simp only
    rw [mem_erase]
    constructor
    · rintro ⟨he, hne⟩
      exact ⟨he, fun h => hne (by rw [h])⟩
    · rintro ⟨he, hne⟩
      exact ⟨he, fun h => hne (eq_of_key_eq hi.index_sorted he hit h)⟩

/-- C27 on `demoFreed`, whose only block is free and has 4096 bytes, and the request 4096:
the block is flipped to in-use and the Free Index is left empty. -/
theorem exact_fit_witness :
    Sized demo.underlying_allocator_ ∧ Reachable demo demoFreed [] ∧
      lower_bound (realizedSize demo 4096, 0) demoFreed.free_blocks_ =
        some ((4096, 4096), 2) ∧
      deref 2 demoFreed.chunks_ =
        some ⟨[], ⟨⟨4096, 4096⟩, [⟨2, 4096, 4096, true⟩]⟩, [], [], ⟨2, 4096, 4096, true⟩, []⟩ ∧
      realizedSize demo 4096 = 4096 ∧
      AllocateImpl demo demoFreed 4096 =
        some (⟨[⟨⟨4096, 4096⟩, [⟨2, 4096, 4096, false⟩]⟩], [], 3, 4256, 2, 160, 3, [4096]⟩,
          some ⟨4096, 4096, 2⟩) ∧
      ∃ t, AllocateImpl demo demoFreed 4096 = some (t, some ⟨4096, 4096, 2⟩) ∧
        (⟨2, 4096, 4096, true⟩ : Block).is_free_ = true ∧
        demoFreed.chunks_ = Cursor.store
          ⟨[], ⟨⟨4096, 4096⟩, [⟨2, 4096, 4096, true⟩]⟩, [], [], ⟨2, 4096, 4096, true⟩, []⟩
          ([] ++ (⟨2, 4096, 4096, true⟩ : Block) :: []) ∧
        t.chunks_ = Cursor.store
          ⟨[], ⟨⟨4096, 4096⟩, [⟨2, 4096, 4096, true⟩]⟩, [], [], ⟨2, 4096, 4096, true⟩, []⟩
          ([] ++ { (⟨2, 4096, 4096, true⟩ : Block) with is_free_ := false } :: []) ∧
        t.chunks_.map
            (fun c => (c.allocation_, c.blocks_.map (fun b => (b.node, b.ptr_, b.size_)))) =
          demoFreed.chunks_.map
            (fun c => (c.allocation_, c.blocks_.map (fun b => (b.node, b.ptr_, b.size_)))) ∧
        t.fresh = demoFreed.fresh ∧
        (∀ e, e ∈ t.free_blocks_ ↔ e ∈ demoFreed.free_blocks_ ∧ e ≠ ((4096, 4096), 2)) ∧
        t.free_blocks_.Sublist demoFreed.free_blocks_ ∧
        t.free_blocks_.length + 1 = demoFreed.free_blocks_.length :=
  ⟨bump_sized, demoFreed_reachable, by rfl, by rfl, by decide, by rfl,
    exact_fit demo bump_sized demoFreed [] demoFreed_reachable 4096 ((4096, 4096), 2)
      ⟨[], ⟨⟨4096, 4096⟩, [⟨2, 4096, 4096, true⟩]⟩, [], [], ⟨2, 4096, 4096, true⟩, []⟩
      (by rfl) (by rfl) (by decide)⟩

theorem FreeIdleChunks_congr (a : Config) {s t : State} (h1 : t.chunks_ = s.chunks_)
    (h2 : t.free_blocks_ = s.free_blocks_) :
    (FreeIdleChunks a t).1.chunks_ = (FreeIdleChunks a s).1.chunks_ ∧
      (FreeIdleChunks a t).1.free_blocks_ = (FreeIdleChunks a s).1.free_blocks_ := by
  unfold FreeIdleChunks
  split_ifs
  · exact ⟨h1, h2⟩
  · simp only [h1, h2, and_self]

theorem FreeIdleChunks_fresh (a : Config) (s : State) :
    (FreeIdleChunks a s).1.fresh = s.fresh := by
  unfold FreeIdleChunks
  split_ifs <;> rfl

/-- A successful growth miss carves the region the underlying allocator returned, in the
state `s2` of the successful call: the Chunk Pool and the Free Index of `s2` are those of
`s`, or those left by `FreeIdleChunks`. -/
theorem allocateMiss_some {a : Config} {s : State} {size : Nat} {g : BlockAllocation}
    (h : (allocateMiss a s size).2 = some g) :
    ∃ s2 r k,
      ((s2.chunks_ = s.chunks_ ∧ s2.free_blocks_ = s.free_blocks_) ∨
        (s2.chunks_ = (FreeIdleChunks a s).1.chunks_ ∧
          s2.free_blocks_ = (FreeIdleChunks a s).1.free_blocks_)) ∧
      s2.fresh = s.fresh ∧
      a.underlying_allocator_ k (s2.chunks_.map Chunk.allocation_)
        (max size a.chunk_size_) = some r ∧
      allocateMiss a s size = ((carve s2 r size).1, some (carve s2 r size).2) := by
  cases hf : a.FLAGS_free_when_no_cache_hit
  · simp only [allocateMiss, hf, underlyingAllocate, Bool.false_eq_true, if_false] at h ⊢
    cases h1 : a.underlying_allocator_ s.requests.length (s.chunks_.map Chunk.allocation_)
      (max size a.chunk_size_) with
    | some r =>
      exact ⟨{ s with requests := s.requests ++ [max size a.chunk_size_] }, r, _,
        Or.inl ⟨rfl, rfl⟩, rfl, h1, rfl⟩
    | none =>
      simp only [h1] at h ⊢
      cases h2 : a.underlying_allocator_
        (FreeIdleChunks a { s with requests := s.requests ++ [max size a.chunk_size_] }).1.requests.length
        ((FreeIdleChunks a
          { s with requests := s.requests ++ [max size a.chunk_size_] }).1.chunks_.map
            Chunk.allocation_) (max size a.chunk_size_) with
      | none => simp [h2] at h
      | some r =>
        have hc := FreeIdleChunks_congr a
          (s := s) (t := { s with requests := s.requests ++ [max size a.chunk_size_] }) rfl rfl
        exact ⟨{ (FreeIdleChunks a
            { s with requests := s.requests ++ [max size a.chunk_size_] }).1 with
            requests := (FreeIdleChunks a
              { s with requests := s.requests ++ [max size a.chunk_size_] }).1.requests ++
                [max size a.chunk_size_] }, r, _, Or.inr ⟨hc.1, hc.2⟩,
          FreeIdleChunks_fresh a _, h2, rfl⟩
  · simp only [allocateMiss, hf, underlyingAllocate, if_true] at h ⊢
    cases h1 : a.underlying_allocator_ (FreeIdleChunks a s).1.requests.length
      ((FreeIdleChunks a s).1.chunks_.map Chunk.allocation_) (max size a.chunk_size_) with
    | none => simp [h1] at h
    | some r =>
      exact ⟨{ (FreeIdleChunks a s).1 with
          requests := (FreeIdleChunks a s).1.requests ++ [max size a.chunk_size_] }, r, _,
        Or.inr ⟨rfl, rfl⟩, FreeIdleChunks_fresh a s, h1, rfl⟩

theorem length_insertEntry (e : Key × Nat) (m : FreeBlocks) :
    (insertEntry e m).length = m.length + 1 := by
  induction m with
  | nil => rfl
  | cons x xs ih =>
    unfold insertEntry
    split_ifs
    · rfl
    · simp only [List.length_cons, ih]

theorem emplace_of_absent {k : Key} {it : Nat} {m : FreeBlocks} (h : ∀ e ∈ m, e.1 ≠ k) :
    emplace k it m = insertEntry (k, it) m := by
  unfold emplace
  have : m.any (fun e => decide (e.1 = k)) = false := by
    rw [List.any_eq_false]
    intro e he
    simpa using h e he
  simp only [this, Bool.false_eq_true, if_false]

/-- The region carved by a growth miss, in a state with the invariants: the shape of the
new chunk, of the handle and of the Free Index. -/
theorem carve_shape {s : State} {L : List BlockAllocation} (hi : Inv s L)
    {r : Allocation} {size : Nat} (h1 : size ≤ r.size) (h2 : r.size < SIZE)
    (hsep : ∀ c ∈ s.chunks_, separated c.allocation_ r) :
    (size < r.size →
        (carve s r size).1.chunks_ = s.chunks_ ++
          [⟨r, [⟨s.fresh, r.ptr, r.size - size, true⟩,
            ⟨s.fresh + 1, r.ptr + (r.size - size), size, false⟩]⟩] ∧
        (carve s r size).2 = ⟨r.ptr + (r.size - size), size, s.fresh + 1⟩ ∧
        (carve s r size).1.free_blocks_ =
          insertEntry ((r.size - size, r.ptr), s.fresh) s.free_blocks_ ∧
        ∀ e ∈ s.free_blocks_, e.1 ≠ (r.size - size, r.ptr)) ∧
      (size = r.size →
        (carve s r size).1.chunks_ = s.chunks_ ++ [⟨r, [⟨s.fresh, r.ptr, size, false⟩]⟩] ∧
        (carve s r size).2 = ⟨r.ptr, size, s.fresh⟩ ∧
        (carve s r size).1.free_blocks_ = s.free_blocks_) := by
  have hw := wrap_sub h1 h2
  constructor
  · intro hlt
    have habs : ∀ e ∈ s.free_blocks_, e.1 ≠ (r.size - size, r.ptr) := by
      intro e he hk
      obtain ⟨b, hb, hd⟩ := hi.index_valid e he
      obtain ⟨c, hc, hbc⟩ := mem_allBlocks.1 hb
      have hin := block_in_chunk (hi.partition c hc) hbc
      have hkey := hd.2.2
      rw [hk] at hkey
      simp only [Prod.mk.injEq] at hkey
      have hs := hsep c hc
      unfold separated apart at hs
      omega
    have hpos : 0 < r.size - size := by omega
    unfold carve
    simp only [hw, hpos, if_true]
    exact ⟨trivial, trivial, emplace_of_absent habs, habs⟩
  · intro heq
    have hz : r.size - size = 0 := by omega
    unfold carve
    simp only [hw, hz, Nat.lt_irrefl, if_false, Nat.add_zero]
    exact ⟨trivial, trivial, trivial⟩

/-- C28: in every reachable state, under a well-behaved underlying allocator, a successful
growth miss makes the region `r` the underlying allocator returned, of base `p` and size
`R` at least the realized size `s`, the last chunk of the Chunk Pool (the pool of the state
before, or what `FreeIdleChunks` left of it).  When `R > s` its Block List is
[free (p, R - s), in-use (p + R - s, s)] and the Free Index gains exactly one entry, of key
(R - s, p), for the free block; when `R = s` it is the single in-use block (p, s) and the
Free Index gains nothing.  The in-use block, that of the handle, is at the tail of the
region. -/
theorem carve_new_chunk (a : Config) (hu : WellBehaved a.underlying_allocator_) (s : State)
    (L : List BlockAllocation) (hr : Reachable a s L) (n : Nat) (t : State)
    (h : BlockAllocation)
    (hmiss : lower_bound (realizedSize a n, 0) s.free_blocks_ = none)
    (hal : AllocateImpl a s n = some (t, some h)) :
    ∃ (pool : List Chunk) (index : FreeBlocks) (r : Allocation) (k : Nat),
      ((pool = s.chunks_ ∧ index = s.free_blocks_) ∨
        (pool = (FreeIdleChunks a s).1.chunks_ ∧
          index = (FreeIdleChunks a s).1.free_blocks_)) ∧
      a.underlying_allocator_ k (pool.map Chunk.allocation_)
        (max (realizedSize a n) a.chunk_size_) = some r ∧
      realizedSize a n ≤ r.size ∧
      h.ptr + h.size = r.ptr + r.size ∧ h.size = realizedSize a n ∧
      (realizedSize a n < r.size →
        t.chunks_ = pool ++
          [⟨r, [⟨s.fresh, r.ptr, r.size - realizedSize a n, true⟩,
            ⟨s.fresh + 1, r.ptr + (r.size - realizedSize a n), realizedSize a n, false⟩]⟩] ∧
        h = ⟨r.ptr + (r.size - realizedSize a n), realizedSize a n, s.fresh + 1⟩ ∧
        (∀ e, e ∈ t.free_blocks_ ↔
          e ∈ index ∨ e = ((r.size - realizedSize a n, r.ptr), s.fresh)) ∧
        ((r.size - realizedSize a n, r.ptr), s.fresh) ∉ index ∧
        t.free_blocks_.length = index.length + 1) ∧
      (realizedSize a n = r.size →
        t.chunks_ = pool ++ [⟨r, [⟨s.fresh, r.ptr, realizedSize a n, false⟩]⟩] ∧
        h = ⟨r.ptr, realizedSize a n, s.fresh⟩ ∧ t.free_blocks_ = index) := by
  have hi := hr.inv hu.sized
  simp only [AllocateImpl, hmiss, Option.some.injEq] at hal
  have hg : (allocateMiss a s (realizedSize a n)).2 = some h := by rw [hal]
  obtain ⟨s2, r, k, hpool, hfresh, hcall, hres⟩ := allocateMiss_some hg
  rw [hal] at hres
  simp only [Prod.mk.injEq, Option.some.injEq] at hres
  obtain ⟨ht, hh⟩ := hres
  have hi2 : Inv s2 L := by
    rcases hpool with ⟨h1, h2⟩ | ⟨h1, h2⟩
    · exact hi.congr_state h1 h2 hfresh
    · exact (FreeIdleChunks_inv a hi).congr_state h1 h2
        (hfresh.trans (FreeIdleChunks_fresh a s).symm)
  obtain ⟨hle, hlt, hsep⟩ := hu _ _ _ _ hcall
  have hsz : realizedSize a n ≤ r.size := le_trans (le_max_left _ _) hle
  have hsep2 : ∀ c ∈ s2.chunks_, separated c.allocation_ r := by
    intro c hc
    exact hsep c.allocation_ (List.mem_map_of_mem _ hc)
  obtain ⟨hbig, hsame⟩ := carve_shape hi2 hsz hlt hsep2
  rw [← ht, ← hh] at hbig hsame
  rw [hfresh] at hbig hsame
  refine ⟨s2.chunks_, s2.free_blocks_, r, k, ?_, hcall, hsz, ?_, ?_, ?_, ?_⟩
  · rcases hpool with ⟨h1, h2⟩ | ⟨h1, h2⟩
    · exact Or.inl ⟨h1, h2⟩
    · exact Or.inr ⟨h1, h2⟩
  · rcases Nat.lt_or_ge (realizedSize a n) r.size with h1 | h1
    · rw [(hbig h1).2.1]
      simp only
      omega
    · rw [(hsame (le_antisymm hsz h1)).2.1]
      simp only
      omega
  · rcases Nat.lt_or_ge (realizedSize a n) r.size with h1 | h1
    · rw [(hbig h1).2.1]
    · rw [(hsame (le_antisymm hsz h1)).2.1]
  · intro h1
    obtain ⟨hc, hd, he, hf⟩ := hbig h1
    refine ⟨hc, hd, ?_, ?_, ?_⟩
    · intro e
      rw [he, mem_insertEntry]
      exact or_comm
    · intro hmem
      exact hf _ hmem rfl
    · rw [he, length_insertEntry]
  · intro h1
    exact hsame h1

/-- C28 on the fresh allocator of `demo`: `Allocate(100)`, of realized size 104, is a
growth miss; the region of 4096 bytes at 4096 becomes the chunk
[free (4096, 3992), in-use (8088, 104)], with the one entry (3992, 4096) in the Free
Index.  `Allocate(4096)` takes its whole region as one in-use block. -/
theorem carve_new_chunk_witness :
    WellBehaved demo.underlying_allocator_ ∧ Reachable demo State.init [] ∧
      lower_bound (realizedSize demo 100, 0) State.init.free_blocks_ = none ∧
      AllocateImpl demo State.init 100 = some (demoFirst, some ⟨8088, 104, 1⟩) ∧
      realizedSize demo 100 = 104 ∧
      AllocateImpl demo State.init 4096 =
        some (⟨[⟨⟨4096, 4096⟩, [⟨0, 4096, 4096, false⟩]⟩], [], 1, 4096, 0, 0, 1, [4096]⟩,
          some ⟨4096, 4096, 0⟩) ∧
      ∃ (pool : List Chunk) (index : FreeBlocks) (r : Allocation) (k : Nat),
        ((pool = State.init.chunks_ ∧ index = State.init.free_blocks_) ∨
          (pool = (FreeIdleChunks demo State.init).1.chunks_ ∧
            index = (FreeIdleChunks demo State.init).1.free_blocks_)) ∧
        demo.underlying_allocator_ k (pool.map Chunk.allocation_)
          (max (realizedSize demo 100) demo.chunk_size_) = some r ∧
        realizedSize demo 100 ≤ r.size ∧
        (⟨8088, 104, 1⟩ : BlockAllocation).ptr + (⟨8088, 104, 1⟩ : BlockAllocation).size =
          r.ptr + r.size ∧
        (⟨8088, 104, 1⟩ : BlockAllocation).size = realizedSize demo 100 ∧
        (realizedSize demo 100 < r.size →
          demoFirst.chunks_ = pool ++
            [⟨r, [⟨State.init.fresh, r.ptr, r.size - realizedSize demo 100, true⟩,
              ⟨State.init.fresh + 1, r.ptr + (r.size - realizedSize demo 100),
                realizedSize demo 100, false⟩]⟩] ∧
          (⟨8088, 104, 1⟩ : BlockAllocation) =
            ⟨r.ptr + (r.size - realizedSize demo 100), realizedSize demo 100,
              State.init.fresh + 1⟩ ∧
          (∀ e, e ∈ demoFirst.free_blocks_ ↔
            e ∈ index ∨ e = ((r.size - realizedSize demo 100, r.ptr), State.init.fresh)) ∧
          ((r.size - realizedSize demo 100, r.ptr), State.init.fresh) ∉ index ∧
          demoFirst.free_blocks_.length = index.length + 1) ∧
        (realizedSize demo 100 = r.size →
          demoFirst.chunks_ =
            pool ++ [⟨r, [⟨State.init.fresh, r.ptr, realizedSize demo 100, false⟩]⟩] ∧
          (⟨8088, 104, 1⟩ : BlockAllocation) =
            ⟨r.ptr, realizedSize demo 100, State.init.fresh⟩ ∧
          demoFirst.free_blocks_ = index) :=
  ⟨bump_wellBehaved, Reachable.init, by rfl, by rfl, by decide, by rfl,
    carve_new_chunk demo bump_wellBehaved State.init [] Reachable.init 100 demoFirst
      ⟨8088, 104, 1⟩ (by rfl) (by rfl)⟩

theorem FreeImpl_requests {a : Config} {s t : State} {h : BlockAllocation}
    (hf : FreeImpl a s h = some t) : t.requests = s.requests := by
  cases hd : deref h.block_it_ s.chunks_ with
  | none => simp [FreeImpl, hd] at hf
  | some cur =>
    rw [FreeImpl_eq hd] at hf
    simp only [Option.some.injEq] at hf
    subst hf
    split_ifs
    · rw [FreeIdleChunks_requests]
      rfl
    · rfl

/-- A free block of non-zero size at least as large as the request makes the request a
cache hit. -/
theorem hit_of_free_block {a : Config} {s : State} (k : Inv2 a s) {b : Block}
    (hb : b ∈ allBlocks s.chunks_) (hfree : b.is_free_ = true) (hpos : 0 < b.size_)
    {size : Nat} (hle : size ≤ b.size_) :
    ∃ iter, lower_bound (size, 0) s.free_blocks_ = some iter := by
  cases hlb : lower_bound (size, 0) s.free_blocks_ with
  | some iter => exact ⟨iter, rfl⟩
  | none =>
    exfalso
    have := lower_bound_eq_none hlb _ (k.covers b hb hfree hpos)
    unfold keyLt at this
    simp only at this
    omega

/-- C30, as stated, fails: in the state `orphanOnly` of `padded` (policy flags off) the
block of node 0 is free and has size 0, the realized size of `wrapRequest`, but the Free
Index is empty; `Allocate(wrapRequest)` is a growth miss, and after the `Free` of its
handle the Chunk Pool has a second chunk. -/
theorem hit_round_trip_counterexample :
    Reachable padded orphanOnly orphanOnlyLive ∧ padded.FLAGS_free_idle_chunk = false ∧
      realizedSize padded wrapRequest = 0 ∧
      (⟨0, 8176, 0, true⟩ : Block) ∈ allBlocks orphanOnly.chunks_ ∧
      AllocateImpl padded orphanOnly wrapRequest = some (orphanGrown, some ⟨12288, 0, 6⟩) ∧
      FreeImpl padded orphanGrown ⟨12288, 0, 6⟩ = some orphanGrownFreed ∧
      ¬ HitRoundTrip padded orphanOnly wrapRequest := by
  refine ⟨orphanOnly_reachable, rfl, by decide, by decide, by rfl, by rfl, ?_⟩
  intro h
  obtain ⟨s1, g, s2, hal, hf, f, _, hc, _⟩ := h rfl
    ⟨⟨0, 8176, 0, true⟩, by decide, rfl, by decide⟩
  have hal2 : AllocateImpl padded orphanOnly wrapRequest =
      some (orphanGrown, some ⟨12288, 0, 6⟩) := by rfl
  rw [hal2] at hal
  simp only [Option.some.injEq, Prod.mk.injEq] at hal
  obtain ⟨rfl, rfl⟩ := hal
  have hf2 : FreeImpl padded orphanGrown ⟨12288, 0, 6⟩ = some orphanGrownFreed := by rfl
  rw [hf2] at hf
  simp only [Option.some.injEq] at hf
  subst hf
  have := congrArg List.length hc
  simp [renameChunks, orphanGrownFreed, orphanOnly] at this

/-- C30, amended: for every reachable state, under a well-behaved underlying allocator, and
every request whose realized size is at most the size of some free block of non-zero size,
with the reclaim-on-free policy off or on, `Allocate` returns a handle, and `Allocate`
followed immediately by `Free` of that handle restores the Chunk Pool, every Block List
(addresses, sizes, flags, order) and the Free Index (the same keys, each entry referring
to the block at the same place); the underlying allocator is not called, and each of the
four counters has advanced, by 1 or by the realized size, in 64-bit arithmetic. -/
theorem hit_round_trip (a : Config) (hu : WellBehaved a.underlying_allocator_)
    (s : State) (L : List BlockAllocation) (hr : Reachable a s L) (n : Nat) (b : Block)
    (hb : b ∈ allBlocks s.chunks_) (hfree : b.is_free_ = true) (hpos : 0 < b.size_)
    (hle : realizedSize a n ≤ b.size_) :
    ∃ s1 h s2, AllocateImpl a s n = some (s1, some h) ∧ FreeImpl a s1 h = some s2 ∧
      SameUpToNodes s s2 ∧ s2.requests = s.requests ∧
      s2.total_alloc_times_ = (s.total_alloc_times_ + 1) % SIZE ∧
      s2.total_alloc_size_ = (s.total_alloc_size_ + realizedSize a n) % SIZE ∧
      s2.total_free_times_ = (s.total_free_times_ + 1) % SIZE ∧
      s2.total_free_size_ = (s.total_free_size_ + realizedSize a n) % SIZE := by
  have hi := hr.inv hu.sized
  have hk := hr.inv2 hu
  obtain ⟨iter, hlb⟩ := hit_of_free_block hk hb hfree hpos hle
  obtain ⟨hit, hsz⟩ := lower_bound_hit hlb
  obtain ⟨s1, g, cur1, hh, hderef, hsame⟩ := hit_then_free (a := a) hi hk hit hsz
  have hal : AllocateImpl a s n = some (s1, some g) := by
    unfold AllocateImpl
    simp only [hlb, hh]
  have hfr : FreeImpl a s1 g = some
      (if a.FLAGS_free_idle_chunk = true then (FreeIdleChunks a (freeBlock s1 cur1)).1
        else freeBlock s1 cur1) := FreeImpl_eq hderef
  have hhandle := allocateHit_handle hi hit hsz hh
  have hi1 := allocateHit_inv hi hit hsz hh
  obtain ⟨cur2, hd2, _, hold⟩ := free_cursor hi1 (List.mem_cons_self g L)
  rw [hderef] at hd2
  simp only [Option.some.injEq] at hd2
  subst hd2
  have hc1 := AllocateImpl_counters hal
  have hc2 := FreeImpl_counters hderef hfr
  have hbs : cur1.block.size_ = realizedSize a n := hold.2.2.2.trans hhandle.2.2.1
  refine ⟨s1, g, _, hal, hfr, hsame.reclaim (a := a) (hr.noIdle hu.sized), ?_, ?_, ?_, ?_, ?_⟩
  · rw [FreeImpl_requests hfr]
    exact hhandle.2.2.2.2
  · rw [hc2.1]
    rcases hc1.2.2 with ⟨h1, _⟩ | ⟨_, h1, _⟩
    · cases h1
    · exact h1
  · rw [hc2.2.1]
    rcases hc1.2.2 with ⟨h1, _⟩ | ⟨_, _, h1⟩
    · cases h1
    · exact h1
  · rw [hc2.2.2.1, hc1.1]
  · rw [hc2.2.2.2, hc1.2.1, hbs]

/-- The amended C30 on `demoState` and the request 50, a cache hit on the free block of
3936 bytes. -/
theorem hit_round_trip_witness :
    WellBehaved demo.underlying_allocator_ ∧ Reachable demo demoState demoLive ∧
      (⟨2, 4096, 3936, true⟩ : Block) ∈ allBlocks demoState.chunks_ ∧
      realizedSize demo 50 = 56 ∧
      AllocateImpl demo demoState 50 = some
        (⟨[⟨⟨4096, 4096⟩, [⟨3, 4096, 3880, true⟩, ⟨2, 7976, 56, false⟩,
            ⟨0, 8032, 56, false⟩, ⟨1, 8088, 104, false⟩]⟩],
          [((3880, 4096), 3)], 3, 216, 0, 0, 4, [4096]⟩, some ⟨7976, 56, 2⟩) ∧
      FreeImpl demo
        ⟨[⟨⟨4096, 4096⟩, [⟨3, 4096, 3880, true⟩, ⟨2, 7976, 56, false⟩,
            ⟨0, 8032, 56, false⟩, ⟨1, 8088, 104, false⟩]⟩],
          [((3880, 4096), 3)], 3, 216, 0, 0, 4, [4096]⟩ ⟨7976, 56, 2⟩ = some
        ⟨[⟨⟨4096, 4096⟩, [⟨3, 4096, 3936, true⟩, ⟨0, 8032, 56, false⟩,
            ⟨1, 8088, 104, false⟩]⟩],
          [((3936, 4096), 3)], 3, 216, 1, 56, 4, [4096]⟩ ∧
      ∃ s1 h s2, AllocateImpl demo demoState 50 = some (s1, some h) ∧
        FreeImpl demo s1 h = some s2 ∧ SameUpToNodes demoState s2 ∧
        s2.requests = demoState.requests ∧
        s2.total_alloc_times_ = (demoState.total_alloc_times_ + 1) % SIZE ∧
        s2.total_alloc_size_ = (demoState.total_alloc_size_ + realizedSize demo 50) % SIZE ∧
        s2.total_free_times_ = (demoState.total_free_times_ + 1) % SIZE ∧
        s2.total_free_size_ = (demoState.total_free_size_ + realizedSize demo 50) % SIZE :=
  ⟨bump_wellBehaved, demo_reachable, by decide, by decide, by rfl, by rfl,
    hit_round_trip demo bump_wellBehaved demoState demoLive demo_reachable 50
      ⟨2, 4096, 3936, true⟩ (by decide) rfl (by decide) (by decide)⟩

theorem FreeIdleChunks_bytes_of_no_idle (a : Config) {s : State}
    (h : ∀ c ∈ s.chunks_, c.idle = false) : (FreeIdleChunks a s).2 = 0 := by
  unfold FreeIdleChunks
  split_ifs
  · rfl
  · have h1 := freeIdleLoop_bytes s.chunks_ s.free_blocks_ 0
    have h2 := freeIdleLoop_bytes_lt s.chunks_ s.free_blocks_ 0 SIZE_pos
    have h3 : s.chunks_.filter Chunk.idle = [] := by
      rw [List.filter_eq_nil_iff]
      intro c hc
      rw [h c hc]
      decide
    rw [h3] at h1
    simp only [List.map_nil, List.sum_nil, Nat.add_zero, Nat.zero_mod] at h1
    rw [Nat.mod_eq_of_lt h2] at h1
    exact h1

/-- C36: in every state, a second `Reclaim` issued immediately after a `Reclaim` returns 0
and leaves the state (the Chunk Pool, the Block Lists and the Free Index) as it is; and
when the idle chunks may be released, no chunk whose Block List is a single free block is
in the Chunk Pool after a `Reclaim`. -/
theorem reclaim_idempotent (a : Config) (s : State) :
    FreeIdleChunks a (FreeIdleChunks a s).1 = ((FreeIdleChunks a s).1, 0) ∧
      (a.allow_free_idle_chunk_ = true →
        ∀ c ∈ (FreeIdleChunks a s).1.chunks_, ¬ ∃ b, c.blocks_ = [b] ∧ b.is_free_ = true) := by
  constructor
  · cases hal : a.allow_free_idle_chunk_
    · simp [FreeIdleChunks, hal]
    · have hn := no_idle_after_FreeIdleChunks hal s
      exact Prod.ext (FreeIdleChunks_of_no_idle a hn) (FreeIdleChunks_bytes_of_no_idle a hn)
  · intro hal c hc hidle
    have := no_idle_after_FreeIdleChunks hal s c hc
    rw [idle_iff.2 hidle] at this
    cases this

/-- C37: in 64-bit unsigned arithmetic the size computation of line 73 wraps.  With
alignment 8 and 8 bytes of padding, the sum of the request `2 ^ 64 - 8` and the padding
wraps to 0; with alignment 8 and no padding, the rounding up of the request `2 ^ 64 - 1`
wraps to 0.  In both cases the realized size, 0, is smaller than the request, and
`Allocate` on a fresh allocator goes on and returns a handle of size 0. -/
theorem size_overflow :
    (padded.alignment_ = 8 ∧ padded.extra_padding_size_ = 8 ∧ 0 < wrapRequest ∧
        wrapRequest < SIZE ∧
        (wrapRequest + toSizeT padded.extra_padding_size_) % SIZE = 0 ∧
        realizedSize padded wrapRequest = 0 ∧ realizedSize padded wrapRequest < wrapRequest ∧
        ∃ t h, AllocateImpl padded State.init wrapRequest = some (t, some h) ∧ h.size = 0) ∧
      (demo.alignment_ = 8 ∧ demo.extra_padding_size_ = 0 ∧ 0 < 2 ^ 64 - 1 ∧
        2 ^ 64 - 1 < SIZE ∧ (2 ^ 64 - 1 + toSizeT demo.extra_padding_size_) % SIZE = 2 ^ 64 - 1 ∧
        AlignedSize (2 ^ 64 - 1) 8 = 0 ∧ realizedSize demo (2 ^ 64 - 1) = 0 ∧
        realizedSize demo (2 ^ 64 - 1) < 2 ^ 64 - 1 ∧
        ∃ t h, AllocateImpl demo State.init (2 ^ 64 - 1) = some (t, some h) ∧ h.size = 0) := by
  refine ⟨⟨rfl, rfl, by decide, by decide, by decide, by decide, by decide, ?_⟩,
    ⟨rfl, rfl, by decide, by decide, by decide, by decide, by decide, by decide, ?_⟩⟩
  · exact ⟨⟨[⟨⟨4096, 4096⟩, [⟨0, 4096, 4096, true⟩, ⟨1, 8192, 0, false⟩]⟩],
      [((4096, 4096), 0)], 1, 0, 0, 0, 2, [4096]⟩, ⟨8192, 0, 1⟩, by rfl, rfl⟩
  · exact ⟨⟨[⟨⟨4096, 4096⟩, [⟨0, 4096, 4096, true⟩, ⟨1, 8192, 0, false⟩]⟩],
      [((4096, 4096), 0)], 1, 0, 0, 0, 2, [4096]⟩, ⟨8192, 0, 1⟩, by rfl, rfl⟩

/-- C32: in every reachable state (the underlying allocator returning regions at least as
large as requested), the block a cache hit takes is at least as large as the realized
size, so the subtraction of line 85 does not wrap; the region a growth miss is answered
with is at least as large as the realized size, so the subtraction of line 121 does not
wrap; and no block has a wrapped-around size: every block is at most as large as the
reserved size of its chunk. -/
theorem no_underflow (a : Config) (hu : Sized a.underlying_allocator_) (s : State)
    (L : List BlockAllocation) (hr : Reachable a s L) (n : Nat) :
    (∀ iter, lower_bound (realizedSize a n, 0) s.free_blocks_ = some iter →
      ∃ cur, deref iter.2 s.chunks_ = some cur ∧ realizedSize a n ≤ cur.block.size_ ∧
        (cur.block.size_ + SIZE - realizedSize a n) % SIZE =
          cur.block.size_ - realizedSize a n) ∧
      (∀ k held r,
        a.underlying_allocator_ k held (max (realizedSize a n) a.chunk_size_) = some r →
        realizedSize a n ≤ r.size ∧
          (r.size + SIZE - realizedSize a n) % SIZE = r.size - realizedSize a n) ∧
      ∀ c ∈ s.chunks_, ∀ b ∈ c.blocks_, b.size_ ≤ c.allocation_.size ∧ b.size_ < SIZE := by
  have hi := hr.inv hu
  refine ⟨?_, ?_, ?_⟩
  · intro iter hlb
    obtain ⟨hit, hsz⟩ := lower_bound_hit hlb
    obtain ⟨cur, hd, _, _, hle, hw⟩ := hit_cursor hi hit hsz
    exact ⟨cur, hd, hle, hw⟩
  · intro k held r hcall
    obtain ⟨h1, h2⟩ := hu k held _ r hcall
    have hle : realizedSize a n ≤ r.size := le_trans (le_max_left _ _) h1
    exact ⟨hle, wrap_sub hle h2⟩
  · intro c hc b hb
    have h1 := size_le_sizes hb
    rw [(hi.partition c hc).total] at h1
    exact ⟨h1, lt_of_le_of_lt h1 (hi.small c hc)⟩

/-- C32 on `demoState` and the request 50: the hit takes the free block of 3936 bytes and
leaves 3880; a region of 4096 bytes leaves 4040. -/
theorem no_underflow_witness :
    Sized demo.underlying_allocator_ ∧ Reachable demo demoState demoLive ∧
      realizedSize demo 50 = 56 ∧
      lower_bound (realizedSize demo 50, 0) demoState.free_blocks_ = some ((3936, 4096), 2) ∧
      ((∀ iter, lower_bound (realizedSize demo 50, 0) demoState.free_blocks_ = some iter →
        ∃ cur, deref iter.2 demoState.chunks_ = some cur ∧
          realizedSize demo 50 ≤ cur.block.size_ ∧
          (cur.block.size_ + SIZE - realizedSize demo 50) % SIZE =
            cur.block.size_ - realizedSize demo 50) ∧
        (∀ k held r,
          demo.underlying_allocator_ k held (max (realizedSize demo 50) demo.chunk_size_) =
            some r →
          realizedSize demo 50 ≤ r.size ∧
            (r.size + SIZE - realizedSize demo 50) % SIZE = r.size - realizedSize demo 50) ∧
        ∀ c ∈ demoState.chunks_, ∀ b ∈ c.blocks_,
          b.size_ ≤ c.allocation_.size ∧ b.size_ < SIZE) :=
  ⟨bump_sized, demo_reachable, by decide, by rfl,
    no_underflow demo bump_sized demoState demoLive demo_reachable 50⟩

theorem FreeIdleChunks_index (a : Config) (s : State) :
    (FreeIdleChunks a s).1.free_blocks_ =
      if a.allow_free_idle_chunk_ = false then s.free_blocks_
      else s.free_blocks_.filter (fun e => decide (e.1 ∉ idleKeys s.chunks_)) := by
  unfold FreeIdleChunks
  split_ifs
  · rfl
  · exact freeIdleLoop_index_eq _ _ _

/-- A failed growth miss leaves the Chunk Pool and the Free Index of the state before, or
those left by `FreeIdleChunks`. -/
theorem allocateMiss_none {a : Config} {s : State} {size : Nat}
    (h : (allocateMiss a s size).2 = none) :
    ((allocateMiss a s size).1.chunks_ = s.chunks_ ∧
        (allocateMiss a s size).1.free_blocks_ = s.free_blocks_ ∨
      (allocateMiss a s size).1.chunks_ = (FreeIdleChunks a s).1.chunks_ ∧
        (allocateMiss a s size).1.free_blocks_ = (FreeIdleChunks a s).1.free_blocks_) ∧
      (allocateMiss a s size).1.fresh = s.fresh := by
  cases hf : a.FLAGS_free_when_no_cache_hit
  · simp only [allocateMiss, hf, underlyingAllocate, Bool.false_eq_true, if_false] at h ⊢
    cases h1 : a.underlying_allocator_ s.requests.length (s.chunks_.map Chunk.allocation_)
      (max size a.chunk_size_) with
    | some r => simp [h1] at h
    | none =>
      simp only [h1] at h ⊢
      cases h2 : a.underlying_allocator_
        (FreeIdleChunks a { s with requests := s.requests ++ [max size a.chunk_size_] }).1.requests.length
        ((FreeIdleChunks a
          { s with requests := s.requests ++ [max size a.chunk_size_] }).1.chunks_.map
            Chunk.allocation_) (max size a.chunk_size_) with
      | some r => simp [h2] at h
      | none =>
        have hc := FreeIdleChunks_congr a
          (s := s) (t := { s with requests := s.requests ++ [max size a.chunk_size_] }) rfl rfl
        exact ⟨Or.inr ⟨hc.1, hc.2⟩, FreeIdleChunks_fresh a _⟩
  · simp only [allocateMiss, hf, underlyingAllocate, if_true] at h ⊢
    cases h1 : a.underlying_allocator_ (FreeIdleChunks a s).1.requests.length
      ((FreeIdleChunks a s).1.chunks_.map Chunk.allocation_) (max size a.chunk_size_) with
    | some r => simp [h1] at h
    | none => exact ⟨Or.inr ⟨rfl, rfl⟩, FreeIdleChunks_fresh a s⟩

/-- In a state with the invariants, every free block of non-zero size has exactly one
entry. -/
theorem indexed_of_inv {a : Config} {s : State} {L : List BlockAllocation} (h : Inv s L)
    (k : Inv2 a s) {b : Block} (hb : b ∈ allBlocks s.chunks_) (hf : b.is_free_ = true)
    (h0 : 0 < b.size_) : Indexed s b := by
  refine ⟨((b.size_, b.ptr_), b.node), k.covers b hb hf h0, ⟨rfl, hf, rfl⟩, ?_⟩
  intro f hfm hn
  have hd := describes_of_node h hfm hb hn
  exact eq_of_key_eq h.index_sorted hfm (k.covers b hb hf h0) hd.2.2

/-- C33: in every reachable state, under a well-behaved underlying allocator and with a
non-zero chunk size, when `Allocate` fails with `BadAlloc` the state differs from the state
before at most by the sweep of `FreeIdleChunks`: the Chunk Pool is the pool before, or the
pool before without the chunks that are a single free block, and the Free Index is the
index before, or the index before without the entries of those blocks.  So no chunk has
been added, every chunk with a block in use is still there as it was, every live handle
has its block, and the four counters are unchanged.  The invariants hold after the
failure: every chunk is partitioned by its Block List, every entry describes a free block,
every free block of non-zero size has exactly one entry; and if the Free Index was
consistent before the call, it is consistent after it. -/
theorem oom_state (a : Config) (hu : WellBehaved a.underlying_allocator_)
    (hcs : 0 < a.chunk_size_) (s : State) (L : List BlockAllocation)
    (hr : Reachable a s L) (n : Nat) (t : State)
    (hal : AllocateImpl a s n = some (t, none)) :
    (∃ swept : Bool,
        t.chunks_ = (if swept then s.chunks_.filter (fun c => !c.idle) else s.chunks_) ∧
        t.free_blocks_ =
          (if swept then s.free_blocks_.filter (fun e => !refersToIdle s.chunks_ e)
            else s.free_blocks_)) ∧
      t.chunks_.Sublist s.chunks_ ∧
      (∀ c ∈ s.chunks_, (∃ b ∈ c.blocks_, b.is_free_ = false) → c ∈ t.chunks_) ∧
      (∀ h ∈ L, ∃ c ∈ s.chunks_, c ∈ t.chunks_ ∧ ∃ b ∈ c.blocks_, Holds h b) ∧
      t.total_alloc_times_ = s.total_alloc_times_ ∧
      t.total_alloc_size_ = s.total_alloc_size_ ∧
      t.total_free_times_ = s.total_free_times_ ∧
      t.total_free_size_ = s.total_free_size_ ∧
      (∀ c ∈ t.chunks_, Partition c) ∧ IndexSound t ∧
      (∀ b ∈ allBlocks t.chunks_, b.is_free_ = true → 0 < b.size_ → Indexed t b) ∧
      (FreeIndexConsistent s → FreeIndexConsistent t) := by
  have hi := hr.inv hu.sized
  have hk := hr.inv2 hu
  have hit : Inv t L := AllocateImpl_inv hu.sized hi hal
  have hkt : Inv2 a t := AllocateImpl_inv2 hu hi hk hal
  have hcnt := AllocateImpl_counters hal
  have hmiss : t = (allocateMiss a s (realizedSize a n)).1 ∧
      (allocateMiss a s (realizedSize a n)).2 = none := by
    unfold AllocateImpl at hal
    simp only at hal
    cases hlb : lower_bound (realizedSize a n, 0) s.free_blocks_ with
    | some iter =>
      simp only [hlb] at hal
      cases hh : allocateHit s (realizedSize a n) iter with
      | none => simp [hh] at hal
      | some p => simp [hh] at hal
    | none =>
      simp only [hlb, Option.some.injEq] at hal
      rw [hal]
      exact ⟨rfl, rfl⟩
  obtain ⟨hpool, _⟩ := allocateMiss_none hmiss.2
  rw [← hmiss.1] at hpool
  have hswept : ∃ swept : Bool,
      t.chunks_ = (if swept then s.chunks_.filter (fun c => !c.idle) else s.chunks_) ∧
      t.free_blocks_ =
        (if swept then s.free_blocks_.filter (fun e => !refersToIdle s.chunks_ e)
          else s.free_blocks_) := by
    rcases hpool with ⟨h1, h2⟩ | ⟨h1, h2⟩
    · exact ⟨false, h1, h2⟩
    · rw [FreeIdleChunks_chunks] at h1
      rw [FreeIdleChunks_index] at h2
      cases hallow : a.allow_free_idle_chunk_
      · simp only [hallow, if_true] at h1 h2
        exact ⟨false, h1, h2⟩
      · simp only [hallow, Bool.true_eq_false, if_false] at h1 h2
        refine ⟨true, h1, ?_⟩
        rw [h2]
        simp only [if_true]
        apply List.filter_congr
        intro e he
        have := key_idle_iff hi hk hcs he
        by_cases hx : e.1 ∈ idleKeys s.chunks_
        · simp [hx, this.1 hx]
        · have hy : refersToIdle s.chunks_ e = false := by
            cases hz : refersToIdle s.chunks_ e
            · rfl
            · exact absurd (this.2 hz) hx
          simp [hx, hy]
  obtain ⟨swept, hch, hix⟩ := hswept
  have hsub : t.chunks_.Sublist s.chunks_ := by
    rw [hch]
    split_ifs
    · exact List.filter_sublist _
    · exact List.Sublist.refl _
  have hkeep : ∀ c ∈ s.chunks_, (∃ b ∈ c.blocks_, b.is_free_ = false) → c ∈ t.chunks_ := by
    intro c hc hb
    obtain ⟨b, hb, hf⟩ := hb
    rw [hch]
    split_ifs
    · rw [List.mem_filter]
      exact ⟨hc, by rw [not_idle_of_in_use hb hf]; rfl⟩
    · exact hc
  have hidx : ∀ b ∈ allBlocks t.chunks_, b.is_free_ = true → 0 < b.size_ → Indexed t b :=
    fun b hb hf h0 => indexed_of_inv hit hkt hb hf h0
  refine ⟨⟨swept, hch, hix⟩, hsub, hkeep, ?_, ?_, ?_, hcnt.1, hcnt.2.1, hit.partition,
    hit.index_valid, hidx, ?_⟩
  · intro h hh
    obtain ⟨b, hb, hold⟩ := hi.live h hh
    obtain ⟨c, hc, hbc⟩ := mem_allBlocks.1 hb
    exact ⟨c, hc, hkeep c hc ⟨b, hbc, hold.2.1⟩, b, hbc, hold⟩
  · rcases hcnt.2.2 with ⟨_, h1, _⟩ | ⟨h1, _⟩
    · exact h1
    · exact absurd rfl h1
  · rcases hcnt.2.2 with ⟨_, _, h1⟩ | ⟨h1, _⟩
    · exact h1
    · exact absurd rfl h1
  · intro hcons
    refine ⟨?_, hit.index_valid, ?_⟩
    · intro b hb hf
      rcases Nat.eq_zero_or_pos b.size_ with h0 | h0
      · have hbs : b ∈ allBlocks s.chunks_ := by
          obtain ⟨c, hc, hbc⟩ := mem_allBlocks.1 hb
          exact mem_allBlocks.2 ⟨c, hsub.subset hc, hbc⟩
        obtain ⟨e, he, hd, huniq⟩ := hcons.1 b hbs hf
        have het : e ∈ t.free_blocks_ := by
          rw [hix]
          split_ifs
          · rw [List.mem_filter]
            refine ⟨he, ?_⟩
            cases hz : refersToIdle s.chunks_ e
            · rfl
            · exfalso
              have hkey := (key_idle_iff hi hk hcs he).2 hz
              obtain ⟨c, hc, x, hx, _, hkx⟩ := mem_idleKeys.1 hkey
              have h1 := hk.chunk_min c hc
              have h2 := (hi.partition c hc).total
              rw [hx] at h2
              simp only [sizes, List.map_cons, List.map_nil, List.sum_cons, List.sum_nil,
                Nat.add_zero] at h2
              rw [hd.2.2] at hkx
              simp only [Prod.mk.injEq] at hkx
              omega
          · exact he
        refine ⟨e, het, hd, ?_⟩
        intro f hf2 hn
        have hfs : f ∈ s.free_blocks_ := by
          rw [hix] at hf2
          split_ifs at hf2
          · exact (List.mem_filter.1 hf2).1
          · exact hf2
        exact huniq f hfs hn
      · exact hidx b hb hf h0
    · intro e he b hb hn
      exact (describes_of_node hit he hb hn.symm).2.1

/-- C33 on `lowPool`, whose underlying allocator has a budget of 8192 bytes, in `lowIdle`:
`Allocate(9000)` fails after the sweep has released the idle chunk, and leaves an empty
Chunk Pool and an empty Free Index, the counters being as before. -/
theorem oom_state_witness :
    WellBehaved lowPool.underlying_allocator_ ∧ 0 < lowPool.chunk_size_ ∧
      Reachable lowPool lowIdle [] ∧
      AllocateImpl lowPool lowIdle 9000 = some (lowSwept, none) ∧
      ((∃ swept : Bool,
          lowSwept.chunks_ =
            (if swept then lowIdle.chunks_.filter (fun c => !c.idle) else lowIdle.chunks_) ∧
          lowSwept.free_blocks_ =
            (if swept then lowIdle.free_blocks_.filter (fun e => !refersToIdle lowIdle.chunks_ e)
              else lowIdle.free_blocks_)) ∧
        lowSwept.chunks_.Sublist lowIdle.chunks_ ∧
        (∀ c ∈ lowIdle.chunks_, (∃ b ∈ c.blocks_, b.is_free_ = false) →
          c ∈ lowSwept.chunks_) ∧
        (∀ h ∈ ([] : List BlockAllocation), ∃ c ∈ lowIdle.chunks_,
          c ∈ lowSwept.chunks_ ∧ ∃ b ∈ c.blocks_, Holds h b) ∧
        lowSwept.total_alloc_times_ = lowIdle.total_alloc_times_ ∧
        lowSwept.total_alloc_size_ = lowIdle.total_alloc_size_ ∧
        lowSwept.total_free_times_ = lowIdle.total_free_times_ ∧
        lowSwept.total_free_size_ = lowIdle.total_free_size_ ∧
        (∀ c ∈ lowSwept.chunks_, Partition c) ∧ IndexSound lowSwept ∧
        (∀ b ∈ allBlocks lowSwept.chunks_, b.is_free_ = true → 0 < b.size_ →
          Indexed lowSwept b) ∧
        (FreeIndexConsistent lowIdle → FreeIndexConsistent lowSwept)) :=
  ⟨pool_wellBehaved 4096 8192 (by decide), (by decide : 0 < max (AlignedSize 4096 8) 8),
    script_reachable [Op.allocate 100, Op.free 0] (by rfl), by rfl,
    oom_state lowPool (pool_wellBehaved 4096 8192 (by decide))
      (by decide : 0 < max (AlignedSize 4096 8) 8) lowIdle []
      (script_reachable [Op.allocate 100, Op.free 0] (by rfl)) 9000 lowSwept (by rfl)⟩

theorem allocateHit_store {s t : State} {size : Nat} {iter : Key × Nat}
    {g : BlockAllocation} (h : allocateHit s size iter = some (t, g)) :
    ∃ cur bs, deref iter.2 s.chunks_ = some cur ∧ t.chunks_ = cur.store bs := by
  unfold allocateHit at h
  cases hd : deref iter.2 s.chunks_ with
  | none => simp [hd] at h
  | some cur =>
    simp only [hd] at h
    split_ifs at h <;>
    · simp only [Option.some.injEq, Prod.mk.injEq] at h
      obtain ⟨rfl, _⟩ := h
      exact ⟨cur, _, rfl, rfl⟩

theorem lower_bound_none_iff {size : Nat} {m : FreeBlocks} :
    lower_bound (size, 0) m = none ↔ ¬ ∃ e ∈ m, size ≤ e.1.1 := by
  constructor
  · intro h
    rintro ⟨e, he, hle⟩
    have := lower_bound_eq_none h e he
    unfold keyLt at this
    simp only at this
    omega
  · intro h
    cases hlb : lower_bound (size, 0) m with
    | none => rfl
    | some iter =>
      exfalso
      obtain ⟨h1, h2⟩ := lower_bound_eq_some hlb
      apply h
      refine ⟨iter, h1, ?_⟩
      unfold keyLt at h2
      simp only at h2
      omega

/-- C34, as stated, fails: in the state `orphanOnly` of `padded` the block of node 0 is
free and has size 0, the realized size of `wrapRequest`, yet `Allocate(wrapRequest)` calls
the underlying allocator, the Free Index being empty. -/
theorem growth_only_on_miss_counterexample :
    Reachable padded orphanOnly orphanOnlyLive ∧ realizedSize padded wrapRequest = 0 ∧
      (⟨0, 8176, 0, true⟩ : Block) ∈ allBlocks orphanOnly.chunks_ ∧
      orphanOnly.free_blocks_ = [] ∧
      AllocateImpl padded orphanOnly wrapRequest = some (orphanGrown, some ⟨12288, 0, 6⟩) ∧
      orphanOnly.requests = [4096] ∧ orphanGrown.requests = [4096, 4096] ∧
      ¬ GrowsOnlyOnMiss padded orphanOnly wrapRequest := by
  refine ⟨orphanOnly_reachable, by decide, by decide, rfl, by rfl, rfl, rfl, ?_⟩
  intro h
  have h1 := (h orphanGrown (some ⟨12288, 0, 6⟩) (by rfl)).1 (by decide)
  exact h1 ⟨⟨0, 8176, 0, true⟩, by decide, rfl, by decide⟩

/-- C34, amended: in every reachable state, under a well-behaved underlying allocator,
`Allocate` calls the underlying allocator if and only if no entry of the Free Index has a
size at least the realized size; it does not call it when some free block of non-zero size
is at least as large as the realized size, and it calls it when no free block is.  On a hit
the Chunk Pool keeps its chunks, their order and their reservations, and only the Block
List of the matched chunk changes; a successful miss puts exactly one chunk after the
chunks of the pool, or after those `FreeIdleChunks` left of it. -/
theorem growth_only_on_miss (a : Config) (hu : WellBehaved a.underlying_allocator_)
    (s : State) (L : List BlockAllocation) (hr : Reachable a s L) (n : Nat) (t : State)
    (r : Option BlockAllocation) (hal : AllocateImpl a s n = some (t, r)) :
    (t.requests ≠ s.requests ↔ ¬ ∃ e ∈ s.free_blocks_, realizedSize a n ≤ e.1.1) ∧
      ((∃ b ∈ allBlocks s.chunks_, b.is_free_ = true ∧ 0 < b.size_ ∧
          realizedSize a n ≤ b.size_) → t.requests = s.requests) ∧
      ((¬ ∃ b ∈ allBlocks s.chunks_, b.is_free_ = true ∧ realizedSize a n ≤ b.size_) →
        t.requests ≠ s.requests) ∧
      (t.requests = s.requests →
        t.chunks_.map Chunk.allocation_ = s.chunks_.map Chunk.allocation_ ∧
        ∃ (cur : Cursor) (bs : List Block), s.chunks_ = cur.before ++ cur.chunk :: cur.after ∧
          t.chunks_ = cur.before ++ { cur.chunk with blocks_ := bs } :: cur.after) ∧
      (t.requests ≠ s.requests → r ≠ none →
        ∃ pool c, (pool = s.chunks_ ∨ pool = (FreeIdleChunks a s).1.chunks_) ∧
          t.chunks_ = pool ++ [c]) := by
  have hi := hr.inv hu.sized
  have hk := hr.inv2 hu
  have hcase : (∃ iter, lower_bound (realizedSize a n, 0) s.free_blocks_ = some iter ∧
        t.requests = s.requests ∧
        t.chunks_.map Chunk.allocation_ = s.chunks_.map Chunk.allocation_ ∧
        ∃ (cur : Cursor) (bs : List Block), s.chunks_ = cur.before ++ cur.chunk :: cur.after ∧
          t.chunks_ = cur.before ++ { cur.chunk with blocks_ := bs } :: cur.after) ∨
      (lower_bound (realizedSize a n, 0) s.free_blocks_ = none ∧
        t.requests ≠ s.requests ∧
        (r ≠ none → ∃ pool c, (pool = s.chunks_ ∨ pool = (FreeIdleChunks a s).1.chunks_) ∧
          t.chunks_ = pool ++ [c])) := by
    cases hlb : lower_bound (realizedSize a n, 0) s.free_blocks_ with
    | some iter =>
      left
      rw [AllocateImpl_hit hlb] at hal
      cases hh : allocateHit s (realizedSize a n) iter with
      | none => simp [hh] at hal
      | some p =>
        simp only [hh, Option.map_some', Option.some.injEq, Prod.mk.injEq] at hal
        obtain ⟨rfl, _⟩ := hal
        obtain ⟨hit, hsz⟩ := lower_bound_hit hlb
        have hhand := allocateHit_handle hi hit hsz (t := p.1) (g := p.2) hh
        obtain ⟨cur, bs, hd, hst⟩ := allocateHit_store (t := p.1) (g := p.2) hh
        exact ⟨iter, rfl, hhand.2.2.2.2, hhand.2.2.2.1, cur, bs, (deref_eq_some hd).chunks,
          hst⟩
    | none =>
      right
      simp only [AllocateImpl, hlb, Option.some.injEq] at hal
      have ht : t = (allocateMiss a s (realizedSize a n)).1 := by rw [hal]
      have hr2 : (allocateMiss a s (realizedSize a n)).2 = r := by rw [hal]
      refine ⟨rfl, ?_, ?_⟩
      · rw [ht]
        rcases allocateMiss_requests a s (realizedSize a n) with h1 | h1 <;>
        · rw [h1]
          intro h2
          have := congrArg List.length h2
          simp at this
      · intro hne
        cases r with
        | none => exact absurd rfl hne
        | some g =>
          obtain ⟨s2, r2, k, hpool, _, _, hres⟩ := allocateMiss_some hr2
          have hch : t.chunks_ = (carve s2 r2 (realizedSize a n)).1.chunks_ := by
            rw [ht, hres]
          have hcarve : ∃ c, (carve s2 r2 (realizedSize a n)).1.chunks_ = s2.chunks_ ++ [c] := by
            unfold carve
            simp only
            split_ifs
            · exact ⟨_, rfl⟩
            · exact ⟨_, rfl⟩
          obtain ⟨c, hc⟩ := hcarve
          refine ⟨s2.chunks_, c, ?_, by rw [hch, hc]⟩
          rcases hpool with ⟨h1, _⟩ | ⟨h1, _⟩
          · exact Or.inl h1
          · exact Or.inr h1
  rcases hcase with ⟨iter, hlb, hreq, hmap, hframe⟩ | ⟨hlb, hreq, hgrow⟩
  · have hentry : ∃ e ∈ s.free_blocks_, realizedSize a n ≤ e.1.1 := by
      by_contra hne
      rw [lower_bound_none_iff.2 hne] at hlb
      cases hlb
    refine ⟨?_, fun _ => hreq, ?_, fun _ => ⟨hmap, hframe⟩, fun h => absurd hreq h⟩
    · constructor
      · intro h
        exact absurd hreq h
      · intro h
        exact absurd hentry h
    · intro hno
      exfalso
      obtain ⟨e, he, hle⟩ := hentry
      obtain ⟨b, hb, hd⟩ := hi.index_valid e he
      apply hno
      refine ⟨b, hb, hd.2.1, ?_⟩
      have := hd.2.2
      rw [this] at hle
      exact hle
  · have hnone := lower_bound_none_iff.1 hlb
    refine ⟨⟨fun _ => hnone, fun _ => hreq⟩, ?_, fun _ => hreq, fun h => absurd h hreq,
      fun _ hne => hgrow hne⟩
    rintro ⟨b, hb, hf, h0, hle⟩
    exfalso
    apply hnone
    exact ⟨((b.size_, b.ptr_), b.node), hk.covers b hb hf h0, hle⟩

/-- The amended C34 on `demoState` and the request 50, a cache hit: the underlying
allocator is not called and the Chunk Pool keeps its only chunk. -/
theorem growth_only_on_miss_witness :
    WellBehaved demo.underlying_allocator_ ∧ Reachable demo demoState demoLive ∧
      AllocateImpl demo demoState 50 = some
        (⟨[⟨⟨4096, 4096⟩, [⟨3, 4096, 3880, true⟩, ⟨2, 7976, 56, false⟩,
            ⟨0, 8032, 56, false⟩, ⟨1, 8088, 104, false⟩]⟩],
          [((3880, 4096), 3)], 3, 216, 0, 0, 4, [4096]⟩, some ⟨7976, 56, 2⟩) ∧
      ∃ t r, AllocateImpl demo demoState 50 = some (t, r) ∧
        (t.requests ≠ demoState.requests ↔
          ¬ ∃ e ∈ demoState.free_blocks_, realizedSize demo 50 ≤ e.1.1) ∧
        ((∃ b ∈ allBlocks demoState.chunks_, b.is_free_ = true ∧ 0 < b.size_ ∧
            realizedSize demo 50 ≤ b.size_) → t.requests = demoState.requests) ∧
        ((¬ ∃ b ∈ allBlocks demoState.chunks_, b.is_free_ = true ∧
            realizedSize demo 50 ≤ b.size_) → t.requests ≠ demoState.requests) ∧
        (t.requests = demoState.requests →
          t.chunks_.map Chunk.allocation_ = demoState.chunks_.map Chunk.allocation_ ∧
          ∃ (cur : Cursor) (bs : List Block), demoState.chunks_ = cur.before ++ cur.chunk :: cur.after ∧
            t.chunks_ = cur.before ++ { cur.chunk with blocks_ := bs } :: cur.after) ∧
        (t.requests ≠ demoState.requests → r ≠ none →
          ∃ pool c, (pool = demoState.chunks_ ∨
              pool = (FreeIdleChunks demo demoState).1.chunks_) ∧
            t.chunks_ = pool ++ [c]) :=
  ⟨bump_wellBehaved, demo_reachable, by rfl, _, _, by rfl,
    growth_only_on_miss demo bump_wellBehaved demoState demoLive demo_reachable 50 _ _
      (by rfl)⟩

/-- `Free` keeps every block in use other than the freed one in the Block List of its
chunk. -/
theorem freeBlock_keeps {s : State} {L : List BlockAllocation} (h : Inv s L)
    {g : BlockAllocation} {cur : Cursor} (hat : cur.At g.block_it_ s.chunks_) {c : Chunk}
    (hc : c ∈ s.chunks_) {b : Block} (hb : b ∈ c.blocks_) (hf : b.is_free_ = false)
    (hn : b.node ≠ g.block_it_) :
    ∃ d ∈ (freeBlock s cur).chunks_, d.allocation_ = c.allocation_ ∧ b ∈ d.blocks_ := by
  rw [(freeBlock_shape h hat).1]
  unfold Cursor.store
  rw [hat.chunks] at hc
  rcases List.mem_append.1 hc with hc1 | hc1
  · exact ⟨c, List.mem_append_left _ hc1, rfl, hb⟩
  · rcases List.mem_cons.1 hc1 with rfl | hc2
    · refine ⟨_, List.mem_append_right _ (List.mem_cons_self _ _), rfl, ?_⟩
      simp only
      rw [hat.blocks] at hb
      rcases List.mem_append.1 hb with hb1 | hb1
      · apply List.mem_append_left
        rcases left_cases cur s.free_blocks_ with ⟨P, prev, hp, hpf, _, hkl, _⟩ | ⟨_, hkl, _⟩
        · rw [hkl]
          rw [hp] at hb1
          rcases List.mem_append.1 hb1 with hb2 | hb2
          · exact hb2
          · simp only [List.mem_singleton] at hb2
            rw [hb2, hpf] at hf
            cases hf
        · rw [hkl]
          exact hb1
      · rcases List.mem_cons.1 hb1 with rfl | hb2
        · exact absurd hat.node hn
        · apply List.mem_append_right
          apply List.mem_cons_of_mem
          rcases right_cases cur cur.block s.free_blocks_ with
            ⟨next, N, hnx, hnf, _, hkr, _⟩ | ⟨_, hkr, _⟩
          · rw [hkr]
            rw [hnx] at hb2
            rcases List.mem_cons.1 hb2 with rfl | hb3
            · rw [hnf] at hf
              cases hf
            · exact hb3
          · rw [hkr]
            exact hb2
    · exact ⟨c, List.mem_append_right _ (List.mem_cons_of_mem _ hc2), rfl, hb⟩

theorem node_ne_of_ne {s : State} {L : List BlockAllocation} (h : Inv s L)
    {x y : BlockAllocation} (hx : x ∈ L) (hy : y ∈ L) (hne : x ≠ y) :
    x.block_it_ ≠ y.block_it_ := by
  intro heq
  exact hne (List.inj_on_of_nodup_map h.live_nodup hx hy heq)

/-- C38: in every reachable state (the underlying allocator returning regions at least as
large as requested) and for any two distinct live handles `h` and `g`, the block of `g`, in
use at the address and with the size of the handle, is after `Free(h)`, with the
reclaim-on-free policy off or on, still in the Block List of its chunk, and so it is after
a `Reclaim`; `Reclaim` removes no chunk that has a block in use; and with the policy off
`Free(h)` changes no chunk but that of `h`. -/
theorem other_handles_undisturbed (a : Config) (hu : Sized a.underlying_allocator_)
    (s : State) (L : List BlockAllocation) (hr : Reachable a s L) (h g : BlockAllocation)
    (hh : h ∈ L) (hg : g ∈ L) (hne : g ≠ h) :
    ∃ c ∈ s.chunks_, ∃ b ∈ c.blocks_, Holds g b ∧
      (∀ t, FreeImpl a s h = some t →
        ∃ d ∈ t.chunks_, d.allocation_ = c.allocation_ ∧ b ∈ d.blocks_) ∧
      c ∈ (FreeIdleChunks a s).1.chunks_ ∧
      (∀ c2 ∈ s.chunks_, (∃ x ∈ c2.blocks_, x.is_free_ = false) →
        c2 ∈ (FreeIdleChunks a s).1.chunks_) ∧
      (a.FLAGS_free_idle_chunk = false → ∀ t, FreeImpl a s h = some t →
        ∃ (cur : Cursor) (bs : List Block), deref h.block_it_ s.chunks_ = some cur ∧
          s.chunks_ = cur.before ++ cur.chunk :: cur.after ∧
          t.chunks_ = cur.before ++ { cur.chunk with blocks_ := bs } :: cur.after) := by
  have hi := hr.inv hu
  obtain ⟨b, hb, hold⟩ := hi.live g hg
  obtain ⟨c, hc, hbc⟩ := mem_allBlocks.1 hb
  obtain ⟨cur, hd, hat, _⟩ := free_cursor hi hh
  have hkeep : ∀ c2 ∈ s.chunks_, (∃ x ∈ c2.blocks_, x.is_free_ = false) →
      c2 ∈ (FreeIdleChunks a s).1.chunks_ := by
    rintro c2 hc2 ⟨x, hx, hxf⟩
    exact mem_FreeIdleChunks hc2 (not_idle_of_in_use hx hxf)
  refine ⟨c, hc, b, hbc, hold, ?_, hkeep c hc ⟨b, hbc, hold.2.1⟩, hkeep, ?_⟩
  · intro t ht
    rw [FreeImpl_eq hd] at ht
    simp only [Option.some.injEq] at ht
    subst ht
    have hnode : b.node ≠ h.block_it_ := by
      rw [hold.1]
      exact node_ne_of_ne hi hg hh hne
    obtain ⟨d, hdm, hda, hbd⟩ := freeBlock_keeps hi hat hc hbc hold.2.1 hnode
    split_ifs
    · exact ⟨d, mem_FreeIdleChunks hdm (not_idle_of_in_use hbd hold.2.1), hda, hbd⟩
    · exact ⟨d, hdm, hda, hbd⟩
  · intro hoff t ht
    rw [FreeImpl_eq hd] at ht
    simp only [hoff, Bool.false_eq_true, if_false, Option.some.injEq] at ht
    subst ht
    exact ⟨cur, _, hd, hat.chunks, (freeBlock_shape hi hat).1⟩

/-- C38 on `demoState`: the `Free` of the handle of `Allocate(100)` leaves the block of the
handle of `Allocate(50)` in place. -/
theorem other_handles_undisturbed_witness :
    Sized demo.underlying_allocator_ ∧ Reachable demo demoState demoLive ∧
      (⟨8088, 104, 1⟩ : BlockAllocation) ∈ demoLive ∧
      (⟨8032, 56, 0⟩ : BlockAllocation) ∈ demoLive ∧
      FreeImpl demo demoState ⟨8088, 104, 1⟩ = some demoTwoFree ∧
      ∃ c ∈ demoState.chunks_, ∃ b ∈ c.blocks_, Holds ⟨8032, 56, 0⟩ b ∧
        (∀ t, FreeImpl demo demoState ⟨8088, 104, 1⟩ = some t →
          ∃ d ∈ t.chunks_, d.allocation_ = c.allocation_ ∧ b ∈ d.blocks_) ∧
        c ∈ (FreeIdleChunks demo demoState).1.chunks_ ∧
        (∀ c2 ∈ demoState.chunks_, (∃ x ∈ c2.blocks_, x.is_free_ = false) →
          c2 ∈ (FreeIdleChunks demo demoState).1.chunks_) ∧
        (demo.FLAGS_free_idle_chunk = false → ∀ t,
          FreeImpl demo demoState ⟨8088, 104, 1⟩ = some t →
          ∃ (cur : Cursor) (bs : List Block),
            deref (⟨8088, 104, 1⟩ : BlockAllocation).block_it_ demoState.chunks_ = some cur ∧
            demoState.chunks_ = cur.before ++ cur.chunk :: cur.after ∧
            t.chunks_ = cur.before ++ { cur.chunk with blocks_ := bs } :: cur.after) :=
  ⟨bump_sized, demo_reachable, by decide, by decide, by rfl,
    other_handles_undisturbed demo bump_sized demoState demoLive demo_reachable
      ⟨8088, 104, 1⟩ ⟨8032, 56, 0⟩ (by decide) (by decide) (by decide)⟩

/-! ## Alignment of the blocks -/

theorem carve_blocks (s : State) (r : Allocation) (size : Nat) :
    ∀ b ∈ allBlocks (carve s r size).1.chunks_,
      b ∈ allBlocks s.chunks_ ∨ b.size_ = size ∨ b.size_ = (r.size + SIZE - size) % SIZE := by
  intro b hb
  unfold carve at hb
  simp only at hb
  split_ifs at hb
  · simp only [allBlocks_append, allBlocks_cons, allBlocks_nil, List.append_nil,
      List.mem_append, List.mem_cons, List.mem_singleton, List.not_mem_nil, or_false] at hb
    rcases hb with hb | rfl | rfl
    · exact Or.inl hb
    · exact Or.inr (Or.inr rfl)
    · exact Or.inr (Or.inl rfl)
  · simp only [allBlocks_append, allBlocks_cons, allBlocks_nil, List.append_nil,
      List.mem_append, List.mem_cons, List.mem_singleton, List.not_mem_nil, or_false] at hb
    rcases hb with hb | rfl
    · exact Or.inl hb
    · exact Or.inr (Or.inl rfl)

theorem allocateHit_blocks {s t : State} {size : Nat} {iter : Key × Nat}
    {g : BlockAllocation} {cur : Cursor} (hd : deref iter.2 s.chunks_ = some cur)
    (h : allocateHit s size iter = some (t, g)) :
    ∀ b ∈ allBlocks t.chunks_,
      b ∈ allBlocks s.chunks_ ∨ b.size_ = cur.block.size_ ∨ b.size_ = size ∨
        b.size_ = (cur.block.size_ + SIZE - size) % SIZE := by
  have hat := deref_eq_some hd
  intro b hb
  by_cases h0 : (cur.block.size_ + SIZE - size) % SIZE = 0
  · rw [allocateHit_exact hd h0] at h
    simp only [Option.some.injEq, Prod.mk.injEq] at h
    obtain ⟨rfl, _⟩ := h
    simp only [allBlocks_store, List.mem_append, List.mem_cons] at hb
    rw [hat.allBlocks_eq]
    simp only [List.mem_append, List.mem_cons]
    rcases hb with (hb | hb | rfl | hb) | hb
    · exact Or.inl (Or.inl (Or.inl hb))
    · exact Or.inl (Or.inl (Or.inr (Or.inl hb)))
    · exact Or.inr (Or.inl rfl)
    · exact Or.inl (Or.inl (Or.inr (Or.inr (Or.inr hb))))
    · exact Or.inl (Or.inr hb)
  · rw [allocateHit_split hd h0] at h
    simp only [Option.some.injEq, Prod.mk.injEq] at h
    obtain ⟨rfl, _⟩ := h
    simp only [allBlocks_store, List.mem_append, List.mem_cons] at hb
    rw [hat.allBlocks_eq]
    simp only [List.mem_append, List.mem_cons]
    rcases hb with (hb | hb | rfl | rfl | hb) | hb
    · exact Or.inl (Or.inl (Or.inl hb))
    · exact Or.inl (Or.inl (Or.inr (Or.inl hb)))
    · exact Or.inr (Or.inr (Or.inr rfl))
    · exact Or.inr (Or.inr (Or.inl rfl))
    · exact Or.inl (Or.inl (Or.inr (Or.inr (Or.inr hb))))
    · exact Or.inl (Or.inr hb)

theorem keptLeft_subset (cur : Cursor) : ∀ b ∈ keptLeft cur, b ∈ cur.prevs := by
  intro b hb
  rcases left_cases cur [] with ⟨P, prev, hp, _, _, hkl, _⟩ | ⟨_, hkl, _⟩
  · rw [hkl] at hb
    rw [hp]
    exact List.mem_append_left _ hb
  · rw [hkl] at hb
    exact hb

theorem keptRight_subset (cur : Cursor) : ∀ b ∈ keptRight cur, b ∈ cur.nexts := by
  intro b hb
  unfold keptRight at hb
  exact List.mem_of_mem_drop hb

theorem freeBlock_blocks {s : State} {L : List BlockAllocation} (h : Inv s L)
    {g : BlockAllocation} {cur : Cursor} (hat : cur.At g.block_it_ s.chunks_) :
    ∀ b ∈ allBlocks (freeBlock s cur).chunks_,
      b ∈ allBlocks s.chunks_ ∨ b.size_ = sizes (mergedBlocks cur) := by
  intro b hb
  rw [(freeBlock_shape h hat).1, allBlocks_store] at hb
  simp only [List.mem_append, List.mem_cons] at hb
  rw [hat.allBlocks_eq]
  simp only [List.mem_append, List.mem_cons]
  rcases hb with (hb | hb | rfl | hb) | hb
  · exact Or.inl (Or.inl (Or.inl hb))
  · exact Or.inl (Or.inl (Or.inr (Or.inl (keptLeft_subset cur b hb))))
  · exact Or.inr rfl
  · exact Or.inl (Or.inl (Or.inr (Or.inr (Or.inr (keptRight_subset cur b hb)))))
  · exact Or.inl (Or.inr hb)

theorem mergedBlocks_subset {cur : Cursor} {it : Nat} {cs : List Chunk} (hat : cur.At it cs) :
    ∀ x ∈ mergedBlocks cur, x ∈ allBlocks cs := by
  intro x hx
  unfold mergedBlocks at hx
  rcases List.mem_append.1 hx with h1 | h1
  · exact absorbed_mem hat x (List.mem_append_left _ h1)
  · rcases List.mem_cons.1 h1 with rfl | h2
    · exact hat.mem_block
    · exact absorbed_mem hat x (List.mem_append_right _ h2)

theorem dvd_sizes {al : Nat} {bs : List Block} (h : ∀ b ∈ bs, al ∣ b.size_) :
    al ∣ sizes bs := by
  induction bs with
  | nil => exact dvd_zero _
  | cons x xs ih =>
    rw [sizes_cons]
    exact Nat.dvd_add (h x (List.mem_cons_self _ _))
      (ih (fun b hb => h b (List.mem_cons_of_mem _ hb)))

theorem FreeIdleChunks_blocks (a : Config) (s : State) :
    ∀ b ∈ allBlocks (FreeIdleChunks a s).1.chunks_, b ∈ allBlocks s.chunks_ := by
  intro b hb
  obtain ⟨c, hc, hbc⟩ := mem_allBlocks.1 hb
  exact mem_allBlocks.2 ⟨c, chunks_of_FreeIdleChunks hc, hbc⟩

theorem realizedSize_dvd {a : Config} {k : Nat} (hal : a.alignment_ = 2 ^ k) (n : Nat) :
    a.alignment_ ∣ realizedSize a n := by
  unfold realizedSize
  rw [hal]
  exact AlignedSize_dvd _ k

theorem request_dvd {a : Config} {k : Nat} (hal : a.alignment_ = 2 ^ k)
    (hcs : a.alignment_ ∣ a.chunk_size_) (n : Nat) :
    a.alignment_ ∣ max (realizedSize a n) a.chunk_size_ := by
  rcases le_total (realizedSize a n) a.chunk_size_ with h | h
  · rw [max_eq_right h]
    exact hcs
  · rw [max_eq_left h]
    exact realizedSize_dvd hal n

theorem AllocateImpl_aligned {a : Config} (hu : Sized a.underlying_allocator_)
    (hex : Exact a.underlying_allocator_) {k : Nat} (hal : a.alignment_ = 2 ^ k)
    (hcs : a.alignment_ ∣ a.chunk_size_) {s t : State} {L : List BlockAllocation}
    (hi : Inv s L) (h : ∀ b ∈ allBlocks s.chunks_, a.alignment_ ∣ b.size_) {n : Nat}
    {r : Option BlockAllocation} (hr : AllocateImpl a s n = some (t, r)) :
    ∀ b ∈ allBlocks t.chunks_, a.alignment_ ∣ b.size_ := by
  have hsz := realizedSize_dvd hal n
  cases hlb : lower_bound (realizedSize a n, 0) s.free_blocks_ with
  | some iter =>
    rw [AllocateImpl_hit hlb] at hr
    cases hh : allocateHit s (realizedSize a n) iter with
    | none => simp [hh] at hr
    | some p =>
      simp only [hh, Option.map_some', Option.some.injEq, Prod.mk.injEq] at hr
      obtain ⟨rfl, _⟩ := hr
      obtain ⟨hit, hle⟩ := lower_bound_hit hlb
      obtain ⟨cur, hd, hat, _, hle2, hw⟩ := hit_cursor hi hit hle
      have hcb := h cur.block hat.mem_block
      intro b hb
      rcases allocateHit_blocks (t := p.1) (g := p.2) hd hh b hb with h1 | h1 | h1 | h1
      · exact h b h1
      · rw [h1]
        exact hcb
      · rw [h1]
        exact hsz
      · rw [h1, hw]
        exact Nat.dvd_sub' hcb hsz
  | none =>
    simp only [AllocateImpl, hlb, Option.some.injEq] at hr
    have ht : t = (allocateMiss a s (realizedSize a n)).1 := by rw [hr]
    have hr2 : (allocateMiss a s (realizedSize a n)).2 = r := by rw [hr]
    cases r with
    | none =>
      obtain ⟨hpool, _⟩ := allocateMiss_none hr2
      rw [← ht] at hpool
      intro b hb
      rcases hpool with ⟨h1, _⟩ | ⟨h1, _⟩
      · rw [h1] at hb
        exact h b hb
      · rw [h1] at hb
        exact h b (FreeIdleChunks_blocks a s b hb)
    | some g =>
      obtain ⟨s2, r2, j, hpool, _, hcall, hres⟩ := allocateMiss_some hr2
      have hch : t.chunks_ = (carve s2 r2 (realizedSize a n)).1.chunks_ := by
        rw [ht, hres]
      have hs2 : ∀ b ∈ allBlocks s2.chunks_, a.alignment_ ∣ b.size_ := by
        intro b hb
        rcases hpool with ⟨h1, _⟩ | ⟨h1, _⟩
        · rw [h1] at hb
          exact h b hb
        · rw [h1] at hb
          exact h b (FreeIdleChunks_blocks a s b hb)
      obtain ⟨hge, hlt⟩ := hu _ _ _ _ hcall
      have hexact := hex _ _ _ _ hcall
      have hle : realizedSize a n ≤ r2.size := le_trans (le_max_left _ _) hge
      have hrd : a.alignment_ ∣ r2.size := by
        rw [hexact]
        exact request_dvd hal hcs n
      intro b hb
      rw [hch] at hb
      rcases carve_blocks s2 r2 (realizedSize a n) b hb with h1 | h1 | h1
      · exact hs2 b h1
      · rw [h1]
        exact hsz
      · rw [h1, wrap_sub hle hlt]
        exact Nat.dvd_sub' hrd hsz

theorem FreeImpl_aligned {a : Config} {s t : State} {L : List BlockAllocation}
    (hi : Inv s L) (h : ∀ b ∈ allBlocks s.chunks_, a.alignment_ ∣ b.size_)
    {g : BlockAllocation} (hg : g ∈ L) (hf : FreeImpl a s g = some t) :
    ∀ b ∈ allBlocks t.chunks_, a.alignment_ ∣ b.size_ := by
  obtain ⟨cur, hd, hat, _⟩ := free_cursor hi hg
  rw [FreeImpl_eq hd] at hf
  simp only [Option.some.injEq] at hf
  have hfb : ∀ b ∈ allBlocks (freeBlock s cur).chunks_, a.alignment_ ∣ b.size_ := by
    intro b hb
    rcases freeBlock_blocks hi hat b hb with h1 | h1
    · exact h b h1
    · rw [h1]
      exact dvd_sizes (fun x hx => h x (mergedBlocks_subset hat x hx))
  subst hf
  intro b hb
  split_ifs at hb
  · exact hfb b (FreeIdleChunks_blocks a _ b hb)
  · exact hfb b hb

/-- With an underlying allocator that returns regions of exactly the requested size, a
power-of-two alignment and a chunk size that is a multiple of it, the size of every block
of every reachable state is a multiple of the alignment. -/
theorem Reachable.aligned {a : Config} (hu : Sized a.underlying_allocator_)
    (hex : Exact a.underlying_allocator_) {k : Nat} (hal : a.alignment_ = 2 ^ k)
    (hcs : a.alignment_ ∣ a.chunk_size_) {s : State} {L : List BlockAllocation}
    (hr : Reachable a s L) : ∀ b ∈ allBlocks s.chunks_, a.alignment_ ∣ b.size_ := by
  induction hr with
  | init => simp [State.init]
  | allocate hp _ _ h1 ih => exact AllocateImpl_aligned hu hex hal hcs (hp.inv hu) ih h1
  | bad_alloc hp _ _ h1 ih => exact AllocateImpl_aligned hu hex hal hcs (hp.inv hu) ih h1
  | free hp hg hf ih => exact FreeImpl_aligned (hp.inv hu) ih hg hf
  | reclaim _ ih => exact fun b hb => ih b (FreeIdleChunks_blocks a _ b hb)

theorem contiguous_offsets {al p : Nat} {bs : List Block} (hc : contiguous p bs)
    (h : ∀ b ∈ bs, al ∣ b.size_) : ∀ b ∈ bs, p ≤ b.ptr_ ∧ al ∣ b.ptr_ - p := by
  induction bs generalizing p with
  | nil => simp
  | cons x xs ih =>
    obtain ⟨hx, hrest⟩ := hc
    intro b hb
    rcases List.mem_cons.1 hb with rfl | hin
    · rw [hx]
      exact ⟨le_refl _, by rw [Nat.sub_self]; exact dvd_zero _⟩
    · obtain ⟨h1, h2⟩ := ih hrest (fun y hy => h y (List.mem_cons_of_mem _ hy)) b hin
      refine ⟨by omega, ?_⟩
      have : b.ptr_ - p = (b.ptr_ - (p + x.size_)) + x.size_ := by omega
      rw [this]
      exact Nat.dvd_add h2 (h x (List.mem_cons_self _ _))

theorem AlignedSize_max_dvd (chunk_size k : Nat) :
    2 ^ k ∣ max (AlignedSize chunk_size (2 ^ k)) (2 ^ k) := by
  rcases le_total (AlignedSize chunk_size (2 ^ k)) (2 ^ k) with h | h
  · rw [max_eq_right h]
  · rw [max_eq_left h]
    exact AlignedSize_dvd _ k

theorem bump_exact : Exact bump := by
  intro k held n r h
  unfold bump at h
  simp only at h
  split_ifs at h
  simp only [Option.some.injEq] at h
  rw [← h]

theorem slack_sized : Sized slack := by
  intro k held n r h
  obtain ⟨h1, h2⟩ := bump_sized k held (n + 1) r h
  exact ⟨by omega, h2⟩

/-- C35: if the underlying allocator returns regions of exactly the requested size, the
alignment being a power of two and the chunk size the one the constructor computes, then in
every reachable state the size of every block and the offset of every block from the base
address of its chunk are multiples of the alignment, so that the address of every live
handle is aligned whenever the base address of its chunk is.  Without the assumption on the
returned size the offset of the tail-carved block need not be a multiple of the alignment:
over `slack`, which returns one byte more than asked for, the block of `Allocate(100)`
starts 3993 bytes above the base address of its chunk. -/
theorem blocks_aligned (a : Config) (hu : Sized a.underlying_allocator_)
    (hex : Exact a.underlying_allocator_) (k : Nat) (hal : a.alignment_ = 2 ^ k)
    (chunk_size : Nat)
    (hcs : a.chunk_size_ = max (AlignedSize chunk_size a.alignment_) a.alignment_)
    (s : State) (L : List BlockAllocation) (hr : Reachable a s L) :
    (∀ c ∈ s.chunks_, ∀ b ∈ c.blocks_,
        a.alignment_ ∣ b.size_ ∧ c.allocation_.ptr ≤ b.ptr_ ∧
          a.alignment_ ∣ b.ptr_ - c.allocation_.ptr) ∧
      (∀ h ∈ L, ∃ c ∈ s.chunks_, ∃ b ∈ c.blocks_, Holds h b ∧
        (a.alignment_ ∣ c.allocation_.ptr → a.alignment_ ∣ h.ptr)) ∧
      (Sized roomy.underlying_allocator_ ∧ roomy.alignment_ = 2 ^ 3 ∧
        Reachable roomy roomyFirst [⟨8089, 104, 1⟩] ∧
        ∃ c ∈ roomyFirst.chunks_, ∃ b ∈ c.blocks_, Holds ⟨8089, 104, 1⟩ b ∧
          b.ptr_ - c.allocation_.ptr = 3993 ∧
          ¬ roomy.alignment_ ∣ b.ptr_ - c.allocation_.ptr) := by
  have hi := hr.inv hu
  have hdiv : a.alignment_ ∣ a.chunk_size_ := by
    rw [hcs, hal]
    exact AlignedSize_max_dvd chunk_size k
  have hsizes := hr.aligned hu hex hal hdiv
  have hall : ∀ c ∈ s.chunks_, ∀ b ∈ c.blocks_,
      a.alignment_ ∣ b.size_ ∧ c.allocation_.ptr ≤ b.ptr_ ∧
        a.alignment_ ∣ b.ptr_ - c.allocation_.ptr := by
    intro c hc b hb
    have hs : ∀ x ∈ c.blocks_, a.alignment_ ∣ x.size_ :=
      fun x hx => hsizes x (mem_allBlocks.2 ⟨c, hc, hx⟩)
    have := contiguous_offsets (hi.partition c hc).contig hs b hb
    exact ⟨hs b hb, this.1, this.2⟩
  refine ⟨hall, ?_, slack_sized, rfl, script_reachable [Op.allocate 100] (by rfl), ?_⟩
  · intro h hh
    obtain ⟨b, hb, hold⟩ := hi.live h hh
    obtain ⟨c, hc, hbc⟩ := mem_allBlocks.1 hb
    refine ⟨c, hc, b, hbc, hold, ?_⟩
    intro hbase
    obtain ⟨_, hle, hoff⟩ := hall c hc b hbc
    rw [← hold.2.2.1]
    have : b.ptr_ = (b.ptr_ - c.allocation_.ptr) + c.allocation_.ptr := by omega
    rw [this]
    exact Nat.dvd_add hoff hbase
  · exact ⟨⟨⟨4096, 4097⟩, [⟨0, 4096, 3993, true⟩, ⟨1, 8089, 104, false⟩]⟩, by decide,
      ⟨1, 8089, 104, false⟩, by decide, ⟨rfl, rfl, rfl, rfl⟩, by decide, by decide⟩

/-- C35 on `demoState`: alignment 8, the sizes 3936, 56 and 104 and the offsets 0, 3936 and
3992 are multiples of 8. -/
theorem blocks_aligned_witness :
    Sized demo.underlying_allocator_ ∧ Exact demo.underlying_allocator_ ∧
      demo.alignment_ = 2 ^ 3 ∧
      demo.chunk_size_ = max (AlignedSize 4096 demo.alignment_) demo.alignment_ ∧
      Reachable demo demoState demoLive ∧
      ((∀ c ∈ demoState.chunks_, ∀ b ∈ c.blocks_,
          demo.alignment_ ∣ b.size_ ∧ c.allocation_.ptr ≤ b.ptr_ ∧
            demo.alignment_ ∣ b.ptr_ - c.allocation_.ptr) ∧
        (∀ h ∈ demoLive, ∃ c ∈ demoState.chunks_, ∃ b ∈ c.blocks_, Holds h b ∧
          (demo.alignment_ ∣ c.allocation_.ptr → demo.alignment_ ∣ h.ptr)) ∧
        (Sized roomy.underlying_allocator_ ∧ roomy.alignment_ = 2 ^ 3 ∧
          Reachable roomy roomyFirst [⟨8089, 104, 1⟩] ∧
          ∃ c ∈ roomyFirst.chunks_, ∃ b ∈ c.blocks_, Holds ⟨8089, 104, 1⟩ b ∧
            b.ptr_ - c.allocation_.ptr = 3993 ∧
            ¬ roomy.alignment_ ∣ b.ptr_ - c.allocation_.ptr)) :=
  ⟨bump_sized, bump_exact, rfl, rfl, demo_reachable,
    blocks_aligned demo bump_sized bump_exact 3 rfl 4096 rfl demoState demoLive
      demo_reachable⟩

/-! ## Byte accounting -/

theorem busyBlocks_append (xs ys : List Block) :
    busyBlocks (xs ++ ys) = busyBlocks xs ++ busyBlocks ys := by
  unfold busyBlocks
  exact List.filter_append _ _

theorem busyBlocks_cons_free {b : Block} (h : b.is_free_ = true) (bs : List Block) :
    busyBlocks (b :: bs) = busyBlocks bs := by
  unfold busyBlocks
  simp [List.filter_cons, h]

theorem busyBlocks_cons_busy {b : Block} (h : b.is_free_ = false) (bs : List Block) :
    busyBlocks (b :: bs) = b :: busyBlocks bs := by
  unfold busyBlocks
  simp [List.filter_cons, h]

theorem busyBlocks_nil : busyBlocks [] = [] := rfl

theorem sizes_busy_add_idle (bs : List Block) :
    sizes (idleBlocks bs) + sizes (busyBlocks bs) = sizes bs := by
  induction bs with
  | nil => rfl
  | cons x xs ih =>
    unfold idleBlocks busyBlocks at ih ⊢
    cases hx : x.is_free_
    · simp only [List.filter_cons, hx, Bool.false_eq_true, if_false, Bool.not_false, if_true,
        sizes_cons]
      omega
    · simp only [List.filter_cons, hx, if_true, Bool.not_true, Bool.false_eq_true, if_false,
        sizes_cons]
      omega

theorem busyBlocks_idle_chunks (cs : List Chunk) :
    busyBlocks (allBlocks (cs.filter (fun c => !c.idle))) = busyBlocks (allBlocks cs) := by
  induction cs with
  | nil => rfl
  | cons c cs ih =>
    cases hc : c.idle
    · simp only [List.filter_cons, hc, Bool.not_false, if_true, allBlocks_cons,
        busyBlocks_append, ih]
    · obtain ⟨b, hb, hf⟩ := idle_iff.1 hc
      simp only [List.filter_cons, hc, Bool.not_true, Bool.false_eq_true, if_false,
        allBlocks_cons, busyBlocks_append, ih, hb, busyBlocks_cons_free hf, busyBlocks_nil,
        List.nil_append]

theorem busyBlocks_FreeIdleChunks (a : Config) (s : State) :
    busyBlocks (allBlocks (FreeIdleChunks a s).1.chunks_) = busyBlocks (allBlocks s.chunks_) := by
  rw [FreeIdleChunks_chunks]
  split_ifs
  · rfl
  · exact busyBlocks_idle_chunks _

/-- The blocks in use after `carve`: those before and the new block. -/
theorem busyBlocks_carve (s : State) (r : Allocation) (size : Nat) :
    ∃ b, b.size_ = size ∧
      busyBlocks (allBlocks (carve s r size).1.chunks_) =
        busyBlocks (allBlocks s.chunks_) ++ [b] := by
  unfold carve
  simp only
  split_ifs
  · refine ⟨⟨s.fresh + 1, r.ptr + (r.size + SIZE - size) % SIZE, size, false⟩, rfl, ?_⟩
    simp only [allBlocks_append, allBlocks_cons, allBlocks_nil, List.append_nil,
      busyBlocks_append]
    rw [busyBlocks_cons_free rfl, busyBlocks_cons_busy rfl, busyBlocks_nil]
  · refine ⟨⟨s.fresh, r.ptr + (r.size + SIZE - size) % SIZE, size, false⟩, rfl, ?_⟩
    simp only [allBlocks_append, allBlocks_cons, allBlocks_nil, List.append_nil,
      busyBlocks_append]
    rw [busyBlocks_cons_busy rfl, busyBlocks_nil]

/-- The blocks in use after a cache hit: those before and, in the place of the matched free
block, a block of the realized size. -/
theorem busyBlocks_allocateHit {s : State} {L : List BlockAllocation} (h : Inv s L)
    {iter : Key × Nat} (hi : iter ∈ s.free_blocks_) {size : Nat} (hsz : size ≤ iter.1.1)
    {t : State} {g : BlockAllocation} (hr : allocateHit s size iter = some (t, g)) :
    ∃ X Y b, b.size_ = size ∧ busyBlocks (allBlocks s.chunks_) = X ++ Y ∧
      busyBlocks (allBlocks t.chunks_) = X ++ b :: Y := by
  obtain ⟨cur, hd, hat, hdesc, hle, hw⟩ := hit_cursor h hi hsz
  have hs : busyBlocks (allBlocks s.chunks_) =
      (busyBlocks (allBlocks cur.before) ++ busyBlocks cur.prevs) ++
        (busyBlocks cur.nexts ++ busyBlocks (allBlocks cur.after)) := by
    rw [hat.allBlocks_eq]
    simp only [busyBlocks_append, busyBlocks_cons_free hdesc.2.1, List.append_assoc]
  by_cases h0 : (cur.block.size_ + SIZE - size) % SIZE = 0
  · rw [allocateHit_exact hd h0] at hr
    simp only [Option.some.injEq, Prod.mk.injEq] at hr
    obtain ⟨rfl, _⟩ := hr
    refine ⟨_, _, { cur.block with is_free_ := false }, ?_, hs, ?_⟩
    · simp only
      rw [hw] at h0
      omega
    · simp only [allBlocks_store, busyBlocks_append]
      rw [busyBlocks_cons_busy rfl]
      simp only [List.append_assoc, List.cons_append]
  · rw [allocateHit_split hd h0] at hr
    simp only [Option.some.injEq, Prod.mk.injEq] at hr
    obtain ⟨rfl, _⟩ := hr
    refine ⟨_, _, ⟨cur.block.node, cur.block.ptr_ + (cur.block.size_ + SIZE - size) % SIZE,
      size, false⟩, rfl, hs, ?_⟩
    simp only [allBlocks_store, busyBlocks_append]
    rw [busyBlocks_cons_free rfl, busyBlocks_cons_busy rfl]
    simp only [List.append_assoc, List.cons_append]

theorem busyBlocks_concat_free {b : Block} (h : b.is_free_ = true) (bs : List Block) :
    busyBlocks (bs ++ [b]) = busyBlocks bs := by
  rw [busyBlocks_append, busyBlocks_cons_free h, busyBlocks_nil, List.append_nil]

/-- The blocks in use after `Free`: those before without the freed block. -/
theorem busyBlocks_freeBlock {s : State} {L : List BlockAllocation} (h : Inv s L)
    {g : BlockAllocation} {cur : Cursor} (hat : cur.At g.block_it_ s.chunks_)
    (hbusy : cur.block.is_free_ = false) :
    ∃ X Y, busyBlocks (allBlocks s.chunks_) = X ++ cur.block :: Y ∧
      busyBlocks (allBlocks (freeBlock s cur).chunks_) = X ++ Y := by
  have hl : busyBlocks (keptLeft cur) = busyBlocks cur.prevs := by
    rcases left_cases cur [] with ⟨P, prev, hp, hpf, _, hkl, _⟩ | ⟨_, hkl, _⟩
    · rw [hkl, hp, busyBlocks_concat_free hpf]
    · rw [hkl]
  have hr : busyBlocks (keptRight cur) = busyBlocks cur.nexts := by
    rcases right_cases cur cur.block [] with ⟨next, N, hnx, hnf, _, hkr, _⟩ | ⟨_, hkr, _⟩
    · rw [hkr, hnx, busyBlocks_cons_free hnf]
    · rw [hkr]
  refine ⟨busyBlocks (allBlocks cur.before) ++ busyBlocks cur.prevs,
    busyBlocks cur.nexts ++ busyBlocks (allBlocks cur.after), ?_, ?_⟩
  · rw [hat.allBlocks_eq]
    simp only [busyBlocks_append, busyBlocks_cons_busy hbusy, List.append_assoc,
      List.cons_append]
  · rw [(freeBlock_shape h hat).1, allBlocks_store]
    simp only [busyBlocks_append]
    rw [busyBlocks_cons_free rfl, hl, hr]
    simp only [List.append_assoc]

theorem mod_step {M x y z d : Nat} (h : (x + y) % M = z) :
    (x + (y + d)) % M = (z + d) % M := by
  rw [← h, ← Nat.add_assoc, Nat.mod_add_mod]

theorem mod_step_left {M x y z d : Nat} (h : (x + (y + d)) % M = z) :
    ((x + d) % M + y) % M = z := by
  rw [← h, Nat.mod_add_mod]
  congr 1
  omega

theorem AllocateImpl_accounted {a : Config} {s t : State} {L : List BlockAllocation}
    (hi : Inv s L) (hacc : Accounted s) {n : Nat} {r : Option BlockAllocation}
    (hr : AllocateImpl a s n = some (t, r)) : Accounted t := by
  obtain ⟨hb, hc, hl1, hl2⟩ := hacc
  obtain ⟨hf1, hf2, hcnt⟩ := AllocateImpl_counters hr
  have hbusy : (r = none ∧
        busyBlocks (allBlocks t.chunks_) = busyBlocks (allBlocks s.chunks_)) ∨
      (r ≠ none ∧ ∃ X Y b, b.size_ = realizedSize a n ∧
        busyBlocks (allBlocks s.chunks_) = X ++ Y ∧
        busyBlocks (allBlocks t.chunks_) = X ++ b :: Y) := by
    cases hlb : lower_bound (realizedSize a n, 0) s.free_blocks_ with
    | some iter =>
      rw [AllocateImpl_hit hlb] at hr
      cases hh : allocateHit s (realizedSize a n) iter with
      | none => simp [hh] at hr
      | some p =>
        simp only [hh, Option.map_some', Option.some.injEq, Prod.mk.injEq] at hr
        obtain ⟨rfl, rfl⟩ := hr
        obtain ⟨hit, hle⟩ := lower_bound_hit hlb
        exact Or.inr ⟨by simp, busyBlocks_allocateHit hi hit hle (t := p.1) (g := p.2) hh⟩
    | none =>
      simp only [AllocateImpl, hlb, Option.some.injEq] at hr
      have ht : t = (allocateMiss a s (realizedSize a n)).1 := by rw [hr]
      have hr2 : (allocateMiss a s (realizedSize a n)).2 = r := by rw [hr]
      cases r with
      | none =>
        left
        refine ⟨rfl, ?_⟩
        obtain ⟨hpool, _⟩ := allocateMiss_none hr2
        rw [← ht] at hpool
        rcases hpool with ⟨h1, _⟩ | ⟨h1, _⟩
        · rw [h1]
        · rw [h1]
          exact busyBlocks_FreeIdleChunks a s
      | some g =>
        right
        refine ⟨by simp, ?_⟩
        obtain ⟨s2, r2, j, hpool, _, _, hres⟩ := allocateMiss_some hr2
        have hch : t.chunks_ = (carve s2 r2 (realizedSize a n)).1.chunks_ := by
          rw [ht, hres]
        obtain ⟨b, hbs, hcb⟩ := busyBlocks_carve s2 r2 (realizedSize a n)
        have hs2 : busyBlocks (allBlocks s2.chunks_) = busyBlocks (allBlocks s.chunks_) := by
          rcases hpool with ⟨h1, _⟩ | ⟨h1, _⟩
          · rw [h1]
          · rw [h1]
            exact busyBlocks_FreeIdleChunks a s
        refine ⟨busyBlocks (allBlocks s.chunks_), [], b, hbs, by simp, ?_⟩
        rw [hch, hcb, hs2]
  unfold Accounted busyBytes busyCount at *
  rw [hf1, hf2]
  rcases hbusy with ⟨hn, hsame⟩ | ⟨hn, X, Y, b, hbs, hs, ht⟩
  · rcases hcnt with ⟨_, h1, h2⟩ | ⟨h3, _⟩
    · rw [hsame, h1, h2]
      exact ⟨hb, hc, hl1, hl2⟩
    · exact absurd hn h3
  · rcases hcnt with ⟨h3, _⟩ | ⟨_, h1, h2⟩
    · exact absurd h3 hn
    · rw [hs] at hb hc
      rw [ht, h1, h2]
      refine ⟨?_, ?_, hl1, hl2⟩
      · have : sizes (X ++ b :: Y) = sizes (X ++ Y) + realizedSize a n := by
          simp only [sizes_append, sizes_cons, hbs]
          omega
        rw [this]
        exact mod_step hb
      · have : (X ++ b :: Y).length = (X ++ Y).length + 1 := by
          simp only [List.length_append, List.length_cons]
          omega
        rw [this]
        exact mod_step hc

theorem FreeImpl_accounted {a : Config} {s t : State} {L : List BlockAllocation}
    (hi : Inv s L) (hacc : Accounted s) {g : BlockAllocation} (hg : g ∈ L)
    (hf : FreeImpl a s g = some t) : Accounted t := by
  obtain ⟨hb, hc, hl1, hl2⟩ := hacc
  obtain ⟨cur, hd, hat, hold⟩ := free_cursor hi hg
  obtain ⟨h1, h2, h3, h4⟩ := FreeImpl_counters hd hf
  obtain ⟨X, Y, hs, ht0⟩ := busyBlocks_freeBlock hi hat hold.2.1
  have ht : busyBlocks (allBlocks t.chunks_) = X ++ Y := by
    rw [FreeImpl_eq hd] at hf
    simp only [Option.some.injEq] at hf
    subst hf
    split_ifs
    · rw [busyBlocks_FreeIdleChunks]
      exact ht0
    · exact ht0
  unfold Accounted busyBytes busyCount at *
  rw [hs] at hb hc
  rw [ht, h1, h2, h3, h4]
  refine ⟨?_, ?_, Nat.mod_lt _ SIZE_pos, Nat.mod_lt _ SIZE_pos⟩
  · have : sizes (X ++ cur.block :: Y) = sizes (X ++ Y) + cur.block.size_ := by
      simp only [sizes_append, sizes_cons]
      omega
    rw [this] at hb
    exact mod_step_left hb
  · have : (X ++ cur.block :: Y).length = (X ++ Y).length + 1 := by
      simp only [List.length_append, List.length_cons]
      omega
    rw [this] at hc
    exact mod_step_left hc

theorem FreeIdleChunks_accounted (a : Config) {s : State} (hacc : Accounted s) :
    Accounted (FreeIdleChunks a s).1 := by
  obtain ⟨h1, h2, h3, h4⟩ := FreeIdleChunks_counters a s
  unfold Accounted busyBytes busyCount at *
  rw [busyBlocks_FreeIdleChunks, h1, h2, h3, h4]
  exact hacc

/-- In every reachable state the counters account for the blocks in use. -/
theorem Reachable.accounted {a : Config} (hu : Sized a.underlying_allocator_) {s : State}
    {L : List BlockAllocation} (hr : Reachable a s L) : Accounted s := by
  induction hr with
  | init => exact ⟨rfl, rfl, SIZE_pos, SIZE_pos⟩
  | allocate hp _ _ h1 ih => exact AllocateImpl_accounted (hp.inv hu) ih h1
  | bad_alloc hp _ _ h1 ih => exact AllocateImpl_accounted (hp.inv hu) ih h1
  | free hp hg hf ih => exact FreeImpl_accounted (hp.inv hu) ih hg hf
  | reclaim _ ih => exact FreeIdleChunks_accounted a ih

theorem sizes_allBlocks {cs : List Chunk} (h : ∀ c ∈ cs, sizes c.blocks_ = c.allocation_.size) :
    sizes (allBlocks cs) = (cs.map (fun c => c.allocation_.size)).sum := by
  induction cs with
  | nil => rfl
  | cons c cs ih =>
    rw [allBlocks_cons, sizes_append, List.map_cons, List.sum_cons,
      h c (List.mem_cons_self _ _), ih (fun d hd => h d (List.mem_cons_of_mem _ hd))]

/-- The free and the in-use bytes add up to the reserved bytes. -/
theorem idle_add_busy {s : State} {L : List BlockAllocation} (h : Inv s L) :
    idleBytes s + busyBytes s = reservedBytes s := by
  unfold idleBytes busyBytes reservedBytes
  rw [sizes_busy_add_idle]
  exact sizes_allBlocks (fun c hc => (h.partition c hc).total)

theorem sum_filter_pos {α : Type} (f : α → Nat) (l : List α) :
    ((l.filter (fun x => decide (0 < f x))).map f).sum = (l.map f).sum := by
  induction l with
  | nil => rfl
  | cons x xs ih =>
    rcases Nat.eq_zero_or_pos (f x) with h | h
    · simp [List.filter_cons, h, ih]
    · simp [List.filter_cons, h, ih]

/-- The sizes in the keys of the Free Index add up to the free bytes. -/
theorem index_sum {a : Config} {s : State} {L : List BlockAllocation} (h : Inv s L)
    (k : Inv2 a s) : (s.free_blocks_.map (fun e => e.1.1)).sum = idleBytes s := by
  have hperm : List.Perm
      ((s.free_blocks_.filter (fun e => decide (0 < e.1.1))).map (fun e => e.1))
      (((idleBlocks (allBlocks s.chunks_)).filter (fun b => decide (0 < b.size_))).map
        (fun b => (b.size_, b.ptr_))) := by
    rw [List.perm_ext_iff_of_nodup]
    · intro key
      simp only [List.mem_map, List.mem_filter, decide_eq_true_eq, idleBlocks]
      constructor
      · rintro ⟨e, ⟨he, hpos⟩, rfl⟩
        obtain ⟨b, hb, hd⟩ := h.index_valid e he
        have hk := hd.2.2
        refine ⟨b, ⟨⟨hb, hd.2.1⟩, ?_⟩, hk.symm⟩
        rw [hk] at hpos
        exact hpos
      · rintro ⟨b, ⟨⟨hb, hf⟩, hpos⟩, rfl⟩
        exact ⟨((b.size_, b.ptr_), b.node), ⟨k.covers b hb hf hpos, hpos⟩, rfl⟩
    · apply List.Nodup.map_on
      · intro x hx y hy hxy
        exact eq_of_key_eq h.index_sorted (List.mem_filter.1 hx).1 (List.mem_filter.1 hy).1 hxy
      · exact (nodup_of_sorted h.index_sorted).filter _
    · apply List.Nodup.map_on
      · intro x hx y hy hxy
        simp only [Prod.mk.injEq] at hxy
        simp only [List.mem_filter, decide_eq_true_eq, idleBlocks] at hx hy
        exact block_unique h.partition k.disjoint hx.1.1 hy.1.1 hxy.2 hx.2 hy.2
      · exact ((List.Nodup.of_map _ h.nodes_nodup).filter _).filter _
  have h1 := (hperm.map Prod.fst).sum_eq
  simp only [List.map_map] at h1
  have h2 := sum_filter_pos (fun e : Key × Nat => e.1.1) s.free_blocks_
  have h3 := sum_filter_pos (fun b : Block => b.size_) (idleBlocks (allBlocks s.chunks_))
  unfold idleBytes sizes
  rw [← h2, ← h3]
  exact h1

theorem trace_fold (cs : List Chunk) (m : FreeBlocks)
    (h : ∀ e ∈ m, ∃ cur, deref e.2 cs = some cur ∧ cur.block.size_ = e.1.1) (acc : Nat) :
    m.foldl
        (fun cur_idle_bytes e =>
          match deref e.2 cs with
          | some cur => (cur_idle_bytes + cur.block.size_) % SIZE
          | none => cur_idle_bytes)
        acc % SIZE = (acc + (m.map (fun e => e.1.1)).sum) % SIZE := by
  induction m generalizing acc with
  | nil => simp
  | cons e m ih =>
    obtain ⟨cur, hd, hsz⟩ := h e (List.mem_cons_self _ _)
    simp only [List.foldl_cons, hd, List.map_cons, List.sum_cons]
    rw [ih (fun x hx => h x (List.mem_cons_of_mem _ hx)), hsz, Nat.mod_add_mod, Nat.add_assoc]

theorem trace_lt (cs : List Chunk) (m : FreeBlocks) (acc : Nat) (hacc : acc < SIZE) :
    m.foldl
        (fun cur_idle_bytes e =>
          match deref e.2 cs with
          | some cur => (cur_idle_bytes + cur.block.size_) % SIZE
          | none => cur_idle_bytes)
        acc < SIZE := by
  induction m generalizing acc with
  | nil => exact hacc
  | cons e m ih =>
    simp only [List.foldl_cons]
    apply ih
    split
    · exact Nat.mod_lt _ SIZE_pos
    · exact hacc

/-- The idle figure of `Trace` is the sum of the sizes of the free blocks, in 64-bit
unsigned arithmetic. -/
theorem Trace_eq {a : Config} {s : State} {L : List BlockAllocation} (h : Inv s L)
    (k : Inv2 a s) : Trace s = idleBytes s % SIZE := by
  have hderef : ∀ e ∈ s.free_blocks_,
      ∃ cur, deref e.2 s.chunks_ = some cur ∧ cur.block.size_ = e.1.1 := by
    intro e he
    obtain ⟨b, hb, hd⟩ := h.index_valid e he
    obtain ⟨cur, hc, _, hcb⟩ := deref_of_mem h hb
    refine ⟨cur, by rw [← hd.1]; exact hc, ?_⟩
    rw [hcb, hd.2.2]
  have h1 := trace_fold s.chunks_ s.free_blocks_ hderef 0
  have h2 := trace_lt s.chunks_ s.free_blocks_ 0 SIZE_pos
  unfold Trace
  rw [Nat.mod_eq_of_lt h2, Nat.zero_add, index_sum h k] at h1
  exact h1

theorem reserved_lt {a : Config} {s : State} (k : Inv2 a s)
    (ha : Addressable a.underlying_allocator_) : reservedBytes s < SIZE := by
  have h := @sum_sizes_lt (s.chunks_.map Chunk.allocation_)
    (List.pairwise_map.2 k.disjoint)
    (by
      intro r hr
      obtain ⟨c, hc, rfl⟩ := List.mem_map.1 hr
      exact k.bounded ha c hc)
  rw [List.map_map] at h
  exact h

theorem sub_wrap {f b : Nat} (hf : f < SIZE) (hb : b < SIZE) :
    ((f + b) % SIZE + SIZE - f) % SIZE = b := by
  by_cases h : f + b < SIZE
  · rw [Nat.mod_eq_of_lt h]
    have : f + b + SIZE - f = b + SIZE := by omega
    rw [this, Nat.add_mod_right, Nat.mod_eq_of_lt hb]
  · have h2 : (f + b) % SIZE = f + b - SIZE := by
      rw [Nat.mod_eq_sub_mod (by omega), Nat.mod_eq_of_lt (by omega)]
    rw [h2]
    have : f + b - SIZE + SIZE - f = b := by omega
    rw [this, Nat.mod_eq_of_lt hb]

/-- After the byte counter of the allocations has wrapped, in `halfAgain`, it is below that
of the frees, and their difference in 64-bit unsigned arithmetic is still the size of the
one block in use. -/
theorem busyFigure_after_wrap :
    halfAgain.total_alloc_size_ < halfAgain.total_free_size_ ∧
      busyFigure halfAgain = 2 ^ 63 ∧ busyBytes halfAgain = 2 ^ 63 := by
  refine ⟨by decide, by rfl, by rfl⟩

theorem sub_wrap_mod {f : Nat} (b : Nat) (hf : f < SIZE) :
    ((f + b) % SIZE + SIZE - f) % SIZE = b % SIZE := by
  rw [← Nat.add_mod_mod f b SIZE]
  exact sub_wrap hf (Nat.mod_lt _ SIZE_pos)

/-- C31, as stated, fails: in the state of `demo` reached by `Allocate(2 ^ 63)`, `Free` and
`Allocate(2 ^ 63)` again, whose live handle is `⟨4096, 2 ^ 63, 0⟩`, the byte counter of the
allocations has wrapped to 0 while that of the frees is `2 ^ 63`; one block of `2 ^ 63`
bytes is in use, and the counters, read as plain integers, differ by `-2 ^ 63`. -/
theorem byte_accounting_counterexample :
    Reachable demo halfAgain [⟨4096, 2 ^ 63, 0⟩] ∧ halfAgain.total_alloc_size_ = 0 ∧
      halfAgain.total_free_size_ = 2 ^ 63 ∧ busyBytes halfAgain = 2 ^ 63 ∧
      ¬ ByteAccounting halfAgain := by
  refine ⟨script_reachable (halfScript ++ [Op.allocate (2 ^ 63)]) (by rfl), rfl, by rfl,
    by rfl, ?_⟩
  intro h
  have h1 := h.1
  have hb : busyBytes halfAgain = 2 ^ 63 := by rfl
  have ha : halfAgain.total_alloc_size_ = 0 := rfl
  have hf : halfAgain.total_free_size_ = 2 ^ 63 := by rfl
  rw [hb, ha, hf] at h1
  norm_num at h1

/-- C31, amended: the counters are 64-bit and wrap. In every reachable state (the
underlying allocator being well behaved and its regions address ranges), the allocated
bytes minus the freed bytes, taken modulo `2 ^ 64` as `Trace` computes its busy figure, is
the sum of the sizes of all in-use blocks over all chunks, and so is their difference as
plain numbers whenever the allocation counter is not below the free counter; the
allocation requests minus the free requests is the number of in-use blocks, modulo
`2 ^ 64`; the idle figure of `Trace`, the sum of the sizes of the blocks the Free Index
refers to, is the sum of the sizes of all free blocks; and the idle figure plus the busy
figure is the total reserved size of the chunks of the pool. -/
theorem byte_accounting (a : Config) (hu : WellBehaved a.underlying_allocator_)
    (ha : Addressable a.underlying_allocator_) (s : State) (L : List BlockAllocation)
    (hr : Reachable a s L) :
    busyFigure s = busyBytes s ∧
      (s.total_free_size_ ≤ s.total_alloc_size_ →
        s.total_alloc_size_ - s.total_free_size_ = busyBytes s) ∧
      busyTimes s = busyCount s % SIZE ∧
      (s.total_free_times_ ≤ s.total_alloc_times_ →
        s.total_alloc_times_ - s.total_free_times_ = busyCount s % SIZE) ∧
      Trace s = (s.free_blocks_.map (fun e => e.1.1)).sum ∧ Trace s = idleBytes s ∧
      Trace s + busyFigure s = reservedBytes s := by
  have hi := hr.inv hu.sized
  have hk := hr.inv2 hu
  obtain ⟨h1, h2, h3, h4⟩ := hr.accounted hu.sized
  have hres := reserved_lt hk ha
  have hib := idle_add_busy hi
  have hidle : idleBytes s < SIZE := by omega
  have hbusy : busyBytes s < SIZE := by omega
  have ht : Trace s = idleBytes s := by
    rw [Trace_eq hi hk, Nat.mod_eq_of_lt hidle]
  have hb : busyFigure s = busyBytes s := by
    unfold busyFigure
    rw [← h1]
    exact sub_wrap h3 hbusy
  have hc : busyTimes s = busyCount s % SIZE := by
    unfold busyTimes
    rw [← h2]
    exact sub_wrap_mod _ h4
  have ha1 : s.total_alloc_size_ < SIZE := by
    rw [← h1]
    exact Nat.mod_lt _ SIZE_pos
  have ha2 : s.total_alloc_times_ < SIZE := by
    rw [← h2]
    exact Nat.mod_lt _ SIZE_pos
  refine ⟨hb, ?_, hc, ?_, ?_, ht, ?_⟩
  · intro hle
    rw [← hb]
    unfold busyFigure
    exact (wrap_sub hle ha1).symm
  · intro hle
    rw [← hc]
    unfold busyTimes
    exact (wrap_sub hle ha2).symm
  · rw [ht, index_sum hi hk]
  · rw [ht, hb]
    exact hib

/-- The amended C31 on `demoState`, where two blocks, of 56 and 104 bytes, are in use and
3936 bytes are idle: the busy figure is 160, the requests differ by 2, and idle plus busy
is the 4096 bytes reserved. -/
theorem byte_accounting_witness :
    WellBehaved demo.underlying_allocator_ ∧ Addressable demo.underlying_allocator_ ∧
      Reachable demo demoState demoLive ∧
      busyBytes demoState = 160 ∧ busyCount demoState = 2 ∧ Trace demoState = 3936 ∧
      reservedBytes demoState = 4096 ∧
      busyFigure demoState = busyBytes demoState ∧
      (demoState.total_free_size_ ≤ demoState.total_alloc_size_ →
        demoState.total_alloc_size_ - demoState.total_free_size_ = busyBytes demoState) ∧
      busyTimes demoState = busyCount demoState % SIZE ∧
      (demoState.total_free_times_ ≤ demoState.total_alloc_times_ →
        demoState.total_alloc_times_ - demoState.total_free_times_ =
          busyCount demoState % SIZE) ∧
      Trace demoState = (demoState.free_blocks_.map (fun e => e.1.1)).sum ∧
      Trace demoState = idleBytes demoState ∧
      Trace demoState + busyFigure demoState = reservedBytes demoState :=
  ⟨bump_wellBehaved, bump_addressable, demo_reachable, by rfl, by rfl, by rfl, by rfl,
    byte_accounting demo bump_wellBehaved bump_addressable demoState demoLive
      demo_reachable⟩

/-- No entry of the Free Index has a key of non-zero size at the base of a non-empty region
that lies apart from every chunk. -/
theorem key_absent_of_separated {s : State} {L : List BlockAllocation} (hi : Inv s L)
    {r : Allocation} (hsep : ∀ c ∈ s.chunks_, separated c.allocation_ r) {k : Nat}
    (hk : 0 < k) (hr : 0 < r.size) : ∀ e ∈ s.free_blocks_, e.1 ≠ (k, r.ptr) := by
  intro e he hke
  obtain ⟨b, hb, hd⟩ := hi.index_valid e he
  obtain ⟨c, hc, hbc⟩ := mem_allBlocks.1 hb
  have hin := block_in_chunk (hi.partition c hc) hbc
  have hkey := hd.2.2
  rw [hke] at hkey
  simp only [Prod.mk.injEq] at hkey
  have hs := hsep c hc
  unfold separated apart at hs
  omega

theorem erase_insertEntry_of_absent {k : Key} {v : Nat} {m : FreeBlocks}
    (h : ∀ e ∈ m, e.1 ≠ k) : erase k (insertEntry (k, v) m) = m := by
  rw [← emplace_of_absent h]
  exact erase_emplace h

/-- The `Free` of the handle of a growth miss, before the reclaim-on-free policy: the new
chunk is one free block, with its entry in the Free Index. -/
theorem carve_then_freeBlock {s : State} {L : List BlockAllocation} (hi : Inv s L)
    {r : Allocation} {size : Nat} (h1 : size ≤ r.size) (h2 : r.size < SIZE)
    (hpos : 0 < r.size) (hsep : ∀ c ∈ s.chunks_, separated c.allocation_ r) :
    ∃ cur v, deref (carve s r size).2.block_it_ (carve s r size).1.chunks_ = some cur ∧
      (freeBlock (carve s r size).1 cur).chunks_ =
        s.chunks_ ++ [⟨r, [⟨v, r.ptr, r.size, true⟩]⟩] ∧
      (freeBlock (carve s r size).1 cur).free_blocks_ =
        emplace (r.size, r.ptr) v s.free_blocks_ ∧
      ∀ e ∈ s.free_blocks_, e.1 ≠ (r.size, r.ptr) := by
  have habs := key_absent_of_separated hi hsep hpos hpos
  have hsh := carve_shape hi h1 h2 hsep
  rcases Nat.lt_or_eq_of_le h1 with hlt | heq
  · obtain ⟨hc, hg, hm, hab⟩ := hsh.1 hlt
    have hd : deref (s.fresh + 1)
        (s.chunks_ ++ ⟨r, [⟨s.fresh, r.ptr, r.size - size, true⟩] ++
          (⟨s.fresh + 1, r.ptr + (r.size - size), size, false⟩ : Block) :: []⟩ :: []) =
        some ⟨s.chunks_, ⟨r, [⟨s.fresh, r.ptr, r.size - size, true⟩] ++
          (⟨s.fresh + 1, r.ptr + (r.size - size), size, false⟩ : Block) :: []⟩, [],
          [⟨s.fresh, r.ptr, r.size - size, true⟩],
          ⟨s.fresh + 1, r.ptr + (r.size - size), size, false⟩, []⟩ := by
      apply deref_store
      · intro x hx
        have := hi.nodes_lt x hx
        omega
      · intro x hx
        simp only [List.mem_singleton] at hx
        subst hx
        simp
      · rfl
    refine ⟨⟨s.chunks_, ⟨r, [⟨s.fresh, r.ptr, r.size - size, true⟩,
        ⟨s.fresh + 1, r.ptr + (r.size - size), size, false⟩]⟩, [],
      [⟨s.fresh, r.ptr, r.size - size, true⟩],
      ⟨s.fresh + 1, r.ptr + (r.size - size), size, false⟩, []⟩, s.fresh, ?_, ?_, ?_, habs⟩
    · rw [hg, hc]
      exact hd
    · have hsum : (r.size - size + size) % SIZE = r.size := by
        have : r.size - size + size = r.size := by omega
        rw [this, Nat.mod_eq_of_lt h2]
      simp [freeBlock, mergePrev, mergeNext, Cursor.store, hsum]
    · have hsum : (r.size - size + size) % SIZE = r.size := by
        have : r.size - size + size = r.size := by omega
        rw [this, Nat.mod_eq_of_lt h2]
      simp only [freeBlock, mergePrev, mergeNext, List.getLast?_singleton, if_true, hsum, hm]
      rw [erase_insertEntry_of_absent hab]
  · obtain ⟨hc, hg, hm⟩ := hsh.2 heq
    have hd : deref s.fresh
        (s.chunks_ ++ ⟨r, [] ++ (⟨s.fresh, r.ptr, size, false⟩ : Block) :: []⟩ :: []) =
        some ⟨s.chunks_, ⟨r, [] ++ (⟨s.fresh, r.ptr, size, false⟩ : Block) :: []⟩, [],
          [], ⟨s.fresh, r.ptr, size, false⟩, []⟩ := by
      apply deref_store
      · intro x hx
        have := hi.nodes_lt x hx
        omega
      · intro x hx
        simp at hx
      · rfl
    refine ⟨⟨s.chunks_, ⟨r, [⟨s.fresh, r.ptr, size, false⟩]⟩, [], [],
      ⟨s.fresh, r.ptr, size, false⟩, []⟩, s.fresh, ?_, ?_, ?_, habs⟩
    · rw [hg, hc]
      exact hd
    · simp [freeBlock, mergePrev, mergeNext, Cursor.store, heq]
    · simp only [freeBlock, mergePrev, mergeNext, List.getLast?_nil, hm]
      rw [heq]

/-- The sweep of `FreeIdleChunks` removes a last, idle chunk whose key was not in the index
before its entry was added, and nothing else when no other chunk is idle. -/
theorem sweep_new_chunk {a : Config} (hal : a.allow_free_idle_chunk_ = true) {t : State}
    {cs : List Chunk} {m : FreeBlocks} {r : Allocation} {v : Nat}
    (hn : ∀ c ∈ cs, c.idle = false)
    (hc : t.chunks_ = cs ++ [⟨r, [⟨v, r.ptr, r.size, true⟩]⟩])
    (hm : t.free_blocks_ = emplace (r.size, r.ptr) v m)
    (habs : ∀ e ∈ m, e.1 ≠ (r.size, r.ptr)) :
    (FreeIdleChunks a t).1.chunks_ = cs ∧ (FreeIdleChunks a t).1.free_blocks_ = m := by
  have hfi : cs.filter Chunk.idle = [] := by
    rw [List.filter_eq_nil_iff]
    intro c hc
    simp [hn c hc]
  have hfn : cs.filter (fun c => !c.idle) = cs := by
    rw [List.filter_eq_self]
    intro c hc
    simp [hn c hc]
  constructor
  · rw [FreeIdleChunks_chunks, hc]
    simp only [hal, Bool.true_eq_false, if_false, List.filter_append, hfn]
    simp [Chunk.idle]
  · rw [FreeIdleChunks_index, hc, hm]
    simp only [hal, Bool.true_eq_false, if_false]
    have hkeys : idleKeys (cs ++ [⟨r, [⟨v, r.ptr, r.size, true⟩]⟩]) = [(r.size, r.ptr)] := by
      unfold idleKeys
      rw [List.filter_append, hfi]
      simp [Chunk.idle, allBlocks]
    rw [hkeys]
    have : (fun e : Key × Nat => decide (e.1 ∉ [(r.size, r.ptr)])) =
        (fun e => decide (e.1 ≠ (r.size, r.ptr))) := by
      funext e
      simp
    rw [this]
    exact erase_emplace habs

/-- The `Free` of the handle of a growth miss, before the reclaim-on-free policy: the pool
is that before the miss, or that pool swept by `FreeIdleChunks`, followed by the new chunk
as one free block, and the Free Index has gained the entry of that block. -/
theorem miss_then_freeBlock {a : Config} (hu : WellBehaved a.underlying_allocator_)
    (hcs : 0 < a.chunk_size_) {s : State} {L : List BlockAllocation} (hi : Inv s L)
    {size : Nat} {g : BlockAllocation} (h : (allocateMiss a s size).2 = some g) :
    ∃ (s0 : State) (r : Allocation) (v : Nat) (cur : Cursor),
      (s0 = s ∨ s0 = (FreeIdleChunks a s).1) ∧ size ≤ r.size ∧ 0 < r.size ∧
      deref g.block_it_ (allocateMiss a s size).1.chunks_ = some cur ∧
      (freeBlock (allocateMiss a s size).1 cur).chunks_ =
        s0.chunks_ ++ [⟨r, [⟨v, r.ptr, r.size, true⟩]⟩] ∧
      (freeBlock (allocateMiss a s size).1 cur).free_blocks_ =
        emplace (r.size, r.ptr) v s0.free_blocks_ ∧
      ∀ e ∈ s0.free_blocks_, e.1 ≠ (r.size, r.ptr) := by
  obtain ⟨s2, r, k, hpool, hfresh, hur, heq⟩ := allocateMiss_some h
  obtain ⟨hle, hlt, hsep⟩ := hu k _ _ r hur
  have h1 : size ≤ r.size := le_trans (le_max_left _ _) hle
  have hpos : 0 < r.size := lt_of_lt_of_le hcs (le_trans (le_max_right _ _) hle)
  have hg : g = (carve s2 r size).2 := by
    rw [heq] at h
    simp only [Option.some.injEq] at h
    exact h.symm
  have key : ∀ s0 : State, Inv s0 L → s2.chunks_ = s0.chunks_ →
      s2.free_blocks_ = s0.free_blocks_ → s2.fresh = s0.fresh →
      ∃ (v : Nat) (cur : Cursor),
        deref g.block_it_ (allocateMiss a s size).1.chunks_ = some cur ∧
        (freeBlock (allocateMiss a s size).1 cur).chunks_ =
          s0.chunks_ ++ [⟨r, [⟨v, r.ptr, r.size, true⟩]⟩] ∧
        (freeBlock (allocateMiss a s size).1 cur).free_blocks_ =
          emplace (r.size, r.ptr) v s0.free_blocks_ ∧
        ∀ e ∈ s0.free_blocks_, e.1 ≠ (r.size, r.ptr) := by
    intro s0 hi0 hc hm hf
    have hi2 : Inv s2 L := hi0.congr_state hc hm hf
    have hsep2 : ∀ c ∈ s2.chunks_, separated c.allocation_ r := by
      intro c hcm
      exact hsep _ (List.mem_map_of_mem _ hcm)
    obtain ⟨cur, v, hd, hch, hidx, habs⟩ := carve_then_freeBlock hi2 h1 hlt hpos hsep2
    refine ⟨v, cur, ?_, ?_, ?_, ?_⟩
    · rw [heq, hg]
      exact hd
    · rw [heq, ← hc]
      exact hch
    · rw [heq, ← hm]
      exact hidx
    · rw [← hm]
      exact habs
  rcases hpool with ⟨hc, hm⟩ | ⟨hc, hm⟩
  · obtain ⟨v, cur, h2⟩ := key s hi hc hm hfresh
    exact ⟨s, r, v, cur, Or.inl rfl, h1, hpos, h2⟩
  · obtain ⟨v, cur, h2⟩ := key (FreeIdleChunks a s).1 (FreeIdleChunks_inv a hi) hc hm
      (hfresh.trans (FreeIdleChunks_fresh a s).symm)
    exact ⟨_, r, v, cur, Or.inr rfl, h1, hpos, h2⟩

theorem AllocateImpl_miss {a : Config} {s s1 : State} {n : Nat} {h : BlockAllocation}
    (hlb : lower_bound (realizedSize a n, 0) s.free_blocks_ = none)
    (hal : AllocateImpl a s n = some (s1, some h)) :
    (allocateMiss a s (realizedSize a n)).1 = s1 ∧
      (allocateMiss a s (realizedSize a n)).2 = some h := by
  unfold AllocateImpl at hal
  simp only [hlb, Option.some.injEq] at hal
  rw [hal]
  exact ⟨rfl, rfl⟩

/-- The round trip on a cache hit. -/
theorem round_trip_hit {a : Config} (hu : WellBehaved a.underlying_allocator_)
    {s : State} {L : List BlockAllocation} (hr : Reachable a s L) {n : Nat}
    {iter : Key × Nat}
    (hlb : lower_bound (realizedSize a n, 0) s.free_blocks_ = some iter) :
    (∃ s1 h, AllocateImpl a s n = some (s1, some h)) ∧ RoundTrip a s n := by
  have hi := hr.inv hu.sized
  have hk := hr.inv2 hu
  obtain ⟨hit, hsz⟩ := lower_bound_hit hlb
  obtain ⟨s1, g, cur1, hh, hderef, hsame⟩ := hit_then_free hi hk hit hsz
  have hal : AllocateImpl a s n = some (s1, some g) := by
    unfold AllocateImpl
    simp only [hlb, hh]
  refine ⟨⟨s1, g, hal⟩, ?_⟩
  intro s1b hb hal2
  rw [hal] at hal2
  simp only [Option.some.injEq, Prod.mk.injEq] at hal2
  obtain ⟨rfl, rfl⟩ := hal2
  refine ⟨_, ?_, hsame.reclaim (a := a) (hr.noIdle hu.sized)⟩
  unfold FreeImpl
  simp only [hderef]

/-- The round trip on a growth miss under the reclaim-on-free policy: `Free` releases the
chunk the miss has added. -/
theorem round_trip_miss {a : Config} (hu : WellBehaved a.underlying_allocator_)
    (hcs : 0 < a.chunk_size_) (hf : a.FLAGS_free_idle_chunk = true)
    (hal : a.allow_free_idle_chunk_ = true)
    {s : State} {L : List BlockAllocation} (hr : Reachable a s L) {n : Nat}
    (hlb : lower_bound (realizedSize a n, 0) s.free_blocks_ = none) :
    RoundTrip a s n := by
  have hi := hr.inv hu.sized
  have hn := hr.noIdle hu.sized hf hal
  intro s1 h hall
  obtain ⟨hs1, hg⟩ := AllocateImpl_miss hlb hall
  obtain ⟨s0, r, v, cur, hs0, _, _, hd, hc, hm, habs⟩ := miss_then_freeBlock hu hcs hi hg
  have hs0eq : s0 = s := by
    rcases hs0 with h0 | h0
    · exact h0
    · rw [h0]
      exact FreeIdleChunks_of_no_idle a hn
  subst hs0eq
  rw [hs1] at hd hc hm
  refine ⟨(FreeIdleChunks a (freeBlock s1 cur)).1, ?_, ?_⟩
  · unfold FreeImpl
    simp only [hd, hf, if_true]
  · obtain ⟨h1, h2⟩ := sweep_new_chunk hal hn hc hm habs
    exact SameUpToNodes.of_eq h1 h2

/-- A growth miss followed by `Free` without the reclaim-on-free policy: the new chunk stays
in the pool as one free block and the state before the `Allocate` is not restored. -/
theorem miss_stays {a : Config} (hu : WellBehaved a.underlying_allocator_)
    (hcs : 0 < a.chunk_size_)
    (hoff : ¬ (a.FLAGS_free_idle_chunk = true ∧ a.allow_free_idle_chunk_ = true))
    {s : State} {L : List BlockAllocation} (hr : Reachable a s L) {n : Nat}
    (hlb : lower_bound (realizedSize a n, 0) s.free_blocks_ = none)
    {s1 : State} {h : BlockAllocation} (hall : AllocateImpl a s n = some (s1, some h)) :
    ∃ (s2 : State) (pool : List Chunk) (r : Allocation) (v : Nat),
      FreeImpl a s1 h = some s2 ∧
      (pool = s.chunks_ ∨ pool = (FreeIdleChunks a s).1.chunks_) ∧
      s2.chunks_ = pool ++ [⟨r, [⟨v, r.ptr, r.size, true⟩]⟩] ∧
      ((r.size, r.ptr), v) ∈ s2.free_blocks_ ∧ realizedSize a n ≤ r.size ∧
      ¬ SameUpToNodes s s2 := by
  have hi := hr.inv hu.sized
  obtain ⟨hs1, hg⟩ := AllocateImpl_miss hlb hall
  obtain ⟨s0, r, v, cur, hs0, hle, _, hd, hc, hm, habs⟩ := miss_then_freeBlock hu hcs hi hg
  rw [hs1] at hd hc hm
  have hfree : FreeImpl a s1 h = some (freeBlock s1 cur) := by
    unfold FreeImpl
    simp only [hd]
    by_cases hf : a.FLAGS_free_idle_chunk = true
    · have hal : a.allow_free_idle_chunk_ = false := by
        cases hx : a.allow_free_idle_chunk_
        · rfl
        · exact absurd ⟨hf, hx⟩ hoff
      simp [hf, FreeIdleChunks, hal]
    · simp [hf]
  have hmem : ((r.size, r.ptr), v) ∈ (freeBlock s1 cur).free_blocks_ := by
    rw [hm]
    exact mem_emplace.2 (Or.inr ⟨rfl, habs⟩)
  refine ⟨freeBlock s1 cur, s0.chunks_, r, v, hfree, ?_, hc, hmem, hle, ?_⟩
  · rcases hs0 with h0 | h0
    · exact Or.inl (by rw [h0])
    · exact Or.inr (by rw [h0])
  · rintro ⟨f, _, _, hidx⟩
    rw [hidx] at hmem
    simp only [renameIndex, List.mem_map] at hmem
    obtain ⟨e, he, hee⟩ := hmem
    have hkey : e.1 = (r.size, r.ptr) := congrArg Prod.fst hee
    apply lower_bound_none_iff.1 hlb
    refine ⟨e, he, ?_⟩
    rw [hkey]
    exact hle

/-- C7, amended: for every reachable state, under a well-behaved underlying allocator,
`Allocate` followed immediately by `Free` of the returned handle leaves the Chunk Pool,
every Block List and the Free Index identical to their state before the `Allocate`, up to
the identity of the list nodes, whenever the request is served from the Free Index (a
cache hit: the index has an entry whose size is at least the realized size), in which case
`Allocate` does return a handle, and, the chunk size being positive, whenever the
reclaim-on-free policy is on (`FLAGS_free_idle_chunk` and `allow_free_idle_chunk_`), where
`Free` releases the chunk a growth miss has added.  On a growth miss without that policy
the pair does not restore the state: the chunk the miss has added stays last in the pool
as one free block, with its entry in the Free Index. -/
theorem round_trip (a : Config) (hu : WellBehaved a.underlying_allocator_)
    (s : State) (L : List BlockAllocation) (hr : Reachable a s L) (n : Nat) :
    (∀ iter, lower_bound (realizedSize a n, 0) s.free_blocks_ = some iter →
        (∃ s1 h, AllocateImpl a s n = some (s1, some h)) ∧ RoundTrip a s n) ∧
      (0 < a.chunk_size_ → a.FLAGS_free_idle_chunk = true →
        a.allow_free_idle_chunk_ = true → RoundTrip a s n) ∧
      (0 < a.chunk_size_ → lower_bound (realizedSize a n, 0) s.free_blocks_ = none →
        ¬ (a.FLAGS_free_idle_chunk = true ∧ a.allow_free_idle_chunk_ = true) →
        ∀ s1 h, AllocateImpl a s n = some (s1, some h) →
          ∃ (s2 : State) (pool : List Chunk) (r : Allocation) (v : Nat),
            FreeImpl a s1 h = some s2 ∧
            (pool = s.chunks_ ∨ pool = (FreeIdleChunks a s).1.chunks_) ∧
            s2.chunks_ = pool ++ [⟨r, [⟨v, r.ptr, r.size, true⟩]⟩] ∧
            ((r.size, r.ptr), v) ∈ s2.free_blocks_ ∧ realizedSize a n ≤ r.size ∧
            ¬ SameUpToNodes s s2) := by
  refine ⟨fun iter hlb => round_trip_hit hu hr hlb, ?_, ?_⟩
  · intro hcs hf hal
    cases hlb : lower_bound (realizedSize a n, 0) s.free_blocks_ with
    | some iter => exact (round_trip_hit hu hr hlb).2
    | none => exact round_trip_miss hu hcs hf hal hr hlb
  · intro hcs hlb hoff s1 h hall
    exact miss_stays hu hcs hoff hr hlb hall

/-- The amended round trip on `reclaiming`, whose reclaim-on-free policy is on, for the
request 100 on the freshly constructed allocator, a growth miss: `Free` releases the new
chunk and the pool and the index are empty again; on `demoState` for the request 50, a
cache hit on the free block of size 3936; and on `demo`, whose policy is off, for the
request 100 on the freshly constructed allocator, where the new chunk stays. -/
theorem round_trip_witness :
    (WellBehaved reclaiming.underlying_allocator_ ∧ Reachable reclaiming State.init [] ∧
      0 < reclaiming.chunk_size_ ∧ reclaiming.FLAGS_free_idle_chunk = true ∧
      reclaiming.allow_free_idle_chunk_ = true ∧
      lower_bound (realizedSize reclaiming 100, 0) State.init.free_blocks_ = none ∧
      AllocateImpl reclaiming State.init 100 = some
        (⟨[⟨⟨4096, 4096⟩, [⟨0, 4096, 3992, true⟩, ⟨1, 8088, 104, false⟩]⟩],
          [((3992, 4096), 0)], 1, 104, 0, 0, 2, [4096]⟩, some ⟨8088, 104, 1⟩) ∧
      FreeImpl reclaiming
        ⟨[⟨⟨4096, 4096⟩, [⟨0, 4096, 3992, true⟩, ⟨1, 8088, 104, false⟩]⟩],
          [((3992, 4096), 0)], 1, 104, 0, 0, 2, [4096]⟩ ⟨8088, 104, 1⟩ =
        some ⟨[], [], 1, 104, 1, 104, 2, [4096]⟩ ∧
      RoundTrip reclaiming State.init 100) ∧
    (WellBehaved demo.underlying_allocator_ ∧ Reachable demo demoState demoLive ∧
      lower_bound (realizedSize demo 50, 0) demoState.free_blocks_ =
        some ((3936, 4096), 2) ∧
      (∃ s1 h, AllocateImpl demo demoState 50 = some (s1, some h)) ∧
      RoundTrip demo demoState 50) ∧
    (0 < demo.chunk_size_ ∧
      lower_bound (realizedSize demo 100, 0) State.init.free_blocks_ = none ∧
      ¬ (demo.FLAGS_free_idle_chunk = true ∧ demo.allow_free_idle_chunk_ = true) ∧
      ∃ (s2 : State) (pool : List Chunk) (r : Allocation) (v : Nat),
        FreeImpl demo
          ⟨[⟨⟨4096, 4096⟩, [⟨0, 4096, 3992, true⟩, ⟨1, 8088, 104, false⟩]⟩],
            [((3992, 4096), 0)], 1, 104, 0, 0, 2, [4096]⟩ ⟨8088, 104, 1⟩ = some s2 ∧
        (pool = State.init.chunks_ ∨ pool = (FreeIdleChunks demo State.init).1.chunks_) ∧
        s2.chunks_ = pool ++ [⟨r, [⟨v, r.ptr, r.size, true⟩]⟩] ∧
        ((r.size, r.ptr), v) ∈ s2.free_blocks_ ∧ realizedSize demo 100 ≤ r.size ∧
        ¬ SameUpToNodes State.init s2) :=
  ⟨⟨bump_wellBehaved, Reachable.init, by decide, rfl, rfl, by rfl, by rfl, by rfl,
      (round_trip reclaiming bump_wellBehaved State.init [] Reachable.init 100).2.1
        (by decide) rfl rfl⟩,
    ⟨bump_wellBehaved, demo_reachable, by rfl,
      (round_trip demo bump_wellBehaved demoState demoLive demo_reachable 50).1
        ((3936, 4096), 2) (by rfl)⟩,
    by decide, by rfl, by decide,
    (round_trip demo bump_wellBehaved State.init [] Reachable.init 100).2.2
      (by decide) (by rfl) (by decide) _ _ (by rfl)⟩

end AutoGrowthBestFitAllocator
